import Mathlib

/-!
XV6 priority scheduler (`proc.c`): shallow embedding and verified properties

The process table, the per-level circular queues and the operations of
`proc.c` are embedded as Lean functions over an explicit kernel state.

Modelling conventions.

* The constants `NPROC`, `QUEUE_CAPACITY` and `PRIORITYLEVELS` come from
  `param.h`, which is not among the sources: they are the fields of `Params`.
* A `struct proc*` is a `procptr`: `none` is the null pointer and `some i` is
  `&ptable.proc[i]`.  Arrays are total maps from indices; every access checks
  the declared bound, and an access outside it makes the operation return
  `none` (the C program has no defined behaviour there).
* C `int`s are mathematical integers; `%` is the truncating remainder
  `Int.tmod`.  The only sum of a stored value with an unbounded argument of a
  caller, in `nice`, is wrapped to 32 bits.
* `for` loops over a circular buffer take a fuel argument `lf`; the recursion
  of `setpriority` through `setpriorityforchildren` takes a depth fuel.
  Running out of fuel gives `none`.
* Locks are not part of the state.  An operation is embedded as one function
  on states, which is how it runs when nothing interleaves with it: under
  `ptable.lock`, or on one CPU with no interrupt taken inside it.  `userinit`,
  `fork`, `setprioritybypid` and `nice` update the queues outside the lock;
  `forkUntilStore` and `forkAfterStore` cut `fork` at a point where the timer
  can interrupt it and make the process `yield`.
* The console and the address-space and file layers are not part of the state.
-/

namespace XV6

/-! ## Data model -/

/-- The constants of `param.h`. -/
structure Params where
  NPROC : Nat
  QUEUE_CAPACITY : Nat
  PRIORITYLEVELS : Nat
deriving DecidableEq, Repr

/-- The `enum procstate` of `proc.h`. -/
inductive procstate where
  | UNUSED
  | EMBRYO
  | SLEEPING
  | RUNNABLE
  | RUNNING
  | ZOMBIE
deriving DecidableEq, Repr

/-- A `struct proc*`: `none` is the null pointer, `some i` is `&ptable.proc[i]`. -/
abbrev procptr := Option Nat

/-- A `void*` used as a sleep channel: null, the address of a process slot, or
some other address. -/
inductive voidptr where
  | null
  | ofproc (i : Nat)
  | addr (a : Nat)
deriving DecidableEq, Repr

/-- The conversion of a `struct proc*` to `void*`. -/
def procptr.toVoid : procptr → voidptr
  | none => voidptr.null
  | some i => voidptr.ofproc i

/-- The fields of `struct proc` that `proc.c` reads or writes for scheduling. -/
structure proc where
  state : procstate
  pid : Int
  parent : procptr
  chan : voidptr
  killed : Int
  priority : Int
deriving DecidableEq, Repr

/-- The `struct processQueue` of `proc.c`: a circular buffer of process pointers. -/
structure processQueue where
  proc : Nat → procptr
  head : Int
  tail : Int
  size : Int
  priority : Int

/-- The global state of `proc.c`: `ptable.proc`, `priorityTable`, `initproc`,
`nextpid` and the per-CPU `proc` (the process running on this CPU). -/
structure kstate where
  ptable : Nat → proc
  priorityTable : Nat → processQueue
  initproc : procptr
  nextpid : Int
  cur : procptr

/-- Read of `queue->proc[i]`, checked against the bound of the array. -/
def qread (P : Params) (q : processQueue) (i : Int) : Option procptr :=
  if 0 ≤ i ∧ i < P.QUEUE_CAPACITY then some (q.proc i.toNat) else none

/-- Write `queue->proc[i] = v`, checked against the bound of the array. -/
def qwrite (P : Params) (q : processQueue) (i : Int) (v : procptr) : Option processQueue :=
  if 0 ≤ i ∧ i < P.QUEUE_CAPACITY then
    some { q with proc := Function.update q.proc i.toNat v }
  else none

/-- Dereference of `&ptable.proc[i]`. -/
def slot (P : Params) (s : kstate) (i : Nat) : Option proc :=
  if i < P.NPROC then some (s.ptable i) else none

/-- Dereference of a process pointer; the null pointer has no target. -/
def deref (P : Params) (s : kstate) : procptr → Option proc
  | none => none
  | some i => slot P s i

/-- The queue `priorityTable[k]`, checked against `PRIORITYLEVELS`. -/
def level (P : Params) (s : kstate) (k : Int) : Option processQueue :=
  if 0 ≤ k ∧ k < P.PRIORITYLEVELS then some (s.priorityTable k.toNat) else none

/-- Store into `priorityTable[k]`. -/
def setLevel (s : kstate) (k : Int) (q : processQueue) : kstate :=
  { s with priorityTable := Function.update s.priorityTable k.toNat q }

/-- Store into `ptable.proc[i]`. -/
def setSlot (s : kstate) (i : Nat) (p : proc) : kstate :=
  { s with ptable := Function.update s.ptable i p }

/-! ## The queue operations -/

/-- `IsQueueFull`: `queue->size >= QUEUE_CAPACITY`. -/
@[reducible] def IsQueueFull (P : Params) (q : processQueue) : Prop :=
  (P.QUEUE_CAPACITY : Int) ≤ q.size

/-- `IsQueueEmpty`: `queue->size <= 0`. -/
@[reducible] def IsQueueEmpty (q : processQueue) : Prop :=
  q.size ≤ 0

/-- `EnqueueProcess`: the new queue and the returned code (0, or -1 when full). -/
def EnqueueProcess (P : Params) (q : processQueue) (process : procptr) :
    Option (processQueue × Int) :=
  if ¬ IsQueueFull P q then
    (qwrite P q q.tail process).map fun q1 =>
      ({ q1 with tail := (q1.tail + 1).tmod P.QUEUE_CAPACITY, size := q1.size + 1 }, 0)
  else some (q, -1)

/-- `DequeueProcess`: the new queue and the returned pointer (null when empty). -/
def DequeueProcess (P : Params) (q : processQueue) : Option (processQueue × procptr) :=
  if ¬ IsQueueEmpty q then
    (qread P q q.head).map fun p =>
      ({ q with head := (q.head + 1).tmod P.QUEUE_CAPACITY, size := q.size - 1 }, p)
  else some (q, none)

/-- The queue as `InitialPriorityTables` leaves level `i`: head, tail and size
are 0; the array keeps whatever it held. -/
def initialQueue (cells : Nat → procptr) (i : Int) : processQueue :=
  { proc := cells, head := 0, tail := 0, size := 0, priority := i }

/-- One call on a queue: an enqueue of the process in slot `process`, or a dequeue. -/
inductive QueueOp where
  | enqueue (process : Nat)
  | dequeue
deriving DecidableEq, Repr

/-- What a call returned: the code of `EnqueueProcess` or the pointer of
`DequeueProcess`. -/
inductive QueueOut where
  | code (r : Int)
  | ptr (p : procptr)
deriving DecidableEq, Repr

/-- Run a sequence of calls on one queue, collecting what each call returned. -/
def runQueueOps (P : Params) : processQueue → List QueueOp → Option (processQueue × List QueueOut)
  | q, [] => some (q, [])
  | q, QueueOp.enqueue i :: ops =>
    (EnqueueProcess P q (some i)).bind fun r =>
      (runQueueOps P r.1 ops).map fun t => (t.1, QueueOut.code r.2 :: t.2)
  | q, QueueOp.dequeue :: ops =>
    (DequeueProcess P q).bind fun r =>
      (runQueueOps P r.1 ops).map fun t => (t.1, QueueOut.ptr r.2 :: t.2)

/-- The specification of one level: a FIFO list of at most `C` processes.  An
enqueue appends and returns 0, or returns -1 when `C` are queued; a dequeue
removes and returns the oldest entry, or returns null when none is queued. -/
def fifoRun (C : Nat) : List Nat → List QueueOp → List Nat × List QueueOut
  | l, [] => (l, [])
  | l, QueueOp.enqueue i :: ops =>
    if l.length < C then
      ((fifoRun C (l ++ [i]) ops).1, QueueOut.code 0 :: (fifoRun C (l ++ [i]) ops).2)
    else ((fifoRun C l ops).1, QueueOut.code (-1) :: (fifoRun C l ops).2)
  | [], QueueOp.dequeue :: ops =>
    ((fifoRun C [] ops).1, QueueOut.ptr none :: (fifoRun C [] ops).2)
  | x :: l, QueueOp.dequeue :: ops =>
    ((fifoRun C l ops).1, QueueOut.ptr (some x) :: (fifoRun C l ops).2)

/-- Number of enqueues that returned 0. -/
def enqueuesDone (outs : List QueueOut) : Nat :=
  outs.countP fun o => decide (o = QueueOut.code 0)

/-- Number of dequeues that returned a process. -/
def dequeuesDone (outs : List QueueOut) : Nat :=
  outs.countP fun o => match o with
    | QueueOut.ptr (some _) => true
    | _ => false

/-- The circular buffer `q` holds exactly the FIFO list `l`, oldest entry at `head`. -/
def Rep (P : Params) (q : processQueue) (l : List Nat) : Prop :=
  ∃ h : Nat, q.head = (h : Int) ∧ h < P.QUEUE_CAPACITY ∧
    q.tail = (((h + l.length) % P.QUEUE_CAPACITY : Nat) : Int) ∧
    q.size = (l.length : Int) ∧ l.length ≤ P.QUEUE_CAPACITY ∧
    ∀ k x, l[k]? = some x → q.proc ((h + k) % P.QUEUE_CAPACITY) = some x

/-- The loop of `findprocessinqueuewithpid`, entered with index `j`. -/
def findprocessinqueuewithpidFrom (P : Params) (s : kstate) (q : processQueue) (pid : Int) :
    Nat → Int → Option Int
  | 0, j => if j = q.tail then some (-1) else none
  | lf + 1, j =>
    if j = q.tail then some (-1)
    else
      match qread P q j with
      | none => none
      | some e =>
        match deref P s e with
        | none => none
        | some p =>
          if p.pid = pid then some j
          else findprocessinqueuewithpidFrom P s q pid lf ((j + 1).tmod P.QUEUE_CAPACITY)

/-- `findprocessinqueuewithpid`: the index of the first entry between head and
tail whose process has the given pid, or -1. -/
def findprocessinqueuewithpid (P : Params) (lf : Nat) (s : kstate) (q : processQueue)
    (pid : Int) : Option Int :=
  findprocessinqueuewithpidFrom P s q pid lf q.head

/-- The loop of `removeitemfromqueue`, entered with index `i`:
`queue->proc[i] = queue->proc[i+1]` until `i` meets the tail. -/
def removeitemfromqueueFrom (P : Params) : Nat → processQueue → Int → Option processQueue
  | 0, q, i => if i = q.tail then some q else none
  | lf + 1, q, i =>
    if i = q.tail then some q
    else
      match qread P q (i + 1) with
      | none => none
      | some v =>
        match qwrite P q i v with
        | none => none
        | some q1 => removeitemfromqueueFrom P lf q1 ((i + 1).tmod P.QUEUE_CAPACITY)

/-- `removeitemfromqueue`: shift the entries after `index` down by one, then
`tail = (tail - 1) % QUEUE_CAPACITY` and `size -= 1`. -/
def removeitemfromqueue (P : Params) (lf : Nat) (q : processQueue) (index : Int) :
    Option processQueue :=
  (removeitemfromqueueFrom P lf q index).map fun q1 =>
    { q1 with tail := (q1.tail - 1).tmod P.QUEUE_CAPACITY, size := q1.size - 1 }

/-- `moveToNewQueue`: when the process is found in the queue of `oldpri`, remove
it there and enqueue it at `newpri` (the code of the enqueue is dropped). -/
def moveToNewQueue (P : Params) (lf : Nat) (s : kstate) (process : Nat) (newpri oldpri : Int) :
    Option kstate :=
  match level P s oldpri, slot P s process with
  | some qold, some p =>
    match findprocessinqueuewithpid P lf s qold p.pid with
    | none => none
    | some index =>
      if index ≠ -1 then
        match removeitemfromqueue P lf qold index with
        | none => none
        | some qold1 =>
          match level P (setLevel s oldpri qold1) newpri with
          | none => none
          | some qnew =>
            match EnqueueProcess P qnew (some process) with
            | none => none
            | some r => some (setLevel (setLevel s oldpri qold1) newpri r.1)
      else some s
  | _, _ => none

/-- The loop of `setpriorityforchildren` over the slots in `is`, with the call
of `setpriority` passed as `call`: a slot whose parent pointer is not null and
whose parent has pid `parentpid` gets `call` with `diff` added to its priority. -/
def setpriorityforchildrenLoop (P : Params) (call : kstate → Nat → Int → Option kstate)
    (parentpid diff : Int) : kstate → List Nat → Option kstate
  | s, [] => some s
  | s, i :: rest =>
    match slot P s i with
    | none => none
    | some c =>
      match c.parent with
      | none => setpriorityforchildrenLoop P call parentpid diff s rest
      | some j =>
        match slot P s j with
        | none => none
        | some pj =>
          if pj.pid = parentpid then
            match call s i (diff + c.priority) with
            | none => none
            | some s1 => setpriorityforchildrenLoop P call parentpid diff s1 rest
          else setpriorityforchildrenLoop P call parentpid diff s rest

/-- `setpriority`: nothing when `newpriority` is out of range; otherwise store
it, move the process between queues and call `setpriorityforchildren` with the
difference.  The first argument bounds the depth of the recursion. -/
def setpriority (P : Params) (lf : Nat) : Nat → kstate → Nat → Int → Option kstate
  | 0, s, _, newpriority =>
    if ¬ (0 ≤ newpriority ∧ newpriority < P.PRIORITYLEVELS) then some s else none
  | fuel + 1, s, process, newpriority =>
    if ¬ (0 ≤ newpriority ∧ newpriority < P.PRIORITYLEVELS) then some s
    else
      match slot P s process with
      | none => none
      | some p =>
        match moveToNewQueue P lf (setSlot s process { p with priority := newpriority })
                process newpriority p.priority with
        | none => none
        | some s2 =>
          setpriorityforchildrenLoop P (setpriority P lf fuel) p.pid (newpriority - p.priority)
            s2 (List.range P.NPROC)

/-- `setpriorityforchildren`: the loop over all `NPROC` slots. -/
def setpriorityforchildren (P : Params) (lf fuel : Nat) (s : kstate) (parentpid diff : Int) :
    Option kstate :=
  setpriorityforchildrenLoop P (setpriority P lf fuel) parentpid diff s (List.range P.NPROC)

/-- `findprocesswithpid`: the first slot that is not UNUSED and has the pid. -/
def findprocesswithpid (P : Params) (s : kstate) (pid : Int) : procptr :=
  (List.range P.NPROC).find? fun i =>
    decide ((s.ptable i).state ≠ procstate.UNUSED) && decide ((s.ptable i).pid = pid)

/-- `getpriority`: the priority of the process found, or -1. -/
def getpriority (P : Params) (s : kstate) (pid : Int) : Int :=
  match findprocesswithpid P s pid with
  | none => -1
  | some i => (s.ptable i).priority

/-- `setprioritybypid`: the new state and the returned code. -/
def setprioritybypid (P : Params) (lf fuel : Nat) (s : kstate) (pid priority : Int) :
    Option (kstate × Int) :=
  if ¬ (0 ≤ priority ∧ priority < P.PRIORITYLEVELS) then some (s, -1)
  else
    match findprocesswithpid P s pid with
    | none => some (s, -1)
    | some i =>
      match (s.ptable i).parent with
      | none => some (s, -1)
      | some j =>
        match slot P s j with
        | none => none
        | some pj =>
          if priority ≥ pj.priority then
            (setpriority P lf fuel s i priority).map fun s1 => (s1, 0)
          else some (s, -1)

/-- A sum of two `int`s as a 32-bit machine computes it. -/
def wrap32 (x : Int) : Int :=
  (x + 2147483648).emod 4294967296 - 2147483648

/-- `nice`, called by the running process `proc`: the new state and the
returned code. -/
def nice (P : Params) (lf fuel : Nat) (s : kstate) (value : Int) : Option (kstate × Int) :=
  match s.cur with
  | none => none
  | some i =>
    match slot P s i with
    | none => none
    | some p =>
      if wrap32 (p.priority + value) > P.PRIORITYLEVELS ∨ wrap32 (p.priority + value) < 0 then
        some (s, -1)
      else
        match p.parent with
        | none => some (s, -1)
        | some j =>
          match slot P s j with
          | none => none
          | some pj =>
            if wrap32 (p.priority + value) ≥ pj.priority then
              (setpriority P lf fuel s i (wrap32 (p.priority + value))).map fun s1 => (s1, 0)
            else some (s, -1)

/-- `InsertToPriorityTable`: `EnqueueProcess` on `priorityTable[priority]`. -/
def InsertToPriorityTable (P : Params) (s : kstate) (priority : Int) (process : Nat) :
    Option (kstate × Int) :=
  match level P s priority with
  | none => none
  | some q => (EnqueueProcess P q (some process)).map fun r => (setLevel s priority r.1, r.2)

/-- `SetProcessRunnable`: the state becomes RUNNABLE and the process is
inserted at its priority; the code of the insertion is dropped. -/
def SetProcessRunnable (P : Params) (s : kstate) (process : Nat) : Option kstate :=
  match slot P s process with
  | none => none
  | some p =>
    (InsertToPriorityTable P (setSlot s process { p with state := procstate.RUNNABLE })
      p.priority process).map fun r => r.1

/-- `GetNextRunnableProcess`: `DequeueProcess` on `priorityTable[priority]`. -/
def GetNextRunnableProcess (P : Params) (s : kstate) (priority : Int) :
    Option (kstate × procptr) :=
  match level P s priority with
  | none => none
  | some q => (DequeueProcess P q).map fun r => (setLevel s priority r.1, r.2)

/-- `IsPriorityTableEmpty`. -/
def IsPriorityTableEmpty (P : Params) (s : kstate) (priority : Int) : Option Bool :=
  (level P s priority).map fun q => decide (IsQueueEmpty q)

/-- The loop of `IsThereANoneEmptyHigherLevelPriorityTable` over the levels in `is`. -/
def higherLevelLoop (P : Params) (s : kstate) : List Nat → Option Bool
  | [] => some false
  | i :: rest =>
    match IsPriorityTableEmpty P s i with
    | none => none
    | some e => if ¬ e then some true else higherLevelLoop P s rest

/-- `IsThereANoneEmptyHigherLevelPriorityTable`: whether some level with index
below `currentPriority` is not empty. -/
def IsThereANoneEmptyHigherLevelPriorityTable (P : Params) (s : kstate)
    (currentPriority : Int) : Option Bool :=
  higherLevelLoop P s (List.range currentPriority.toNat)

/-- The inner loop of `checkqueuefornonrunnable` on one queue, entered with
index `j`: an entry whose process is not RUNNABLE is removed, otherwise `j`
advances. -/
def pruneQueueFrom (P : Params) (lf : Nat) (s : kstate) :
    Nat → processQueue → Int → Option processQueue
  | 0, q, j => if j = q.tail then some q else none
  | n + 1, q, j =>
    if j = q.tail then some q
    else
      match qread P q j with
      | none => none
      | some e =>
        match deref P s e with
        | none => none
        | some p =>
          if p.state ≠ procstate.RUNNABLE then
            match removeitemfromqueue P lf q j with
            | none => none
            | some q1 => pruneQueueFrom P lf s n q1 j
          else pruneQueueFrom P lf s n q ((j + 1).tmod P.QUEUE_CAPACITY)

/-- The outer loop of `checkqueuefornonrunnable` over the levels in `is`. -/
def pruneLevels (P : Params) (lf : Nat) : kstate → List Nat → Option kstate
  | s, [] => some s
  | s, i :: rest =>
    match level P s i with
    | none => none
    | some q =>
      match pruneQueueFrom P lf s lf q q.head with
      | none => none
      | some q1 => pruneLevels P lf (setLevel s i q1) rest

/-- `checkqueuefornonrunnable`: prune every level. -/
def checkqueuefornonrunnable (P : Params) (lf : Nat) (s : kstate) : Option kstate :=
  pruneLevels P lf s (List.range P.PRIORITYLEVELS)

/-- `SwitchToProccess` up to the `swtch` into the process: `proc = process` and
the state becomes RUNNING. -/
def SwitchToProccess (P : Params) (s : kstate) (process : Nat) : Option kstate :=
  (slot P s process).map fun p =>
    { setSlot s process { p with state := procstate.RUNNING } with cur := some process }

/-- The part of one scheduler iteration before the dispatch: prune, then take
the next process of the cursor's level. -/
def schedulerSelect (P : Params) (lf : Nat) (s : kstate) (priority : Int) :
    Option (kstate × procptr) :=
  match checkqueuefornonrunnable P lf s with
  | none => none
  | some s1 => GetNextRunnableProcess P s1 priority

/-- One iteration of the loop of `scheduler`.  `run` is what the dispatched
process does between the `swtch` into it and its `swtch` back.  The result is
the new state, the new cursor and the process dispatched (null when none). -/
def schedulerIteration (P : Params) (lf : Nat) (run : kstate → Option kstate)
    (s : kstate) (priority : Int) : Option (kstate × Int × procptr) :=
  match schedulerSelect P lf s priority with
  | none => none
  | some (s2, none) => some (s2, (priority + 1).tmod P.PRIORITYLEVELS, none)
  | some (s2, some i) =>
    match SwitchToProccess P s2 i with
    | none => none
    | some s3 =>
      match run s3 with
      | none => none
      | some s4 =>
        match IsThereANoneEmptyHigherLevelPriorityTable P { s4 with cur := none } priority with
        | none => none
        | some hi => some ({ s4 with cur := none }, if hi then 0 else priority, some i)

/-- The scheduler loop run for `n` iterations: the final state and cursor and
the processes dispatched, in order. -/
def schedulerRun (P : Params) (lf : Nat) (run : kstate → Option kstate) :
    Nat → kstate → Int → Option (kstate × Int × List Nat)
  | 0, s, priority => some (s, priority, [])
  | n + 1, s, priority =>
    match schedulerIteration P lf run s priority with
    | none => none
    | some (s1, priority1, d) =>
      match schedulerRun P lf run n s1 priority1 with
      | none => none
      | some (s2, priority2, ds) =>
        some (s2, priority2, (match d with | none => ds | some i => i :: ds))

/-- `yield` up to its `sched()`: the running process is made RUNNABLE and
is enqueued. -/
def yield (P : Params) (s : kstate) : Option kstate :=
  match s.cur with
  | none => none
  | some i => SetProcessRunnable P s i

/-- The loop of `wakeup1` over the slots in `is`. -/
def wakeup1Loop (P : Params) (chan : voidptr) : kstate → List Nat → Option kstate
  | s, [] => some s
  | s, i :: rest =>
    match slot P s i with
    | none => none
    | some p =>
      if p.state = procstate.SLEEPING ∧ p.chan = chan then
        match SetProcessRunnable P s i with
        | none => none
        | some s1 => wakeup1Loop P chan s1 rest
      else wakeup1Loop P chan s rest

/-- `wakeup1`: every SLEEPING process whose channel is `chan` is made RUNNABLE. -/
def wakeup1 (P : Params) (s : kstate) (chan : voidptr) : Option kstate :=
  wakeup1Loop P chan s (List.range P.NPROC)

/-- `wakeup`: `wakeup1` under the table lock. -/
def wakeup (P : Params) (s : kstate) (chan : voidptr) : Option kstate :=
  wakeup1 P s chan

/-! ## Concrete states used as witnesses -/

/-- Parameters of the examples: 4 slots, queues of 4 cells, 3 levels. -/
def exParams : Params := ⟨4, 4, 3⟩

/-- A slot that was never used. -/
def unusedProc : proc :=
  { state := procstate.UNUSED, pid := 0, parent := none, chan := voidptr.null,
    killed := 0, priority := 0 }

/-- A queue of `exParams` with no entry. -/
def emptyQueue (i : Int) : processQueue :=
  initialQueue (fun _ => none) i

/-- A family of four processes: slot 0 (pid 1, priority 0) sleeps in `wait`;
its child in slot 1 (pid 2, priority 1) is running; slot 2 (pid 3, priority 1)
is a runnable child of slot 1 and slot 3 (pid 4, priority 2) a runnable child
of slot 2.  Level 1 queues slot 2 and level 2 queues slot 3. -/
def exFamily : kstate :=
  { ptable := fun i =>
      match i with
      | 0 => { state := procstate.SLEEPING, pid := 1, parent := none,
               chan := voidptr.ofproc 0, killed := 0, priority := 0 }
      | 1 => { state := procstate.RUNNING, pid := 2, parent := some 0,
               chan := voidptr.null, killed := 0, priority := 1 }
      | 2 => { state := procstate.RUNNABLE, pid := 3, parent := some 1,
               chan := voidptr.null, killed := 0, priority := 1 }
      | 3 => { state := procstate.RUNNABLE, pid := 4, parent := some 2,
               chan := voidptr.null, killed := 0, priority := 2 }
      | _ => unusedProc
    priorityTable := fun k =>
      match k with
      | 1 => { proc := fun c => if c = 0 then some 2 else none,
               head := 0, tail := 1, size := 1, priority := 1 }
      | 2 => { proc := fun c => if c = 0 then some 3 else none,
               head := 0, tail := 1, size := 1, priority := 2 }
      | k => emptyQueue k
    initproc := some 0
    nextpid := 5
    cur := some 1 }

/-- Every level's `tail` is an index of its array. -/
def TailsInRange (P : Params) (s : kstate) : Prop :=
  ∀ k : Nat, k < P.PRIORITYLEVELS →
    0 ≤ (s.priorityTable k).tail ∧ (s.priorityTable k).tail < P.QUEUE_CAPACITY

/-- The claim on the selection step as the specification words it: whenever an
iteration takes a process from the level of the cursor, every level with a
smaller index is empty. -/
def StrictPriorityAtSelection (P : Params) (lf : Nat) : Prop :=
  ∀ (s : kstate) (c : Int) (s2 : kstate) (i : Nat),
    schedulerSelect P lf s c = some (s2, some i) →
    ∀ k : Nat, (k : Int) < c → IsQueueEmpty (s2.priorityTable k)

/-- Two runnable processes: slot 0 (pid 1) queued at level 0 and slot 1 (pid 2)
queued at level 1; no process is running. -/
def exTwoLevels : kstate :=
  { ptable := fun i =>
      match i with
      | 0 => { state := procstate.RUNNABLE, pid := 1, parent := none,
               chan := voidptr.null, killed := 0, priority := 0 }
      | 1 => { state := procstate.RUNNABLE, pid := 2, parent := some 0,
               chan := voidptr.null, killed := 0, priority := 1 }
      | _ => unusedProc
    priorityTable := fun k =>
      match k with
      | 0 => { proc := fun c => if c = 0 then some 0 else none,
               head := 0, tail := 1, size := 1, priority := 0 }
      | 1 => { proc := fun c => if c = 0 then some 1 else none,
               head := 0, tail := 1, size := 1, priority := 1 }
      | k => emptyQueue k
    initproc := some 0
    nextpid := 3
    cur := none }

/-- The start of the starvation scenario: the runnable processes `p0`, `p1`
and `p2` have priorities 0, 1 and 2, each is the only entry of the queue of its
level, every further level is empty and no process is running. -/
def StarvationState (P : Params) (s : kstate) (p0 p1 p2 : Nat) : Prop :=
  3 ≤ P.PRIORITYLEVELS ∧ p0 < P.NPROC ∧ p1 < P.NPROC ∧ p2 < P.NPROC ∧
  (s.ptable p0).state = procstate.RUNNABLE ∧ (s.ptable p0).priority = 0 ∧
  (s.ptable p1).state = procstate.RUNNABLE ∧ (s.ptable p1).priority = 1 ∧
  (s.ptable p2).state = procstate.RUNNABLE ∧ (s.ptable p2).priority = 2 ∧
  Rep P (s.priorityTable 0) [p0] ∧ Rep P (s.priorityTable 1) [p1] ∧
  Rep P (s.priorityTable 2) [p2] ∧
  (∀ k, 3 ≤ k → k < P.PRIORITYLEVELS → Rep P (s.priorityTable k) []) ∧
  s.cur = none

/-- Three runnable processes, slot `k` with priority `k` queued at level `k`
(the entry of level 0 sits in the last cell of the array). -/
def exThreeLevels : kstate :=
  { ptable := fun i =>
      match i with
      | 0 => { state := procstate.RUNNABLE, pid := 1, parent := none,
               chan := voidptr.null, killed := 0, priority := 0 }
      | 1 => { state := procstate.RUNNABLE, pid := 2, parent := some 0,
               chan := voidptr.null, killed := 0, priority := 1 }
      | 2 => { state := procstate.RUNNABLE, pid := 3, parent := some 0,
               chan := voidptr.null, killed := 0, priority := 2 }
      | _ => unusedProc
    priorityTable := fun k =>
      match k with
      | 0 => { proc := fun c => if c = 3 then some 0 else none,
               head := 3, tail := 0, size := 1, priority := 0 }
      | 1 => { proc := fun c => if c = 0 then some 1 else none,
               head := 0, tail := 1, size := 1, priority := 1 }
      | 2 => { proc := fun c => if c = 0 then some 2 else none,
               head := 0, tail := 1, size := 1, priority := 2 }
      | k => emptyQueue k
    initproc := some 0
    nextpid := 4
    cur := none }

/-! ## Predicates on the process table -/

/-- The range test of `setpriority`: `0 <= x && x < PRIORITYLEVELS`. -/
@[reducible] def prioInRange (P : Params) (x : Int) : Prop :=
  0 ≤ x ∧ x < P.PRIORITYLEVELS

/-- A process table with unique pids among the slots in use, parent pointers
that lead from a slot in use to a slot in use, and an acyclic parent relation:
`m` is a height, which decreases from every parent to its children. -/
structure TableOK (P : Params) (T : Nat → proc) (m : Nat → Nat) : Prop where
  uniq : ∀ a b, a < P.NPROC → b < P.NPROC → (T a).state ≠ procstate.UNUSED →
    (T b).state ≠ procstate.UNUSED → (T a).pid = (T b).pid → a = b
  parent_live : ∀ c j, c < P.NPROC → (T c).parent = some j →
    j < P.NPROC ∧ (T j).state ≠ procstate.UNUSED
  child_live : ∀ c j, c < P.NPROC → (T c).parent = some j → (T c).state ≠ procstate.UNUSED
  rank : ∀ c j, c < P.NPROC → (T c).parent = some j → m c < m j

/-- The two tables agree on every field but `priority`. -/
def SameButPriority (T T' : Nat → proc) : Prop :=
  ∀ x, (T' x).state = (T x).state ∧ (T' x).pid = (T x).pid ∧ (T' x).parent = (T x).parent ∧
    (T' x).chan = (T x).chan ∧ (T' x).killed = (T x).killed

/-- The slots below `r` in the parent relation, `r` included. -/
inductive Desc (P : Params) (T : Nat → proc) (r : Nat) : Nat → Prop where
  | root : Desc P T r r
  | step {c j : Nat} : c < P.NPROC → (T c).parent = some j → Desc P T r j → Desc P T r c

/-- The slots that a call of `setpriority` on `r` with difference `d` gives a
new priority: `r` itself, and every child of such a slot whose priority plus
`d` is in range. -/
inductive Reached (P : Params) (T : Nat → proc) (d : Int) (r : Nat) : Nat → Prop where
  | root : Reached P T d r r
  | step {c j : Nat} : c < P.NPROC → (T c).parent = some j → Reached P T d r j →
      prioInRange P ((T c).priority + d) → Reached P T d r c

/-- The array after `removeitemfromqueue` has copied `cnt` cells down, from
index `a` on: cell `c` of that stretch holds what cell `c + 1` held. -/
def shiftProc (f : Nat → procptr) (a cnt : Nat) : Nat → procptr :=
  fun c => if a ≤ c ∧ c < a + cnt then f (c + 1) else f c

/-! ## The invariant that ties the queues to the process table -/

/-- The queues agree with the table: level `k` holds the list `L k` without
repetition, its entries are exactly the RUNNABLE processes of priority `k`. -/
structure QueuesOK (P : Params) (s : kstate) (L : Nat → List Nat) : Prop where
  rep : ∀ k, k < P.PRIORITYLEVELS → Rep P (s.priorityTable k) (L k)
  ent : ∀ k, k < P.PRIORITYLEVELS → ∀ x ∈ L k,
    x < P.NPROC ∧ (s.ptable x).state = procstate.RUNNABLE ∧ (s.ptable x).priority = (k : Int)
  run : ∀ x, x < P.NPROC → (s.ptable x).state = procstate.RUNNABLE →
    x ∈ L (s.ptable x).priority.toNat
  nodup : ∀ k, k < P.PRIORITYLEVELS → (L k).Nodup

/-- No queue can wrap around the end of its array: each head leaves room for
`NPROC` entries after it. -/
def NoWrap (P : Params) (s : kstate) : Prop :=
  ∀ k, k < P.PRIORITYLEVELS →
    ∃ h : Nat, (s.priorityTable k).head = (h : Int) ∧ h + P.NPROC < P.QUEUE_CAPACITY

/-- The part of the invariant that speaks of the table alone: pids are unique
among the slots in use, a slot with a parent pointer is in use, and every
priority is in range. -/
structure TableInv (P : Params) (s : kstate) : Prop where
  uniq : ∀ a b, a < P.NPROC → b < P.NPROC → (s.ptable a).state ≠ procstate.UNUSED →
    (s.ptable b).state ≠ procstate.UNUSED → (s.ptable a).pid = (s.ptable b).pid → a = b
  child_live : ∀ c, c < P.NPROC → (s.ptable c).parent ≠ none →
    (s.ptable c).state ≠ procstate.UNUSED
  prio : ∀ x, x < P.NPROC → prioInRange P (s.ptable x).priority

/-- The invariant carried through `setpriority`: the table part and queues in
step with the table. -/
def SchedInv (P : Params) (s : kstate) : Prop :=
  TableInv P s ∧ ∃ L, QueuesOK P s L

/-- The heads of all queues are the same in the two states. -/
def HeadsEq (s s' : kstate) : Prop :=
  ∀ k, (s'.priorityTable k).head = (s.priorityTable k).head

/-- Parameters of the examples with room in the queues: 4 slots, queues of 8
cells, 3 levels. -/
def exWide : Params := ⟨4, 8, 3⟩

/-- The claim on the children as the specification words it: after
`setpriority` on `i` with difference `d`, every direct child has gained
exactly `d` and every grandchild has its priority unchanged. -/
def OnlyChildrenShift (P : Params) (lf fuel : Nat) (s : kstate) (i : Nat) (d : Int) : Prop :=
  ∀ s', setpriority P lf fuel s i ((s.ptable i).priority + d) = some s' →
    (∀ c, c < P.NPROC → (s.ptable c).parent = some i →
      (s'.ptable c).priority = (s.ptable c).priority + d) ∧
    (∀ g c, g < P.NPROC → c < P.NPROC → (s.ptable g).parent = some c →
      (s.ptable c).parent = some i → (s'.ptable g).priority = (s.ptable g).priority)

/-! ## The remaining operations of the process life cycle -/

/-- `allocproc`: the first UNUSED slot becomes EMBRYO and takes the pid
`nextpid++`; when `kalloc` fails (`kallocOk = false`) the slot goes back to
UNUSED and the null pointer is returned. -/
def allocproc (P : Params) (kallocOk : Bool) (s : kstate) : kstate × procptr :=
  match (List.range P.NPROC).find? fun i => decide ((s.ptable i).state = procstate.UNUSED) with
  | none => (s, none)
  | some i =>
    if kallocOk then
      ({ setSlot s i { s.ptable i with state := procstate.EMBRYO, pid := s.nextpid } with
          nextpid := s.nextpid + 1 }, some i)
    else
      ({ setSlot s i { s.ptable i with state := procstate.UNUSED, pid := s.nextpid } with
          nextpid := s.nextpid + 1 }, none)

/-- `userinit`: the first process has no parent, priority 0 and is made
RUNNABLE.  The null pointer of a failed `allocproc` is dereferenced. -/
def userinit (P : Params) (lf fuel : Nat) (kallocOk : Bool) (s : kstate) : Option kstate :=
  match allocproc P kallocOk s with
  | (_, none) => none
  | (s1, some i) =>
    match setpriority P lf fuel
        (setSlot { s1 with initproc := some i } i { s1.ptable i with parent := none }) i 0 with
    | none => none
    | some s4 => SetProcessRunnable P s4 i

/-- `fork` by the running process: the new state and the returned value (the
pid of the child, or -1).  `copyOk` tells whether `copyuvm` succeeds. -/
def fork (P : Params) (lf fuel : Nat) (kallocOk copyOk : Bool) (s : kstate) :
    Option (kstate × Int) :=
  match allocproc P kallocOk s with
  | (s1, none) => some (s1, -1)
  | (s1, some np) =>
    match s1.cur with
    | none => none
    | some cur =>
      if ¬ copyOk then
        some (setSlot s1 np { s1.ptable np with state := procstate.UNUSED }, -1)
      else
        match slot P s1 cur with
        | none => none
        | some pp =>
          match setpriority P lf fuel
              (setSlot s1 np { s1.ptable np with parent := some cur }) np pp.priority with
          | none => none
          | some s3 => (SetProcessRunnable P s3 np).map fun s4 => (s4, (s1.ptable np).pid)

/-- The loop of `exit` over the slots in `is`: a child of `cur` is handed to
`initproc`, which is woken when that child is a ZOMBIE. -/
def exitLoop (P : Params) (cur : Nat) : kstate → List Nat → Option kstate
  | s, [] => some s
  | s, i :: rest =>
    match slot P s i with
    | none => none
    | some p =>
      if p.parent = some cur then
        if p.state = procstate.ZOMBIE then
          match wakeup1 P (setSlot s i { p with parent := s.initproc }) s.initproc.toVoid with
          | none => none
          | some s2 => exitLoop P cur s2 rest
        else exitLoop P cur (setSlot s i { p with parent := s.initproc }) rest
      else exitLoop P cur s rest

/-- `exit` up to its `sched()`: panics (no result) when the running process is
`initproc`. -/
def exit (P : Params) (s : kstate) : Option kstate :=
  match s.cur with
  | none => none
  | some cur =>
    if s.cur = s.initproc then none
    else
      match slot P s cur with
      | none => none
      | some p =>
        match wakeup1 P s p.parent.toVoid with
        | none => none
        | some s1 =>
          match exitLoop P cur s1 (List.range P.NPROC) with
          | none => none
          | some s2 => some (setSlot s2 cur { s2.ptable cur with state := procstate.ZOMBIE })

/-- `sleep` up to its `sched()`: the running process records the channel and
becomes SLEEPING. -/
def sleep (P : Params) (s : kstate) (chan : voidptr) : Option kstate :=
  match s.cur with
  | none => none
  | some cur =>
    (slot P s cur).map fun p =>
      setSlot s cur { p with chan := chan, state := procstate.SLEEPING }

/-- The end of `sleep`, once the process runs again: `proc->chan = 0`. -/
def sleepReturn (P : Params) (s : kstate) : Option kstate :=
  match s.cur with
  | none => none
  | some cur => (slot P s cur).map fun p => setSlot s cur { p with chan := voidptr.null }

/-- One pass of the loop of `wait`: the first ZOMBIE child is reclaimed and its
pid returned; without children, or when killed, -1 is returned; otherwise the
process sleeps on itself (the returned value is then absent). -/
def wait (P : Params) (s : kstate) : Option (kstate × Option Int) :=
  match s.cur with
  | none => none
  | some cur =>
    match slot P s cur with
    | none => none
    | some p =>
      match (List.range P.NPROC).find? fun i =>
          decide ((s.ptable i).parent = some cur) &&
            decide ((s.ptable i).state = procstate.ZOMBIE) with
      | some i =>
        some (setSlot s i
                { s.ptable i with
                  state := procstate.UNUSED, pid := 0, parent := none, killed := 0 },
              some (s.ptable i).pid)
      | none =>
        if ¬ ((List.range P.NPROC).any fun i => decide ((s.ptable i).parent = some cur)) ∨
            p.killed ≠ 0 then some (s, some (-1))
        else (sleep P s (voidptr.ofproc cur)).map fun s1 => (s1, none)

/-- `kill`: the first slot with the pid gets `killed = 1` and is made RUNNABLE
when it was SLEEPING; the returned code is 0, or -1 when no slot has the pid. -/
def kill (P : Params) (s : kstate) (pid : Int) : Option (kstate × Int) :=
  match (List.range P.NPROC).find? fun i => decide ((s.ptable i).pid = pid) with
  | none => some (s, -1)
  | some i =>
    if (s.ptable i).state = procstate.SLEEPING then
      (SetProcessRunnable P (setSlot s i { s.ptable i with killed := 1 }) i).map
        fun s1 => (s1, 0)
    else some (setSlot s i { s.ptable i with killed := 1 }, 0)

/-- The state at boot: every slot UNUSED, every queue as `InitialPriorityTables`
leaves it, `nextpid` 1, no `initproc` and no running process. -/
def bootState : kstate :=
  { ptable := fun _ => unusedProc
    priorityTable := fun k => initialQueue (fun _ => none) k
    initproc := none
    nextpid := 1
    cur := none }

/-- One operation of the core on a single CPU, run from its entry to its end
(or to its `sched()`) with nothing interleaved and with every access inside
its array.  The operations that end in `sched()` hand the CPU back, after which
the scheduler clears `proc`.  These are the steps of a run in which no
interrupt is taken inside `userinit`, `fork`, `setprioritybypid` and `nice`,
the four operations that update the queues without holding `ptable.lock`; a
run in which the timer interrupts one of them is not a sequence of such steps
(`forkUntilStore` and `forkAfterStore` give one), nor is a run that goes on
after a read past an array (`removeitemfromqueuePast`). -/
inductive Step (P : Params) : kstate → kstate → Prop where
  | userinit (lf fuel : Nat) (k : Bool) (s s' : kstate) :
      userinit P lf fuel k s = some s' → Step P s s'
  | fork (lf fuel : Nat) (k c : Bool) (s s' : kstate) (r : Int) :
      fork P lf fuel k c s = some (s', r) → Step P s s'
  | yield (s s' : kstate) : yield P s = some s' → Step P s { s' with cur := none }
  | sleep (chan : voidptr) (s s' : kstate) :
      sleep P s chan = some s' → Step P s { s' with cur := none }
  | sleepReturn (s s' : kstate) : sleepReturn P s = some s' → Step P s s'
  | wakeup (chan : voidptr) (s s' : kstate) : wakeup P s chan = some s' → Step P s s'
  | kill (pid : Int) (s s' : kstate) (r : Int) : kill P s pid = some (s', r) → Step P s s'
  | exit (s s' : kstate) : exit P s = some s' → Step P s { s' with cur := none }
  | waitReturn (s s' : kstate) (r : Int) : wait P s = some (s', some r) → Step P s s'
  | waitSleep (s s' : kstate) : wait P s = some (s', none) → Step P s { s' with cur := none }
  | setprioritybypid (lf fuel : Nat) (pid priority : Int) (s s' : kstate) (r : Int) :
      setprioritybypid P lf fuel s pid priority = some (s', r) → Step P s s'
  | nice (lf fuel : Nat) (value : Int) (s s' : kstate) (r : Int) :
      nice P lf fuel s value = some (s', r) → Step P s s'
  | dispatch (lf : Nat) (c : Int) (s s2 s3 : kstate) (i : Nat) :
      s.cur = none → schedulerSelect P lf s c = some (s2, some i) →
      SwitchToProccess P s2 i = some s3 → Step P s s3
  | idle (lf : Nat) (c : Int) (s s2 : kstate) :
      s.cur = none → schedulerSelect P lf s c = some (s2, none) → Step P s s2

/-- The states reached from the boot state by steps of `Step`: every operation
runs uninterrupted and completes inside the arrays. -/
inductive Reachable (P : Params) : kstate → Prop where
  | boot : Reachable P bootState
  | step {s s' : kstate} : Reachable P s → Step P s s' → Reachable P s'

/-- The entries of a queue in FIFO order: the `size` cells from `head` on. -/
def queued (P : Params) (q : processQueue) : List procptr :=
  (List.range q.size.toNat).map fun k => q.proc ((q.head.toNat + k) % P.QUEUE_CAPACITY)

/-- How many times process `i` is queued at level `k`. -/
def timesQueued (P : Params) (s : kstate) (k i : Nat) : Nat :=
  (queued P (s.priorityTable k)).count (some i)

/-- The invariant of the spec on the RUNNABLE processes: each is queued exactly
once at the level of its priority and at no other level. -/
def RunnableQueuedOnce (P : Params) (s : kstate) : Prop :=
  ∀ i, i < P.NPROC → (s.ptable i).state = procstate.RUNNABLE →
    ∀ k, k < P.PRIORITYLEVELS →
      timesQueued P s k i = if (k : Int) = (s.ptable i).priority then 1 else 0

/-- The invariant of the core, apart from the CPU: the table part, queues in
step with the table, and pids below `nextpid`. -/
structure CoreInv (P : Params) (s : kstate) : Prop where
  table : TableInv P s
  queues : ∃ L, QueuesOK P s L
  pids : ∀ x, x < P.NPROC → (s.ptable x).state ≠ procstate.UNUSED →
    (s.ptable x).pid < s.nextpid

/-- The invariant of the core: `CoreInv`, and the process on the CPU is RUNNING. -/
structure KernelInv (P : Params) (s : kstate) : Prop where
  core : CoreInv P s
  running : ∀ i, s.cur = some i → i < P.NPROC ∧ (s.ptable i).state = procstate.RUNNING

/-- From `s` to `s'` the table changed only in that some SLEEPING processes
became RUNNABLE. -/
def WokeOnly (s s' : kstate) : Prop :=
  ∀ x, s'.ptable x = s.ptable x ∨
    ((s.ptable x).state = procstate.SLEEPING ∧
      s'.ptable x = { s.ptable x with state := procstate.RUNNABLE })

/-- Parameters with queues of a single cell: 3 slots, 2 levels. -/
def exSmall : Params := ⟨3, 1, 2⟩

/-- The boot state after `userinit`, with the parameters `exSmall`. -/
def exSmallInit : kstate := (userinit exSmall 1 1 true bootState).getD bootState

/-- Then the scheduler has dispatched the first process. -/
def exSmallRunning : kstate :=
  ((schedulerSelect exSmall 1 exSmallInit 0).bind fun r =>
    r.2.bind fun i => SwitchToProccess exSmall r.1 i).getD bootState

/-- Then the first process has forked once. -/
def exSmallForked : kstate :=
  ((fork exSmall 1 1 true true exSmallRunning).map Prod.fst).getD bootState

/-- Then it has forked a second time: the second child is RUNNABLE, and the
only cell of level 0 holds the first child. -/
def exSmallForkedTwice : kstate :=
  ((fork exSmall 1 1 true true exSmallForked).map Prod.fst).getD bootState

/-- The same run with the parameters `exWide`: `userinit`, a dispatch, a fork
and a yield leave two RUNNABLE processes queued at level 0. -/
def exWideInit : kstate := (userinit exWide 4 4 true bootState).getD bootState

/-- The first process of `exWideInit` is dispatched. -/
def exWideRunning : kstate :=
  ((schedulerSelect exWide 4 exWideInit 0).bind fun r =>
    r.2.bind fun i => SwitchToProccess exWide r.1 i).getD bootState

/-- It forks. -/
def exWideForked : kstate :=
  ((fork exWide 4 4 true true exWideRunning).map Prod.fst).getD bootState

/-- It yields. -/
def exWideYielded : kstate :=
  { (yield exWide exWideForked).getD bootState with cur := none }

/-! ## Shapes and examples for the queue operations -/

/-- The structural conditions on one queue: `head` and `tail` are indices of
the array, `size` is between 0 and `QUEUE_CAPACITY`, and `size` is congruent
to `tail - head` modulo `QUEUE_CAPACITY`. -/
def QueueShape (P : Params) (q : processQueue) : Prop :=
  (0 ≤ q.head ∧ q.head < P.QUEUE_CAPACITY) ∧ (0 ≤ q.tail ∧ q.tail < P.QUEUE_CAPACITY) ∧
  (0 ≤ q.size ∧ q.size ≤ P.QUEUE_CAPACITY) ∧
  (q.size - (q.tail - q.head)) % (P.QUEUE_CAPACITY : Int) = 0

/-- A queue of `exParams` whose three entries wrap around the end of the
array: slots 1, 2 and 3 sit in the cells 2, 3 and 0. -/
def exWrappedQueue : processQueue :=
  { proc := fun c => if c = 2 then some 1 else if c = 3 then some 2
      else if c = 0 then some 3 else none,
    head := 2, tail := 1, size := 3, priority := 1 }


/-- Parameters with queues of two cells: 4 slots, 3 levels. -/
def exTight : Params := ⟨4, 2, 3⟩

/-- A state of `exTight` whose level 0 is full: it queues slot 0, which is
RUNNABLE, and slot 1, which is SLEEPING. -/
def exStale : kstate :=
  { ptable := fun i =>
      match i with
      | 0 => { state := procstate.RUNNABLE, pid := 1, parent := none,
               chan := voidptr.null, killed := 0, priority := 0 }
      | 1 => { state := procstate.SLEEPING, pid := 2, parent := some 0,
               chan := voidptr.addr 7, killed := 0, priority := 0 }
      | _ => unusedProc
    priorityTable := fun k =>
      match k with
      | 0 => { proc := fun c => if c = 0 then some 0 else if c = 1 then some 1 else none,
               head := 0, tail := 0, size := 2, priority := 0 }
      | k => emptyQueue k
    initproc := some 0
    nextpid := 3
    cur := none }

/-- The parent floor: no process has a priority value below that of its parent. -/
def ParentFloor (P : Params) (s : kstate) : Prop :=
  ∀ c j, c < P.NPROC → (s.ptable c).parent = some j →
    (s.ptable j).priority ≤ (s.ptable c).priority

/-- A chain of three processes of `exWide`: slot 0 (pid 1, priority 0) is
running, its child in slot 1 (pid 2, priority 0) and the child of that one in
slot 2 (pid 3, priority 1) sleep.  No process is queued. -/
def exFloor : kstate :=
  { ptable := fun i =>
      match i with
      | 0 => { state := procstate.RUNNING, pid := 1, parent := none,
               chan := voidptr.null, killed := 0, priority := 0 }
      | 1 => { state := procstate.SLEEPING, pid := 2, parent := some 0,
               chan := voidptr.addr 7, killed := 0, priority := 0 }
      | 2 => { state := procstate.SLEEPING, pid := 3, parent := some 1,
               chan := voidptr.addr 7, killed := 0, priority := 1 }
      | _ => unusedProc
    priorityTable := fun k => emptyQueue k
    initproc := some 0
    nextpid := 4
    cur := some 0 }

/-- The claim on the value of `nice` as the specification words it: a call
that does not fail returns the new priority of the caller, which is its
previous priority plus the argument. -/
def NiceReturnsNewPriority (P : Params) (lf fuel : Nat) (s : kstate) (value : Int) : Prop :=
  ∀ s' r i, s.cur = some i → nice P lf fuel s value = some (s', r) → r ≠ -1 →
    r = (s'.ptable i).priority ∧ r = (s.ptable i).priority + value

/-! ## The invariant without a bound on the queues -/

/-- The queues hold RUNNABLE processes without repetition: level `k` holds the
list `L k`, every entry is a RUNNABLE process, no list has a repetition and no
process is in the lists of two levels.  Unlike `QueuesOK` this does not say
that a RUNNABLE process is queued, nor at which level. -/
structure QueuesLoose (P : Params) (s : kstate) (L : Nat → List Nat) : Prop where
  rep : ∀ k, k < P.PRIORITYLEVELS → Rep P (s.priorityTable k) (L k)
  ent : ∀ k, k < P.PRIORITYLEVELS → ∀ x ∈ L k,
    x < P.NPROC ∧ (s.ptable x).state = procstate.RUNNABLE
  nodup : ∀ k, k < P.PRIORITYLEVELS → (L k).Nodup
  disj : ∀ k k', k < P.PRIORITYLEVELS → k' < P.PRIORITYLEVELS → k ≠ k' →
    ∀ x ∈ L k, x ∉ L k'

/-- The part of the invariant that `setpriority` needs and keeps, with no bound
on the queues. -/
def LooseSched (P : Params) (s : kstate) : Prop :=
  TableInv P s ∧ ∃ L, QueuesLoose P s L

/-- The invariant of the core that needs no bound on the queues, apart from
the CPU. -/
structure LooseCore (P : Params) (s : kstate) : Prop where
  table : TableInv P s
  queues : ∃ L, QueuesLoose P s L
  pids : ∀ x, x < P.NPROC → (s.ptable x).state ≠ procstate.UNUSED →
    (s.ptable x).pid < s.nextpid

/-- The invariant of the core that needs no bound on the queues: `LooseCore`,
and the process on the CPU is RUNNING. -/
structure LooseInv (P : Params) (s : kstate) : Prop where
  core : LooseCore P s
  running : ∀ i, s.cur = some i → i < P.NPROC ∧ (s.ptable i).state = procstate.RUNNING

/-- No process reference is queued twice: the entries of each queue are
distinct, and no entry of one level's queue is an entry of another level's. -/
def NoDuplicateEntries (P : Params) (s : kstate) : Prop :=
  (∀ k, k < P.PRIORITYLEVELS → (queued P (s.priorityTable k)).Nodup) ∧
  ∀ k k', k < P.PRIORITYLEVELS → k' < P.PRIORITYLEVELS → k ≠ k' →
    ∀ e ∈ queued P (s.priorityTable k), e ∉ queued P (s.priorityTable k')

/-- What one `moveToNewQueue` of process `v` towards level `n` does to the
lists: the other entries of every level stay, in their order, and `v` is
nowhere but at level `n` unless nothing changed. -/
def MoveKeeps (P : Params) (L L2 : Nat → List Nat) (v n : Nat) : Prop :=
  (∀ k, k < P.PRIORITYLEVELS →
    (L2 k).filter (fun x => decide (x ≠ v)) = (L k).filter (fun x => decide (x ≠ v))) ∧
  (L2 = L ∨ ∀ k, k < P.PRIORITYLEVELS → v ∈ L2 k → k = n)

/-- One step of `setpriority` on a single process `v`: its priority moves by
`d` to a value in range, `moveToNewQueue` acts on the lists, nothing else
changes. -/
def OneMove (P : Params) (d : Int) (s s2 : kstate) : Prop :=
  ∃ v L L2, v < P.NPROC ∧ QueuesLoose P s L ∧ QueuesLoose P s2 L2 ∧
    s2.ptable = Function.update s.ptable v
      { s.ptable v with priority := (s.ptable v).priority + d } ∧
    prioInRange P ((s.ptable v).priority + d) ∧
    MoveKeeps P L L2 v ((s.ptable v).priority + d).toNat ∧
    s2.nextpid = s.nextpid ∧ s2.cur = s.cur ∧ s2.initproc = s.initproc

/-- A sequence of steps of `setpriority`, all with the difference `d`. -/
inductive Moves (P : Params) (d : Int) : kstate → kstate → Prop where
  | refl (s : kstate) : Moves P d s s
  | step {s s1 s2 : kstate} : Moves P d s s1 → OneMove P d s1 s2 → Moves P d s s2

/-! ## Moving a queued process to another level -/

/-- The claim on `setpriority` of a queued process as the specification words
it: afterwards the process is no longer in the queue of its old level when the
new level differs, it is queued exactly once at the new level, and the other
entries of the old level's queue keep their relative order. -/
def MovesQueuedProcess (P : Params) (lf fuel : Nat) (s : kstate) (p : Nat) (n : Int) : Prop :=
  ∀ s', setpriority P lf fuel s p n = some s' →
    (n ≠ (s.ptable p).priority →
      some p ∉ queued P (s'.priorityTable (s.ptable p).priority.toNat)) ∧
    timesQueued P s' n.toNat p = 1 ∧
    (queued P (s'.priorityTable (s.ptable p).priority.toNat)).filter
        (fun e => decide (e ≠ some p) &&
          decide (e ∈ queued P (s.priorityTable (s.ptable p).priority.toNat)))
      = (queued P (s.priorityTable (s.ptable p).priority.toNat)).filter
        (fun e => decide (e ≠ some p) &&
          decide (e ∈ queued P (s'.priorityTable (s.ptable p).priority.toNat)))

/-- A state of `exWide` with three RUNNABLE processes of priority 1: slot 1,
its child in slot 2, and slot 3.  Level 1 queues them in the order 2, 3, 1. -/
def exSameLevel : kstate :=
  { ptable := fun i =>
      match i with
      | 0 => { state := procstate.SLEEPING, pid := 1, parent := none,
               chan := voidptr.addr 7, killed := 0, priority := 0 }
      | 1 => { state := procstate.RUNNABLE, pid := 2, parent := some 0,
               chan := voidptr.null, killed := 0, priority := 1 }
      | 2 => { state := procstate.RUNNABLE, pid := 3, parent := some 1,
               chan := voidptr.null, killed := 0, priority := 1 }
      | 3 => { state := procstate.RUNNABLE, pid := 4, parent := some 0,
               chan := voidptr.null, killed := 0, priority := 1 }
      | _ => unusedProc
    priorityTable := fun k =>
      match k with
      | 1 => { proc := fun c => if c = 0 then some 2 else if c = 1 then some 3
                 else if c = 2 then some 1 else none,
               head := 0, tail := 3, size := 3, priority := 1 }
      | k => emptyQueue k
    initproc := some 0
    nextpid := 5
    cur := none }

/-- A state of `exSmall`, whose queues have a single cell: slot 0 (priority 0)
fills level 0 and its child in slot 1 (priority 1) fills level 1. -/
def exFullLevels : kstate :=
  { ptable := fun i =>
      match i with
      | 0 => { state := procstate.RUNNABLE, pid := 1, parent := none,
               chan := voidptr.null, killed := 0, priority := 0 }
      | 1 => { state := procstate.RUNNABLE, pid := 2, parent := some 0,
               chan := voidptr.null, killed := 0, priority := 1 }
      | _ => unusedProc
    priorityTable := fun k =>
      match k with
      | 0 => { proc := fun _ => some 0, head := 0, tail := 0, size := 1, priority := 0 }
      | 1 => { proc := fun _ => some 1, head := 0, tail := 0, size := 1, priority := 1 }
      | k => emptyQueue k
    initproc := some 0
    nextpid := 3
    cur := none }

/-! ## The round trip of `fork`, `exit` and `wait` -/

/-- Every parent pointer leads to a slot of the table that is in use. -/
def ParentsLive (P : Params) (s : kstate) : Prop :=
  ∀ c j, c < P.NPROC → (s.ptable c).parent = some j →
    j < P.NPROC ∧ (s.ptable j).state ≠ procstate.UNUSED

/-- The slot `np` after `wait` has reclaimed it. -/
def reclaimed (s : kstate) (np : Nat) : kstate :=
  setSlot s np
    { s.ptable np with state := procstate.UNUSED, pid := 0, parent := none, killed := 0 }

/-- The claim on the round trip as the specification words it: whenever
`fork` by the running process `p`, which is not `initproc`, returns the pid `c`
of a child in slot `np`, the child (running, with the record that `fork` left)
calls `exit`, and `p` (running again, the record of the child as `exit` left
it) calls `wait`, that `wait` returns `c` and leaves the slot of the child
UNUSED. -/
def ForkExitWaitReturnsChild (P : Params) (lf fuel : Nat) (s : kstate) : Prop :=
  ∀ p s1 c np, s.cur = some p → s.initproc ≠ some p →
    fork P lf fuel true true s = some (s1, c) → np < P.NPROC → (s1.ptable np).pid = c →
    ∀ s2 s3, s2.cur = some np →
      s2.ptable np = { s1.ptable np with state := procstate.RUNNING } →
      exit P s2 = some s3 →
      ∀ s4, s4.cur = some p → s4.ptable np = s3.ptable np →
        ∃ s5, wait P s4 = some (s5, some c) ∧ (s5.ptable np).state = procstate.UNUSED

/-- After `exWideForked`, in which the first process has forked the process of
slot 1: the first process calls `wait`, has no ZOMBIE child and goes to sleep. -/
def exRTRootWaits : kstate :=
  { ((wait exWide exWideForked).map Prod.fst).getD bootState with cur := none }

/-- The scheduler dispatches the process of slot 1, which is not the first
process. -/
def exRTStart : kstate :=
  ((schedulerSelect exWide 4 exRTRootWaits 0).bind fun r =>
    r.2.bind fun i => SwitchToProccess exWide r.1 i).getD bootState

/-- The process of slot 1 forks a child, in slot 2 with pid 3. -/
def exRTForked : kstate :=
  ((fork exWide 4 4 true true exRTStart).map Prod.fst).getD bootState

/-- It calls `wait` and goes to sleep. -/
def exRTWaiting : kstate :=
  { ((wait exWide exRTForked).map Prod.fst).getD bootState with cur := none }

/-- The scheduler dispatches the child (slot 2). -/
def exRTChild : kstate :=
  ((schedulerSelect exWide 4 exRTWaiting 0).bind fun r =>
    r.2.bind fun i => SwitchToProccess exWide r.1 i).getD bootState

/-- The child calls `exit`, which wakes its parent. -/
def exRTExited : kstate :=
  { (exit exWide exRTChild).getD bootState with cur := none }

/-- The scheduler dispatches the parent (slot 1) again. -/
def exRTParent : kstate :=
  ((schedulerSelect exWide 4 exRTExited 0).bind fun r =>
    r.2.bind fun i => SwitchToProccess exWide r.1 i).getD bootState

/-- A state of `exWide` in which the running process of slot 1 (pid 2), a child
of the first process, already has a ZOMBIE child in slot 2 (pid 3); slot 3 is
UNUSED and no process is queued. -/
def exOlderZombie : kstate :=
  { ptable := fun i =>
      match i with
      | 0 => { state := procstate.SLEEPING, pid := 1, parent := none,
               chan := voidptr.ofproc 0, killed := 0, priority := 0 }
      | 1 => { state := procstate.RUNNING, pid := 2, parent := some 0,
               chan := voidptr.null, killed := 0, priority := 0 }
      | 2 => { state := procstate.ZOMBIE, pid := 3, parent := some 1,
               chan := voidptr.null, killed := 0, priority := 0 }
      | _ => unusedProc
    priorityTable := fun k => emptyQueue k
    initproc := some 0
    nextpid := 4
    cur := some 1 }

/-- The process of slot 1 forks a second child, in slot 3 with pid 4. -/
def exZForked : kstate :=
  ((fork exWide 4 4 true true exOlderZombie).map Prod.fst).getD bootState

/-- It yields. -/
def exZYielded : kstate :=
  { (yield exWide exZForked).getD bootState with cur := none }

/-- The scheduler dispatches the second child (slot 3). -/
def exZChild : kstate :=
  ((schedulerSelect exWide 4 exZYielded 0).bind fun r =>
    r.2.bind fun i => SwitchToProccess exWide r.1 i).getD bootState

/-- The second child calls `exit`. -/
def exZExited : kstate :=
  { (exit exWide exZChild).getD bootState with cur := none }

/-- The scheduler dispatches the parent, which has two ZOMBIE children. -/
def exZParent : kstate :=
  ((schedulerSelect exWide 4 exZExited 0).bind fun r =>
    r.2.bind fun i => SwitchToProccess exWide r.1 i).getD bootState

/-- No queue has a positive `size`: what the queues of length 0 are like. -/
def Frozen (s : kstate) : Prop :=
  ∀ k, (s.priorityTable k).size ≤ 0

/-! ## A read past the array -/

/-- Read of `queue->proc[i]` that goes on past the array.  At
`i = QUEUE_CAPACITY`, one cell past the end of `proc` and still inside the
`struct processQueue` (the field `head` follows the array), the machine reads
the word stored there, which is `past` as a pointer; at every other index the
read is that of `qread`. -/
def qreadPast (P : Params) (past : procptr) (q : processQueue) (i : Int) : Option procptr :=
  if i = (P.QUEUE_CAPACITY : Int) then some past else qread P q i

/-- The loop of `removeitemfromqueue` with the read of `qreadPast`. -/
def removeitemfromqueueFromPast (P : Params) (past : procptr) :
    Nat → processQueue → Int → Option processQueue
  | 0, q, i => if i = q.tail then some q else none
  | lf + 1, q, i =>
    if i = q.tail then some q
    else
      match qreadPast P past q (i + 1) with
      | none => none
      | some v =>
        match qwrite P q i v with
        | none => none
        | some q1 => removeitemfromqueueFromPast P past lf q1 ((i + 1).tmod P.QUEUE_CAPACITY)

/-- `removeitemfromqueue` as the machine runs it when the loop reads
`proc[QUEUE_CAPACITY]`: the shift, then `tail = (tail - 1) % QUEUE_CAPACITY`
and `size -= 1`. -/
def removeitemfromqueuePast (P : Params) (lf : Nat) (past : procptr) (q : processQueue)
    (index : Int) : Option processQueue :=
  (removeitemfromqueueFromPast P past lf q index).map fun q1 =>
    { q1 with tail := (q1.tail - 1).tmod P.QUEUE_CAPACITY, size := q1.size - 1 }

/-! ## Calls outside the table lock, interrupted by the timer

`fork`, `userinit`, `setprioritybypid` and `nice` reach `EnqueueProcess` and
`removeitemfromqueue` without holding `ptable.lock`, so interrupts are enabled
there and the timer can make the running process `yield` between two
statements.  The definitions below cut `fork` at one such point, between the
store of `EnqueueProcess` (l.542) and the advance of `tail` (l.543). -/

/-- `EnqueueProcess` up to its first store (l.542): on a queue that is not
full, `queue->proc[queue->tail] = process` is done while `tail` and `size` are
not yet advanced.  The flag tells whether the store was made (it is not on a
full queue, where the call returns -1). -/
def EnqueueProcessStore (P : Params) (q : processQueue) (process : procptr) :
    Option (processQueue × Bool) :=
  if ¬ IsQueueFull P q then (qwrite P q q.tail process).map fun q1 => (q1, true)
  else some (q, false)

/-- The rest of `EnqueueProcess` after the store (l.543 and l.544), on the
queue as it is by then: `queue->tail = (queue->tail + 1) % QUEUE_CAPACITY` and
`queue->size = queue->size + 1`. -/
def EnqueueProcessAdvance (P : Params) (q : processQueue) : processQueue :=
  { q with tail := (q.tail + 1).tmod P.QUEUE_CAPACITY, size := q.size + 1 }

/-- `fork` by the running process up to the store of the `EnqueueProcess` that
its `SetProcessRunnable(np)` reaches: the child is allocated, gets its parent
and priority, becomes RUNNABLE and is stored at the tail of its level, whose
`tail` and `size` are not yet advanced.  The result is the state, the level of
that queue and the pid that `fork` will return; there is none when `fork` does
not get to the store.  `fork` does not hold `ptable.lock` here. -/
def forkUntilStore (P : Params) (lf fuel : Nat) (kallocOk copyOk : Bool) (s : kstate) :
    Option (kstate × Int × Int) :=
  match allocproc P kallocOk s with
  | (_, none) => none
  | (s1, some np) =>
    match s1.cur with
    | none => none
    | some cur =>
      if ¬ copyOk then none
      else
        match slot P s1 cur with
        | none => none
        | some pp =>
          match setpriority P lf fuel
              (setSlot s1 np { s1.ptable np with parent := some cur }) np pp.priority with
          | none => none
          | some s3 =>
            match slot P s3 np with
            | none => none
            | some p =>
              match level P (setSlot s3 np { p with state := procstate.RUNNABLE }) p.priority with
              | none => none
              | some q =>
                match EnqueueProcessStore P q (some np) with
                | some (q1, true) =>
                  some (setLevel (setSlot s3 np { p with state := procstate.RUNNABLE })
                          p.priority q1, p.priority, (s1.ptable np).pid)
                | _ => none

/-- The rest of that `fork`, from the statement after the store: `tail` and
`size` of the queue of level `k` are advanced and `pid` is returned. -/
def forkAfterStore (P : Params) (s : kstate) (k pid : Int) : Option (kstate × Int) :=
  (level P s k).map fun q => (setLevel s k (EnqueueProcessAdvance P q), pid)

/-- Parameters with more cells in a queue than process slots: 2 slots, queues
of 3 cells, 2 levels. -/
def exRace : Params := ⟨2, 3, 2⟩

/-- The boot state after `userinit`, with the parameters `exRace`. -/
def exRaceInit : kstate := (userinit exRace 3 2 true bootState).getD bootState

/-- The scheduler, with its cursor at level 0, prunes the queues of `s` and
takes the next entry of level 0. -/
def exRaceSelected (s : kstate) : kstate :=
  ((schedulerSelect exRace 3 s 0).map Prod.fst).getD bootState

/-- The scheduler dispatches the process of slot 0, which it took from level 0. -/
def exRaceDispatch (s : kstate) : kstate :=
  (SwitchToProccess exRace (exRaceSelected s) 0).getD bootState

/-- The running process yields and the scheduler takes the CPU. -/
def exRaceYield (s : kstate) : kstate :=
  { (yield exRace s).getD bootState with cur := none }

/-- The first process after a dispatch, a yield and a second dispatch: it
runs, and level 0 is empty with `head = tail = 2`. -/
def exRaceSecond : kstate := exRaceDispatch (exRaceYield (exRaceDispatch exRaceInit))

/-- The first process forks: its child (slot 1, pid 2) sits in the last cell
of level 0, whose `tail` has wrapped to 0. -/
def exRaceChild : kstate :=
  ((fork exRace 3 2 true true exRaceSecond).map Prod.fst).getD bootState

/-- The first process after a further yield and a third dispatch instead: it
runs, level 0 is empty with `head = tail = 0`, and the three cells of level 0
still hold the pointer to slot 0 that each earlier enqueue left there. -/
def exRaceStart : kstate := exRaceDispatch (exRaceYield exRaceSecond)

/-- The first process forks and is interrupted right after the store of
`EnqueueProcess`: cell 0 of level 0 holds the child, `tail` is still 0. -/
def exRaceStored : kstate :=
  ((forkUntilStore exRace 3 2 true true exRaceStart).map Prod.fst).getD bootState

/-- The interrupt is the timer: the first process yields, which stores it in
cell 0 over the child and advances `tail` and `size`; the scheduler dispatches
it again from there. -/
def exRaceResumed : kstate := exRaceDispatch (exRaceYield exRaceStored)

/-- Back in `fork`, the first process advances `tail` and `size` once more:
level 0 now counts one entry, the stale pointer to slot 0 in cell 1, and the
RUNNABLE child is in no queue. -/
def exRaceForked : kstate :=
  ((forkAfterStore exRace exRaceResumed 0 2).map Prod.fst).getD bootState

/-- The first process yields once more and is enqueued behind its stale entry. -/
def exRaceTwice : kstate := exRaceYield exRaceForked

/-- A sleeping process in slot 0 (pid 1, priority 0) and its runnable child in
slot 1 (pid 2, priority 1), queued at level 1; level 0 is empty and no process
is running. -/
def exLowerOnly : kstate :=
  { ptable := fun i =>
      match i with
      | 0 => { state := procstate.SLEEPING, pid := 1, parent := none,
               chan := voidptr.addr 7, killed := 0, priority := 0 }
      | 1 => { state := procstate.RUNNABLE, pid := 2, parent := some 0,
               chan := voidptr.null, killed := 0, priority := 1 }
      | _ => unusedProc
    priorityTable := fun k =>
      match k with
      | 1 => { proc := fun c => if c = 0 then some 1 else none,
               head := 0, tail := 1, size := 1, priority := 1 }
      | k => emptyQueue k
    initproc := some 0
    nextpid := 3
    cur := none }

/-! ## Lemmas on circular indices -/

theorem tmod_succ_cast (t C : Nat) : ((t : Int) + 1).tmod (C : Int) = (((t + 1) % C : Nat) : Int) := by
  have h := Int.ofNat_tmod (t + 1) C
  push_cast at h ⊢
  exact h.symm

theorem mod_ne_of_lt_of_lt_add {a b C : Nat} (hab : a < b) (hb : b < a + C) : a % C ≠ b % C := by
  intro h
  have h1 : (b - a) % C = 0 := Nat.sub_mod_eq_zero_of_mod_eq h.symm
  have h2 : C ∣ b - a := Nat.dvd_of_mod_eq_zero h1
  have h3 := Nat.le_of_dvd (by omega) h2
  omega

theorem Rep_initialQueue (P : Params) (hC : 0 < P.QUEUE_CAPACITY) (cells : Nat → procptr)
    (i : Int) : Rep P (initialQueue cells i) [] := by
  refine ⟨0, rfl, hC, ?_, rfl, Nat.zero_le _, ?_⟩
  · simp [initialQueue]
  · intro k x h; simp at h

theorem Rep_enqueue {P : Params} {q : processQueue} {l : List Nat} (hr : Rep P q l)
    (hlt : l.length < P.QUEUE_CAPACITY) (i : Nat) :
    ∃ q', EnqueueProcess P q (some i) = some (q', 0) ∧ Rep P q' (l ++ [i]) := by
  obtain ⟨h, hh, hhC, ht, hs, hle, hc⟩ := hr
  have hC : 0 < P.QUEUE_CAPACITY := by omega
  have htl : (h + l.length) % P.QUEUE_CAPACITY < P.QUEUE_CAPACITY := Nat.mod_lt _ hC
  have hnf : ¬ IsQueueFull P q := by
    unfold IsQueueFull; rw [hs]; omega
  have hw : qwrite P q q.tail (some i) =
      some { q with proc := Function.update q.proc ((h + l.length) % P.QUEUE_CAPACITY) (some i) } := by
    unfold qwrite
    rw [ht, if_pos ⟨by omega, by exact_mod_cast htl⟩, Int.toNat_ofNat]
  refine ⟨{ q with proc := Function.update q.proc ((h + l.length) % P.QUEUE_CAPACITY) (some i),
                    tail := (q.tail + 1).tmod P.QUEUE_CAPACITY, size := q.size + 1 }, ?_, ?_⟩
  · unfold EnqueueProcess
    rw [if_pos hnf, hw]; rfl
  · refine ⟨h, hh, hhC, ?_, ?_, ?_, ?_⟩
    · show (q.tail + 1).tmod _ = _
      rw [ht, tmod_succ_cast]
      simp [Nat.add_assoc]
    · show q.size + 1 = _
      rw [hs]; simp
    · simp; omega
    · intro k x hk
      show Function.update q.proc _ (some i) _ = some x
      by_cases hkl : k < l.length
      · rw [List.getElem?_append_left hkl] at hk
        rw [Function.update_noteq (mod_ne_of_lt_of_lt_add (by omega) (by omega))]
        exact hc k x hk
      · have hk2 : k = l.length := by
          by_contra hne
          have : (l ++ [i])[k]? = none := by
            apply List.getElem?_eq_none; simp; omega
          rw [this] at hk; cases hk
        subst hk2
        simp at hk
        subst hk
        simp

theorem Rep_enqueue_full {P : Params} {q : processQueue} {l : List Nat} (hr : Rep P q l)
    (hlt : ¬ l.length < P.QUEUE_CAPACITY) (i : procptr) :
    EnqueueProcess P q i = some (q, -1) := by
  obtain ⟨h, hh, hhC, ht, hs, hle, hc⟩ := hr
  have hf : IsQueueFull P q := by
    unfold IsQueueFull; rw [hs]; omega
  unfold EnqueueProcess
  rw [if_neg (not_not.mpr hf)]

theorem Rep_dequeue_nil {P : Params} {q : processQueue} (hr : Rep P q []) :
    DequeueProcess P q = some (q, none) := by
  obtain ⟨h, hh, hhC, ht, hs, hle, hc⟩ := hr
  have he : IsQueueEmpty q := by
    unfold IsQueueEmpty; rw [hs]; simp
  unfold DequeueProcess
  rw [if_neg (not_not.mpr he)]

theorem Rep_dequeue_cons {P : Params} {q : processQueue} {x : Nat} {l : List Nat}
    (hr : Rep P q (x :: l)) :
    ∃ q', DequeueProcess P q = some (q', some x) ∧ Rep P q' l := by
  obtain ⟨h, hh, hhC, ht, hs, hle, hc⟩ := hr
  have hC : 0 < P.QUEUE_CAPACITY := by omega
  have hne : ¬ IsQueueEmpty q := by
    unfold IsQueueEmpty; rw [hs]; simp
  have hx : q.proc h = some x := by
    have := hc 0 x (by simp)
    rwa [Nat.add_zero, Nat.mod_eq_of_lt hhC] at this
  have hrd : qread P q q.head = some (some x) := by
    unfold qread
    rw [hh, if_pos ⟨by omega, by exact_mod_cast hhC⟩, Int.toNat_ofNat, hx]
  refine ⟨{ q with head := (q.head + 1).tmod P.QUEUE_CAPACITY, size := q.size - 1 }, ?_, ?_⟩
  · unfold DequeueProcess
    rw [if_pos hne, hrd]; rfl
  · refine ⟨(h + 1) % P.QUEUE_CAPACITY, ?_, Nat.mod_lt _ hC, ?_, ?_, ?_, ?_⟩
    · show (q.head + 1).tmod _ = _
      rw [hh, tmod_succ_cast]
    · show q.tail = _
      rw [ht]; simp [Nat.add_assoc, Nat.add_comm 1]
    · show q.size - 1 = _
      rw [hs]; simp
    · simp at hle; omega
    · intro k y hk
      show q.proc _ = some y
      have := hc (k + 1) y (by simpa using hk)
      rw [Nat.mod_add_mod]
      rwa [show h + (k + 1) = h + 1 + k by omega] at this

theorem fifoRun_length (C : Nat) (ops : List QueueOp) : ∀ l : List Nat,
    (((fifoRun C l ops).1.length : Nat) : Int) =
      (l.length : Int) + enqueuesDone (fifoRun C l ops).2 - dequeuesDone (fifoRun C l ops).2 := by
  induction ops with
  | nil => intro l; simp [fifoRun, enqueuesDone, dequeuesDone]
  | cons op ops ih =>
    intro l
    cases op with
    | enqueue i =>
      by_cases hlt : l.length < C
      · have := ih (l ++ [i])
        simp only [fifoRun, if_pos hlt]
        simp [enqueuesDone, dequeuesDone] at this ⊢
        rw [this]; ring
      · have := ih l
        simp only [fifoRun, if_neg hlt]
        simp [enqueuesDone, dequeuesDone] at this ⊢
        rw [this]
    | dequeue =>
      cases l with
      | nil =>
        have := ih []
        simp only [fifoRun]
        simp [enqueuesDone, dequeuesDone] at this ⊢
        rw [this]
      | cons x l =>
        have := ih l
        simp only [fifoRun]
        simp [enqueuesDone, dequeuesDone] at this ⊢
        rw [this]; ring

theorem runQueueOps_refines (P : Params) (ops : List QueueOp) :
    ∀ (q : processQueue) (l : List Nat), Rep P q l →
      ∃ q', runQueueOps P q ops = some (q', (fifoRun P.QUEUE_CAPACITY l ops).2) ∧
        Rep P q' (fifoRun P.QUEUE_CAPACITY l ops).1 := by
  induction ops with
  | nil => intro q l hr; exact ⟨q, by simp [runQueueOps, fifoRun], by simpa [fifoRun] using hr⟩
  | cons op ops ih =>
    intro q l hr
    cases op with
    | enqueue i =>
      by_cases hlt : l.length < P.QUEUE_CAPACITY
      · obtain ⟨q1, he, hr1⟩ := Rep_enqueue hr hlt i
        obtain ⟨q2, hrun, hr2⟩ := ih q1 _ hr1
        refine ⟨q2, ?_, ?_⟩
        · simp only [runQueueOps, he, Option.some_bind, hrun, fifoRun, if_pos hlt, Option.map_some']
        · simpa only [fifoRun, if_pos hlt] using hr2
      · have he := Rep_enqueue_full hr hlt (some i)
        obtain ⟨q2, hrun, hr2⟩ := ih q l hr
        refine ⟨q2, ?_, ?_⟩
        · simp only [runQueueOps, he, Option.some_bind, hrun, fifoRun, if_neg hlt, Option.map_some']
        · simpa only [fifoRun, if_neg hlt] using hr2
    | dequeue =>
      cases l with
      | nil =>
        have he := Rep_dequeue_nil hr
        obtain ⟨q2, hrun, hr2⟩ := ih q [] hr
        refine ⟨q2, ?_, ?_⟩
        · simp only [runQueueOps, he, Option.some_bind, hrun, fifoRun, Option.map_some']
        · simpa only [fifoRun] using hr2
      | cons x l =>
        obtain ⟨q1, he, hr1⟩ := Rep_dequeue_cons hr
        obtain ⟨q2, hrun, hr2⟩ := ih q1 l hr1
        refine ⟨q2, ?_, ?_⟩
        · simp only [runQueueOps, he, Option.some_bind, hrun, fifoRun, Option.map_some']
        · simpa only [fifoRun] using hr2

/-- C1: every sequence of `EnqueueProcess` and `DequeueProcess` calls on the
initialised empty queue returns exactly what the bounded FIFO list returns
(each dequeue the oldest process still queued, or null when none is), and the
final `size` is the number of enqueues that succeeded minus the number of
dequeues that returned a process. -/
theorem queue_is_bounded_fifo (P : Params) (hC : 0 < P.QUEUE_CAPACITY)
    (cells : Nat → procptr) (i : Int) (ops : List QueueOp) :
    ∃ q', runQueueOps P (initialQueue cells i) ops
          = some (q', (fifoRun P.QUEUE_CAPACITY [] ops).2) ∧
      q'.size = (enqueuesDone (fifoRun P.QUEUE_CAPACITY [] ops).2 : Int)
                - dequeuesDone (fifoRun P.QUEUE_CAPACITY [] ops).2 := by
  obtain ⟨q', hrun, hr⟩ := runQueueOps_refines P ops _ [] (Rep_initialQueue P hC cells i)
  refine ⟨q', hrun, ?_⟩
  obtain ⟨h, _, _, _, hs, _, _⟩ := hr
  rw [hs, fifoRun_length]; simp

theorem queue_is_bounded_fifo_witness :
    ∃ q', runQueueOps ⟨4, 2, 3⟩ (initialQueue (fun _ => none) 0)
            [QueueOp.enqueue 1, QueueOp.enqueue 2, QueueOp.enqueue 3, QueueOp.dequeue,
             QueueOp.enqueue 0, QueueOp.dequeue, QueueOp.dequeue, QueueOp.dequeue]
          = some (q', [QueueOut.code 0, QueueOut.code 0, QueueOut.code (-1),
                       QueueOut.ptr (some 1), QueueOut.code 0, QueueOut.ptr (some 2),
                       QueueOut.ptr (some 0), QueueOut.ptr none]) ∧
      q'.size = 0 :=
  queue_is_bounded_fifo ⟨4, 2, 3⟩ (by decide) (fun _ => none) 0
    [QueueOp.enqueue 1, QueueOp.enqueue 2, QueueOp.enqueue 3, QueueOp.dequeue,
     QueueOp.enqueue 0, QueueOp.dequeue, QueueOp.dequeue, QueueOp.dequeue]

/-! ## C9: a full queue rejects an enqueue -/

theorem EnqueueProcess_full (P : Params) (q : processQueue) (process : procptr)
    (hfull : IsQueueFull P q) : EnqueueProcess P q process = some (q, -1) := by
  unfold EnqueueProcess
  rw [if_neg (not_not.mpr hfull)]

theorem fifoRun_overflow (C : Nat) : ∀ (ps l : List Nat), l.length + ps.length = C + 1 →
    ps ≠ [] →
    fifoRun C l (ps.map QueueOp.enqueue)
      = (l ++ ps.dropLast,
         List.replicate (ps.length - 1) (QueueOut.code 0) ++ [QueueOut.code (-1)]) := by
  intro ps
  induction ps with
  | nil => intro l _ h; exact absurd rfl h
  | cons x rest ih =>
    intro l hlen _
    cases rest with
    | nil =>
      have hnl : ¬ l.length < C := by simp at hlen; omega
      simp [fifoRun, hnl]
    | cons y rest =>
      have hl : l.length < C := by simp at hlen; omega
      have := ih (l ++ [x]) (by simp at hlen ⊢; omega) (by simp)
      simp only [List.map_cons, fifoRun, if_pos hl] at this ⊢
      rw [this]
      simp [List.replicate_succ]

/-- C9: `EnqueueProcess` on a queue that holds `QUEUE_CAPACITY` entries returns
-1 and leaves the queue as it was; and enqueuing `QUEUE_CAPACITY + 1`
processes into the initialised empty queue returns 0 for the first
`QUEUE_CAPACITY` of them, -1 for the last, and ends with `size` equal to
`QUEUE_CAPACITY`. -/
theorem enqueue_on_full_queue_fails (P : Params) (q : processQueue) (process : procptr)
    (cells : Nat → procptr) (i : Int) (ps : List Nat)
    (hfull : q.size = (P.QUEUE_CAPACITY : Int))
    (hlen : ps.length = P.QUEUE_CAPACITY + 1) :
    EnqueueProcess P q process = some (q, -1) ∧
    ∃ q', runQueueOps P (initialQueue cells i) (ps.map QueueOp.enqueue)
            = some (q', List.replicate P.QUEUE_CAPACITY (QueueOut.code 0)
                          ++ [QueueOut.code (-1)]) ∧
          q'.size = (P.QUEUE_CAPACITY : Int) := by
  refine ⟨EnqueueProcess_full P q process (by unfold IsQueueFull; omega), ?_⟩
  have hne : ps ≠ [] := by intro h; rw [h] at hlen; simp at hlen
  rcases Nat.eq_zero_or_pos P.QUEUE_CAPACITY with hC | hC
  · match ps, hlen with
    | [x], _ =>
      refine ⟨initialQueue cells i, ?_, ?_⟩
      · have hf : IsQueueFull P (initialQueue cells i) := by
          unfold IsQueueFull; simp [initialQueue, hC]
        simp [runQueueOps, EnqueueProcess_full P _ _ hf, hC]
      · simp [initialQueue, hC]
    | [], h => simp at h
    | _ :: _ :: _, h => simp at h; omega
  · obtain ⟨q', hrun, hr⟩ :=
      runQueueOps_refines P (ps.map QueueOp.enqueue) _ [] (Rep_initialQueue P hC cells i)
    rw [fifoRun_overflow P.QUEUE_CAPACITY ps [] (by simpa using hlen) hne] at hrun hr
    refine ⟨q', ?_, ?_⟩
    · rw [hrun, hlen]; simp
    · obtain ⟨h, _, _, _, hs, _, _⟩ := hr
      rw [hs]; simp [hlen]

theorem enqueue_on_full_queue_fails_witness :
    EnqueueProcess ⟨4, 2, 3⟩
        { proc := fun _ => some 1, head := 1, tail := 1, size := 2, priority := 0 } (some 3)
      = some ({ proc := fun _ => some 1, head := 1, tail := 1, size := 2, priority := 0 }, -1) ∧
    ∃ q', runQueueOps ⟨4, 2, 3⟩ (initialQueue (fun _ => none) 0)
            ([0, 1, 2].map QueueOp.enqueue)
            = some (q', List.replicate 2 (QueueOut.code 0) ++ [QueueOut.code (-1)]) ∧
          q'.size = 2 :=
  enqueue_on_full_queue_fails ⟨4, 2, 3⟩
    { proc := fun _ => some 1, head := 1, tail := 1, size := 2, priority := 0 } (some 3)
    (fun _ => none) 0 [0, 1, 2] rfl rfl

/-! ## C7 and C8: the parent floor of `setprioritybypid` and `nice` -/

theorem find?_eq_some_of_unique {p : Nat → Bool} {i : Nat} :
    ∀ {l : List Nat}, i ∈ l → p i = true → (∀ k ∈ l, p k = true → k = i) →
      l.find? p = some i := by
  intro l
  induction l with
  | nil => intro h; simp at h
  | cons a l ih =>
    intro hmem hp huniq
    by_cases hpa : p a = true
    · have : a = i := huniq a (by simp) hpa
      subst this
      simp [List.find?, hpa]
    · have hne : a ≠ i := by intro h; subst h; exact hpa hp
      have hmem2 : i ∈ l := by
        rcases List.mem_cons.mp hmem with h | h
        · exact absurd h.symm hne
        · exact h
      have hpa2 : p a = false := by simpa using hpa
      simp only [List.find?, hpa2]
      exact ih hmem2 hp fun k hk => huniq k (List.mem_cons_of_mem _ hk)

theorem findprocesswithpid_eq_some (P : Params) (s : kstate) (pid : Int) (i : Nat)
    (hi : i < P.NPROC) (hlive : (s.ptable i).state ≠ procstate.UNUSED)
    (hpid : (s.ptable i).pid = pid)
    (huniq : ∀ k, k < P.NPROC → (s.ptable k).state ≠ procstate.UNUSED →
      (s.ptable k).pid = pid → k = i) :
    findprocesswithpid P s pid = some i := by
  unfold findprocesswithpid
  apply find?_eq_some_of_unique (List.mem_range.mpr hi)
  · simp [hlive, hpid]
  · intro k hk hpk
    simp at hpk
    exact huniq k (List.mem_range.mp hk) hpk.1 hpk.2

/-- C7: when `pid` names a live process (the only live one with that pid) that
has a parent, and the requested priority is numerically less than the parent's
priority, `setprioritybypid` returns -1 and the whole state, every priority
and every queue, is as before. -/
theorem setprioritybypid_below_parent_fails (P : Params) (lf fuel : Nat) (s : kstate)
    (pid priority : Int) (i j : Nat)
    (hi : i < P.NPROC) (hlive : (s.ptable i).state ≠ procstate.UNUSED)
    (hpid : (s.ptable i).pid = pid)
    (huniq : ∀ k, k < P.NPROC → (s.ptable k).state ≠ procstate.UNUSED →
      (s.ptable k).pid = pid → k = i)
    (hpar : (s.ptable i).parent = some j) (hj : j < P.NPROC)
    (hlt : priority < (s.ptable j).priority) :
    setprioritybypid P lf fuel s pid priority = some (s, -1) := by
  unfold setprioritybypid
  split
  · rfl
  · rw [findprocesswithpid_eq_some P s pid i hi hlive hpid huniq]
    simp only [hpar, slot, if_pos hj]
    rw [if_neg (by omega)]

theorem setprioritybypid_below_parent_fails_witness :
    setprioritybypid exParams 4 4 exFamily 3 0 = some (exFamily, -1) :=
  setprioritybypid_below_parent_fails exParams 4 4 exFamily 3 0 2 1
    (by decide) (by decide) (by decide)
    (by
      intro k hk
      have hk4 : k < 4 := hk
      interval_cases k <;> decide)
    rfl (by decide) (by decide)

/-- C8 (evaluation at the failing input): in `exFamily` the running process has
priority 1 and `PRIORITYLEVELS` is 3, so `nice(2)` asks for priority 3, which is
out of range; the test `newpriority > PRIORITYLEVELS` lets it through and `nice`
returns 0, not -1 (the state is unchanged). -/
theorem nice_accepts_priority_equal_to_levels :
    nice exParams 4 4 exFamily 2 = some (exFamily, 0) := by
  rfl

/-! ## C4: `wakeup` -/

theorem EnqueueProcess_tail (P : Params) (q : processQueue) (process : procptr)
    (h0 : 0 ≤ q.tail) (h1 : q.tail < P.QUEUE_CAPACITY) :
    ∃ r, EnqueueProcess P q process = some r ∧ 0 ≤ r.1.tail ∧ r.1.tail < P.QUEUE_CAPACITY := by
  unfold EnqueueProcess
  by_cases hf : IsQueueFull P q
  · rw [if_neg (not_not.mpr hf)]
    exact ⟨_, rfl, h0, h1⟩
  · rw [if_pos hf]
    unfold qwrite
    rw [if_pos ⟨h0, h1⟩]
    refine ⟨_, rfl, ?_, ?_⟩
    · exact Int.tmod_nonneg _ (by simp only; omega)
    · exact Int.tmod_lt_of_pos _ (by omega)

theorem level_cast (P : Params) (s : kstate) (k : Nat) (hk : k < P.PRIORITYLEVELS) :
    level P s (k : Int) = some (s.priorityTable k) := by
  unfold level
  rw [if_pos ⟨by omega, by exact_mod_cast hk⟩, Int.toNat_ofNat]

theorem level_eq_some {P : Params} {s : kstate} {k : Int} {q : processQueue}
    (h : level P s k = some q) :
    0 ≤ k ∧ k < P.PRIORITYLEVELS ∧ k.toNat < P.PRIORITYLEVELS ∧ q = s.priorityTable k.toNat := by
  unfold level at h
  split at h
  · rename_i hk
    refine ⟨hk.1, hk.2, ?_, ?_⟩
    · omega
    · cases h; rfl
  · cases h

theorem level_of_range (P : Params) (s : kstate) (k : Int) (h0 : 0 ≤ k)
    (h1 : k < P.PRIORITYLEVELS) : level P s k = some (s.priorityTable k.toNat) := by
  unfold level
  rw [if_pos ⟨h0, h1⟩]

theorem SetProcessRunnable_ok (P : Params) (s : kstate) (i : Nat) (hi : i < P.NPROC)
    (hp0 : 0 ≤ (s.ptable i).priority) (hp1 : (s.ptable i).priority < P.PRIORITYLEVELS)
    (ht : TailsInRange P s) :
    ∃ s', SetProcessRunnable P s i = some s' ∧
      s'.ptable = Function.update s.ptable i
        { s.ptable i with state := procstate.RUNNABLE } ∧
      TailsInRange P s' := by
  have hk : (s.ptable i).priority.toNat < P.PRIORITYLEVELS := by omega
  obtain ⟨r, hr, hr0, hr1⟩ :=
    EnqueueProcess_tail P (s.priorityTable (s.ptable i).priority.toNat) (some i)
      (ht _ hk).1 (ht _ hk).2
  refine ⟨setLevel (setSlot s i { s.ptable i with state := procstate.RUNNABLE })
      (s.ptable i).priority r.1, ?_, rfl, ?_⟩
  · unfold SetProcessRunnable InsertToPriorityTable
    simp only [slot, if_pos hi]
    rw [level_of_range P _ _ hp0 hp1]
    simp only [setSlot, hr, Option.map_some']
  · intro k hk'
    simp only [setLevel, setSlot]
    by_cases hkk : k = (s.ptable i).priority.toNat
    · subst hkk
      rw [Function.update_same]; exact ⟨hr0, hr1⟩
    · rw [Function.update_noteq hkk]; exact ht k hk'

theorem wakeup1Loop_spec (P : Params) (chan : voidptr) :
    ∀ (is : List Nat) (s : kstate), (∀ i ∈ is, i < P.NPROC) → is.Nodup →
      TailsInRange P s →
      (∀ i ∈ is, (s.ptable i).state = procstate.SLEEPING → (s.ptable i).chan = chan →
        0 ≤ (s.ptable i).priority ∧ (s.ptable i).priority < P.PRIORITYLEVELS) →
      ∃ s', wakeup1Loop P chan s is = some s' ∧ TailsInRange P s' ∧
        ∀ i, s'.ptable i =
          if i ∈ is ∧ (s.ptable i).state = procstate.SLEEPING ∧ (s.ptable i).chan = chan
          then { s.ptable i with state := procstate.RUNNABLE } else s.ptable i := by
  intro is
  induction is with
  | nil =>
    intro s _ _ ht _
    exact ⟨s, rfl, ht, by simp⟩
  | cons a rest ih =>
    intro s hlt hnd ht hprio
    have ha : a < P.NPROC := hlt a (by simp)
    have hnd2 := List.nodup_cons.mp hnd
    by_cases hsl : (s.ptable a).state = procstate.SLEEPING ∧ (s.ptable a).chan = chan
    · obtain ⟨hp0, hp1⟩ := hprio a (by simp) hsl.1 hsl.2
      obtain ⟨s1, hs1, hpt, ht1⟩ := SetProcessRunnable_ok P s a ha hp0 hp1 ht
      have hsame : ∀ i ∈ rest, s1.ptable i = s.ptable i := by
        intro i hi
        rw [hpt, Function.update_noteq]
        intro h; subst h; exact hnd2.1 hi
      obtain ⟨s2, hs2, ht2, hres⟩ := ih s1 (fun i hi => hlt i (List.mem_cons_of_mem _ hi))
        hnd2.2 ht1 (by
          intro i hi h1 h2
          rw [hsame i hi] at h1 h2 ⊢
          exact hprio i (List.mem_cons_of_mem _ hi) h1 h2)
      refine ⟨s2, ?_, ht2, ?_⟩
      · simp only [wakeup1Loop, slot, if_pos ha, if_pos hsl, hs1, hs2]
      · intro i
        rw [hres i]
        by_cases hia : i = a
        · subst hia
          simp [hnd2.1, hsl, hpt]
        · have : s1.ptable i = s.ptable i := by rw [hpt, Function.update_noteq hia]
          simp [this, hia]
    · obtain ⟨s2, hs2, ht2, hres⟩ := ih s (fun i hi => hlt i (List.mem_cons_of_mem _ hi))
        hnd2.2 ht (fun i hi => hprio i (List.mem_cons_of_mem _ hi))
      refine ⟨s2, ?_, ht2, ?_⟩
      · simp only [wakeup1Loop, slot, if_pos ha, if_neg hsl, hs2]
      · intro i
        rw [hres i]
        by_cases hia : i = a
        · subst hia
          simp [hnd2.1, hsl]
        · simp [hia]

/-- C4: on a table whose sleepers on `chan` have a priority in range and whose
queues have their tail inside the array, `wakeup(chan)` completes, every process
that was SLEEPING on `chan` is RUNNABLE afterwards, and every other process
keeps its state. -/
theorem wakeup_makes_sleepers_runnable (P : Params) (s : kstate) (chan : voidptr)
    (ht : TailsInRange P s)
    (hprio : ∀ i, i < P.NPROC → (s.ptable i).state = procstate.SLEEPING →
      (s.ptable i).chan = chan →
      0 ≤ (s.ptable i).priority ∧ (s.ptable i).priority < P.PRIORITYLEVELS) :
    ∃ s', wakeup P s chan = some s' ∧
      ∀ i, i < P.NPROC →
        (s'.ptable i).state =
          if (s.ptable i).state = procstate.SLEEPING ∧ (s.ptable i).chan = chan
          then procstate.RUNNABLE else (s.ptable i).state := by
  obtain ⟨s', hs', _, hres⟩ := wakeup1Loop_spec P chan (List.range P.NPROC) s
    (fun i hi => List.mem_range.mp hi) (List.nodup_range _) ht
    (fun i hi => hprio i (List.mem_range.mp hi))
  refine ⟨s', hs', ?_⟩
  intro i hi
  rw [hres i]
  by_cases hsl : (s.ptable i).state = procstate.SLEEPING ∧ (s.ptable i).chan = chan
  · simp [hsl, List.mem_range.mpr hi]
  · simp [hsl]

theorem wakeup_makes_sleepers_runnable_witness :
    ∃ s', wakeup exParams exFamily (voidptr.ofproc 0) = some s' ∧
      ∀ i, i < exParams.NPROC →
        (s'.ptable i).state =
          if (exFamily.ptable i).state = procstate.SLEEPING ∧
              (exFamily.ptable i).chan = voidptr.ofproc 0
          then procstate.RUNNABLE else (exFamily.ptable i).state :=
  wakeup_makes_sleepers_runnable exParams exFamily (voidptr.ofproc 0)
    (by
      intro k hk
      have hk3 : k < 3 := hk
      interval_cases k <;> decide)
    (by
      intro i hi
      have hi4 : i < 4 := hi
      interval_cases i <;> decide)

/-! ## C3: the level a scheduler iteration selects from -/

theorem removeitemfromqueueFrom_fields (P : Params) :
    ∀ (lf : Nat) (q : processQueue) (i : Int) (q' : processQueue),
      removeitemfromqueueFrom P lf q i = some q' →
      q'.head = q.head ∧ q'.tail = q.tail ∧ q'.size = q.size ∧ q'.priority = q.priority := by
  intro lf
  induction lf with
  | zero =>
    intro q i q' h
    simp only [removeitemfromqueueFrom] at h
    split at h
    · cases h; exact ⟨rfl, rfl, rfl, rfl⟩
    · cases h
  | succ n ih =>
    intro q i q' h
    simp only [removeitemfromqueueFrom] at h
    split at h
    · cases h; exact ⟨rfl, rfl, rfl, rfl⟩
    · split at h
      · cases h
      · split at h
        · cases h
        · rename_i q1 hw
          have hq1 : q1.head = q.head ∧ q1.tail = q.tail ∧ q1.size = q.size ∧
              q1.priority = q.priority := by
            unfold qwrite at hw
            split at hw
            · cases hw; exact ⟨rfl, rfl, rfl, rfl⟩
            · cases hw
          obtain ⟨h1, h2, h3, h4⟩ := ih q1 _ q' h
          exact ⟨h1.trans hq1.1, h2.trans hq1.2.1, h3.trans hq1.2.2.1, h4.trans hq1.2.2.2⟩

theorem removeitemfromqueue_fields (P : Params) (lf : Nat) (q : processQueue) (i : Int)
    (q' : processQueue) (h : removeitemfromqueue P lf q i = some q') :
    q'.head = q.head ∧ q'.tail = (q.tail - 1).tmod P.QUEUE_CAPACITY ∧ q'.size = q.size - 1 ∧
      q'.priority = q.priority := by
  unfold removeitemfromqueue at h
  cases hq1 : removeitemfromqueueFrom P lf q i with
  | none => rw [hq1] at h; cases h
  | some q1 =>
    rw [hq1] at h
    obtain ⟨h1, h2, h3, h4⟩ := removeitemfromqueueFrom_fields P lf q i q1 hq1
    cases h
    exact ⟨h1, by simp only [h2], by simp only [h3], h4⟩

theorem pruneQueueFrom_size (P : Params) (lf : Nat) (s : kstate) :
    ∀ (n : Nat) (q : processQueue) (j : Int) (q' : processQueue),
      pruneQueueFrom P lf s n q j = some q' → q'.size ≤ q.size := by
  intro n
  induction n with
  | zero =>
    intro q j q' h
    simp only [pruneQueueFrom] at h
    split at h
    · cases h; exact le_refl _
    · cases h
  | succ n ih =>
    intro q j q' h
    simp only [pruneQueueFrom] at h
    split at h
    · cases h; exact le_refl _
    · split at h
      · cases h
      · split at h
        · cases h
        · split at h
          · split at h
            · cases h
            · rename_i q1 hq1
              have h1 := (removeitemfromqueue_fields P lf q j q1 hq1).2.2.1
              have h2 := ih q1 j q' h
              omega
          · exact ih q _ q' h

theorem pruneLevels_size (P : Params) (lf : Nat) :
    ∀ (is : List Nat) (s s' : kstate), pruneLevels P lf s is = some s' →
      ∀ k : Nat, (s'.priorityTable k).size ≤ (s.priorityTable k).size := by
  intro is
  induction is with
  | nil =>
    intro s s' h k
    simp only [pruneLevels] at h
    cases h; exact le_refl _
  | cons a rest ih =>
    intro s s' h k
    simp only [pruneLevels] at h
    split at h
    · cases h
    · rename_i q hq
      split at h
      · cases h
      · rename_i q1 hq1
        have h1 := ih _ s' h k
        have h2 := pruneQueueFrom_size P lf s lf q q.head q1 hq1
        have hq' := (level_eq_some hq).2.2.2
        simp only [Int.toNat_ofNat] at hq'
        by_cases hka : k = a
        · subst hka
          simp only [setLevel, Int.toNat_ofNat, Function.update_same] at h1
          rw [hq'] at h2
          omega
        · simp only [setLevel, Int.toNat_ofNat, Function.update_noteq hka] at h1
          exact h1

theorem IsPriorityTableEmpty_cast (P : Params) (s : kstate) (k : Nat)
    (hk : k < P.PRIORITYLEVELS) :
    IsPriorityTableEmpty P s (k : Int) = some (decide (IsQueueEmpty (s.priorityTable k))) := by
  unfold IsPriorityTableEmpty
  rw [level_cast P s k hk]
  rfl

theorem higherLevelLoop_spec (P : Params) (s : kstate) :
    ∀ (is : List Nat) (b : Bool), higherLevelLoop P s is = some b →
      (b = true ↔ ∃ k ∈ is, ¬ IsQueueEmpty (s.priorityTable k)) := by
  intro is
  induction is with
  | nil =>
    intro b h
    unfold higherLevelLoop at h
    cases h
    simp
  | cons i rest ih =>
    intro b h
    unfold higherLevelLoop at h
    cases he : IsPriorityTableEmpty P s (i : Int) with
    | none => rw [he] at h; cases h
    | some e =>
      rw [he] at h
      simp only at h
      unfold IsPriorityTableEmpty at he
      cases hl : level P s (i : Int) with
      | none => rw [hl] at he; cases he
      | some q =>
        rw [hl] at he
        obtain ⟨_, _, _, hq⟩ := level_eq_some hl
        rw [Int.toNat_ofNat] at hq
        simp only [Option.map_some', Option.some.injEq] at he
        subst hq
        by_cases hemp : IsQueueEmpty (s.priorityTable i)
        · have et : e = true := by rw [← he]; exact decide_eq_true hemp
          subst et
          simp only [not_true_eq_false, if_false] at h
          rw [ih b h]
          constructor
          · rintro ⟨k, hk, hne⟩
            exact ⟨k, List.mem_cons_of_mem _ hk, hne⟩
          · rintro ⟨k, hk, hne⟩
            rcases List.mem_cons.mp hk with hki | hkr
            · subst hki; exact absurd hemp hne
            · exact ⟨k, hkr, hne⟩
        · have ef : e = false := by rw [← he]; exact decide_eq_false hemp
          subst ef
          simp only [Bool.false_eq_true, not_false_eq_true, if_true, Option.some.injEq] at h
          subst h
          simp only [true_iff]
          exact ⟨i, List.mem_cons_self _ _, hemp⟩

/-- C3 (as amended): an iteration that dispatches a process takes it from the
level of the cursor, as the entry `DequeueProcess` returns there after the
pruning, whatever the more-favoured levels hold; those levels are empty at
that moment whenever they were empty when the iteration began; and once the
process has switched back, the cursor is 0 if the queue of some more-favoured
level (index below the cursor) is not empty then, and is unchanged if all of
them are empty. -/
theorem scheduler_dispatches_from_cursor_level (P : Params) (lf : Nat)
    (run : kstate → Option kstate) (s : kstate) (c : Int) (s' : kstate) (c' : Int) (i : Nat)
    (hit : schedulerIteration P lf run s c = some (s', c', some i)) :
    ∃ s1 q r, checkqueuefornonrunnable P lf s = some s1 ∧ level P s1 c = some q ∧
      DequeueProcess P q = some (r, some i) ∧
      schedulerSelect P lf s c = some (setLevel s1 c r, some i) ∧
      ((∀ k : Nat, (k : Int) < c → IsQueueEmpty (s.priorityTable k)) →
        ∀ k : Nat, (k : Int) < c → IsQueueEmpty ((setLevel s1 c r).priorityTable k)) ∧
      ((∃ k : Nat, (k : Int) < c ∧ ¬ IsQueueEmpty (s'.priorityTable k)) → c' = 0) ∧
      ((∀ k : Nat, (k : Int) < c → IsQueueEmpty (s'.priorityTable k)) → c' = c) := by
  unfold schedulerIteration at hit
  split at hit
  · cases hit
  · cases hit
  · rename_i s2 i2 hsel
    split at hit
    · cases hit
    · rename_i s3 hs3
      split at hit
      · cases hit
      · rename_i s4 hs4
        split at hit
        · cases hit
        · rename_i hi hhi
          simp only [Option.some.injEq, Prod.mk.injEq] at hit
          obtain ⟨h1, h2, h3⟩ := hit
          subst h1 h3
          have hsel0 := hsel
          unfold schedulerSelect at hsel
          split at hsel
          · cases hsel
          · rename_i s1 hs1
            unfold GetNextRunnableProcess at hsel
            split at hsel
            · cases hsel
            · rename_i q hq
              cases hd : DequeueProcess P q with
              | none => rw [hd] at hsel; cases hsel
              | some rr =>
                rw [hd] at hsel
                simp only [Option.map_some', Option.some.injEq, Prod.mk.injEq] at hsel
                obtain ⟨e1, e2⟩ := hsel
                have hc0 := (level_eq_some hq).1
                unfold IsThereANoneEmptyHigherLevelPriorityTable at hhi
                have hspec := higherLevelLoop_spec P _ _ hi hhi
                have hiff : hi = true ↔
                    ∃ k : Nat, (k : Int) < c ∧
                      ¬ IsQueueEmpty (({ s4 with cur := none } : kstate).priorityTable k) := by
                  rw [hspec]
                  constructor
                  · rintro ⟨k, hk, hne⟩
                    rw [List.mem_range] at hk
                    exact ⟨k, by omega, hne⟩
                  · rintro ⟨k, hk, hne⟩
                    exact ⟨k, List.mem_range.mpr (by omega), hne⟩
                refine ⟨s1, q, rr.1, hs1, hq, ?_, ?_, ?_, ?_, ?_⟩
                · rw [← e2]; exact hd
                · rw [hsel0, e1]
                · intro hempty k hk
                  have hne : k ≠ c.toNat := by omega
                  simp only [setLevel, Function.update_noteq hne]
                  have := pruneLevels_size P lf _ s s1 hs1 k
                  have := hempty k hk
                  unfold IsQueueEmpty at this ⊢
                  omega
                · intro hex
                  rw [← h2, if_pos (hiff.mpr hex)]
                · intro hall
                  have : hi = false := by
                    cases hi with
                    | false => rfl
                    | true =>
                      obtain ⟨k, hk, hne⟩ := hiff.mp rfl
                      exact absurd (hall k hk) hne
                  rw [← h2, this]; rfl

theorem scheduler_dispatches_from_cursor_level_witness :
    (∃ s', schedulerIteration exParams 4 (yield exParams) exTwoLevels 1 = some (s', 0, some 1) ∧
      ¬ IsQueueEmpty (s'.priorityTable 0)) ∧
    (∃ s1 r s', schedulerSelect exParams 4 exLowerOnly 1 = some (setLevel s1 1 r, some 1) ∧
      IsQueueEmpty ((setLevel s1 1 r).priorityTable 0) ∧
      schedulerIteration exParams 4 (yield exParams) exLowerOnly 1 = some (s', 1, some 1) ∧
      IsQueueEmpty (s'.priorityTable 0)) := by
  have hA : ∃ s' c', schedulerIteration exParams 4 (yield exParams) exTwoLevels 1
      = some (s', c', some 1) ∧ ¬ IsQueueEmpty (s'.priorityTable 0) := ⟨_, _, rfl, by decide⟩
  have hB : ∃ s' c', schedulerIteration exParams 4 (yield exParams) exLowerOnly 1
      = some (s', c', some 1) ∧ IsQueueEmpty (s'.priorityTable 0) := ⟨_, _, rfl, by decide⟩
  obtain ⟨sa, ca, a1, a2⟩ := hA
  obtain ⟨sb, cb, b1, b2⟩ := hB
  obtain ⟨_, _, _, _, _, _, _, _, ta, _⟩ :=
    scheduler_dispatches_from_cursor_level exParams 4 (yield exParams) exTwoLevels 1 sa ca 1 a1
  obtain ⟨s1, _, r, _, _, _, w4, tb2, _, tb⟩ :=
    scheduler_dispatches_from_cursor_level exParams 4 (yield exParams) exLowerOnly 1 sb cb 1 b1
  have hca : ca = 0 := ta ⟨0, by decide, a2⟩
  have hcb : cb = 1 := tb (fun k hk => by
    have hk0 : k = 0 := by omega
    subst hk0; exact b2)
  subst hca; subst hcb
  have hstart : ∀ k : Nat, (k : Int) < 1 → IsQueueEmpty (exLowerOnly.priorityTable k) := by
    intro k hk
    have hk0 : k = 0 := by omega
    subst hk0; decide
  exact ⟨⟨sa, a1, a2⟩, ⟨s1, r, sb, w4, tb2 hstart 0 (by decide), b1, b2⟩⟩

/-- C3 (counterexample): with the cursor at level 1 and a process queued at
level 0 and another at level 1, the selection takes the process of level 1
while level 0 is not empty. -/
theorem strict_priority_at_selection_fails : ¬ StrictPriorityAtSelection exParams 4 := by
  intro h
  have hsel : ∃ s2, schedulerSelect exParams 4 exTwoLevels 1 = some (s2, some 1) ∧
      (s2.priorityTable 0).size = 1 := ⟨_, rfl, rfl⟩
  obtain ⟨s2, h1, h2⟩ := hsel
  have := h exTwoLevels 1 s2 1 h1 0 (by decide)
  unfold IsQueueEmpty at this
  omega

/-! ## C10: starvation of the lower levels -/

theorem pruneQueueFrom_runnable (P : Params) (lf : Nat) (s : kstate) (q : processQueue)
    (l : List Nat) (hr : Rep P q l)
    (hl : ∀ x ∈ l, x < P.NPROC ∧ (s.ptable x).state = procstate.RUNNABLE) :
    ∀ (n k : Nat) (h : Nat), q.head = (h : Int) → k ≤ l.length → l.length ≤ n + k →
      pruneQueueFrom P lf s n q (((h + k) % P.QUEUE_CAPACITY : Nat) : Int) = some q := by
  obtain ⟨h0, hh0, hhC, ht, hs, hle, hc⟩ := hr
  have hC : 0 < P.QUEUE_CAPACITY := by omega
  intro n
  induction n with
  | zero =>
    intro k h hh hk hn
    have hkl : k = l.length := by omega
    have hhh : h = h0 := by rw [hh0] at hh; exact_mod_cast hh.symm
    subst hkl hhh
    simp only [pruneQueueFrom]
    rw [if_pos ht.symm]
  | succ n ih =>
    intro k h hh hk hn
    have hhh : h = h0 := by rw [hh0] at hh; exact_mod_cast hh.symm
    subst hhh
    simp only [pruneQueueFrom]
    by_cases hj : (((h + k) % P.QUEUE_CAPACITY : Nat) : Int) = q.tail
    · rw [if_pos hj]
    · rw [if_neg hj]
      have hklt : k < l.length := by
        rcases Nat.lt_or_ge k l.length with h1 | h1
        · exact h1
        · exfalso; apply hj
          have : k = l.length := by omega
          rw [this, ht]
      have hx := hc k (l[k]) (by simp [hklt])
      have hmem : l[k] ∈ l := List.getElem_mem hklt
      obtain ⟨hxn, hxs⟩ := hl _ hmem
      have hlt : (h + k) % P.QUEUE_CAPACITY < P.QUEUE_CAPACITY := Nat.mod_lt _ hC
      have hrd : qread P q (((h + k) % P.QUEUE_CAPACITY : Nat) : Int) = some (some l[k]) := by
        unfold qread
        rw [if_pos ⟨by omega, by exact_mod_cast hlt⟩, Int.toNat_ofNat, hx]
      rw [hrd]
      simp only [deref, slot, if_pos hxn, hxs, ne_eq, not_true_eq_false, if_false]
      rw [tmod_succ_cast, Nat.mod_add_mod]
      exact ih (k + 1) h hh (by omega) (by omega)

theorem pruneLevels_runnable (P : Params) (lf : Nat) (s : kstate)
    (hq : ∀ k, k < P.PRIORITYLEVELS → ∃ l : List Nat, Rep P (s.priorityTable k) l ∧
      l.length ≤ lf ∧ ∀ x ∈ l, x < P.NPROC ∧ (s.ptable x).state = procstate.RUNNABLE) :
    ∀ is : List Nat, (∀ i ∈ is, i < P.PRIORITYLEVELS) → pruneLevels P lf s is = some s := by
  intro is
  induction is with
  | nil => intro _; rfl
  | cons a rest ih =>
    intro hlt
    have ha := hlt a (by simp)
    obtain ⟨l, hr, hlen, hl⟩ := hq a ha
    obtain ⟨h, hh, hhC, _⟩ := id hr
    have hp := pruneQueueFrom_runnable P lf s _ l hr hl lf 0 h hh (Nat.zero_le _) (by omega)
    rw [Nat.add_zero, Nat.mod_eq_of_lt hhC, ← hh] at hp
    simp only [pruneLevels, level_cast P s a ha, hp]
    have : setLevel s (a : Int) (s.priorityTable a) = s := by
      simp only [setLevel, Int.toNat_ofNat, Function.update_eq_self]
    rw [this]
    exact ih fun i hi => hlt i (List.mem_cons_of_mem _ hi)

theorem proc_with_state_self (p : proc) (st : procstate) (h : p.state = st) :
    { p with state := st } = p := by
  cases p; simp only at h; subst h; rfl

theorem starvation_iteration (P : Params) (lf : Nat) (run : kstate → Option kstate)
    (s : kstate) (p0 p1 p2 : Nat) (hlf : 1 ≤ lf) (hst : StarvationState P s p0 p1 p2)
    (hrun : ∀ t : kstate, t.cur = some p0 → run t = yield P t) :
    ∃ s', schedulerIteration P lf run s 0 = some (s', 0, some p0) ∧
      StarvationState P s' p0 p1 p2 := by
  obtain ⟨hPL, hp0, hp1, hp2, hs0, hpr0, hs1, hpr1, hs2, hpr2, hr0, hr1, hr2, hrest, hcur⟩ :=
    hst
  have hne01 : p1 ≠ p0 := by intro h; rw [h, hpr0] at hpr1; cases hpr1
  have hne02 : p2 ≠ p0 := by intro h; rw [h, hpr0] at hpr2; cases hpr2
  -- pruning changes nothing
  have hprune : checkqueuefornonrunnable P lf s = some s := by
    unfold checkqueuefornonrunnable
    apply pruneLevels_runnable P lf s _ _ (fun i hi => List.mem_range.mp hi)
    intro k hk
    match k, hk with
    | 0, _ => exact ⟨[p0], hr0, by simpa using hlf, by simp [hp0, hs0]⟩
    | 1, _ => exact ⟨[p1], hr1, by simpa using hlf, by simp [hp1, hs1]⟩
    | 2, _ => exact ⟨[p2], hr2, by simpa using hlf, by simp [hp2, hs2]⟩
    | k + 3, hk => exact ⟨[], hrest (k + 3) (by omega) hk, by simp, by simp⟩
  -- the dequeue at level 0
  obtain ⟨q1, hdq, hrq1⟩ := Rep_dequeue_cons hr0
  have hlev0 : ∀ t : kstate, level P t 0 = some (t.priorityTable 0) := fun t =>
    level_cast P t 0 (by omega)
  have hsel : schedulerSelect P lf s 0 = some (setLevel s 0 q1, some p0) := by
    simp only [schedulerSelect, hprune, GetNextRunnableProcess, hlev0, hdq, Option.map_some']
  -- the switch into p0 and its yield
  obtain ⟨q2, henq, hrq2⟩ := Rep_enqueue hrq1 (by
    obtain ⟨h, _, hhC, _⟩ := hr0
    simp only [List.length_nil]; omega) p0
  let s5 : kstate :=
    { ptable := s.ptable, priorityTable := Function.update s.priorityTable 0 q2,
      initproc := s.initproc, nextpid := s.nextpid, cur := none }
  have hpt :
      ({ state := procstate.RUNNABLE, pid := (s.ptable p0).pid,
         parent := (s.ptable p0).parent, chan := (s.ptable p0).chan,
         killed := (s.ptable p0).killed, priority := 0 } : proc) = s.ptable p0 := by
    rw [← hpr0, ← hs0]
  have hqt : Function.update (Function.update s.priorityTable 0 q1) 0 q2
      = Function.update s.priorityTable 0 q2 := Function.update_idem _ _ _
  refine ⟨s5, ?_, ?_⟩
  · have hyield : yield P { setSlot (setLevel s 0 q1) p0
          { s.ptable p0 with state := procstate.RUNNING } with cur := some p0 }
        = some { s5 with cur := some p0 } := by
      simp only [yield, SetProcessRunnable, slot, if_pos hp0, setSlot, setLevel,
        Function.update_same, InsertToPriorityTable, hpr0, hlev0, Int.toNat_zero, henq,
        Option.map_some', Function.update_idem, hpt, Function.update_eq_self, hqt, s5]
    simp only [schedulerIteration, hsel, SwitchToProccess, slot, if_pos hp0,
      Option.map_some']
    rw [show (setLevel s 0 q1).ptable p0 = s.ptable p0 from rfl, hrun _ rfl, hyield]
    simp only [IsThereANoneEmptyHigherLevelPriorityTable, Int.toNat_zero, List.range_zero,
      higherLevelLoop]
    rfl
  · refine ⟨hPL, hp0, hp1, hp2, hs0, hpr0, hs1, hpr1, hs2, hpr2, ?_, ?_, ?_, ?_, rfl⟩
    · show Rep P (Function.update s.priorityTable 0 q2 0) [p0]
      rw [Function.update_same]; simpa using hrq2
    · show Rep P (Function.update s.priorityTable 0 q2 1) [p1]
      rw [Function.update_noteq (by decide)]; exact hr1
    · show Rep P (Function.update s.priorityTable 0 q2 2) [p2]
      rw [Function.update_noteq (by decide)]; exact hr2
    · intro k hk3 hk
      show Rep P (Function.update s.priorityTable 0 q2 k) []
      rw [Function.update_noteq (by omega)]; exact hrest k hk3 hk

/-- C10: from a state with three runnable processes queued at priorities 0, 1
and 2 and the cursor at 0, when the priority-0 process yields each time it is
dispatched, `n` iterations of the scheduler loop complete for every `n` and
each of them dispatches the priority-0 process: the processes of priority 1
and 2 are never dispatched. -/
theorem lower_levels_starve (P : Params) (lf : Nat) (run : kstate → Option kstate)
    (s : kstate) (p0 p1 p2 : Nat) (hlf : 1 ≤ lf) (hst : StarvationState P s p0 p1 p2)
    (hrun : ∀ t : kstate, t.cur = some p0 → run t = yield P t) (n : Nat) :
    ∃ s' ds, schedulerRun P lf run n s 0 = some (s', 0, ds) ∧
      ds = List.replicate n p0 ∧ p1 ∉ ds ∧ p2 ∉ ds := by
  have hne01 : p1 ≠ p0 := by
    intro h; have h1 := hst.2.2.2.2.2.1; have h2 := hst.2.2.2.2.2.2.2.1
    rw [h, h1] at h2; cases h2
  have hne02 : p2 ≠ p0 := by
    intro h; have h1 := hst.2.2.2.2.2.1; have h2 := hst.2.2.2.2.2.2.2.2.2.1
    rw [h, h1] at h2; cases h2
  have key : ∀ (n : Nat) (s : kstate), StarvationState P s p0 p1 p2 →
      ∃ s', schedulerRun P lf run n s 0 = some (s', 0, List.replicate n p0) := by
    intro n
    induction n with
    | zero => intro s _; exact ⟨s, rfl⟩
    | succ n ih =>
      intro s hs
      obtain ⟨s1, hit, hs1⟩ := starvation_iteration P lf run s p0 p1 p2 hlf hs hrun
      obtain ⟨s2, hrest⟩ := ih s1 hs1
      exact ⟨s2, by simp only [schedulerRun, hit, hrest, List.replicate_succ]⟩
  obtain ⟨s', hs'⟩ := key n s hst
  refine ⟨s', _, hs', rfl, ?_, ?_⟩
  · intro hmem; exact hne01 (List.eq_of_mem_replicate hmem)
  · intro hmem; exact hne02 (List.eq_of_mem_replicate hmem)

theorem Rep_singleton (P : Params) (q : processQueue) (h x : Nat) (hh : q.head = (h : Int))
    (hC : h < P.QUEUE_CAPACITY)
    (ht : q.tail = (((h + 1) % P.QUEUE_CAPACITY : Nat) : Int)) (hs : q.size = 1)
    (hx : q.proc h = some x) : Rep P q [x] := by
  refine ⟨h, hh, hC, ht, by simpa using hs, by simp only [List.length_singleton]; omega, ?_⟩
  intro k y hk
  match k, hk with
  | 0, hk =>
    simp only [List.getElem?_cons_zero, Option.some.injEq] at hk
    subst hk
    rw [Nat.add_zero, Nat.mod_eq_of_lt hC]; exact hx
  | k + 1, hk => simp at hk

theorem Rep_empty (P : Params) (q : processQueue) (h : Nat) (hh : q.head = (h : Int))
    (hC : h < P.QUEUE_CAPACITY) (ht : q.tail = (h : Int)) (hs : q.size = 0) : Rep P q [] := by
  refine ⟨h, hh, hC, ?_, by simpa using hs, Nat.zero_le _, ?_⟩
  · rw [List.length_nil, Nat.add_zero, Nat.mod_eq_of_lt hC]; exact ht
  · intro k y hk; simp at hk

theorem lower_levels_starve_witness :
    ∃ s' ds, schedulerRun exParams 4 (yield exParams) 5 exThreeLevels 0 = some (s', 0, ds) ∧
      ds = List.replicate 5 0 ∧ 1 ∉ ds ∧ 2 ∉ ds :=
  lower_levels_starve exParams 4 (yield exParams) exThreeLevels 0 1 2 (by decide)
    ⟨by decide, by decide, by decide, by decide, rfl, rfl, rfl, rfl, rfl, rfl,
      Rep_singleton exParams _ 3 0 rfl (by decide) rfl rfl rfl,
      Rep_singleton exParams _ 0 1 rfl (by decide) rfl rfl rfl,
      Rep_singleton exParams _ 0 2 rfl (by decide) rfl rfl rfl,
      fun k hk3 hk => absurd hk (by
        have : exParams.PRIORITYLEVELS = 3 := rfl
        omega),
      rfl⟩
    (fun _ _ => rfl) 5

/-! ## The effect of `setpriority` on the process table -/

theorem moveToNewQueue_procs (P : Params) (lf : Nat) (s : kstate) (i : Nat) (n o : Int)
    (s' : kstate) (h : moveToNewQueue P lf s i n o = some s') :
    s'.ptable = s.ptable ∧ s'.initproc = s.initproc ∧ s'.nextpid = s.nextpid ∧
      s'.cur = s.cur := by
  unfold moveToNewQueue at h
  split at h
  · split at h
    · cases h
    · split at h
      · split at h
        · cases h
        · split at h
          · cases h
          · split at h
            · cases h
            · cases h; exact ⟨rfl, rfl, rfl, rfl⟩
      · cases h; exact ⟨rfl, rfl, rfl, rfl⟩
  · cases h

theorem SameButPriority.refl (T : Nat → proc) : SameButPriority T T :=
  fun _ => ⟨rfl, rfl, rfl, rfl, rfl⟩

theorem SameButPriority.chain {T1 T2 T3 : Nat → proc} (h1 : SameButPriority T1 T2)
    (h2 : SameButPriority T2 T3) : SameButPriority T1 T3 := by
  intro x
  obtain ⟨a1, a2, a3, a4, a5⟩ := h1 x
  obtain ⟨b1, b2, b3, b4, b5⟩ := h2 x
  exact ⟨b1.trans a1, b2.trans a2, b3.trans a3, b4.trans a4, b5.trans a5⟩

theorem SameButPriority.update_priority (T : Nat → proc) (i : Nat) (v : Int) :
    SameButPriority T (Function.update T i { T i with priority := v }) := by
  intro x
  by_cases hx : x = i
  · subst hx; simp
  · simp [Function.update_noteq hx]

theorem TableOK.same {P : Params} {T T' : Nat → proc} {m : Nat → Nat}
    (h : TableOK P T m) (hs : SameButPriority T T') : TableOK P T' m where
  uniq a b ha hb hla hlb hp := by
    rw [(hs a).1] at hla; rw [(hs b).1] at hlb
    rw [(hs a).2.1, (hs b).2.1] at hp
    exact h.uniq a b ha hb hla hlb hp
  parent_live c j hc hp := by
    rw [(hs c).2.2.1] at hp
    rw [(hs j).1]
    exact h.parent_live c j hc hp
  child_live c j hc hp := by
    rw [(hs c).2.2.1] at hp
    rw [(hs c).1]
    exact h.child_live c j hc hp
  rank c j hc hp := by
    rw [(hs c).2.2.1] at hp
    exact h.rank c j hc hp

/-- A call on the table only: the frame of the recursion of `setpriority`. -/
theorem setpriorityforchildrenLoop_frame (P : Params)
    (call : kstate → Nat → Int → Option kstate) (parentpid diff : Int)
    (hcall : ∀ s c n s', call s c n = some s' → SameButPriority s.ptable s'.ptable ∧
      s'.initproc = s.initproc ∧ s'.nextpid = s.nextpid ∧ s'.cur = s.cur) :
    ∀ (is : List Nat) (s s' : kstate),
      setpriorityforchildrenLoop P call parentpid diff s is = some s' →
      SameButPriority s.ptable s'.ptable ∧
        s'.initproc = s.initproc ∧ s'.nextpid = s.nextpid ∧ s'.cur = s.cur := by
  intro is
  induction is with
  | nil =>
    intro s s' h
    simp only [setpriorityforchildrenLoop] at h
    cases h; exact ⟨SameButPriority.refl _, rfl, rfl, rfl⟩
  | cons a rest ih =>
    intro s s' h
    simp only [setpriorityforchildrenLoop] at h
    split at h
    · cases h
    · split at h
      · exact ih s s' h
      · split at h
        · cases h
        · split at h
          · split at h
            · cases h
            · rename_i s1 hs1
              obtain ⟨a1, a2, a3, a4⟩ := hcall _ _ _ _ hs1
              obtain ⟨b1, b2, b3, b4⟩ := ih s1 s' h
              exact ⟨a1.chain b1, b2.trans a2, b3.trans a3, b4.trans a4⟩
          · exact ih s s' h

theorem setpriority_frame (P : Params) (lf : Nat) :
    ∀ (fuel : Nat) (s : kstate) (i : Nat) (n : Int) (s' : kstate),
      setpriority P lf fuel s i n = some s' →
      SameButPriority s.ptable s'.ptable ∧
        s'.initproc = s.initproc ∧ s'.nextpid = s.nextpid ∧ s'.cur = s.cur := by
  intro fuel
  induction fuel with
  | zero =>
    intro s i n s' h
    simp only [setpriority] at h
    split at h
    · cases h; exact ⟨SameButPriority.refl _, rfl, rfl, rfl⟩
    · cases h
  | succ fuel ih =>
    intro s i n s' h
    simp only [setpriority] at h
    split at h
    · cases h; exact ⟨SameButPriority.refl _, rfl, rfl, rfl⟩
    · split at h
      · cases h
      · rename_i p hp
        split at h
        · cases h
        · rename_i s2 hs2
          obtain ⟨a1, a2, a3, a4⟩ := moveToNewQueue_procs P lf _ _ _ _ _ hs2
          obtain ⟨b1, b2, b3, b4⟩ :=
            setpriorityforchildrenLoop_frame P _ _ _ (ih) _ _ _ h
          have hp' : p = s.ptable i := by
            unfold slot at hp; split at hp
            · cases hp; rfl
            · cases hp
          subst hp'
          refine ⟨?_, b2.trans a2, b3.trans a3, b4.trans a4⟩
          have : SameButPriority s.ptable s2.ptable := by
            rw [a1]; exact SameButPriority.update_priority _ _ _
          exact this.chain b1

theorem slot_of_lt (P : Params) (s : kstate) (i : Nat) (h : i < P.NPROC) :
    slot P s i = some (s.ptable i) := by
  unfold slot; rw [if_pos h]

theorem slot_eq_some {P : Params} {s : kstate} {i : Nat} {p : proc}
    (h : slot P s i = some p) : i < P.NPROC ∧ p = s.ptable i := by
  unfold slot at h
  split at h
  · rename_i hi; cases h; exact ⟨hi, rfl⟩
  · cases h

theorem Desc.rank_le {P : Params} {T : Nat → proc} {m : Nat → Nat} (hok : TableOK P T m)
    {r x : Nat} (h : Desc P T r x) : m x ≤ m r := by
  induction h with
  | root => exact le_refl _
  | step hc hp _ ih => have := hok.rank _ _ hc hp; omega

theorem Reached.desc {P : Params} {T : Nat → proc} {d : Int} {r x : Nat}
    (h : Reached P T d r x) : Desc P T r x := by
  induction h with
  | root => exact Desc.root
  | step hc hp _ _ ih => exact Desc.step hc hp ih

theorem Desc.linear {P : Params} {T : Nat → proc} {c c' x : Nat}
    (h : Desc P T c x) : Desc P T c' x → Desc P T c c' ∨ Desc P T c' c := by
  induction h with
  | root => intro h'; exact Or.inr h'
  | step hc hp hj ih =>
    intro h'
    cases h' with
    | root => exact Or.inl (Desc.step hc hp hj)
    | step hc' hp' hj' =>
      rw [hp] at hp'
      cases hp'
      exact ih hj'

theorem Desc.not_of_child {P : Params} {T : Nat → proc} {m : Nat → Nat} (hok : TableOK P T m)
    {c i : Nat} (hc : c < P.NPROC) (hp : (T c).parent = some i) : ¬ Desc P T c i := by
  intro h
  have h1 := h.rank_le hok
  have h2 := hok.rank c i hc hp
  omega

theorem Desc.children_disjoint {P : Params} {T : Nat → proc} {m : Nat → Nat}
    (hok : TableOK P T m) {c c' i x : Nat} (hc : c < P.NPROC) (hc' : c' < P.NPROC)
    (hp : (T c).parent = some i) (hp' : (T c').parent = some i) (hne : c ≠ c')
    (h : Desc P T c x) (h' : Desc P T c' x) : False := by
  rcases h.linear h' with h1 | h1
  · cases h1 with
    | root => exact hne rfl
    | step _ hpj hj =>
      rw [hp'] at hpj; cases hpj
      exact Desc.not_of_child hok hc hp hj
  · cases h1 with
    | root => exact hne rfl
    | step _ hpj hj =>
      rw [hp] at hpj; cases hpj
      exact Desc.not_of_child hok hc' hp' hj

theorem Desc.carry {P : Params} {T T' : Nat → proc} (hs : SameButPriority T T') {r x : Nat}
    (h : Desc P T r x) : Desc P T' r x := by
  induction h with
  | root => exact Desc.root
  | step hc hp _ ih => exact Desc.step hc (by rw [(hs _).2.2.1]; exact hp) ih

theorem Reached.transport {P : Params} {T T' : Nat → proc} {d : Int} {r x : Nat}
    (hs : SameButPriority T T')
    (hpr : ∀ y, Desc P T r y → (T' y).priority = (T y).priority)
    (h : Reached P T d r x) : Reached P T' d r x := by
  induction h with
  | root => exact Reached.root
  | step hc hp hj hin ih =>
    refine Reached.step hc (by rw [(hs _).2.2.1]; exact hp) ih ?_
    rw [hpr _ (Desc.step hc hp hj.desc)]
    exact hin

theorem SameButPriority.flip {T T' : Nat → proc} (h : SameButPriority T T') :
    SameButPriority T' T := by
  intro x
  obtain ⟨a1, a2, a3, a4, a5⟩ := h x
  exact ⟨a1.symm, a2.symm, a3.symm, a4.symm, a5.symm⟩

theorem Reached.transport_iff {P : Params} {T T' : Nat → proc} {d : Int} {r x : Nat}
    (hs : SameButPriority T T')
    (hpr : ∀ y, Desc P T r y → (T' y).priority = (T y).priority) :
    Reached P T' d r x ↔ Reached P T d r x :=
  ⟨fun h => h.transport hs.flip (fun y hy => (hpr y (hy.carry hs.flip)).symm),
   fun h => h.transport hs hpr⟩

theorem Reached.of_child {P : Params} {T : Nat → proc} {d : Int} {i c x : Nat}
    (hc : c < P.NPROC) (hp : (T c).parent = some i) (hin : prioInRange P ((T c).priority + d))
    (h : Reached P T d c x) : Reached P T d i x := by
  induction h with
  | root => exact Reached.step hc hp Reached.root hin
  | step hc' hp' _ hin' ih => exact Reached.step hc' hp' ih hin'

theorem Reached.cases_root {P : Params} {T : Nat → proc} {d : Int} {i x : Nat}
    (h : Reached P T d i x) :
    x = i ∨ ∃ c, c < P.NPROC ∧ (T c).parent = some i ∧ prioInRange P ((T c).priority + d) ∧
      Reached P T d c x := by
  induction h with
  | root => exact Or.inl rfl
  | step hc hp hj hin ih =>
    rcases ih with h1 | ⟨c0, hc0, hp0, hin0, hr0⟩
    · subst h1
      exact Or.inr ⟨_, hc, hp, hin, Reached.root⟩
    · exact Or.inr ⟨c0, hc0, hp0, hin0, Reached.step hc hp hr0 hin⟩

/-- The loop of `setpriorityforchildren` shifts exactly the slots reached
through the children of `i` that the list holds. -/
theorem setpriorityforchildrenLoop_priorities (P : Params)
    (call : kstate → Nat → Int → Option kstate) (m : Nat → Nat) (i : Nat) (d : Int)
    (s0 : kstate) (hok : TableOK P s0.ptable m) (hi : i < P.NPROC)
    (hlive : (s0.ptable i).state ≠ procstate.UNUSED)
    (hcall : ∀ s c s', SameButPriority s0.ptable s.ptable → c < P.NPROC →
      (s0.ptable c).parent = some i →
      call s c (d + (s.ptable c).priority) = some s' →
      SameButPriority s.ptable s'.ptable ∧
      (∀ x, prioInRange P (d + (s.ptable c).priority) → Reached P s.ptable d c x →
        (s'.ptable x).priority = (s.ptable x).priority + d) ∧
      (∀ x, ¬ (prioInRange P (d + (s.ptable c).priority) ∧ Reached P s.ptable d c x) →
        (s'.ptable x).priority = (s.ptable x).priority)) :
    ∀ (is : List Nat) (s s' : kstate), is.Nodup → (∀ c ∈ is, c < P.NPROC) →
      SameButPriority s0.ptable s.ptable →
      (∀ c ∈ is, (s0.ptable c).parent = some i → ∀ x, Desc P s0.ptable c x →
        (s.ptable x).priority = (s0.ptable x).priority) →
      setpriorityforchildrenLoop P call (s0.ptable i).pid d s is = some s' →
      SameButPriority s0.ptable s'.ptable ∧
      (∀ x, (∃ c ∈ is, (s0.ptable c).parent = some i ∧
            prioInRange P ((s0.ptable c).priority + d) ∧ Reached P s0.ptable d c x) →
        (s'.ptable x).priority = (s0.ptable x).priority + d) ∧
      (∀ x, ¬ (∃ c ∈ is, (s0.ptable c).parent = some i ∧
            prioInRange P ((s0.ptable c).priority + d) ∧ Reached P s0.ptable d c x) →
        (s'.ptable x).priority = (s.ptable x).priority) := by
  intro is
  induction is with
  | nil =>
    intro s s' _ _ hsame _ h
    simp only [setpriorityforchildrenLoop] at h
    cases h
    refine ⟨hsame, ?_, ?_⟩
    · rintro x ⟨c, hc, _⟩; simp at hc
    · intro x _; rfl
  | cons a rest ih =>
    intro s s' hnd hlt hsame hpre h
    have ha : a < P.NPROC := hlt a (by simp)
    obtain ⟨hanot, hnd'⟩ := List.nodup_cons.mp hnd
    have hlt' : ∀ c ∈ rest, c < P.NPROC := fun c hc => hlt c (List.mem_cons_of_mem _ hc)
    have hpre' : ∀ c ∈ rest, (s0.ptable c).parent = some i → ∀ x, Desc P s0.ptable c x →
        (s.ptable x).priority = (s0.ptable x).priority :=
      fun c hc => hpre c (List.mem_cons_of_mem _ hc)
    -- the test of the loop on slot `a` amounts to `parent = some i`
    have htest : ∀ j, (s.ptable a).parent = some j → j < P.NPROC ∧
        ((s.ptable j).pid = (s0.ptable i).pid ↔ (s0.ptable a).parent = some i) := by
      intro j hj
      rw [(hsame a).2.2.1] at hj
      obtain ⟨hjlt, hjlive⟩ := hok.parent_live a j ha hj
      refine ⟨hjlt, ?_⟩
      rw [(hsame j).2.1]
      constructor
      · intro hpid
        have := hok.uniq j i hjlt hi hjlive hlive hpid
        rw [hj, this]
      · intro hpi
        rw [hj] at hpi; cases hpi; rfl
    simp only [setpriorityforchildrenLoop, slot_of_lt P s a ha] at h
    split at h
    · -- no parent
      rename_i hnone
      have hnc : (s0.ptable a).parent ≠ some i := by
        rw [← (hsame a).2.2.1, hnone]; simp
      obtain ⟨r1, r2, r3⟩ := ih s s' hnd' hlt' hsame hpre' h
      refine ⟨r1, ?_, ?_⟩
      · rintro x ⟨c, hc, hcp, hcr⟩
        rcases List.mem_cons.mp hc with h1 | h1
        · subst h1; exact absurd hcp hnc
        · exact r2 x ⟨c, h1, hcp, hcr⟩
      · intro x hx
        exact r3 x fun ⟨c, hc, hcr⟩ => hx ⟨c, List.mem_cons_of_mem _ hc, hcr⟩
    · rename_i j hj
      obtain ⟨hjlt, hiff⟩ := htest j hj
      simp only [slot_of_lt P s j hjlt] at h
      split at h
      · -- `a` is a child of `i`
        rename_i hpid
        have hchild : (s0.ptable a).parent = some i := hiff.mp hpid
        split at h
        · cases h
        · rename_i s1 hs1
          have hpa : (s.ptable a).priority = (s0.ptable a).priority :=
            hpre a (by simp) hchild a Desc.root
          obtain ⟨c1, c2, c3⟩ := hcall s a s1 hsame ha hchild hs1
          have hsame1 : SameButPriority s0.ptable s1.ptable := hsame.chain c1
          have hreach : ∀ x, Reached P s.ptable d a x ↔ Reached P s0.ptable d a x :=
            fun x => Reached.transport_iff hsame (fun y hy => hpre a (by simp) hchild y hy)
          have hpre1 : ∀ c ∈ rest, (s0.ptable c).parent = some i → ∀ x,
              Desc P s0.ptable c x → (s1.ptable x).priority = (s0.ptable x).priority := by
            intro c hc hcp x hx
            rw [c3 x, hpre' c hc hcp x hx]
            rintro ⟨_, hr⟩
            have hne : a ≠ c := by intro e; subst e; exact hanot hc
            exact Desc.children_disjoint hok ha (hlt' c hc) hchild hcp hne
              ((hreach x).mp hr).desc hx
          obtain ⟨r1, r2, r3⟩ := ih s1 s' hnd' hlt' hsame1 hpre1 h
          refine ⟨r1, ?_, ?_⟩
          · rintro x ⟨c, hc, hcp, hcin, hcr⟩
            by_cases hrest : ∃ c ∈ rest, (s0.ptable c).parent = some i ∧
                prioInRange P ((s0.ptable c).priority + d) ∧ Reached P s0.ptable d c x
            · exact r2 x hrest
            · rw [r3 x hrest]
              rcases List.mem_cons.mp hc with h1 | h1
              · subst h1
                rw [c2 x (by rw [hpa, add_comm]; exact hcin) ((hreach x).mpr hcr),
                  hpre c (by simp) hchild x hcr.desc]
              · exact absurd ⟨c, h1, hcp, hcin, hcr⟩ hrest
          · intro x hx
            have hrest : ¬ ∃ c ∈ rest, (s0.ptable c).parent = some i ∧
                prioInRange P ((s0.ptable c).priority + d) ∧ Reached P s0.ptable d c x :=
              fun ⟨c, hc, hcr⟩ => hx ⟨c, List.mem_cons_of_mem _ hc, hcr⟩
            rw [r3 x hrest]
            apply c3 x
            rintro ⟨hin, hr⟩
            exact hx ⟨a, by simp, hchild, by rw [← hpa, add_comm]; exact hin, (hreach x).mp hr⟩
      · -- `a` has another parent
        rename_i hpid
        have hnc : (s0.ptable a).parent ≠ some i := fun e => hpid (hiff.mpr e)
        obtain ⟨r1, r2, r3⟩ := ih s s' hnd' hlt' hsame hpre' h
        refine ⟨r1, ?_, ?_⟩
        · rintro x ⟨c, hc, hcp, hcr⟩
          rcases List.mem_cons.mp hc with h1 | h1
          · subst h1; exact absurd hcp hnc
          · exact r2 x ⟨c, h1, hcp, hcr⟩
        · intro x hx
          exact r3 x fun ⟨c, hc, hcr⟩ => hx ⟨c, List.mem_cons_of_mem _ hc, hcr⟩

/-- The priorities after `setpriority`, whenever the call completes: with an
in-range `n` every slot reached from `i` is shifted by `n - priority`, and no
other priority changes. -/
theorem setpriority_priorities (P : Params) (lf : Nat) (m : Nat → Nat) :
    ∀ (fuel : Nat) (s : kstate) (i : Nat) (n : Int) (s' : kstate),
      TableOK P s.ptable m → i < P.NPROC → (s.ptable i).state ≠ procstate.UNUSED →
      setpriority P lf fuel s i n = some s' →
      (∀ x, prioInRange P n → Reached P s.ptable (n - (s.ptable i).priority) i x →
        (s'.ptable x).priority = (s.ptable x).priority + (n - (s.ptable i).priority)) ∧
      (∀ x, ¬ (prioInRange P n ∧ Reached P s.ptable (n - (s.ptable i).priority) i x) →
        (s'.ptable x).priority = (s.ptable x).priority) := by
  intro fuel
  induction fuel with
  | zero =>
    intro s i n s' _ _ _ h
    simp only [setpriority] at h
    split at h
    · rename_i hn
      cases h
      exact ⟨fun x hin => absurd hin hn, fun x _ => rfl⟩
    · cases h
  | succ fuel ih =>
    intro s i n s' hok hi hlive h
    simp only [setpriority] at h
    split at h
    · rename_i hn
      cases h
      exact ⟨fun x hin => absurd hin hn, fun x _ => rfl⟩
    · rename_i hn
      have hin : prioInRange P n := not_not.mp hn
      simp only [slot_of_lt P s i hi] at h
      split at h
      · cases h
      · rename_i s2 hs2
        have hpt2 : s2.ptable = Function.update s.ptable i { s.ptable i with priority := n } :=
          (moveToNewQueue_procs P lf _ _ _ _ _ hs2).1
        have hsame2 : SameButPriority s.ptable s2.ptable := by
          rw [hpt2]; exact SameButPriority.update_priority _ _ _
        have hok2 : TableOK P s2.ptable m := hok.same hsame2
        have hlive2 : (s2.ptable i).state ≠ procstate.UNUSED := by
          rw [(hsame2 i).1]; exact hlive
        have hpid2 : (s2.ptable i).pid = (s.ptable i).pid := (hsame2 i).2.1
        have hpr2 : ∀ x, x ≠ i → (s2.ptable x).priority = (s.ptable x).priority := by
          intro x hx; rw [hpt2, Function.update_noteq hx]
        have hpri : (s2.ptable i).priority = n := by
          rw [hpt2, Function.update_same]
        have hpar2 : ∀ x, (s2.ptable x).parent = (s.ptable x).parent := fun x =>
          (hsame2 x).2.2.1
        rw [← hpid2] at h
        have hloop := setpriorityforchildrenLoop_priorities P (setpriority P lf fuel) m i
          (n - (s.ptable i).priority) s2 hok2 hi hlive2
          (by
            intro t c t' hst hc hcp ht
            have hokt : TableOK P t.ptable m := hok2.same hst
            have hcl : (t.ptable c).state ≠ procstate.UNUSED := by
              rw [(hst c).1]; exact hok2.child_live c i hc hcp
            obtain ⟨e1, e2⟩ := ih t c _ t' hokt hc hcl ht
            have hd : n - (s.ptable i).priority + (t.ptable c).priority
                - (t.ptable c).priority = n - (s.ptable i).priority := by omega
            rw [hd] at e1 e2
            exact ⟨(setpriority_frame P lf fuel t c _ t' ht).1, e1, e2⟩)
          (List.range P.NPROC) s2 s' (List.nodup_range _)
          (fun c hc => List.mem_range.mp hc) (SameButPriority.refl _)
          (fun _ _ _ _ _ => rfl) h
        obtain ⟨_, r2, r3⟩ := hloop
        -- slots below a child of `i` are the same in `s` and `s2`
        have hchild_ne : ∀ c x, c < P.NPROC → (s.ptable c).parent = some i →
            Desc P s.ptable c x → x ≠ i := by
          intro c x hc hcp hx e
          subst e
          exact Desc.not_of_child hok hc hcp hx
        have hreach : ∀ c x, c < P.NPROC → (s.ptable c).parent = some i →
            (Reached P s2.ptable (n - (s.ptable i).priority) c x ↔
              Reached P s.ptable (n - (s.ptable i).priority) c x) := by
          intro c x hc hcp
          exact Reached.transport_iff hsame2 (fun y hy => hpr2 y (hchild_ne c y hc hcp hy))
        have hex : ∀ x, (∃ c ∈ List.range P.NPROC, (s2.ptable c).parent = some i ∧
              prioInRange P ((s2.ptable c).priority + (n - (s.ptable i).priority)) ∧
              Reached P s2.ptable (n - (s.ptable i).priority) c x) ↔
            (∃ c, c < P.NPROC ∧ (s.ptable c).parent = some i ∧
              prioInRange P ((s.ptable c).priority + (n - (s.ptable i).priority)) ∧
              Reached P s.ptable (n - (s.ptable i).priority) c x) := by
          intro x
          constructor
          · rintro ⟨c, hc, hcp, hcin, hcr⟩
            have hc' := List.mem_range.mp hc
            rw [hpar2] at hcp
            have hne : c ≠ i := hchild_ne c c hc' hcp Desc.root
            rw [hpr2 c hne] at hcin
            exact ⟨c, hc', hcp, hcin, (hreach c x hc' hcp).mp hcr⟩
          · rintro ⟨c, hc, hcp, hcin, hcr⟩
            have hne : c ≠ i := hchild_ne c c hc hcp Desc.root
            refine ⟨c, List.mem_range.mpr hc, by rw [hpar2]; exact hcp, ?_,
              (hreach c x hc hcp).mpr hcr⟩
            rw [hpr2 c hne]; exact hcin
        constructor
        · intro x _ hr
          rcases hr.cases_root with hx | ⟨c, hc, hcp, hcin, hcr⟩
          · subst hx
            have hno : ¬ ∃ c ∈ List.range P.NPROC, (s2.ptable c).parent = some x ∧
                prioInRange P ((s2.ptable c).priority + (n - (s.ptable x).priority)) ∧
                Reached P s2.ptable (n - (s.ptable x).priority) c x := by
              rw [hex]
              rintro ⟨c, hc, hcp, _, hcr⟩
              exact hchild_ne c x hc hcp hcr.desc rfl
            rw [r3 x hno, hpri]; omega
          · have hne : x ≠ i := hchild_ne c x hc hcp hcr.desc
            rw [r2 x ((hex x).mpr ⟨c, hc, hcp, hcin, hcr⟩), hpr2 x hne]
        · intro x hx
          have hne : x ≠ i := by
            intro e; subst e; exact hx ⟨hin, Reached.root⟩
          have hno : ¬ ∃ c ∈ List.range P.NPROC, (s2.ptable c).parent = some i ∧
              prioInRange P ((s2.ptable c).priority + (n - (s.ptable i).priority)) ∧
              Reached P s2.ptable (n - (s.ptable i).priority) c x := by
            rw [hex]
            rintro ⟨c, hc, hcp, hcin, hcr⟩
            exact hx ⟨hin, hcr.of_child hc hcp hcin⟩
          rw [r3 x hno, hpr2 x hne]

/-! ## Scanning and compacting a circular buffer -/

theorem circ_cases (h k C : Nat) (hh : h < C) (hk : k ≤ C) :
    ((h + k) % C = h + k ∧ h + k < C) ∨ ((h + k) % C + C = h + k ∧ C ≤ h + k) := by
  rcases Nat.lt_or_ge (h + k) C with h1 | h1
  · left; exact ⟨Nat.mod_eq_of_lt h1, h1⟩
  · right
    have : (h + k) % C = (h + k - C) % C := Nat.mod_eq_sub_mod h1
    rw [this, Nat.mod_eq_of_lt (by omega)]
    omega

theorem qread_cast (P : Params) (q : processQueue) (a : Nat) (ha : a < P.QUEUE_CAPACITY) :
    qread P q (a : Int) = some (q.proc a) := by
  unfold qread
  rw [if_pos ⟨by omega, by exact_mod_cast ha⟩, Int.toNat_ofNat]

theorem qwrite_cast (P : Params) (q : processQueue) (a : Nat) (v : procptr)
    (ha : a < P.QUEUE_CAPACITY) :
    qwrite P q (a : Int) v = some { q with proc := Function.update q.proc a v } := by
  unfold qwrite
  rw [if_pos ⟨by omega, by exact_mod_cast ha⟩, Int.toNat_ofNat]

theorem shiftProc_zero (f : Nat → procptr) (a : Nat) : shiftProc f a 0 = f := by
  funext c
  simp only [shiftProc]
  rw [if_neg (by omega)]

theorem shiftProc_succ (f : Nat → procptr) (a cnt : Nat) :
    shiftProc (Function.update f a (f (a + 1))) (a + 1) cnt = shiftProc f a (cnt + 1) := by
  funext c
  simp only [shiftProc]
  by_cases hc : c = a
  · subst hc
    rw [if_neg (by omega), if_pos (by omega), Function.update_same]
  · by_cases h1 : a + 1 ≤ c ∧ c < a + 1 + cnt
    · rw [if_pos h1, if_pos (by omega), Function.update_noteq (by omega)]
    · rw [if_neg h1, if_neg (by omega), Function.update_noteq hc]

/-- When the loop of `removeitemfromqueue` completes, it never left the array:
the index it started from is at most the tail and the cells in between were
copied down by one. -/
theorem removeitemfromqueueFrom_some (P : Params) :
    ∀ (lf : Nat) (q : processQueue) (a t : Nat) (q' : processQueue),
      q.tail = (t : Int) → removeitemfromqueueFrom P lf q (a : Int) = some q' →
      a ≤ t ∧ q' = { q with proc := shiftProc q.proc a (t - a) } := by
  intro lf
  induction lf with
  | zero =>
    intro q a t q' ht h
    simp only [removeitemfromqueueFrom] at h
    split at h
    · rename_i he
      have hat : a = t := by rw [ht] at he; exact_mod_cast he
      cases h
      subst hat
      refine ⟨le_refl _, ?_⟩
      rw [Nat.sub_self, shiftProc_zero]
    · cases h
  | succ lf ih =>
    intro q a t q' ht h
    simp only [removeitemfromqueueFrom] at h
    split at h
    · rename_i he
      have hat : a = t := by rw [ht] at he; exact_mod_cast he
      cases h
      subst hat
      refine ⟨le_refl _, ?_⟩
      rw [Nat.sub_self, shiftProc_zero]
    · rename_i hne
      have hat : a ≠ t := by intro e; apply hne; rw [ht, e]
      split at h
      · cases h
      · rename_i v hv
        have hlt : a + 1 < P.QUEUE_CAPACITY := by
          unfold qread at hv
          split at hv
          · rename_i hc; omega
          · cases hv
        have hv' : v = q.proc (a + 1) := by
          have := qread_cast P q (a + 1) hlt
          push_cast at this
          rw [this] at hv; cases hv; rfl
        rw [qwrite_cast P q a v (by omega)] at h
        simp only at h
        have htm : ((a : Int) + 1).tmod (P.QUEUE_CAPACITY : Int) = ((a + 1 : Nat) : Int) := by
          rw [Int.tmod_eq_of_lt (by omega) (by omega)]; push_cast; rfl
        rw [htm] at h
        obtain ⟨h1, h2⟩ := ih { q with proc := Function.update q.proc a v } (a + 1) t q' ht h
        refine ⟨by omega, ?_⟩
        rw [h2, hv']
        simp only
        rw [shiftProc_succ, show t - (a + 1) + 1 = t - a by omega]

/-- With enough fuel and the tail `cnt` cells after `a` without leaving the
array, the loop of `removeitemfromqueue` completes. -/
theorem removeitemfromqueueFrom_total (P : Params) :
    ∀ (cnt lf : Nat) (q : processQueue) (a : Nat), cnt ≤ lf →
      a + cnt < P.QUEUE_CAPACITY → q.tail = ((a + cnt : Nat) : Int) →
      removeitemfromqueueFrom P lf q (a : Int)
        = some { q with proc := shiftProc q.proc a cnt } := by
  intro cnt
  induction cnt with
  | zero =>
    intro lf q a _ _ ht
    have he : (a : Int) = q.tail := by rw [ht]; simp
    cases lf with
    | zero => simp only [removeitemfromqueueFrom, if_pos he, shiftProc_zero]
    | succ lf => simp only [removeitemfromqueueFrom, if_pos he, shiftProc_zero]
  | succ cnt ih =>
    intro lf q a hlf hC ht
    cases lf with
    | zero => omega
    | succ lf =>
      have hne : ¬ (a : Int) = q.tail := by rw [ht]; push_cast; omega
      have hrd := qread_cast P q (a + 1) (by omega)
      push_cast at hrd
      have htm : ((a : Int) + 1).tmod (P.QUEUE_CAPACITY : Int) = ((a + 1 : Nat) : Int) := by
        rw [Int.tmod_eq_of_lt (by omega) (by omega)]; push_cast; rfl
      simp only [removeitemfromqueueFrom, if_neg hne, hrd,
        qwrite_cast P q a _ (show a < P.QUEUE_CAPACITY by omega), htm]
      rw [ih lf _ (a + 1) (by omega) (by omega) (by simp only [ht]; push_cast; omega)]
      simp only [shiftProc_succ]

/-- Removing the entry at position `A.length` of the queued list: when
`removeitemfromqueue` completes, the queue holds the list without that entry,
in the same order, from the same head. -/
theorem Rep_remove (P : Params) (q : processQueue) (A B : List Nat) (v h : Nat)
    (hr : Rep P q (A ++ v :: B)) (hh : q.head = (h : Int))
    (hlen : (A ++ v :: B).length < P.QUEUE_CAPACITY) (lf : Nat) (q' : processQueue)
    (hq' : removeitemfromqueue P lf q (((h + A.length) % P.QUEUE_CAPACITY : Nat) : Int)
      = some q') :
    Rep P q' (A ++ B) ∧ q'.head = q.head := by
  obtain ⟨h0, hh0, hhC, ht, hs, hle, hc⟩ := hr
  have hhh : h0 = h := by rw [hh0] at hh; exact_mod_cast hh
  subst hhh
  simp only [List.length_append, List.length_cons] at hlen ht hs
  unfold removeitemfromqueue at hq'
  cases hq1 : removeitemfromqueueFrom P lf q
      (((h0 + A.length) % P.QUEUE_CAPACITY : Nat) : Int) with
  | none => rw [hq1] at hq'; cases hq'
  | some q1 =>
    rw [hq1] at hq'
    obtain ⟨hat, hq1e⟩ := removeitemfromqueueFrom_some P lf q _ _ q1 ht hq1
    have ca := circ_cases h0 A.length P.QUEUE_CAPACITY hhC (by omega)
    have ct := circ_cases h0 (A.length + (B.length + 1)) P.QUEUE_CAPACITY hhC (by omega)
    have cn := circ_cases h0 (A.length + B.length) P.QUEUE_CAPACITY hhC (by omega)
    simp only [Option.map_some', Option.some.injEq] at hq'
    subst hq'
    subst hq1e
    refine ⟨⟨h0, hh0, hhC, ?_, ?_, ?_, ?_⟩, rfl⟩
    · show (q.tail - 1).tmod _ = _
      rw [ht, Int.tmod_eq_of_lt (by omega) (by omega)]
      simp only [List.length_append]
      omega
    · show q.size - 1 = _
      rw [hs]; simp only [List.length_append]; push_cast; omega
    · simp only [List.length_append]; omega
    · intro k x hk
      show shiftProc q.proc _ _ _ = some x
      by_cases hkA : k < A.length
      · rw [List.getElem?_append_left hkA] at hk
        have hx := hc k x (by rw [List.getElem?_append_left hkA]; exact hk)
        have ck := circ_cases h0 k P.QUEUE_CAPACITY hhC (by omega)
        simp only [shiftProc]
        rw [if_neg (by omega)]
        exact hx
      · have hkA' : A.length ≤ k := by omega
        rw [List.getElem?_append_right hkA'] at hk
        have hkB : k - A.length < B.length := by
          by_contra hcon
          rw [List.getElem?_eq_none (by omega)] at hk; cases hk
        have hx := hc (k + 1) x (by
          rw [List.getElem?_append_right (by omega)]
          rw [show k + 1 - A.length = (k - A.length) + 1 by omega, List.getElem?_cons_succ]
          exact hk)
        have ck := circ_cases h0 k P.QUEUE_CAPACITY hhC (by omega)
        have ck1 := circ_cases h0 (k + 1) P.QUEUE_CAPACITY hhC (by omega)
        simp only [shiftProc]
        rw [if_pos (by omega)]
        rw [show (h0 + k) % P.QUEUE_CAPACITY + 1 = (h0 + (k + 1)) % P.QUEUE_CAPACITY by omega]
        exact hx

/-- With the queued entries not wrapping around the end of the array,
`removeitemfromqueue` completes. -/
theorem Rep_remove_total (P : Params) (q : processQueue) (A B : List Nat) (v h : Nat)
    (hr : Rep P q (A ++ v :: B)) (hh : q.head = (h : Int))
    (hnw : h + (A ++ v :: B).length < P.QUEUE_CAPACITY) (lf : Nat)
    (hlf : B.length + 1 ≤ lf) :
    ∃ q', removeitemfromqueue P lf q (((h + A.length) % P.QUEUE_CAPACITY : Nat) : Int)
      = some q' := by
  obtain ⟨h0, hh0, hhC, ht, hs, hle, hc⟩ := hr
  have hhh : h0 = h := by rw [hh0] at hh; exact_mod_cast hh
  subst hhh
  simp only [List.length_append, List.length_cons] at hnw ht
  rw [Nat.mod_eq_of_lt (by omega)] at ht ⊢
  have := removeitemfromqueueFrom_total P (B.length + 1) lf q (h0 + A.length) hlf (by omega)
    (by rw [ht]; push_cast; omega)
  unfold removeitemfromqueue
  rw [this]
  exact ⟨_, rfl⟩

theorem findprocessinqueuewithpidFrom_mono (P : Params) (s : kstate) (q : processQueue)
    (pid : Int) :
    ∀ (n : Nat) (j r : Int), findprocessinqueuewithpidFrom P s q pid n j = some r →
      ∀ n', n ≤ n' → findprocessinqueuewithpidFrom P s q pid n' j = some r := by
  intro n
  induction n with
  | zero =>
    intro j r h n' _
    simp only [findprocessinqueuewithpidFrom] at h
    split at h
    · rename_i he
      cases n' with
      | zero => simp only [findprocessinqueuewithpidFrom, if_pos he]; exact h
      | succ n' => simp only [findprocessinqueuewithpidFrom, if_pos he]; exact h
    · cases h
  | succ n ih =>
    intro j r h n' hn
    cases n' with
    | zero => omega
    | succ n' =>
      simp only [findprocessinqueuewithpidFrom] at h ⊢
      split at h
      · rename_i he; rw [if_pos he]; exact h
      · rename_i he
        rw [if_neg he]
        split at h
        · cases h
        · rename_i e he2
          split at h
          · cases h
          · rename_i p hp
            split at h
            · rename_i hpid; rw [if_pos hpid]; exact h
            · rename_i hpid; rw [if_neg hpid]; exact ih _ _ h n' (by omega)

/-- The scan of a queue that is not full finds the first entry with the pid. -/
theorem findprocessinqueuewithpidFrom_found (P : Params) (s : kstate) (q : processQueue)
    (pid : Int) (L : List Nat) (h : Nat) (hr : Rep P q L) (hh : q.head = (h : Int))
    (hlen : L.length < P.QUEUE_CAPACITY) (hvalid : ∀ x ∈ L, x < P.NPROC)
    (k0 x0 : Nat) (hk0 : L[k0]? = some x0) (hpid : (s.ptable x0).pid = pid)
    (hbefore : ∀ k x, k < k0 → L[k]? = some x → (s.ptable x).pid ≠ pid) :
    ∀ (n k : Nat), k ≤ k0 → k0 < n + k →
      findprocessinqueuewithpidFrom P s q pid n (((h + k) % P.QUEUE_CAPACITY : Nat) : Int)
        = some (((h + k0) % P.QUEUE_CAPACITY : Nat) : Int) := by
  obtain ⟨h0, hh0, hhC, ht, hs, hle, hc⟩ := hr
  have hhh : h0 = h := by rw [hh0] at hh; exact_mod_cast hh
  subst hhh
  have hC : 0 < P.QUEUE_CAPACITY := by omega
  have hk0lt : k0 < L.length := by
    by_contra hcon
    rw [List.getElem?_eq_none (by omega)] at hk0; cases hk0
  intro n
  induction n with
  | zero => intro k h1 h2; omega
  | succ n ih =>
    intro k hk hn
    have hne : ¬ (((h0 + k) % P.QUEUE_CAPACITY : Nat) : Int) = q.tail := by
      rw [ht]
      intro e
      have h1 : h0 + k < h0 + L.length := by omega
      have h2 : h0 + L.length < h0 + k + P.QUEUE_CAPACITY := by omega
      exact mod_ne_of_lt_of_lt_add h1 h2 (by exact_mod_cast e)
    have hklt : k < L.length := by omega
    have hx := hc k (L[k]) (by simp [hklt])
    have hxn : L[k] < P.NPROC := hvalid _ (List.getElem_mem hklt)
    simp only [findprocessinqueuewithpidFrom, if_neg hne,
      qread_cast P q _ (Nat.mod_lt _ hC), hx, deref, slot_of_lt P s _ hxn]
    by_cases hp : (s.ptable L[k]).pid = pid
    · rw [if_pos hp]
      have : k = k0 := by
        by_contra hcon
        exact hbefore k L[k] (by omega) (by simp [hklt]) hp
      rw [this]
    · rw [if_neg hp]
      have hkne : k ≠ k0 := by
        intro e; subst e
        have : L[k] = x0 := by
          have := List.getElem?_eq_getElem hklt
          rw [this] at hk0; exact Option.some.inj hk0
        rw [this] at hp; exact hp hpid
      rw [tmod_succ_cast, Nat.mod_add_mod]
      exact ih (k + 1) (by omega) (by omega)

/-- The scan of a queue that is not full and holds no entry with the pid returns -1. -/
theorem findprocessinqueuewithpidFrom_none (P : Params) (s : kstate) (q : processQueue)
    (pid : Int) (L : List Nat) (h : Nat) (hr : Rep P q L) (hh : q.head = (h : Int))
    (hlen : L.length < P.QUEUE_CAPACITY) (hvalid : ∀ x ∈ L, x < P.NPROC)
    (hno : ∀ x ∈ L, (s.ptable x).pid ≠ pid) :
    ∀ (n k : Nat), k ≤ L.length → L.length ≤ n + k →
      findprocessinqueuewithpidFrom P s q pid n (((h + k) % P.QUEUE_CAPACITY : Nat) : Int)
        = some (-1) := by
  obtain ⟨h0, hh0, hhC, ht, hs, hle, hc⟩ := hr
  have hhh : h0 = h := by rw [hh0] at hh; exact_mod_cast hh
  subst hhh
  have hC : 0 < P.QUEUE_CAPACITY := by omega
  intro n
  induction n with
  | zero =>
    intro k h1 h2
    have : k = L.length := by omega
    subst this
    simp only [findprocessinqueuewithpidFrom, if_pos ht.symm]
  | succ n ih =>
    intro k hk hn
    by_cases hj : (((h0 + k) % P.QUEUE_CAPACITY : Nat) : Int) = q.tail
    · simp only [findprocessinqueuewithpidFrom, if_pos hj]
    · have hklt : k < L.length := by
        rcases Nat.lt_or_ge k L.length with h1 | h1
        · exact h1
        · exfalso; apply hj
          have : k = L.length := by omega
          rw [this, ht]
      have hx := hc k (L[k]) (by simp [hklt])
      have hmem : L[k] ∈ L := List.getElem_mem hklt
      have hxn : L[k] < P.NPROC := hvalid _ hmem
      simp only [findprocessinqueuewithpidFrom, if_neg hj,
        qread_cast P q _ (Nat.mod_lt _ hC), hx, deref, slot_of_lt P s _ hxn,
        if_neg (hno _ hmem)]
      rw [tmod_succ_cast, Nat.mod_add_mod]
      exact ih (k + 1) (by omega) (by omega)

theorem head_mod (P : Params) (q : processQueue) (L : List Nat) (h : Nat) (hr : Rep P q L)
    (hh : q.head = (h : Int)) : q.head = (((h + 0) % P.QUEUE_CAPACITY : Nat) : Int) := by
  obtain ⟨h0, hh0, hhC, _⟩ := hr
  have hhh : h0 = h := by rw [hh0] at hh; exact_mod_cast hh
  subst hhh
  rw [Nat.add_zero, Nat.mod_eq_of_lt hhC]; exact hh

/-- What `findprocessinqueuewithpid` returns, when it returns, on a queue that
holds `A ++ v :: B` where `v` is the first entry with the pid. -/
theorem findprocessinqueuewithpid_found (P : Params) (lf : Nat) (s : kstate)
    (q : processQueue) (pid : Int) (A B : List Nat) (v h : Nat)
    (hr : Rep P q (A ++ v :: B)) (hh : q.head = (h : Int))
    (hlen : (A ++ v :: B).length < P.QUEUE_CAPACITY)
    (hvalid : ∀ x ∈ A ++ v :: B, x < P.NPROC) (hpid : (s.ptable v).pid = pid)
    (hbefore : ∀ x ∈ A, (s.ptable x).pid ≠ pid) :
    (∀ r, findprocessinqueuewithpid P lf s q pid = some r →
      r = (((h + A.length) % P.QUEUE_CAPACITY : Nat) : Int)) ∧
    (A.length < lf → findprocessinqueuewithpid P lf s q pid
      = some (((h + A.length) % P.QUEUE_CAPACITY : Nat) : Int)) := by
  have key : ∀ n, A.length < n → findprocessinqueuewithpid P n s q pid
      = some (((h + A.length) % P.QUEUE_CAPACITY : Nat) : Int) := by
    intro n hn
    unfold findprocessinqueuewithpid
    rw [head_mod P q _ h hr hh]
    apply findprocessinqueuewithpidFrom_found P s q pid _ h hr hh hlen hvalid A.length v
      (by rw [List.getElem?_append_right (le_refl _)]; simp) hpid _ n 0 (Nat.zero_le _)
      (by omega)
    intro k x hk hx
    rw [List.getElem?_append_left hk] at hx
    exact hbefore x (List.getElem?_mem hx)
  refine ⟨?_, key lf⟩
  intro r hr'
  have h1 := findprocessinqueuewithpidFrom_mono P s q pid lf _ r hr' (lf + A.length + 1)
    (by omega)
  have h2 := key (lf + A.length + 1) (by omega)
  unfold findprocessinqueuewithpid at h2
  rw [h1] at h2
  exact Option.some.inj h2

/-- What `findprocessinqueuewithpid` returns, when it returns, on a queue that
holds no entry with the pid. -/
theorem findprocessinqueuewithpid_none (P : Params) (lf : Nat) (s : kstate)
    (q : processQueue) (pid : Int) (L : List Nat) (h : Nat)
    (hr : Rep P q L) (hh : q.head = (h : Int)) (hlen : L.length < P.QUEUE_CAPACITY)
    (hvalid : ∀ x ∈ L, x < P.NPROC) (hno : ∀ x ∈ L, (s.ptable x).pid ≠ pid) :
    (∀ r, findprocessinqueuewithpid P lf s q pid = some r → r = -1) ∧
    (L.length ≤ lf → findprocessinqueuewithpid P lf s q pid = some (-1)) := by
  have key : ∀ n, L.length ≤ n → findprocessinqueuewithpid P n s q pid = some (-1) := by
    intro n hn
    unfold findprocessinqueuewithpid
    rw [head_mod P q _ h hr hh]
    exact findprocessinqueuewithpidFrom_none P s q pid L h hr hh hlen hvalid hno n 0
      (Nat.zero_le _) (by omega)
  refine ⟨?_, key lf⟩
  intro r hr'
  have h1 := findprocessinqueuewithpidFrom_mono P s q pid lf _ r hr' (lf + L.length)
    (by omega)
  have h2 := key (lf + L.length) (by omega)
  unfold findprocessinqueuewithpid at h2
  rw [h1] at h2
  exact Option.some.inj h2

/-! ## `moveToNewQueue` keeps the queues in step with the table -/

theorem length_le_of_nodup_lt (l : List Nat) (n : Nat) (hnd : l.Nodup)
    (hlt : ∀ x ∈ l, x < n) : l.length ≤ n := by
  have := (List.subperm_of_subset hnd (fun x hx => List.mem_range.mpr (hlt x hx))).length_le
  simpa using this

theorem QueuesOK.length_le {P : Params} {s : kstate} {L : Nat → List Nat}
    (hq : QueuesOK P s L) (k : Nat) (hk : k < P.PRIORITYLEVELS) : (L k).length ≤ P.NPROC :=
  length_le_of_nodup_lt _ _ (hq.nodup k hk) fun x hx => (hq.ent k hk x hx).1

theorem QueuesOK.length_succ_le {P : Params} {s : kstate} {L : Nat → List Nat}
    (hq : QueuesOK P s L) (k : Nat) (hk : k < P.PRIORITYLEVELS) (v : Nat) (hv : v < P.NPROC)
    (hnot : v ∉ L k) : (L k).length + 1 ≤ P.NPROC := by
  have := length_le_of_nodup_lt (v :: L k) P.NPROC (List.nodup_cons.mpr ⟨hnot, hq.nodup k hk⟩)
    (by
      intro x hx
      rcases List.mem_cons.mp hx with h | h
      · rw [h]; exact hv
      · exact (hq.ent k hk x h).1)
  simpa using this

theorem Rep.head_eq {P : Params} {q : processQueue} {L : List Nat} (hr : Rep P q L) :
    ∃ h : Nat, q.head = (h : Int) ∧ h < P.QUEUE_CAPACITY := by
  obtain ⟨h, hh, hhC, _⟩ := hr
  exact ⟨h, hh, hhC⟩

/-- The queues are unchanged and stay in step with a table that changed only
in fields of processes that are not RUNNABLE. -/
theorem QueuesOK.follow {P : Params} {s s' : kstate} {L : Nat → List Nat}
    (hq : QueuesOK P s L) (hqt : s'.priorityTable = s.priorityTable)
    (hst : ∀ x, x < P.NPROC →
      ((s'.ptable x).state = procstate.RUNNABLE ↔ (s.ptable x).state = procstate.RUNNABLE))
    (hpr : ∀ x, x < P.NPROC → (s.ptable x).state = procstate.RUNNABLE →
      (s'.ptable x).priority = (s.ptable x).priority) : QueuesOK P s' L where
  rep k hk := by rw [hqt]; exact hq.rep k hk
  ent k hk x hx := by
    obtain ⟨h1, h2, h3⟩ := hq.ent k hk x hx
    exact ⟨h1, (hst x h1).mpr h2, by rw [hpr x h1 h2]; exact h3⟩
  run x hx hs := by
    have h2 := (hst x hx).mp hs
    rw [hpr x hx h2]
    exact hq.run x hx h2
  nodup := hq.nodup

/-- `moveToNewQueue` on a process that is not RUNNABLE finds nothing to move. -/
theorem moveToNewQueue_not_runnable (P : Params) (lf : Nat) (s : kstate)
    (L : Nat → List Nat) (v : Nat) (n : Int) (hcap : P.NPROC < P.QUEUE_CAPACITY)
    (hq : QueuesOK P s L)
    (huniq : ∀ a b, a < P.NPROC → b < P.NPROC → (s.ptable a).state ≠ procstate.UNUSED →
      (s.ptable b).state ≠ procstate.UNUSED → (s.ptable a).pid = (s.ptable b).pid → a = b)
    (hprio : prioInRange P (s.ptable v).priority) (hv : v < P.NPROC)
    (hlive : (s.ptable v).state ≠ procstate.UNUSED)
    (hnr : (s.ptable v).state ≠ procstate.RUNNABLE) :
    (∀ s2, moveToNewQueue P lf (setSlot s v { s.ptable v with priority := n }) v n
        (s.ptable v).priority = some s2 →
      s2 = setSlot s v { s.ptable v with priority := n }) ∧
    (P.NPROC ≤ lf → moveToNewQueue P lf (setSlot s v { s.ptable v with priority := n }) v n
        (s.ptable v).priority = some (setSlot s v { s.ptable v with priority := n })) := by
  have hok : (s.ptable v).priority.toNat < P.PRIORITYLEVELS := by
    have := hprio.1; have := hprio.2; omega
  have hrep := hq.rep _ hok
  obtain ⟨h, hh, _⟩ := hrep.head_eq
  have hlen := hq.length_le _ hok
  have hno : ∀ x ∈ L (s.ptable v).priority.toNat,
      ((setSlot s v { s.ptable v with priority := n }).ptable x).pid ≠ (s.ptable v).pid := by
    intro x hx
    obtain ⟨hxn, hxs, _⟩ := hq.ent _ hok x hx
    have hne : x ≠ v := by intro e; rw [e] at hxs; exact hnr hxs
    simp only [setSlot, Function.update_noteq hne]
    intro e
    exact hne (huniq x v hxn hv (by rw [hxs]; decide) hlive e)
  obtain ⟨f1, f2⟩ := findprocessinqueuewithpid_none P lf
    (setSlot s v { s.ptable v with priority := n }) (s.priorityTable (s.ptable v).priority.toNat)
    (s.ptable v).pid _ h hrep hh (by omega) (fun x hx => (hq.ent _ hok x hx).1) hno
  have hlev : level P (setSlot s v { s.ptable v with priority := n }) (s.ptable v).priority
      = some (s.priorityTable (s.ptable v).priority.toNat) :=
    level_of_range P _ _ hprio.1 hprio.2
  have hslot : slot P (setSlot s v { s.ptable v with priority := n }) v
      = some { s.ptable v with priority := n } := by
    rw [slot_of_lt P _ v hv]; simp only [setSlot, Function.update_same]
  constructor
  · intro s2 h2
    simp only [moveToNewQueue, hlev, hslot] at h2
    split at h2
    · cases h2
    · rename_i index hidx
      have := f1 index hidx
      subst this
      simp only [ne_eq, not_true_eq_false, if_false] at h2
      exact (Option.some.inj h2).symm
  · intro hlf
    simp only [moveToNewQueue, hlev, hslot, f2 (by omega)]
    simp

/-- The second half of `moveToNewQueue` on a RUNNABLE process `v` queued at its
old level: once `removeitemfromqueue` has completed, the enqueue at the new
level succeeds and the queues are in step with the table that holds the new
priority. -/
theorem moveToNewQueue_runnable_core (P : Params) (lf : Nat) (s : kstate)
    (L : Nat → List Nat) (v : Nat) (n : Int) (A B : List Nat) (h : Nat)
    (hcap : P.NPROC < P.QUEUE_CAPACITY) (hq : QueuesOK P s L)
    (hprio : prioInRange P (s.ptable v).priority) (hv : v < P.NPROC)
    (hrun : (s.ptable v).state = procstate.RUNNABLE) (hn : prioInRange P n)
    (hAB : L (s.ptable v).priority.toNat = A ++ v :: B)
    (hh : (s.priorityTable (s.ptable v).priority.toNat).head = (h : Int))
    (q' : processQueue)
    (hrem : removeitemfromqueue P lf (s.priorityTable (s.ptable v).priority.toNat)
      (((h + A.length) % P.QUEUE_CAPACITY : Nat) : Int) = some q') :
    ∃ q'', EnqueueProcess P
        (Function.update s.priorityTable (s.ptable v).priority.toNat q' n.toNat) (some v)
          = some (q'', 0) ∧
      (∃ L2, QueuesOK P
        (setLevel (setLevel (setSlot s v { s.ptable v with priority := n })
          (s.ptable v).priority q') n q'') L2) ∧
      q''.head = (Function.update s.priorityTable (s.ptable v).priority.toNat q' n.toNat).head ∧
      q'.head = (s.priorityTable (s.ptable v).priority.toNat).head := by
  have hok : (s.ptable v).priority.toNat < P.PRIORITYLEVELS := by
    have := hprio.1; have := hprio.2; omega
  have hnk : n.toNat < P.PRIORITYLEVELS := by
    have := hn.1; have := hn.2; omega
  have hncast : ((n.toNat : Nat) : Int) = n := Int.toNat_of_nonneg hn.1
  have hocast : (((s.ptable v).priority.toNat : Nat) : Int) = (s.ptable v).priority :=
    Int.toNat_of_nonneg hprio.1
  have hrep := hq.rep _ hok
  rw [hAB] at hrep
  have hnd := hq.nodup _ hok
  rw [hAB] at hnd
  have hvA : v ∉ A := fun hm =>
    (List.nodup_append.mp hnd).2.2 hm (List.mem_cons_self _ _)
  have hvB : v ∉ B := (List.nodup_cons.mp (List.nodup_append.mp hnd).2.1).1
  have hndAB : (A ++ B).Nodup := by
    refine List.nodup_append.mpr ⟨(List.nodup_append.mp hnd).1,
      (List.nodup_cons.mp (List.nodup_append.mp hnd).2.1).2, ?_⟩
    intro x hxA hxB
    exact (List.nodup_append.mp hnd).2.2 hxA (List.mem_cons_of_mem _ hxB)
  have hsub : ∀ x, x ∈ A ++ B → x ∈ L (s.ptable v).priority.toNat ∧ x ≠ v := by
    intro x hx
    rw [hAB]
    rcases List.mem_append.mp hx with h1 | h1
    · exact ⟨List.mem_append_left _ h1, fun e => hvA (e ▸ h1)⟩
    · exact ⟨List.mem_append_right _ (List.mem_cons_of_mem _ h1), fun e => hvB (e ▸ h1)⟩
  have hsup : ∀ x, x ∈ L (s.ptable v).priority.toNat → x ≠ v → x ∈ A ++ B := by
    intro x hx hne
    rw [hAB] at hx
    rcases List.mem_append.mp hx with h1 | h1
    · exact List.mem_append_left _ h1
    · rcases List.mem_cons.mp h1 with h2 | h2
      · exact absurd h2 hne
      · exact List.mem_append_right _ h2
  have hlenL := hq.length_le _ hok
  rw [hAB] at hlenL
  obtain ⟨hrq', hhead'⟩ := Rep_remove P _ A B v h hrep hh (by omega) lf q' hrem
  -- the list of the new level before the enqueue
  have hnew : ∃ Lnew, Rep P
        (Function.update s.priorityTable (s.ptable v).priority.toNat q' n.toNat) Lnew ∧
      v ∉ Lnew ∧ Lnew.Nodup ∧ Lnew.length + 1 ≤ P.NPROC ∧
      (∀ x, x ∈ Lnew ↔ x ∈ L n.toNat ∧ x ≠ v) := by
    by_cases hsame : n.toNat = (s.ptable v).priority.toNat
    · refine ⟨A ++ B, ?_, ?_, hndAB, ?_, ?_⟩
      · rw [hsame, Function.update_same]; exact hrq'
      · intro hm; exact (hsub v hm).2 rfl
      · simp only [List.length_append, List.length_cons] at hlenL ⊢; omega
      · intro x; rw [hsame]
        exact ⟨hsub x, fun hx => hsup x hx.1 hx.2⟩
    · have hvn : v ∉ L n.toNat := by
        intro hm
        have := (hq.ent _ hnk v hm).2.2
        rw [← hocast] at this
        exact hsame (by exact_mod_cast this.symm)
      refine ⟨L n.toNat, ?_, hvn, hq.nodup _ hnk, hq.length_succ_le _ hnk v hv hvn, ?_⟩
      · rw [Function.update_noteq hsame]; exact hq.rep _ hnk
      · intro x
        exact ⟨fun hx => ⟨hx, fun e => hvn (e ▸ hx)⟩, fun hx => hx.1⟩
  obtain ⟨Lnew, hrnew, hvnew, hndnew, hlennew, hmemnew⟩ := hnew
  obtain ⟨q'', henq, hrq''⟩ := Rep_enqueue hrnew (by omega) v
  have hhead'' : q''.head
      = (Function.update s.priorityTable (s.ptable v).priority.toNat q' n.toNat).head := by
    unfold EnqueueProcess at henq
    split at henq
    · unfold qwrite at henq
      split at henq
      · simp only [Option.map_some', Option.some.injEq, Prod.mk.injEq] at henq
        rw [← henq.1]
      · cases henq
    · simp only [Option.some.injEq, Prod.mk.injEq] at henq
      omega
  refine ⟨q'', henq, ⟨Function.update (Function.update L (s.ptable v).priority.toNat (A ++ B))
      n.toNat (Lnew ++ [v]), ?_⟩, hhead'', hhead'⟩
  have hpt : ∀ x, x ≠ v → (Function.update s.ptable v
      { s.ptable v with priority := n }) x = s.ptable x :=
    fun x hx => Function.update_noteq hx _ _
  constructor
  · intro k hk
    simp only [setLevel, setSlot]
    by_cases hkn : k = n.toNat
    · subst hkn
      simp only [Function.update_same]; exact hrq''
    · simp only [Function.update_noteq hkn]
      by_cases hko : k = (s.ptable v).priority.toNat
      · subst hko
        simp only [Function.update_same]; exact hrq'
      · simp only [Function.update_noteq hko]; exact hq.rep k hk
  · intro k hk x hx
    simp only [setLevel, setSlot]
    by_cases hkn : k = n.toNat
    · subst hkn
      simp only [Function.update_same] at hx
      rcases List.mem_append.mp hx with h1 | h1
      · obtain ⟨h2, h3⟩ := (hmemnew x).mp h1
        rw [hpt x h3]
        exact hq.ent _ hk x h2
      · have hxv : x = v := by simpa using h1
        subst hxv
        simp only [Function.update_same]
        exact ⟨hv, hrun, hncast.symm⟩
    · simp only [Function.update_noteq hkn] at hx
      by_cases hko : k = (s.ptable v).priority.toNat
      · subst hko
        simp only [Function.update_same] at hx
        obtain ⟨h2, h3⟩ := hsub x hx
        rw [hpt x h3]
        exact hq.ent _ hk x h2
      · simp only [Function.update_noteq hko] at hx
        have hne : x ≠ v := by
          intro e; subst e
          have := (hq.ent k hk x hx).2.2
          rw [← hocast] at this
          exact hko (by exact_mod_cast this.symm)
        rw [hpt x hne]
        exact hq.ent k hk x hx
  · intro x hx hs
    simp only [setLevel, setSlot] at hs ⊢
    by_cases hxv : x = v
    · subst hxv
      rw [Function.update_same]
      show x ∈ Function.update (Function.update L (s.ptable x).priority.toNat (A ++ B))
        n.toNat (Lnew ++ [x]) n.toNat
      rw [Function.update_same]
      exact List.mem_append_right _ (List.mem_singleton_self _)
    · rw [hpt x hxv] at hs ⊢
      have hm := hq.run x hx hs
      by_cases hkn : (s.ptable x).priority.toNat = n.toNat
      · rw [hkn, Function.update_same]
        exact List.mem_append_left _ ((hmemnew x).mpr ⟨hkn ▸ hm, hxv⟩)
      · rw [Function.update_noteq hkn]
        by_cases hko : (s.ptable x).priority.toNat = (s.ptable v).priority.toNat
        · rw [hko, Function.update_same]
          exact hsup x (hko ▸ hm) hxv
        · rw [Function.update_noteq hko]; exact hm
  · intro k hk
    by_cases hkn : k = n.toNat
    · subst hkn
      rw [Function.update_same]
      refine List.nodup_append.mpr ⟨hndnew, List.nodup_singleton _, ?_⟩
      intro x hx1 hx2
      have : x = v := by simpa using hx2
      exact hvnew (this ▸ hx1)
    · rw [Function.update_noteq hkn]
      by_cases hko : k = (s.ptable v).priority.toNat
      · subst hko
        rw [Function.update_same]; exact hndAB
      · rw [Function.update_noteq hko]; exact hq.nodup k hk

/-- `moveToNewQueue`, called by `setpriority` after it has stored the new
priority `n` of `v`: whenever it completes, the queues are again in step with
the table and no head has moved; and it completes when no queue can wrap
around and the fuel covers a queue. -/
theorem moveToNewQueue_step (P : Params) (lf : Nat) (s : kstate) (L : Nat → List Nat)
    (v : Nat) (n : Int) (hcap : P.NPROC < P.QUEUE_CAPACITY) (hq : QueuesOK P s L)
    (huniq : ∀ a b, a < P.NPROC → b < P.NPROC → (s.ptable a).state ≠ procstate.UNUSED →
      (s.ptable b).state ≠ procstate.UNUSED → (s.ptable a).pid = (s.ptable b).pid → a = b)
    (hprio : prioInRange P (s.ptable v).priority) (hv : v < P.NPROC)
    (hlive : (s.ptable v).state ≠ procstate.UNUSED) (hn : prioInRange P n) :
    (∀ s2, moveToNewQueue P lf (setSlot s v { s.ptable v with priority := n }) v n
        (s.ptable v).priority = some s2 →
      (∃ L2, QueuesOK P s2 L2) ∧
      (∀ k, (s2.priorityTable k).head = (s.priorityTable k).head)) ∧
    (NoWrap P s → P.NPROC ≤ lf →
      ∃ s2, moveToNewQueue P lf (setSlot s v { s.ptable v with priority := n }) v n
        (s.ptable v).priority = some s2) := by
  by_cases hrun : (s.ptable v).state = procstate.RUNNABLE
  · have hok : (s.ptable v).priority.toNat < P.PRIORITYLEVELS := by
      have := hprio.1; have := hprio.2; omega
    have hmem := hq.run v hv hrun
    obtain ⟨A, B, hAB⟩ := List.append_of_mem hmem
    have hrep := hq.rep _ hok
    obtain ⟨h, hh, hhC⟩ := hrep.head_eq
    rw [hAB] at hrep
    have hnd := hq.nodup _ hok
    rw [hAB] at hnd
    have hvA : v ∉ A := fun hm =>
      (List.nodup_append.mp hnd).2.2 hm (List.mem_cons_self _ _)
    have hlenL := hq.length_le _ hok
    rw [hAB] at hlenL
    have hvalid : ∀ x ∈ A ++ v :: B, x < P.NPROC := by
      intro x hx; rw [← hAB] at hx; exact (hq.ent _ hok x hx).1
    have hbefore : ∀ x ∈ A,
        ((setSlot s v { s.ptable v with priority := n }).ptable x).pid ≠ (s.ptable v).pid := by
      intro x hx
      have hxL : x ∈ L (s.ptable v).priority.toNat := by
        rw [hAB]; exact List.mem_append_left _ hx
      obtain ⟨hxn, hxs, _⟩ := hq.ent _ hok x hxL
      have hne : x ≠ v := fun e => hvA (e ▸ hx)
      simp only [setSlot, Function.update_noteq hne]
      intro e
      exact hne (huniq x v hxn hv (by rw [hxs]; decide) hlive e)
    obtain ⟨f1, f2⟩ := findprocessinqueuewithpid_found P lf
      (setSlot s v { s.ptable v with priority := n })
      (s.priorityTable (s.ptable v).priority.toNat) (s.ptable v).pid A B v h hrep hh
      (by omega) hvalid (by simp only [setSlot, Function.update_same]) hbefore
    have hlev : level P (setSlot s v { s.ptable v with priority := n }) (s.ptable v).priority
        = some (s.priorityTable (s.ptable v).priority.toNat) :=
      level_of_range P _ _ hprio.1 hprio.2
    have hslot : slot P (setSlot s v { s.ptable v with priority := n }) v
        = some { s.ptable v with priority := n } := by
      rw [slot_of_lt P _ v hv]; simp only [setSlot, Function.update_same]
    have hidx : ((((h + A.length) % P.QUEUE_CAPACITY : Nat) : Int) ≠ -1) := by omega
    have hlevn : ∀ q', level P (setLevel (setSlot s v { s.ptable v with priority := n })
        (s.ptable v).priority q') n
        = some (Function.update s.priorityTable (s.ptable v).priority.toNat q' n.toNat) :=
      fun q' => level_of_range P _ _ hn.1 hn.2
    have hheads : ∀ q' q'' : processQueue,
        q''.head = (Function.update s.priorityTable (s.ptable v).priority.toNat q'
          n.toNat).head →
        q'.head = (s.priorityTable (s.ptable v).priority.toNat).head →
        ∀ k, ((setLevel (setLevel (setSlot s v { s.ptable v with priority := n })
          (s.ptable v).priority q') n q'').priorityTable k).head
          = (s.priorityTable k).head := by
      intro q' q'' e1 e2 k
      simp only [setLevel, setSlot]
      by_cases hkn : k = n.toNat
      · subst hkn
        rw [Function.update_same, e1]
        by_cases hko : n.toNat = (s.ptable v).priority.toNat
        · rw [hko, Function.update_same, e2]
        · rw [Function.update_noteq hko]
      · rw [Function.update_noteq hkn]
        by_cases hko : k = (s.ptable v).priority.toNat
        · rw [hko, Function.update_same, e2]
        · rw [Function.update_noteq hko]
    constructor
    · intro s2 h2
      simp only [moveToNewQueue, hlev, hslot] at h2
      split at h2
      · cases h2
      · rename_i index hfind
        have := f1 index hfind
        subst this
        rw [if_pos hidx] at h2
        split at h2
        · cases h2
        · rename_i q' hrem
          obtain ⟨q'', henq, hq2, e1, e2⟩ := moveToNewQueue_runnable_core P lf s L v n A B h
            hcap hq hprio hv hrun hn hAB hh q' hrem
          simp only [hlevn, henq] at h2
          cases h2
          exact ⟨hq2, hheads q' q'' e1 e2⟩
    · intro hnw hlf
      obtain ⟨h', hh', hroom⟩ := hnw _ hok
      have hhh : h' = h := by rw [hh'] at hh; exact_mod_cast hh
      subst hhh
      simp only [List.length_append, List.length_cons] at hlenL
      obtain ⟨q', hrem⟩ := Rep_remove_total P _ A B v h' hrep hh
        (by simp only [List.length_append, List.length_cons]; omega) lf (by omega)
      obtain ⟨q'', henq, _⟩ := moveToNewQueue_runnable_core P lf s L v n A B h'
        hcap hq hprio hv hrun hn hAB hh q' hrem
      refine ⟨setLevel (setLevel (setSlot s v { s.ptable v with priority := n })
        (s.ptable v).priority q') n q'', ?_⟩
      simp only [moveToNewQueue, hlev, hslot, f2 (by omega), if_pos hidx, hrem, hlevn, henq]
  · obtain ⟨g1, g2⟩ := moveToNewQueue_not_runnable P lf s L v n hcap hq huniq hprio hv hlive hrun
    constructor
    · intro s2 h2
      have := g1 s2 h2
      subst this
      refine ⟨⟨L, hq.follow rfl ?_ ?_⟩, fun k => rfl⟩
      · intro x _
        simp only [setSlot]
        by_cases hxv : x = v
        · subst hxv; simp only [Function.update_same]
        · simp only [Function.update_noteq hxv]
      · intro x _ hxs
        have hxv : x ≠ v := fun e => hrun (e ▸ hxs)
        simp only [setSlot, Function.update_noteq hxv]
    · intro _ hlf
      exact ⟨_, g2 hlf⟩

/-! ## `setpriority` keeps the invariant -/

theorem TableInv.keep {P : Params} {s s' : kstate} (h : TableInv P s)
    (hs : SameButPriority s.ptable s'.ptable)
    (hp : ∀ x, x < P.NPROC → prioInRange P (s'.ptable x).priority) : TableInv P s' where
  uniq a b ha hb hla hlb hpid := by
    rw [(hs a).1] at hla; rw [(hs b).1] at hlb
    rw [(hs a).2.1, (hs b).2.1] at hpid
    exact h.uniq a b ha hb hla hlb hpid
  child_live c hc hp' := by
    rw [(hs c).2.2.1] at hp'
    rw [(hs c).1]
    exact h.child_live c hc hp'
  prio := hp

theorem HeadsEq.chain_heads {s1 s2 s3 : kstate} (h1 : HeadsEq s1 s2) (h2 : HeadsEq s2 s3) :
    HeadsEq s1 s3 := fun k => (h2 k).trans (h1 k)

theorem NoWrap.of_heads {P : Params} {s s' : kstate} (h : NoWrap P s) (he : HeadsEq s s') :
    NoWrap P s' := by
  intro k hk
  obtain ⟨h0, hh, hr⟩ := h k hk
  exact ⟨h0, by rw [he k]; exact hh, hr⟩

theorem setpriorityforchildrenLoop_inv (P : Params)
    (call : kstate → Nat → Int → Option kstate) (parentpid diff : Int)
    (hcall : ∀ s c n s', SchedInv P s → c < P.NPROC →
      (s.ptable c).state ≠ procstate.UNUSED → call s c n = some s' →
      SchedInv P s' ∧ HeadsEq s s') :
    ∀ (is : List Nat) (s s' : kstate), SchedInv P s →
      setpriorityforchildrenLoop P call parentpid diff s is = some s' →
      SchedInv P s' ∧ HeadsEq s s' := by
  intro is
  induction is with
  | nil =>
    intro s s' hs h
    simp only [setpriorityforchildrenLoop] at h
    cases h; exact ⟨hs, fun _ => rfl⟩
  | cons a rest ih =>
    intro s s' hs h
    simp only [setpriorityforchildrenLoop] at h
    split at h
    · cases h
    · rename_i c hc
      obtain ⟨ha, hce⟩ := slot_eq_some hc
      subst hce
      split at h
      · exact ih s s' hs h
      · rename_i j hj
        split at h
        · cases h
        · split at h
          · split at h
            · cases h
            · rename_i s1 hs1
              have hlive : (s.ptable a).state ≠ procstate.UNUSED :=
                hs.1.child_live a ha (by rw [hj]; simp)
              obtain ⟨a1, a2⟩ := hcall s a _ s1 hs ha hlive hs1
              obtain ⟨b1, b2⟩ := ih s1 s' a1 h
              exact ⟨b1, a2.chain_heads b2⟩
          · exact ih s s' hs h

/-- Whenever `setpriority` completes on a slot in use, the invariant holds
again and no head of a queue has moved. -/
theorem setpriority_inv (P : Params) (lf : Nat) (hcap : P.NPROC < P.QUEUE_CAPACITY) :
    ∀ (fuel : Nat) (s : kstate) (i : Nat) (n : Int) (s' : kstate), SchedInv P s →
      i < P.NPROC → (s.ptable i).state ≠ procstate.UNUSED →
      setpriority P lf fuel s i n = some s' → SchedInv P s' ∧ HeadsEq s s' := by
  intro fuel
  induction fuel with
  | zero =>
    intro s i n s' hs _ _ h
    simp only [setpriority] at h
    split at h
    · cases h; exact ⟨hs, fun _ => rfl⟩
    · cases h
  | succ fuel ih =>
    intro s i n s' hs hi hlive h
    simp only [setpriority] at h
    split at h
    · cases h; exact ⟨hs, fun _ => rfl⟩
    · rename_i hn
      have hin : prioInRange P n := not_not.mp hn
      simp only [slot_of_lt P s i hi] at h
      split at h
      · cases h
      · rename_i s2 hs2
        obtain ⟨ht, L, hq⟩ := hs
        obtain ⟨m1, _⟩ := moveToNewQueue_step P lf s L i n hcap hq ht.uniq (ht.prio i hi) hi
          hlive hin
        obtain ⟨hq2, hheads⟩ := m1 s2 hs2
        have hpt2 : s2.ptable = Function.update s.ptable i { s.ptable i with priority := n } :=
          (moveToNewQueue_procs P lf _ _ _ _ _ hs2).1
        have hsame2 : SameButPriority s.ptable s2.ptable := by
          rw [hpt2]; exact SameButPriority.update_priority _ _ _
        have ht2 : TableInv P s2 := ht.keep hsame2 (by
          intro x hx
          rw [hpt2]
          by_cases hxi : x = i
          · subst hxi; rw [Function.update_same]; exact hin
          · rw [Function.update_noteq hxi]; exact ht.prio x hx)
        obtain ⟨r1, r2⟩ := setpriorityforchildrenLoop_inv P _ _ _
          (fun t c n' t' ht' hc hl hcall => ih t c n' t' ht' hc hl hcall) _ s2 s' ⟨ht2, hq2⟩ h
        exact ⟨r1, HeadsEq.chain_heads hheads r2⟩

/-! ## `setpriority` completes -/

theorem setpriorityforchildrenLoop_total (P : Params) (lf fuel : Nat) (m : Nat → Nat)
    (hcap : P.NPROC < P.QUEUE_CAPACITY) (i : Nat) (pp diff : Int) (hi : i < P.NPROC)
    (hfuel : m i ≤ fuel)
    (hcall : ∀ s c n, SchedInv P s → NoWrap P s → TableOK P s.ptable m → c < P.NPROC →
      (s.ptable c).state ≠ procstate.UNUSED → m c < fuel →
      ∃ s', setpriority P lf fuel s c n = some s') :
    ∀ (is : List Nat) (s : kstate), (∀ c ∈ is, c < P.NPROC) → SchedInv P s → NoWrap P s →
      TableOK P s.ptable m → (s.ptable i).state ≠ procstate.UNUSED → (s.ptable i).pid = pp →
      ∃ s', setpriorityforchildrenLoop P (setpriority P lf fuel) pp diff s is = some s' := by
  intro is
  induction is with
  | nil => intro s _ _ _ _ _ _; exact ⟨s, rfl⟩
  | cons a rest ih =>
    intro s hlt hs hnw hok hlive hpid
    have ha : a < P.NPROC := hlt a (by simp)
    have hlt' : ∀ c ∈ rest, c < P.NPROC := fun c hc => hlt c (List.mem_cons_of_mem _ hc)
    simp only [setpriorityforchildrenLoop, slot_of_lt P s a ha]
    cases hpar : (s.ptable a).parent with
    | none => exact ih s hlt' hs hnw hok hlive hpid
    | some j =>
      obtain ⟨hj, hjlive⟩ := hok.parent_live a j ha hpar
      simp only [slot_of_lt P s j hj]
      by_cases htest : (s.ptable j).pid = pp
      · rw [if_pos htest]
        have hji : j = i := hok.uniq j i hj hi hjlive hlive (by rw [htest, hpid])
        have hma : m a < fuel := by
          have := hok.rank a j ha hpar
          rw [hji] at this; omega
        have hal : (s.ptable a).state ≠ procstate.UNUSED := hok.child_live a j ha hpar
        obtain ⟨s1, hs1⟩ := hcall s a (diff + (s.ptable a).priority) hs hnw hok ha hal hma
        obtain ⟨i1, i2⟩ := setpriority_inv P lf hcap fuel s a _ s1 hs ha hal hs1
        have hsame := (setpriority_frame P lf fuel s a _ s1 hs1).1
        rw [hs1]
        exact ih s1 hlt' i1 (hnw.of_heads i2) (hok.same hsame)
          (by rw [(hsame i).1]; exact hlive) (by rw [(hsame i).2.1]; exact hpid)
      · rw [if_neg htest]
        exact ih s hlt' hs hnw hok hlive hpid

/-- On a state that satisfies the invariant and whose queues cannot wrap
around, with fuel for a scan of a queue and for the height of the process,
`setpriority` completes. -/
theorem setpriority_total (P : Params) (lf : Nat) (m : Nat → Nat)
    (hcap : P.NPROC < P.QUEUE_CAPACITY) (hlf : P.NPROC ≤ lf) :
    ∀ (fuel : Nat) (s : kstate) (i : Nat) (n : Int), SchedInv P s → NoWrap P s →
      TableOK P s.ptable m → i < P.NPROC → (s.ptable i).state ≠ procstate.UNUSED →
      m i < fuel → ∃ s', setpriority P lf fuel s i n = some s' := by
  intro fuel
  induction fuel with
  | zero => intro s i n _ _ _ _ _ h; omega
  | succ fuel ih =>
    intro s i n hs hnw hok hi hlive hfuel
    simp only [setpriority]
    by_cases hn : prioInRange P n
    · rw [if_neg (not_not.mpr hn)]
      simp only [slot_of_lt P s i hi]
      obtain ⟨ht, L, hq⟩ := hs
      obtain ⟨m1, m2⟩ := moveToNewQueue_step P lf s L i n hcap hq ht.uniq (ht.prio i hi) hi
        hlive hn
      obtain ⟨s2, hs2⟩ := m2 hnw hlf
      obtain ⟨hq2, hheads⟩ := m1 s2 hs2
      have hpt2 : s2.ptable = Function.update s.ptable i { s.ptable i with priority := n } :=
        (moveToNewQueue_procs P lf _ _ _ _ _ hs2).1
      have hsame2 : SameButPriority s.ptable s2.ptable := by
        rw [hpt2]; exact SameButPriority.update_priority _ _ _
      have ht2 : TableInv P s2 := ht.keep hsame2 (by
        intro x hx
        rw [hpt2]
        by_cases hxi : x = i
        · subst hxi; rw [Function.update_same]; exact hn
        · rw [Function.update_noteq hxi]; exact ht.prio x hx)
      rw [hs2]
      exact setpriorityforchildrenLoop_total P lf fuel m hcap i _ _ hi (by omega)
        (fun t c n' h1 h2 h3 h4 h5 h6 => ih t c n' h1 h2 h3 h4 h5 h6)
        _ s2 (fun c hc => List.mem_range.mp hc) ⟨ht2, hq2⟩ (hnw.of_heads hheads)
        (hok.same hsame2) (by rw [(hsame2 i).1]; exact hlive) (hsame2 i).2.1
    · rw [if_pos hn]
      exact ⟨s, rfl⟩

/-! ## C5 and C6: `setpriority`, `getpriority` and the children -/

theorem Reached.child_iff {P : Params} {T : Nat → proc} {m : Nat → Nat} (hok : TableOK P T m)
    {d : Int} {i c : Nat} (hc : c < P.NPROC) (hp : (T c).parent = some i) :
    Reached P T d i c ↔ prioInRange P ((T c).priority + d) := by
  constructor
  · intro h
    cases h with
    | root => have := hok.rank _ _ hc hp; omega
    | step _ _ _ hin => exact hin
  · intro hin
    exact Reached.step hc hp Reached.root hin

theorem Reached.grandchild_iff {P : Params} {T : Nat → proc} {m : Nat → Nat}
    (hok : TableOK P T m) {d : Int} {i c g : Nat} (hg : g < P.NPROC) (hc : c < P.NPROC)
    (hpg : (T g).parent = some c) (hpc : (T c).parent = some i) :
    Reached P T d i g ↔
      prioInRange P ((T c).priority + d) ∧ prioInRange P ((T g).priority + d) := by
  constructor
  · intro h
    cases h with
    | root =>
      have h1 := hok.rank _ _ hg hpg
      have h2 := hok.rank _ _ hc hpc
      omega
    | step _ hp' hj hin =>
      rw [hpg] at hp'; cases hp'
      exact ⟨(Reached.child_iff hok hc hpc).mp hj, hin⟩
  · rintro ⟨h1, h2⟩
    exact Reached.step hg hpg ((Reached.child_iff hok hc hpc).mpr h1) h2

/-- C5: for a process `i` in use in a table with unique pids and an acyclic
parent relation, `getpriority` of its pid right after `setpriority(i, n)` with
`n` in range returns `n`, whenever the call completes; the call completes on
every state that satisfies the invariant and whose queues cannot wrap around;
and `setpriority` with `n` out of range returns the state unchanged. -/
theorem setpriority_then_getpriority (P : Params) (lf fuel : Nat) (m : Nat → Nat)
    (s : kstate) (i : Nat) (n : Int) (hok : TableOK P s.ptable m) (hi : i < P.NPROC)
    (hlive : (s.ptable i).state ≠ procstate.UNUSED) :
    (prioInRange P n → ∀ s', setpriority P lf fuel s i n = some s' →
      getpriority P s' (s.ptable i).pid = n) ∧
    (prioInRange P n → SchedInv P s → NoWrap P s → P.NPROC ≤ lf → m i < fuel →
      ∃ s', setpriority P lf fuel s i n = some s' ∧ getpriority P s' (s.ptable i).pid = n) ∧
    (¬ prioInRange P n → setpriority P lf fuel s i n = some s) := by
  have key : prioInRange P n → ∀ s', setpriority P lf fuel s i n = some s' →
      getpriority P s' (s.ptable i).pid = n := by
    intro hn s' hs'
    have hsame := (setpriority_frame P lf fuel s i n s' hs').1
    have hok' := hok.same hsame
    have hfind : findprocesswithpid P s' (s.ptable i).pid = some i :=
      findprocesswithpid_eq_some P s' _ i hi (by rw [(hsame i).1]; exact hlive) (hsame i).2.1
        (fun k hk hkl hkp => hok'.uniq k i hk hi hkl (by rw [(hsame i).1]; exact hlive)
          (by rw [hkp, (hsame i).2.1]))
    have hpr := (setpriority_priorities P lf m fuel s i n s' hok hi hlive hs').1 i hn
      Reached.root
    simp only [getpriority, hfind, hpr]
    omega
  refine ⟨key, ?_, ?_⟩
  · intro hn hs hnw hlf hfuel
    have hcap : P.NPROC < P.QUEUE_CAPACITY := by
      have hPL : 0 < P.PRIORITYLEVELS := by have := hn.1; have := hn.2; omega
      obtain ⟨h, _, hr⟩ := hnw 0 hPL
      omega
    obtain ⟨s', hs'⟩ := setpriority_total P lf m hcap hlf fuel s i n hs hnw hok hi hlive hfuel
    exact ⟨s', hs', key hn s' hs'⟩
  · intro hn
    cases fuel with
    | zero => simp only [setpriority, if_pos hn]
    | succ fuel => simp only [setpriority, if_pos hn]

/-- C6 (as amended): after `setpriority(i, priority + d)` with the sum in
range, a direct child of `i` has gained exactly `d` when its own priority plus
`d` is in range and keeps its priority otherwise; and the change goes on
below: a grandchild has gained `d` too when its parent was shifted and its own
priority plus `d` is in range, and keeps its priority otherwise.  The call
completes on every state that satisfies the invariant and whose queues cannot
wrap around. -/
theorem setpriority_shifts_descendants (P : Params) (lf fuel : Nat) (m : Nat → Nat)
    (s : kstate) (i : Nat) (d : Int) (hok : TableOK P s.ptable m) (hi : i < P.NPROC)
    (hlive : (s.ptable i).state ≠ procstate.UNUSED)
    (hin : prioInRange P ((s.ptable i).priority + d)) :
    (∀ s', setpriority P lf fuel s i ((s.ptable i).priority + d) = some s' →
      (∀ c, c < P.NPROC → (s.ptable c).parent = some i →
        (s'.ptable c).priority =
          if prioInRange P ((s.ptable c).priority + d) then (s.ptable c).priority + d
          else (s.ptable c).priority) ∧
      (∀ g c, g < P.NPROC → c < P.NPROC → (s.ptable g).parent = some c →
        (s.ptable c).parent = some i →
        (s'.ptable g).priority =
          if prioInRange P ((s.ptable c).priority + d) ∧
              prioInRange P ((s.ptable g).priority + d)
          then (s.ptable g).priority + d else (s.ptable g).priority)) ∧
    (SchedInv P s → NoWrap P s → P.NPROC ≤ lf → m i < fuel →
      ∃ s', setpriority P lf fuel s i ((s.ptable i).priority + d) = some s') := by
  constructor
  · intro s' hs'
    obtain ⟨p1, p2⟩ := setpriority_priorities P lf m fuel s i _ s' hok hi hlive hs'
    have hd : (s.ptable i).priority + d - (s.ptable i).priority = d := by omega
    rw [hd] at p1 p2
    constructor
    · intro c hc hp
      by_cases hcin : prioInRange P ((s.ptable c).priority + d)
      · rw [if_pos hcin]
        exact p1 c hin ((Reached.child_iff hok hc hp).mpr hcin)
      · rw [if_neg hcin]
        exact p2 c fun h => hcin ((Reached.child_iff hok hc hp).mp h.2)
    · intro g c hg hc hpg hpc
      by_cases hgin : prioInRange P ((s.ptable c).priority + d) ∧
          prioInRange P ((s.ptable g).priority + d)
      · rw [if_pos hgin]
        exact p1 g hin ((Reached.grandchild_iff hok hg hc hpg hpc).mpr hgin)
      · rw [if_neg hgin]
        exact p2 g fun h => hgin ((Reached.grandchild_iff hok hg hc hpg hpc).mp h.2)
  · intro hs hnw hlf hfuel
    have hcap : P.NPROC < P.QUEUE_CAPACITY := by
      have hPL : 0 < P.PRIORITYLEVELS := by have := hin.1; have := hin.2; omega
      obtain ⟨h, _, hr⟩ := hnw 0 hPL
      omega
    exact setpriority_total P lf m hcap hlf fuel s i _ hs hnw hok hi hlive hfuel

/-! ### The example family satisfies the hypotheses -/

theorem exFamily_tableOK : TableOK exWide exFamily.ptable (fun i => 3 - i) where
  uniq a b ha hb := by
    have ha4 : a < 4 := ha
    have hb4 : b < 4 := hb
    interval_cases a <;> interval_cases b <;> decide
  parent_live c j hc := by
    have hc4 : c < 4 := hc
    interval_cases c <;> intro h <;> cases h <;> decide
  child_live c j hc := by
    have hc4 : c < 4 := hc
    interval_cases c <;> intro h <;> cases h <;> decide
  rank c j hc := by
    have hc4 : c < 4 := hc
    interval_cases c <;> intro h <;> cases h <;> decide

theorem exFamily_schedInv : SchedInv exWide exFamily := by
  refine ⟨⟨exFamily_tableOK.uniq, ?_, ?_⟩,
    fun k => if k = 1 then [2] else if k = 2 then [3] else [], ?_, ?_, ?_, ?_⟩
  · intro c hc
    have hc4 : c < 4 := hc
    interval_cases c <;> decide
  · intro x hx
    have hx4 : x < 4 := hx
    interval_cases x <;> decide
  · intro k hk
    have hk3 : k < 3 := hk
    interval_cases k
    · exact Rep_empty exWide _ 0 rfl (by decide) rfl rfl
    · exact Rep_singleton exWide _ 0 2 rfl (by decide) rfl rfl rfl
    · exact Rep_singleton exWide _ 0 3 rfl (by decide) rfl rfl rfl
  · intro k hk x hx
    have hk3 : k < 3 := hk
    interval_cases k
    · simp at hx
    · simp at hx; subst hx; decide
    · simp at hx; subst hx; decide
  · intro x hx
    have hx4 : x < 4 := hx
    interval_cases x <;> decide
  · intro k hk
    have hk3 : k < 3 := hk
    interval_cases k <;> decide

theorem exFamily_noWrap : NoWrap exWide exFamily := by
  intro k hk
  have hk3 : k < 3 := hk
  refine ⟨0, ?_, by decide⟩
  interval_cases k <;> rfl

theorem setpriority_then_getpriority_witness :
    ∃ s', setpriority exWide 4 4 exFamily 2 2 = some s' ∧ getpriority exWide s' 3 = 2 :=
  (setpriority_then_getpriority exWide 4 4 (fun i => 3 - i) exFamily 2 2 exFamily_tableOK
    (by decide) (by decide)).2.1 (by decide) exFamily_schedInv exFamily_noWrap
    (by decide) (by decide)

theorem setpriority_shifts_descendants_witness :
    ∃ s', setpriority exWide 4 4 exFamily 1 ((exFamily.ptable 1).priority + (-1)) = some s' ∧
      (s'.ptable 2).priority = 0 ∧ (s'.ptable 3).priority = 1 := by
  have T := setpriority_shifts_descendants exWide 4 4 (fun i => 3 - i) exFamily 1 (-1)
    exFamily_tableOK (by decide) (by decide) (by decide)
  obtain ⟨s', hs'⟩ := T.2 exFamily_schedInv exFamily_noWrap (by decide) (by decide)
  obtain ⟨t1, t2⟩ := T.1 s' hs'
  exact ⟨s', hs', (t1 2 (by decide) rfl).trans (by decide),
    (t2 3 2 (by decide) (by decide) rfl rfl).trans (by decide)⟩

/-- C6 (counterexample): in the example family, `setpriority` on slot 1 with
difference -1 changes the priority of the grandchild in slot 3 from 2 to 1. -/
theorem only_children_shift_fails : ¬ OnlyChildrenShift exWide 4 4 exFamily 1 (-1) := by
  intro h
  have hrun : ∃ s', setpriority exWide 4 4 exFamily 1 ((exFamily.ptable 1).priority + (-1))
      = some s' ∧ (s'.ptable 3).priority = 1 := ⟨_, rfl, rfl⟩
  obtain ⟨s', h1, h2⟩ := hrun
  have := (h s' h1).2 3 2 (by decide) (by decide) rfl rfl
  rw [h2] at this
  exact absurd this (by decide)

/-! ## The invariant of the core is kept by every operation -/

/-- A change of the table that leaves the queues, the priorities and the
RUNNABLE processes alone, and brings no slot into use, keeps `CoreInv`. -/
theorem CoreInv_of_table_change {P : Params} {s s' : kstate} (h : CoreInv P s)
    (hq : s'.priorityTable = s.priorityTable) (hnext : s.nextpid ≤ s'.nextpid)
    (hrun : ∀ x, x < P.NPROC →
      ((s'.ptable x).state = procstate.RUNNABLE ↔ (s.ptable x).state = procstate.RUNNABLE))
    (hprio : ∀ x, x < P.NPROC → (s'.ptable x).priority = (s.ptable x).priority)
    (hlive : ∀ x, x < P.NPROC → (s'.ptable x).state ≠ procstate.UNUSED →
      (s.ptable x).state ≠ procstate.UNUSED ∧ (s'.ptable x).pid = (s.ptable x).pid)
    (hpar : ∀ c, c < P.NPROC → (s'.ptable c).parent ≠ none →
      (s'.ptable c).state ≠ procstate.UNUSED) : CoreInv P s' where
  table :=
    { uniq := by
        intro a b ha hb hla hlb hp
        obtain ⟨la, pa⟩ := hlive a ha hla
        obtain ⟨lb, pb⟩ := hlive b hb hlb
        rw [pa, pb] at hp
        exact h.table.uniq a b ha hb la lb hp
      child_live := hpar
      prio := by
        intro x hx
        rw [hprio x hx]; exact h.table.prio x hx }
  queues := by
    obtain ⟨L, hL⟩ := h.queues
    exact ⟨L, hL.follow hq hrun (fun x hx _ => hprio x hx)⟩
  pids := by
    intro x hx hl
    obtain ⟨l, p⟩ := hlive x hx hl
    rw [p]
    have := h.pids x hx l
    omega

/-- `SetProcessRunnable` on a process in use that is not RUNNABLE, with queues
larger than the table: whenever it completes, `CoreInv` holds again, and
nothing but the state of that process and the queue of its level changed. -/
theorem SetProcessRunnable_inv (P : Params) (s : kstate) (i : Nat) (s' : kstate)
    (hcap : P.NPROC < P.QUEUE_CAPACITY) (h : CoreInv P s) (hi : i < P.NPROC)
    (hnr : (s.ptable i).state ≠ procstate.RUNNABLE)
    (hlive : (s.ptable i).state ≠ procstate.UNUSED)
    (hs' : SetProcessRunnable P s i = some s') :
    CoreInv P s' ∧
      s'.ptable = Function.update s.ptable i { s.ptable i with state := procstate.RUNNABLE } ∧
      s'.cur = s.cur ∧ s'.nextpid = s.nextpid ∧ s'.initproc = s.initproc := by
  obtain ⟨L, hL⟩ := h.queues
  have hpr := h.table.prio i hi
  have hk : (s.ptable i).priority.toNat < P.PRIORITYLEVELS := by
    have := hpr.1; have := hpr.2; omega
  have hkcast : (((s.ptable i).priority.toNat : Nat) : Int) = (s.ptable i).priority :=
    Int.toNat_of_nonneg hpr.1
  have hnot : i ∉ L (s.ptable i).priority.toNat := fun hm => hnr (hL.ent _ hk i hm).2.1
  have hlen := hL.length_succ_le _ hk i hi hnot
  obtain ⟨q', henq, hrq'⟩ := Rep_enqueue (hL.rep _ hk) (by omega) i
  unfold SetProcessRunnable InsertToPriorityTable at hs'
  simp only [slot_of_lt P s i hi] at hs'
  rw [level_of_range P _ _ hpr.1 hpr.2] at hs'
  simp only [setSlot, henq, Option.map_some', Option.some.injEq] at hs'
  subst hs'
  refine ⟨⟨⟨?_, ?_, ?_⟩, ⟨Function.update L (s.ptable i).priority.toNat
      (L (s.ptable i).priority.toNat ++ [i]), ?_, ?_, ?_, ?_⟩, ?_⟩, rfl, rfl, rfl, rfl⟩
  · intro a b ha hb hla hlb hp
    simp only [setLevel] at hla hlb hp
    have e : ∀ x, ((Function.update s.ptable i
        { s.ptable i with state := procstate.RUNNABLE }) x).pid = (s.ptable x).pid ∧
        (((Function.update s.ptable i
        { s.ptable i with state := procstate.RUNNABLE }) x).state ≠ procstate.UNUSED →
          (s.ptable x).state ≠ procstate.UNUSED) := by
      intro x
      by_cases hx : x = i
      · subst hx; rw [Function.update_same]; exact ⟨rfl, fun _ => hlive⟩
      · rw [Function.update_noteq hx]; exact ⟨rfl, fun hh => hh⟩
    rw [(e a).1, (e b).1] at hp
    exact h.table.uniq a b ha hb ((e a).2 hla) ((e b).2 hlb) hp
  · intro c hc hp
    simp only [setLevel] at hp ⊢
    by_cases hx : c = i
    · subst hx; simp only [Function.update_same]; decide
    · simp only [Function.update_noteq hx] at hp ⊢
      exact h.table.child_live c hc hp
  · intro x hx
    simp only [setLevel]
    by_cases hxi : x = i
    · subst hxi; simp only [Function.update_same]; exact hpr
    · simp only [Function.update_noteq hxi]; exact h.table.prio x hx
  · intro k hk'
    simp only [setLevel]
    by_cases hkk : k = (s.ptable i).priority.toNat
    · subst hkk; simp only [Function.update_same]; exact hrq'
    · simp only [Function.update_noteq hkk]; exact hL.rep k hk'
  · intro k hk' x hx
    simp only [setLevel]
    by_cases hkk : k = (s.ptable i).priority.toNat
    · subst hkk
      simp only [Function.update_same] at hx
      rcases List.mem_append.mp hx with h1 | h1
      · have hxi : x ≠ i := fun e => hnot (e ▸ h1)
        simp only [Function.update_noteq hxi]
        exact hL.ent _ hk' x h1
      · have hxi : x = i := by simpa using h1
        subst hxi
        rw [Function.update_same]
        exact ⟨hi, rfl, hkcast.symm⟩
    · simp only [Function.update_noteq hkk] at hx
      have hxi : x ≠ i := by
        intro e; subst e
        exact hnr (hL.ent k hk' x hx).2.1
      simp only [Function.update_noteq hxi]
      exact hL.ent k hk' x hx
  · intro x hx hs
    simp only [setLevel] at hs ⊢
    by_cases hxi : x = i
    · subst hxi
      rw [Function.update_same]
      show x ∈ Function.update L (s.ptable x).priority.toNat
        (L (s.ptable x).priority.toNat ++ [x]) (s.ptable x).priority.toNat
      rw [Function.update_same]
      exact List.mem_append_right _ (List.mem_singleton_self _)
    · rw [Function.update_noteq hxi] at hs ⊢
      have hm := hL.run x hx hs
      by_cases hkk : (s.ptable x).priority.toNat = (s.ptable i).priority.toNat
      · rw [hkk, Function.update_same]
        exact List.mem_append_left _ (hkk ▸ hm)
      · rw [Function.update_noteq hkk]; exact hm
  · intro k hk'
    by_cases hkk : k = (s.ptable i).priority.toNat
    · subst hkk
      rw [Function.update_same]
      refine List.nodup_append.mpr ⟨hL.nodup _ hk', List.nodup_singleton _, ?_⟩
      intro x hx1 hx2
      have : x = i := by simpa using hx2
      exact hnot (this ▸ hx1)
    · rw [Function.update_noteq hkk]; exact hL.nodup k hk'
  · intro x hx hl
    simp only [setLevel] at hl ⊢
    by_cases hxi : x = i
    · subst hxi
      simp only [Function.update_same]
      exact h.pids x hx hlive
    · simp only [Function.update_noteq hxi] at hl ⊢
      exact h.pids x hx hl

theorem WokeOnly_refl (s : kstate) : WokeOnly s s := fun _ => Or.inl rfl

theorem WokeOnly_trans {s1 s2 s3 : kstate} (h1 : WokeOnly s1 s2) (h2 : WokeOnly s2 s3) :
    WokeOnly s1 s3 := by
  intro x
  rcases h1 x with a | ⟨a1, a2⟩
  · rcases h2 x with b | ⟨b1, b2⟩
    · exact Or.inl (b.trans a)
    · rw [a] at b1 b2
      exact Or.inr ⟨b1, b2⟩
  · rcases h2 x with b | ⟨b1, b2⟩
    · exact Or.inr ⟨a1, b.trans a2⟩
    · rw [a2] at b1; cases b1

theorem WokeOnly_fields {s s' : kstate} (h : WokeOnly s s') (x : Nat) :
    (s'.ptable x).pid = (s.ptable x).pid ∧ (s'.ptable x).parent = (s.ptable x).parent ∧
    (s'.ptable x).priority = (s.ptable x).priority ∧
    (s'.ptable x).chan = (s.ptable x).chan ∧ (s'.ptable x).killed = (s.ptable x).killed ∧
    ((s.ptable x).state ≠ procstate.SLEEPING → (s'.ptable x).state = (s.ptable x).state) := by
  rcases h x with a | ⟨a1, a2⟩
  · rw [a]; exact ⟨rfl, rfl, rfl, rfl, rfl, fun _ => rfl⟩
  · rw [a2]; exact ⟨rfl, rfl, rfl, rfl, rfl, fun hh => absurd a1 hh⟩

theorem wakeup1Loop_inv (P : Params) (chan : voidptr) (hcap : P.NPROC < P.QUEUE_CAPACITY) :
    ∀ (is : List Nat) (s s' : kstate), CoreInv P s → wakeup1Loop P chan s is = some s' →
      CoreInv P s' ∧ s'.cur = s.cur ∧ s'.nextpid = s.nextpid ∧ s'.initproc = s.initproc ∧
        WokeOnly s s' := by
  intro is
  induction is with
  | nil =>
    intro s s' h hs'
    simp only [wakeup1Loop] at hs'
    cases hs'
    exact ⟨h, rfl, rfl, rfl, WokeOnly_refl s⟩
  | cons a rest ih =>
    intro s s' h hs'
    simp only [wakeup1Loop] at hs'
    split at hs'
    · cases hs'
    · rename_i p hp
      obtain ⟨ha, hpe⟩ := slot_eq_some hp
      subst hpe
      split at hs'
      · rename_i hsl
        split at hs'
        · cases hs'
        · rename_i s1 hs1
          obtain ⟨c1, c2, c3, c4, c5⟩ := SetProcessRunnable_inv P s a s1 hcap h ha
            (by rw [hsl.1]; decide) (by rw [hsl.1]; decide) hs1
          obtain ⟨d1, d2, d3, d4, d5⟩ := ih s1 s' c1 hs'
          refine ⟨d1, d2.trans c3, d3.trans c4, d4.trans c5, WokeOnly_trans ?_ d5⟩
          intro x
          rw [c2]
          by_cases hx : x = a
          · subst hx
            rw [Function.update_same]
            exact Or.inr ⟨hsl.1, rfl⟩
          · rw [Function.update_noteq hx]
            exact Or.inl rfl
      · exact ih s s' h hs'

theorem KernelInv_of_woke {P : Params} {s s' : kstate} (h : KernelInv P s)
    (hc : CoreInv P s') (hcur : s'.cur = s.cur) (hw : WokeOnly s s') : KernelInv P s' where
  core := hc
  running := by
    intro i hi
    rw [hcur] at hi
    obtain ⟨h1, h2⟩ := h.running i hi
    refine ⟨h1, ?_⟩
    rw [(WokeOnly_fields hw i).2.2.2.2.2 (by rw [h2]; decide)]
    exact h2

theorem wakeup_inv (P : Params) (hcap : P.NPROC < P.QUEUE_CAPACITY) (s s' : kstate)
    (chan : voidptr) (h : KernelInv P s) (hs' : wakeup P s chan = some s') :
    KernelInv P s' := by
  obtain ⟨c1, c2, _, _, c5⟩ := wakeup1Loop_inv P chan hcap _ s s' h.core hs'
  exact KernelInv_of_woke h c1 c2 c5

theorem yield_inv (P : Params) (hcap : P.NPROC < P.QUEUE_CAPACITY) (s s' : kstate)
    (h : KernelInv P s) (hs' : yield P s = some s') : KernelInv P { s' with cur := none } := by
  unfold yield at hs'
  split at hs'
  · cases hs'
  · rename_i i hi
    obtain ⟨h1, h2⟩ := h.running i hi
    obtain ⟨c1, c2, _, c4, _⟩ := SetProcessRunnable_inv P s i s' hcap h.core h1
      (by rw [h2]; decide) (by rw [h2]; decide) hs'
    refine ⟨CoreInv_of_table_change c1 rfl (le_refl _) (fun _ _ => Iff.rfl) (fun _ _ => rfl)
      (fun x hx hl => ⟨hl, rfl⟩) c1.table.child_live, ?_⟩
    intro j hj
    cases hj

theorem sleep_inv (P : Params) (s s' : kstate) (chan : voidptr) (h : KernelInv P s)
    (hs' : sleep P s chan = some s') : KernelInv P { s' with cur := none } := by
  unfold sleep at hs'
  split at hs'
  · cases hs'
  · rename_i i hi
    obtain ⟨h1, h2⟩ := h.running i hi
    simp only [slot_of_lt P s i h1, Option.map_some', Option.some.injEq] at hs'
    subst hs'
    have hf : ∀ x, x ≠ i → (Function.update s.ptable i
        { s.ptable i with chan := chan, state := procstate.SLEEPING }) x = s.ptable x :=
      fun x hx => Function.update_noteq hx _ _
    refine ⟨CoreInv_of_table_change h.core rfl (le_refl _) ?_ ?_ ?_ ?_, ?_⟩
    · intro x _
      simp only [setSlot]
      by_cases hx : x = i
      · subst hx; rw [Function.update_same, h2]; simp
      · rw [hf x hx]
    · intro x _
      simp only [setSlot]
      by_cases hx : x = i
      · subst hx; rw [Function.update_same]
      · rw [hf x hx]
    · intro x _ hl
      simp only [setSlot] at hl ⊢
      by_cases hx : x = i
      · subst hx; rw [Function.update_same]; exact ⟨by rw [h2]; decide, rfl⟩
      · rw [hf x hx] at hl ⊢; exact ⟨hl, rfl⟩
    · intro c hc hp
      simp only [setSlot] at hp ⊢
      by_cases hx : c = i
      · subst hx; rw [Function.update_same]; simp
      · rw [hf c hx] at hp ⊢; exact h.core.table.child_live c hc hp
    · intro j hj; cases hj

theorem sleepReturn_inv (P : Params) (s s' : kstate) (h : KernelInv P s)
    (hs' : sleepReturn P s = some s') : KernelInv P s' := by
  unfold sleepReturn at hs'
  split at hs'
  · cases hs'
  · rename_i i hi
    obtain ⟨h1, h2⟩ := h.running i hi
    simp only [slot_of_lt P s i h1, Option.map_some', Option.some.injEq] at hs'
    subst hs'
    have hf : ∀ x, x ≠ i → (Function.update s.ptable i
        { s.ptable i with chan := voidptr.null }) x = s.ptable x :=
      fun x hx => Function.update_noteq hx _ _
    refine ⟨CoreInv_of_table_change h.core rfl (le_refl _) ?_ ?_ ?_ ?_, ?_⟩
    · intro x _
      simp only [setSlot]
      by_cases hx : x = i
      · subst hx; rw [Function.update_same]
      · rw [hf x hx]
    · intro x _
      simp only [setSlot]
      by_cases hx : x = i
      · subst hx; rw [Function.update_same]
      · rw [hf x hx]
    · intro x _ hl
      simp only [setSlot] at hl ⊢
      by_cases hx : x = i
      · subst hx; rw [Function.update_same] at hl ⊢; exact ⟨hl, rfl⟩
      · rw [hf x hx] at hl ⊢; exact ⟨hl, rfl⟩
    · intro c hc hp
      simp only [setSlot] at hp ⊢
      by_cases hx : c = i
      · subst hx; rw [Function.update_same] at hp ⊢; exact h.core.table.child_live c hc hp
      · rw [hf c hx] at hp ⊢; exact h.core.table.child_live c hc hp
    · intro j hj
      simp only [setSlot] at hj ⊢
      obtain ⟨j1, j2⟩ := h.running j hj
      refine ⟨j1, ?_⟩
      by_cases hx : j = i
      · subst hx; rw [Function.update_same]; exact j2
      · rw [hf j hx]; exact j2

/-- Rewriting one slot keeps `CoreInv` when the slot stays RUNNABLE or stays
not RUNNABLE, keeps its priority, is not brought into use, and has no parent
pointer unless it is in use. -/
theorem CoreInv_setSlot {P : Params} {s : kstate} (i : Nat) (p' : proc) (h : CoreInv P s)
    (hrun : p'.state = procstate.RUNNABLE ↔ (s.ptable i).state = procstate.RUNNABLE)
    (hprio : p'.priority = (s.ptable i).priority)
    (hlive : p'.state ≠ procstate.UNUSED →
      (s.ptable i).state ≠ procstate.UNUSED ∧ p'.pid = (s.ptable i).pid)
    (hpar : p'.parent ≠ none → p'.state ≠ procstate.UNUSED) : CoreInv P (setSlot s i p') := by
  have hf : ∀ x, x ≠ i → (Function.update s.ptable i p') x = s.ptable x :=
    fun x hx => Function.update_noteq hx _ _
  refine CoreInv_of_table_change h rfl (le_refl _) ?_ ?_ ?_ ?_
  · intro x _
    simp only [setSlot]
    by_cases hx : x = i
    · subst hx; rw [Function.update_same]; exact hrun
    · rw [hf x hx]
  · intro x _
    simp only [setSlot]
    by_cases hx : x = i
    · subst hx; rw [Function.update_same]; exact hprio
    · rw [hf x hx]
  · intro x _ hl
    simp only [setSlot] at hl ⊢
    by_cases hx : x = i
    · subst hx; rw [Function.update_same] at hl ⊢; exact hlive hl
    · rw [hf x hx] at hl ⊢; exact ⟨hl, rfl⟩
  · intro c hc hp
    simp only [setSlot] at hp ⊢
    by_cases hx : c = i
    · subst hx; rw [Function.update_same] at hp ⊢; exact hpar hp
    · rw [hf c hx] at hp ⊢; exact h.table.child_live c hc hp

theorem KernelInv_setSlot {P : Params} {s : kstate} (i : Nat) (p' : proc) (h : KernelInv P s)
    (hrun : p'.state = procstate.RUNNABLE ↔ (s.ptable i).state = procstate.RUNNABLE)
    (hprio : p'.priority = (s.ptable i).priority)
    (hlive : p'.state ≠ procstate.UNUSED →
      (s.ptable i).state ≠ procstate.UNUSED ∧ p'.pid = (s.ptable i).pid)
    (hpar : p'.parent ≠ none → p'.state ≠ procstate.UNUSED)
    (hcur : s.cur = some i → p'.state = procstate.RUNNING) : KernelInv P (setSlot s i p') where
  core := CoreInv_setSlot i p' h.core hrun hprio hlive hpar
  running := by
    intro j hj
    obtain ⟨j1, j2⟩ := h.running j hj
    refine ⟨j1, ?_⟩
    simp only [setSlot]
    by_cases hx : j = i
    · subst hx; rw [Function.update_same]; exact hcur hj
    · rw [Function.update_noteq hx]; exact j2

theorem find?_range_lt {p : Nat → Bool} {n i : Nat} (h : (List.range n).find? p = some i) :
    i < n ∧ p i = true :=
  ⟨List.mem_range.mp (List.mem_of_find?_eq_some h), List.find?_some h⟩

theorem kill_inv (P : Params) (hcap : P.NPROC < P.QUEUE_CAPACITY) (s s' : kstate)
    (pid r : Int) (h : KernelInv P s) (hs' : kill P s pid = some (s', r)) :
    KernelInv P s' := by
  unfold kill at hs'
  split at hs'
  · cases hs'; exact h
  · rename_i i hfind
    obtain ⟨hi, _⟩ := find?_range_lt hfind
    have h1 : KernelInv P (setSlot s i { s.ptable i with killed := 1 }) :=
      KernelInv_setSlot i _ h Iff.rfl rfl (fun hl => ⟨hl, rfl⟩)
        (fun hp => h.core.table.child_live i hi hp) (fun hc => (h.running i hc).2)
    split at hs'
    · rename_i hsl
      cases hsr : SetProcessRunnable P (setSlot s i { s.ptable i with killed := 1 }) i with
      | none => rw [hsr] at hs'; cases hs'
      | some s1 =>
        rw [hsr] at hs'
        simp only [Option.map_some', Option.some.injEq, Prod.mk.injEq] at hs'
        obtain ⟨e1, _⟩ := hs'
        subst e1
        have hst : ((setSlot s i { s.ptable i with killed := 1 }).ptable i).state
            = procstate.SLEEPING := by
          simp only [setSlot, Function.update_same]; exact hsl
        obtain ⟨c1, c2, c3, _, _⟩ := SetProcessRunnable_inv P _ i s1 hcap h1.core hi
          (by rw [hst]; decide) (by rw [hst]; decide) hsr
        refine ⟨c1, ?_⟩
        intro j hj
        rw [c3] at hj
        obtain ⟨j1, j2⟩ := h1.running j hj
        refine ⟨j1, ?_⟩
        have hne : j ≠ i := by
          intro e; subst e; rw [hst] at j2; cases j2
        rw [c2, Function.update_noteq hne]; exact j2
    · simp only [Option.some.injEq, Prod.mk.injEq] at hs'
      obtain ⟨e1, _⟩ := hs'
      subst e1; exact h1

theorem wait_inv (P : Params) (s s' : kstate) (r : Option Int) (h : KernelInv P s)
    (hs' : wait P s = some (s', r)) :
    (r ≠ none → KernelInv P s') ∧ (r = none → KernelInv P { s' with cur := none }) := by
  unfold wait at hs'
  split at hs'
  · cases hs'
  · rename_i cur hcur
    obtain ⟨hc1, hc2⟩ := h.running cur hcur
    simp only [slot_of_lt P s cur hc1] at hs'
    split at hs'
    · rename_i i hfind
      obtain ⟨hi, hpi⟩ := find?_range_lt hfind
      simp only [Bool.and_eq_true, decide_eq_true_eq] at hpi
      simp only [Option.some.injEq, Prod.mk.injEq] at hs'
      obtain ⟨e1, e2⟩ := hs'
      subst e1 e2
      refine ⟨fun _ => ?_, fun hr => by cases hr⟩
      exact KernelInv_setSlot i _ h (by rw [hpi.2]; simp) rfl
        (fun hl => absurd rfl hl) (fun hp => absurd rfl hp)
        (fun hc => by
          have := (h.running i hc).2
          rw [hpi.2] at this; cases this)
    · split at hs'
      · simp only [Option.some.injEq, Prod.mk.injEq] at hs'
        obtain ⟨e1, e2⟩ := hs'
        subst e1 e2
        exact ⟨fun _ => h, fun hr => by cases hr⟩
      · cases hsl : sleep P s (voidptr.ofproc cur) with
        | none => rw [hsl] at hs'; cases hs'
        | some s1 =>
          rw [hsl] at hs'
          simp only [Option.map_some', Option.some.injEq, Prod.mk.injEq] at hs'
          obtain ⟨e1, e2⟩ := hs'
          subst e1 e2
          exact ⟨fun hr => absurd rfl hr, fun _ => sleep_inv P s s1 _ h hsl⟩

theorem exitLoop_inv (P : Params) (hcap : P.NPROC < P.QUEUE_CAPACITY) (cur : Nat) :
    ∀ (is : List Nat) (s s' : kstate), CoreInv P s →
      (s.ptable cur).state = procstate.RUNNING → exitLoop P cur s is = some s' →
      CoreInv P s' ∧ (s'.ptable cur).state = procstate.RUNNING := by
  intro is
  induction is with
  | nil =>
    intro s s' h hr hs'
    simp only [exitLoop] at hs'
    cases hs'; exact ⟨h, hr⟩
  | cons a rest ih =>
    intro s s' h hr hs'
    simp only [exitLoop] at hs'
    split at hs'
    · cases hs'
    · rename_i p hp
      obtain ⟨ha, hpe⟩ := slot_eq_some hp
      subst hpe
      split at hs'
      · rename_i hpar
        have hal : (s.ptable a).state ≠ procstate.UNUSED :=
          h.table.child_live a ha (by rw [hpar]; simp)
        have h1 : CoreInv P (setSlot s a { s.ptable a with parent := s.initproc }) :=
          CoreInv_setSlot a _ h Iff.rfl rfl (fun hl => ⟨hl, rfl⟩) (fun _ => hal)
        have hr1 : ((setSlot s a { s.ptable a with parent := s.initproc }).ptable cur).state
            = procstate.RUNNING := by
          simp only [setSlot]
          by_cases hx : cur = a
          · subst hx; rw [Function.update_same]; exact hr
          · rw [Function.update_noteq hx]; exact hr
        split at hs'
        · split at hs'
          · cases hs'
          · rename_i s2 hs2
            obtain ⟨c1, _, _, _, c5⟩ := wakeup1Loop_inv P _ hcap _ _ s2 h1 hs2
            have hr2 : (s2.ptable cur).state = procstate.RUNNING := by
              rw [(WokeOnly_fields c5 cur).2.2.2.2.2 (by rw [hr1]; decide)]; exact hr1
            exact ih s2 s' c1 hr2 hs'
        · exact ih _ s' h1 hr1 hs'
      · exact ih s s' h hr hs'

theorem exit_inv (P : Params) (hcap : P.NPROC < P.QUEUE_CAPACITY) (s s' : kstate)
    (h : KernelInv P s) (hs' : exit P s = some s') : KernelInv P { s' with cur := none } := by
  unfold exit at hs'
  split at hs'
  · cases hs'
  · rename_i cur hcur
    obtain ⟨hc1, hc2⟩ := h.running cur hcur
    split at hs'
    · cases hs'
    · simp only [slot_of_lt P s cur hc1] at hs'
      split at hs'
      · cases hs'
      · rename_i s1 hs1
        obtain ⟨c1, _, _, _, c5⟩ := wakeup1Loop_inv P _ hcap _ s s1 h.core hs1
        have hr1 : (s1.ptable cur).state = procstate.RUNNING := by
          rw [(WokeOnly_fields c5 cur).2.2.2.2.2 (by rw [hc2]; decide)]; exact hc2
        split at hs'
        · cases hs'
        · rename_i s2 hs2
          obtain ⟨d1, d2⟩ := exitLoop_inv P hcap cur _ s1 s2 c1 hr1 hs2
          simp only [Option.some.injEq] at hs'
          subst hs'
          have := CoreInv_setSlot cur { s2.ptable cur with state := procstate.ZOMBIE } d1
            (by rw [d2]; simp) rfl (fun _ => ⟨by rw [d2]; decide, rfl⟩) (fun _ => by simp)
          refine ⟨CoreInv_of_table_change this rfl (le_refl _) (fun _ _ => Iff.rfl)
            (fun _ _ => rfl) (fun x hx hl => ⟨hl, rfl⟩) this.table.child_live, ?_⟩
          intro j hj; cases hj

theorem CoreInv_of_setpriority (P : Params) (lf fuel : Nat)
    (hcap : P.NPROC < P.QUEUE_CAPACITY) (s s' : kstate) (i : Nat) (n : Int)
    (h : CoreInv P s) (hi : i < P.NPROC) (hlive : (s.ptable i).state ≠ procstate.UNUSED)
    (hs' : setpriority P lf fuel s i n = some s') :
    CoreInv P s' ∧ SameButPriority s.ptable s'.ptable ∧ s'.cur = s.cur ∧
      s'.nextpid = s.nextpid ∧ s'.initproc = s.initproc := by
  obtain ⟨⟨t1, t2⟩, _⟩ := setpriority_inv P lf hcap fuel s i n s' ⟨h.table, h.queues⟩ hi hlive hs'
  obtain ⟨f1, f2, f3, f4⟩ := setpriority_frame P lf fuel s i n s' hs'
  refine ⟨⟨t1, t2, ?_⟩, f1, f4, f3, f2⟩
  intro x hx hl
  rw [(f1 x).1] at hl
  rw [(f1 x).2.1, f3]
  exact h.pids x hx hl

theorem KernelInv_of_setpriority (P : Params) (lf fuel : Nat)
    (hcap : P.NPROC < P.QUEUE_CAPACITY) (s s' : kstate) (i : Nat) (n : Int)
    (h : KernelInv P s) (hi : i < P.NPROC) (hlive : (s.ptable i).state ≠ procstate.UNUSED)
    (hs' : setpriority P lf fuel s i n = some s') : KernelInv P s' := by
  obtain ⟨c1, c2, c3, _, _⟩ := CoreInv_of_setpriority P lf fuel hcap s s' i n h.core hi hlive hs'
  refine ⟨c1, ?_⟩
  intro j hj
  rw [c3] at hj
  obtain ⟨j1, j2⟩ := h.running j hj
  exact ⟨j1, by rw [(c2 j).1]; exact j2⟩

theorem setprioritybypid_inv (P : Params) (lf fuel : Nat)
    (hcap : P.NPROC < P.QUEUE_CAPACITY) (s s' : kstate) (pid priority r : Int)
    (h : KernelInv P s) (hs' : setprioritybypid P lf fuel s pid priority = some (s', r)) :
    KernelInv P s' := by
  unfold setprioritybypid at hs'
  split at hs'
  · cases hs'; exact h
  · split at hs'
    · cases hs'; exact h
    · rename_i i hfind
      unfold findprocesswithpid at hfind
      obtain ⟨hi, hpi⟩ := find?_range_lt hfind
      simp only [Bool.and_eq_true, decide_eq_true_eq] at hpi
      split at hs'
      · cases hs'; exact h
      · split at hs'
        · cases hs'
        · split at hs'
          · cases hsp : setpriority P lf fuel s i priority with
            | none => rw [hsp] at hs'; cases hs'
            | some s1 =>
              rw [hsp] at hs'
              simp only [Option.map_some', Option.some.injEq, Prod.mk.injEq] at hs'
              obtain ⟨e1, _⟩ := hs'
              subst e1
              exact KernelInv_of_setpriority P lf fuel hcap s s1 i priority h hi hpi.1 hsp
          · cases hs'; exact h

theorem nice_inv (P : Params) (lf fuel : Nat) (hcap : P.NPROC < P.QUEUE_CAPACITY)
    (s s' : kstate) (value r : Int) (h : KernelInv P s)
    (hs' : nice P lf fuel s value = some (s', r)) : KernelInv P s' := by
  unfold nice at hs'
  split at hs'
  · cases hs'
  · rename_i i hcur
    obtain ⟨hi, hst⟩ := h.running i hcur
    simp only [slot_of_lt P s i hi] at hs'
    split at hs'
    · cases hs'; exact h
    · split at hs'
      · cases hs'; exact h
      · split at hs'
        · cases hs'
        · split at hs'
          · cases hsp : setpriority P lf fuel s i (wrap32 ((s.ptable i).priority + value)) with
            | none => rw [hsp] at hs'; cases hs'
            | some s1 =>
              rw [hsp] at hs'
              simp only [Option.map_some', Option.some.injEq, Prod.mk.injEq] at hs'
              obtain ⟨e1, _⟩ := hs'
              subst e1
              exact KernelInv_of_setpriority P lf fuel hcap s s1 i _ h hi
                (by rw [hst]; decide) hsp
          · cases hs'; exact h

theorem pruneQueueFrom_runnable_id (P : Params) (lf : Nat) (s : kstate) (q : processQueue)
    (l : List Nat) (hr : Rep P q l)
    (hl : ∀ x ∈ l, x < P.NPROC ∧ (s.ptable x).state = procstate.RUNNABLE) :
    ∀ (n k : Nat) (h : Nat) (q' : processQueue), q.head = (h : Int) → k ≤ l.length →
      pruneQueueFrom P lf s n q (((h + k) % P.QUEUE_CAPACITY : Nat) : Int) = some q' →
      q' = q := by
  obtain ⟨h0, hh0, hhC, ht, hs, hle, hc⟩ := hr
  have hC : 0 < P.QUEUE_CAPACITY := by omega
  intro n
  induction n with
  | zero =>
    intro k h q' hh hk hq'
    simp only [pruneQueueFrom] at hq'
    split at hq'
    · cases hq'; rfl
    · cases hq'
  | succ n ih =>
    intro k h q' hh hk hq'
    have hhh : h = h0 := by rw [hh0] at hh; exact_mod_cast hh.symm
    subst hhh
    simp only [pruneQueueFrom] at hq'
    split at hq'
    · cases hq'; rfl
    · rename_i hj
      have hklt : k < l.length := by
        rcases Nat.lt_or_ge k l.length with h1 | h1
        · exact h1
        · exfalso; apply hj
          have : k = l.length := by omega
          rw [this, ht]
      have hx := hc k (l[k]) (by simp [hklt])
      have hmem : l[k] ∈ l := List.getElem_mem hklt
      obtain ⟨hxn, hxs⟩ := hl _ hmem
      simp only [qread_cast P q _ (Nat.mod_lt _ hC), hx, deref, slot_of_lt P s _ hxn, hxs,
        ne_eq, not_true_eq_false, if_false] at hq'
      rw [tmod_succ_cast, Nat.mod_add_mod] at hq'
      exact ih (k + 1) h q' hh (by omega) hq'

theorem pruneLevels_runnable_id (P : Params) (lf : Nat) (s : kstate) (L : Nat → List Nat)
    (hq : QueuesOK P s L) :
    ∀ (is : List Nat) (s' : kstate), (∀ i ∈ is, i < P.PRIORITYLEVELS) →
      pruneLevels P lf s is = some s' → s' = s := by
  intro is
  induction is with
  | nil =>
    intro s' _ h
    simp only [pruneLevels] at h
    cases h; rfl
  | cons a rest ih =>
    intro s' hlt h
    have ha := hlt a (by simp)
    simp only [pruneLevels, level_cast P s a ha] at h
    split at h
    · cases h
    · rename_i q1 hq1
      obtain ⟨h0, hh, hhC⟩ := (hq.rep a ha).head_eq
      have hid := pruneQueueFrom_runnable_id P lf s _ (L a) (hq.rep a ha)
        (fun x hx => ⟨(hq.ent a ha x hx).1, (hq.ent a ha x hx).2.1⟩) lf 0 h0 q1 hh
        (Nat.zero_le _) (by
          rw [Nat.add_zero, Nat.mod_eq_of_lt hhC, ← hh]; exact hq1)
      subst hid
      have : setLevel s (a : Int) (s.priorityTable a) = s := by
        simp only [setLevel, Int.toNat_ofNat, Function.update_eq_self]
      rw [this] at h
      exact ih s' (fun i hi => hlt i (List.mem_cons_of_mem _ hi)) h

theorem KernelInv_with_cur_none {P : Params} {s : kstate} (h : CoreInv P s) :
    KernelInv P { s with cur := none } := by
  refine ⟨CoreInv_of_table_change h rfl (le_refl _) (fun _ _ => Iff.rfl) (fun _ _ => rfl)
    (fun x hx hl => ⟨hl, rfl⟩) h.table.child_live, ?_⟩
  intro j hj; cases hj

/-- A completed selection of the scheduler, in a state that satisfies the
invariant: pruning changed nothing, and either the level of the cursor was
empty and the state is unchanged, or its oldest entry was taken. -/
theorem schedulerSelect_inv (P : Params) (lf : Nat) (s s2 : kstate) (c : Int) (r : procptr)
    (L : Nat → List Nat) (hq : QueuesOK P s L)
    (hsel : schedulerSelect P lf s c = some (s2, r)) :
    c.toNat < P.PRIORITYLEVELS ∧
    ((r = none ∧ s2 = s) ∨
      ∃ x rest q', L c.toNat = x :: rest ∧ r = some x ∧ Rep P q' rest ∧
        s2 = setLevel s c q') := by
  unfold schedulerSelect at hsel
  split at hsel
  · cases hsel
  · rename_i s1 hs1
    have hid := pruneLevels_runnable_id P lf s L hq _ s1
      (fun i hi => List.mem_range.mp hi) hs1
    subst hid
    unfold GetNextRunnableProcess at hsel
    split at hsel
    · cases hsel
    · rename_i q hlev
      obtain ⟨hc0, hc1, hck, hqe⟩ := level_eq_some hlev
      subst hqe
      refine ⟨hck, ?_⟩
      have hrep := hq.rep _ hck
      cases hL : L c.toNat with
      | nil =>
        rw [hL] at hrep
        rw [Rep_dequeue_nil hrep] at hsel
        simp only [Option.map_some', Option.some.injEq, Prod.mk.injEq] at hsel
        obtain ⟨e1, e2⟩ := hsel
        left
        refine ⟨e2.symm, ?_⟩
        rw [← e1]
        simp only [setLevel, Function.update_eq_self]
      | cons x rest =>
        rw [hL] at hrep
        obtain ⟨q', hdq, hrq'⟩ := Rep_dequeue_cons hrep
        rw [hdq] at hsel
        simp only [Option.map_some', Option.some.injEq, Prod.mk.injEq] at hsel
        obtain ⟨e1, e2⟩ := hsel
        right
        exact ⟨x, rest, q', rfl, e2.symm, hrq', e1.symm⟩

theorem idle_inv (P : Params) (lf : Nat) (s s2 : kstate) (c : Int) (h : KernelInv P s)
    (hsel : schedulerSelect P lf s c = some (s2, none)) : KernelInv P s2 := by
  obtain ⟨L, hL⟩ := h.core.queues
  obtain ⟨_, h1 | ⟨x, rest, q', _, e, _⟩⟩ := schedulerSelect_inv P lf s s2 c none L hL hsel
  · rw [h1.2]; exact h
  · cases e

theorem TableInv_of_change {P : Params} {s s' : kstate} (h : CoreInv P s)
    (hnext : s.nextpid ≤ s'.nextpid)
    (hprio : ∀ x, x < P.NPROC → (s'.ptable x).priority = (s.ptable x).priority)
    (hlive : ∀ x, x < P.NPROC → (s'.ptable x).state ≠ procstate.UNUSED →
      (s.ptable x).state ≠ procstate.UNUSED ∧ (s'.ptable x).pid = (s.ptable x).pid)
    (hpar : ∀ c, c < P.NPROC → (s'.ptable c).parent ≠ none →
      (s'.ptable c).state ≠ procstate.UNUSED) :
    TableInv P s' ∧ ∀ x, x < P.NPROC → (s'.ptable x).state ≠ procstate.UNUSED →
      (s'.ptable x).pid < s'.nextpid := by
  refine ⟨⟨?_, hpar, ?_⟩, ?_⟩
  · intro a b ha hb hla hlb hp
    obtain ⟨la, pa⟩ := hlive a ha hla
    obtain ⟨lb, pb⟩ := hlive b hb hlb
    rw [pa, pb] at hp
    exact h.table.uniq a b ha hb la lb hp
  · intro x hx
    rw [hprio x hx]; exact h.table.prio x hx
  · intro x hx hl
    obtain ⟨l, p⟩ := hlive x hx hl
    rw [p]
    have := h.pids x hx l
    omega

theorem dispatch_inv (P : Params) (lf : Nat) (s s2 s3 : kstate) (c : Int) (i : Nat)
    (h : KernelInv P s) (hsel : schedulerSelect P lf s c = some (s2, some i))
    (hsw : SwitchToProccess P s2 i = some s3) : KernelInv P s3 := by
  obtain ⟨L, hL⟩ := h.core.queues
  obtain ⟨hck, h1 | ⟨x, rest, q', hLc, e, hrq', hs2⟩⟩ :=
    schedulerSelect_inv P lf s s2 c (some i) L hL hsel
  · cases h1.1
  · cases e
    subst hs2
    have hmem : i ∈ L c.toNat := by rw [hLc]; exact List.mem_cons_self _ _
    obtain ⟨hi, hst, hpr⟩ := hL.ent _ hck i hmem
    have hnd := hL.nodup _ hck
    rw [hLc] at hnd
    obtain ⟨hinot, hndrest⟩ := List.nodup_cons.mp hnd
    unfold SwitchToProccess at hsw
    simp only [slot_of_lt P _ i hi, Option.map_some', Option.some.injEq] at hsw
    have hf : ∀ y, y ≠ i → (Function.update s.ptable i
        { s.ptable i with state := procstate.RUNNING }) y = s.ptable y :=
      fun y hy => Function.update_noteq hy _ _
    have hcore : CoreInv P (setSlot (setLevel s c q') i
        { s.ptable i with state := procstate.RUNNING }) := by
      obtain ⟨t1, t2⟩ := @TableInv_of_change P s (setSlot (setLevel s c q') i
          { s.ptable i with state := procstate.RUNNING }) h.core (le_refl _)
        (by
          intro y _
          simp only [setSlot, setLevel]
          by_cases hyi : y = i
          · subst hyi; rw [Function.update_same]
          · rw [hf y hyi])
        (by
          intro y _ hl
          simp only [setSlot, setLevel] at hl ⊢
          by_cases hyi : y = i
          · subst hyi; rw [Function.update_same]; exact ⟨by rw [hst]; decide, rfl⟩
          · rw [hf y hyi] at hl ⊢; exact ⟨hl, rfl⟩)
        (by
          intro y hy hp
          simp only [setSlot, setLevel] at hp ⊢
          by_cases hyi : y = i
          · subst hyi; rw [Function.update_same]; simp
          · rw [hf y hyi] at hp ⊢; exact h.core.table.child_live y hy hp)
      refine ⟨t1, ⟨Function.update L c.toNat rest, ?_, ?_, ?_, ?_⟩, t2⟩
      · intro k hk
        simp only [setSlot, setLevel]
        by_cases hkc : k = c.toNat
        · subst hkc; simp only [Function.update_same]; exact hrq'
        · simp only [Function.update_noteq hkc]; exact hL.rep k hk
      · intro k hk y hy
        simp only [setSlot, setLevel]
        by_cases hkc : k = c.toNat
        · subst hkc
          simp only [Function.update_same] at hy
          have hyi : y ≠ i := fun e => hinot (e ▸ hy)
          rw [hf y hyi]
          exact hL.ent _ hk y (by rw [hLc]; exact List.mem_cons_of_mem _ hy)
        · simp only [Function.update_noteq hkc] at hy
          have hyi : y ≠ i := by
            intro e; subst e
            have := (hL.ent k hk y hy).2.2
            rw [hpr] at this
            exact hkc (by exact_mod_cast this.symm)
          rw [hf y hyi]
          exact hL.ent k hk y hy
      · intro y hy hs
        simp only [setSlot, setLevel] at hs ⊢
        have hyi : y ≠ i := by
          intro e; subst e; rw [Function.update_same] at hs; cases hs
        rw [hf y hyi] at hs ⊢
        have hm := hL.run y hy hs
        by_cases hkc : (s.ptable y).priority.toNat = c.toNat
        · rw [hkc, Function.update_same]
          rw [hkc, hLc] at hm
          rcases List.mem_cons.mp hm with e | e
          · exact absurd e hyi
          · exact e
        · rw [Function.update_noteq hkc]; exact hm
      · intro k hk
        by_cases hkc : k = c.toNat
        · subst hkc; rw [Function.update_same]; exact hndrest
        · rw [Function.update_noteq hkc]; exact hL.nodup k hk
    subst hsw
    refine ⟨CoreInv_of_table_change hcore rfl (le_refl _) (fun _ _ => Iff.rfl)
      (fun _ _ => rfl) (fun x hx hl => ⟨hl, rfl⟩) hcore.table.child_live, ?_⟩
    intro j hj
    simp only [Option.some.injEq] at hj
    subst hj
    refine ⟨hi, ?_⟩
    show ((Function.update s.ptable i { s.ptable i with state := procstate.RUNNING }) i).state
      = procstate.RUNNING
    rw [Function.update_same]

theorem KernelInv_SetProcessRunnable (P : Params) (hcap : P.NPROC < P.QUEUE_CAPACITY)
    (s s' : kstate) (i : Nat) (h : KernelInv P s) (hi : i < P.NPROC)
    (hst : (s.ptable i).state = procstate.EMBRYO)
    (hs' : SetProcessRunnable P s i = some s') : KernelInv P s' := by
  obtain ⟨c1, c2, c3, _, _⟩ := SetProcessRunnable_inv P s i s' hcap h.core hi
    (by rw [hst]; decide) (by rw [hst]; decide) hs'
  refine ⟨c1, ?_⟩
  intro j hj
  rw [c3] at hj
  obtain ⟨j1, j2⟩ := h.running j hj
  refine ⟨j1, ?_⟩
  have hne : j ≠ i := by
    intro e; subst e; rw [hst] at j2; cases j2
  rw [c2, Function.update_noteq hne]; exact j2

/-- The slot that `allocproc` takes, whatever state it is left in. -/
theorem allocSlot_inv (P : Params) (s : kstate) (i : Nat) (st : procstate)
    (h : KernelInv P s) (hi : i < P.NPROC) (hun : (s.ptable i).state = procstate.UNUSED)
    (hst : st ≠ procstate.RUNNABLE) :
    KernelInv P { setSlot s i { s.ptable i with state := st, pid := s.nextpid } with
      nextpid := s.nextpid + 1 } := by
  have hf : ∀ y, y ≠ i → (Function.update s.ptable i
      { s.ptable i with state := st, pid := s.nextpid }) y = s.ptable y :=
    fun y hy => Function.update_noteq hy _ _
  have hparent : (s.ptable i).parent = none := by
    by_contra hcon
    exact h.core.table.child_live i hi hcon hun
  obtain ⟨L, hL⟩ := h.core.queues
  refine ⟨⟨⟨?_, ?_, ?_⟩, ⟨L, hL.follow rfl ?_ ?_⟩, ?_⟩, ?_⟩
  · intro a b ha hb hla hlb hp
    simp only [setSlot] at hla hlb hp
    by_cases hai : a = i
    · by_cases hbi : b = i
      · rw [hai, hbi]
      · exfalso
        rw [hf b hbi] at hlb hp
        subst hai
        rw [Function.update_same] at hp
        have := h.core.pids b hb hlb
        simp only at hp
        omega
    · rw [hf a hai] at hla hp
      by_cases hbi : b = i
      · exfalso
        subst hbi
        rw [Function.update_same] at hp
        have := h.core.pids a ha hla
        simp only at hp
        omega
      · rw [hf b hbi] at hlb hp
        exact h.core.table.uniq a b ha hb hla hlb hp
  · intro c hc hp
    simp only [setSlot] at hp ⊢
    by_cases hci : c = i
    · subst hci
      rw [Function.update_same] at hp
      exact absurd hparent hp
    · rw [hf c hci] at hp ⊢
      exact h.core.table.child_live c hc hp
  · intro x hx
    simp only [setSlot]
    by_cases hxi : x = i
    · subst hxi; rw [Function.update_same]; exact h.core.table.prio x hx
    · rw [hf x hxi]; exact h.core.table.prio x hx
  · intro x _
    simp only [setSlot]
    by_cases hxi : x = i
    · subst hxi
      rw [Function.update_same, hun]
      constructor
      · intro e; exact absurd e hst
      · intro e; cases e
    · rw [hf x hxi]
  · intro x _ _
    simp only [setSlot]
    by_cases hxi : x = i
    · subst hxi; rw [Function.update_same]
    · rw [hf x hxi]
  · intro x hx hl
    simp only [setSlot] at hl ⊢
    by_cases hxi : x = i
    · subst hxi; rw [Function.update_same]; simp only; omega
    · rw [hf x hxi] at hl ⊢
      have := h.core.pids x hx hl
      omega
  · intro j hj
    obtain ⟨j1, j2⟩ := h.running j hj
    refine ⟨j1, ?_⟩
    have hne : j ≠ i := by
      intro e; subst e; rw [hun] at j2; cases j2
    simp only [setSlot]
    rw [hf j hne]; exact j2

theorem allocproc_inv (P : Params) (k : Bool) (s s1 : kstate) (r : procptr)
    (h : KernelInv P s) (ha : allocproc P k s = (s1, r)) :
    KernelInv P s1 ∧ s1.cur = s.cur ∧
      ∀ i, r = some i → i < P.NPROC ∧ (s1.ptable i).state = procstate.EMBRYO ∧
        (s1.ptable i).parent = none := by
  unfold allocproc at ha
  split at ha
  · cases ha
    exact ⟨h, rfl, fun i hi => by cases hi⟩
  · rename_i i hfind
    obtain ⟨hi, hpi⟩ := find?_range_lt hfind
    simp only [decide_eq_true_eq] at hpi
    have hparent : (s.ptable i).parent = none := by
      by_contra hcon
      exact h.core.table.child_live i hi hcon hpi
    split at ha
    · cases ha
      refine ⟨allocSlot_inv P s i _ h hi hpi (by decide), rfl, ?_⟩
      intro j hj
      cases hj
      refine ⟨hi, ?_, ?_⟩
      · simp only [setSlot, Function.update_same]
      · simp only [setSlot, Function.update_same]; exact hparent
    · cases ha
      exact ⟨allocSlot_inv P s i _ h hi hpi (by decide), rfl, fun j hj => by cases hj⟩

theorem userinit_inv (P : Params) (lf fuel : Nat) (hcap : P.NPROC < P.QUEUE_CAPACITY)
    (k : Bool) (s s' : kstate) (h : KernelInv P s)
    (hs' : userinit P lf fuel k s = some s') : KernelInv P s' := by
  unfold userinit at hs'
  cases halloc : allocproc P k s with
  | mk s1 r =>
    obtain ⟨a1, _, a3⟩ := allocproc_inv P k s s1 r h halloc
    rw [halloc] at hs'
    cases r with
    | none => cases hs'
    | some i =>
      obtain ⟨hi, hst, hpar⟩ := a3 i rfl
      simp only at hs'
      have hA : KernelInv P { s1 with initproc := some i } :=
        ⟨CoreInv_of_table_change a1.core rfl (le_refl _) (fun _ _ => Iff.rfl)
          (fun _ _ => rfl) (fun x hx hl => ⟨hl, rfl⟩) a1.core.table.child_live, a1.running⟩
      have hB : KernelInv P (setSlot { s1 with initproc := some i } i
          { s1.ptable i with parent := none }) :=
        KernelInv_setSlot i _ hA Iff.rfl rfl (fun hl => ⟨hl, rfl⟩)
          (fun hp => absurd rfl hp)
          (fun hc => by
            have := (hA.running i hc).2
            rw [show ({ s1 with initproc := some i } : kstate).ptable i = s1.ptable i from rfl,
              hst] at this
            cases this)
      split at hs'
      · cases hs'
      · rename_i s4 hs4
        have hlive : ((setSlot { s1 with initproc := some i } i
            { s1.ptable i with parent := none }).ptable i).state ≠ procstate.UNUSED := by
          simp only [setSlot, Function.update_same, hst]; decide
        have hC := KernelInv_of_setpriority P lf fuel hcap _ s4 i 0 hB hi hlive hs4
        have hsame := (setpriority_frame P lf fuel _ i 0 s4 hs4).1
        have hst4 : (s4.ptable i).state = procstate.EMBRYO := by
          rw [(hsame i).1]; simp only [setSlot, Function.update_same]; exact hst
        exact KernelInv_SetProcessRunnable P hcap s4 s' i hC hi hst4 hs'

theorem fork_inv (P : Params) (lf fuel : Nat) (hcap : P.NPROC < P.QUEUE_CAPACITY)
    (k c : Bool) (s s' : kstate) (r : Int) (h : KernelInv P s)
    (hs' : fork P lf fuel k c s = some (s', r)) : KernelInv P s' := by
  unfold fork at hs'
  cases halloc : allocproc P k s with
  | mk s1 ro =>
    obtain ⟨a1, _, a3⟩ := allocproc_inv P k s s1 ro h halloc
    rw [halloc] at hs'
    cases ro with
    | none =>
      simp only [Option.some.injEq, Prod.mk.injEq] at hs'
      rw [← hs'.1]; exact a1
    | some np =>
      obtain ⟨hnp, hst, hpar⟩ := a3 np rfl
      simp only at hs'
      split at hs'
      · cases hs'
      · rename_i cur hcur
        have hnotcur : s1.cur = some np → False := by
          intro hc
          have := (a1.running np hc).2
          rw [hst] at this; cases this
        split at hs'
        · simp only [Option.some.injEq, Prod.mk.injEq] at hs'
          rw [← hs'.1]
          exact KernelInv_setSlot np _ a1 (by rw [hst]; simp) rfl
            (fun hl => absurd rfl hl) (fun hp => absurd hpar hp)
            (fun hc => absurd hc (fun e => hnotcur e))
        · split at hs'
          · cases hs'
          · rename_i pp hpp
            have hB : KernelInv P (setSlot s1 np { s1.ptable np with parent := some cur }) :=
              KernelInv_setSlot np _ a1 Iff.rfl rfl (fun hl => ⟨hl, rfl⟩)
                (fun _ => by rw [hst]; decide) (fun hc => absurd hc (fun e => hnotcur e))
            split at hs'
            · cases hs'
            · rename_i s3 hs3
              have hlive : ((setSlot s1 np { s1.ptable np with parent := some cur }).ptable
                  np).state ≠ procstate.UNUSED := by
                simp only [setSlot, Function.update_same, hst]; decide
              have hC := KernelInv_of_setpriority P lf fuel hcap _ s3 np _ hB hnp hlive hs3
              have hsame := (setpriority_frame P lf fuel _ np _ s3 hs3).1
              have hst3 : (s3.ptable np).state = procstate.EMBRYO := by
                rw [(hsame np).1]; simp only [setSlot, Function.update_same]; exact hst
              cases hsr : SetProcessRunnable P s3 np with
              | none => rw [hsr] at hs'; cases hs'
              | some s4 =>
                rw [hsr] at hs'
                simp only [Option.map_some', Option.some.injEq, Prod.mk.injEq] at hs'
                rw [← hs'.1]
                exact KernelInv_SetProcessRunnable P hcap s3 s4 np hC hnp hst3 hsr

theorem bootState_inv (P : Params) (hcap : P.NPROC < P.QUEUE_CAPACITY)
    (hPL : 0 < P.PRIORITYLEVELS) : KernelInv P bootState := by
  refine ⟨⟨⟨?_, ?_, ?_⟩, ⟨fun _ => [], ?_, ?_, ?_, ?_⟩, ?_⟩, ?_⟩
  · intro a b _ _ hla; exact absurd rfl hla
  · intro c _ hp; exact absurd rfl hp
  · intro x _
    exact ⟨le_refl _, by
      show (0 : Int) < (P.PRIORITYLEVELS : Int)
      exact_mod_cast hPL⟩
  · intro k _
    exact Rep_initialQueue P (by omega) _ _
  · intro k _ x hx; simp at hx
  · intro x _ hs; cases hs
  · intro k _; exact List.nodup_nil
  · intro x _ hl; exact absurd rfl hl
  · intro i hi; cases hi

/-- Every operation of the core keeps the invariant, when the queues are
larger than the process table. -/
theorem Step_inv (P : Params) (hcap : P.NPROC < P.QUEUE_CAPACITY) (s s' : kstate)
    (h : KernelInv P s) (hstep : Step P s s') : KernelInv P s' := by
  cases hstep with
  | userinit lf fuel k _ _ hs => exact userinit_inv P lf fuel hcap k s s' h hs
  | fork lf fuel k c _ _ r hs => exact fork_inv P lf fuel hcap k c s s' r h hs
  | yield _ s1 hs => exact yield_inv P hcap s s1 h hs
  | sleep chan _ s1 hs => exact sleep_inv P s s1 chan h hs
  | sleepReturn _ _ hs => exact sleepReturn_inv P s s' h hs
  | wakeup chan _ _ hs => exact wakeup_inv P hcap s s' chan h hs
  | kill pid _ _ r hs => exact kill_inv P hcap s s' pid r h hs
  | exit _ s1 hs => exact exit_inv P hcap s s1 h hs
  | waitReturn _ _ r hs => exact (wait_inv P s s' (some r) h hs).1 (by simp)
  | waitSleep _ s1 hs => exact (wait_inv P s s1 none h hs).2 rfl
  | setprioritybypid lf fuel pid pr _ _ r hs =>
    exact setprioritybypid_inv P lf fuel hcap s s' pid pr r h hs
  | nice lf fuel v _ _ r hs => exact nice_inv P lf fuel hcap s s' v r h hs
  | dispatch lf c _ s2 _ i _ hsel hsw => exact dispatch_inv P lf s s2 s' c i h hsel hsw
  | idle lf c _ _ _ hsel => exact idle_inv P lf s s' c h hsel

theorem Reachable_inv (P : Params) (hcap : P.NPROC < P.QUEUE_CAPACITY)
    (hPL : 0 < P.PRIORITYLEVELS) (s : kstate) (hr : Reachable P s) : KernelInv P s := by
  induction hr with
  | boot => exact bootState_inv P hcap hPL
  | step _ hstep ih => exact Step_inv P hcap _ _ ih hstep

theorem queued_of_Rep (P : Params) (q : processQueue) (L : List Nat) (hr : Rep P q L) :
    queued P q = L.map some := by
  obtain ⟨h, hh, hhC, ht, hs, hle, hc⟩ := hr
  unfold queued
  rw [hs, hh, Int.toNat_ofNat, Int.toNat_ofNat]
  apply List.ext_getElem
  · simp
  · intro n h1 h2
    simp only [List.length_map, List.length_range] at h1
    simp only [List.getElem_map, List.getElem_range]
    exact hc n _ (by simp [h1])

theorem count_map_some (L : List Nat) (i : Nat) :
    List.count (some i) (L.map some) = List.count i L := by
  induction L with
  | nil => rfl
  | cons a L ih =>
    rw [List.map_cons, List.count_cons, List.count_cons, ih]
    by_cases h : a = i
    · subst h; simp
    · simp [h]

/-- With the queues in step with the table, every RUNNABLE process is queued
once at the level of its priority and nowhere else. -/
theorem RunnableQueuedOnce_of_QueuesOK (P : Params) (s : kstate) (L : Nat → List Nat)
    (hq : QueuesOK P s L) (hprio : ∀ x, x < P.NPROC → prioInRange P (s.ptable x).priority) :
    RunnableQueuedOnce P s := by
  intro i hi hst k hk
  unfold timesQueued
  rw [queued_of_Rep P _ (L k) (hq.rep k hk), count_map_some]
  have hpr := hprio i hi
  by_cases hkp : (k : Int) = (s.ptable i).priority
  · rw [if_pos hkp]
    have hm := hq.run i hi hst
    rw [← hkp, Int.toNat_ofNat] at hm
    exact List.count_eq_one_of_mem (hq.nodup k hk) hm
  · rw [if_neg hkp]
    apply List.count_eq_zero_of_not_mem
    intro hm
    exact hkp (hq.ent k hk i hm).2.2.symm

/-- C2 (as amended): when `QUEUE_CAPACITY` exceeds `NPROC`, so that no level
can fill up, in every state reached from the boot state through operations
of the core that each run uninterrupted, as under the table lock, and complete
inside the arrays (the steps of `Step`), every RUNNABLE process is queued
exactly once at the level of its priority and at no other level. -/
theorem runnable_queued_once (P : Params) (hcap : P.NPROC < P.QUEUE_CAPACITY)
    (hPL : 0 < P.PRIORITYLEVELS) (s : kstate) (hr : Reachable P s) :
    RunnableQueuedOnce P s := by
  have h := Reachable_inv P hcap hPL s hr
  obtain ⟨L, hL⟩ := h.core.queues
  exact RunnableQueuedOnce_of_QueuesOK P s L hL h.core.table.prio

theorem exWideYielded_reachable : Reachable exWide exWideYielded :=
  Reachable.step
    (Reachable.step
      (Reachable.step
        (Reachable.step Reachable.boot
          (Step.userinit 4 4 true bootState exWideInit rfl))
        (Step.dispatch 4 0 exWideInit
          (((schedulerSelect exWide 4 exWideInit 0).map Prod.fst).getD bootState)
          exWideRunning 0 rfl rfl rfl))
      (Step.fork 4 4 true true exWideRunning exWideForked 2 rfl))
    (Step.yield exWideForked ((yield exWide exWideForked).getD bootState) rfl)

theorem runnable_queued_once_witness : RunnableQueuedOnce exWide exWideYielded :=
  runnable_queued_once exWide (by decide) (by decide) exWideYielded exWideYielded_reachable

/-- C2 (counterexample): with queues of a single cell, after `userinit`, a
dispatch and two forks, the second child (slot 2) is RUNNABLE with priority 0
and is queued at no level: the enqueue into the full level 0 was refused. -/
theorem runnable_process_not_queued :
    Reachable exSmall exSmallForkedTwice ∧ ¬ RunnableQueuedOnce exSmall exSmallForkedTwice := by
  constructor
  · exact Reachable.step
      (Reachable.step
        (Reachable.step
          (Reachable.step Reachable.boot
            (Step.userinit 1 1 true bootState exSmallInit rfl))
          (Step.dispatch 1 0 exSmallInit
            (((schedulerSelect exSmall 1 exSmallInit 0).map Prod.fst).getD bootState)
            exSmallRunning 0 rfl rfl rfl))
        (Step.fork 1 1 true true exSmallRunning exSmallForked 2 rfl))
      (Step.fork 1 1 true true exSmallForked exSmallForkedTwice 3 rfl)
  · intro h
    have := h 2 (by decide) (by decide) 0 (by decide)
    exact absurd this (by decide)

/-! ## `kill` and the removal from a queue at the ends of the array -/

theorem find?_range_first {p : Nat → Bool} : ∀ (n i : Nat), i < n → p i = true →
    (∀ j, j < i → p j = false) → (List.range n).find? p = some i := by
  intro n
  induction n with
  | zero => intro i hi; omega
  | succ n ih =>
    intro i hi hp hfirst
    rw [List.range_succ, List.find?_append]
    by_cases hin : i < n
    · rw [ih i hin hp hfirst]; rfl
    · have hie : i = n := by omega
      subst hie
      have hnone : (List.range i).find? p = none := by
        rw [List.find?_eq_none]
        intro x hx
        rw [List.mem_range] at hx
        simp [hfirst x hx]
      rw [hnone]
      simp [hp]

/-- C13 (code defect): `kill` compares the pid of every slot, the UNUSED ones
included.  When the first slot holding `pid` is UNUSED, and even though no slot
in use has that pid, `kill` returns 0 and sets `killed` in the free slot,
where failure (-1) and an unchanged table were specified. -/
theorem kill_matches_unused_slot (P : Params) (s : kstate) (pid : Int) (i : Nat)
    (hi : i < P.NPROC) (hun : (s.ptable i).state = procstate.UNUSED)
    (hpid : (s.ptable i).pid = pid) (hfirst : ∀ j, j < i → (s.ptable j).pid ≠ pid)
    (hno : ∀ j, j < P.NPROC → (s.ptable j).state ≠ procstate.UNUSED →
      (s.ptable j).pid ≠ pid) :
    findprocesswithpid P s pid = none ∧
    kill P s pid = some (setSlot s i { s.ptable i with killed := 1 }, 0) := by
  constructor
  · unfold findprocesswithpid
    rw [List.find?_eq_none]
    intro x hx
    rw [List.mem_range] at hx
    by_cases hl : (s.ptable x).state = procstate.UNUSED
    · simp [hl]
    · simp [hno x hx hl]
  · unfold kill
    rw [find?_range_first P.NPROC i hi (by simp [hpid])
      (fun j hj => by simp [hfirst j hj])]
    simp only [hun]
    rw [if_neg (by decide)]

theorem kill_matches_unused_slot_witness :
    findprocesswithpid exParams bootState 0 = none ∧
    kill exParams bootState 0
      = some (setSlot bootState 0 { bootState.ptable 0 with killed := 1 }, 0) :=
  kill_matches_unused_slot exParams bootState 0 0 (by decide) rfl rfl
    (fun j hj => absurd hj (by omega)) (fun j _ hl => absurd rfl hl)

theorem removeitemfromqueueFrom_past_array (P : Params) (t : Nat) :
    ∀ (lf : Nat) (q : processQueue) (a : Nat), q.tail = (t : Int) → t < a →
      a < P.QUEUE_CAPACITY → removeitemfromqueueFrom P lf q (a : Int) = none := by
  intro lf
  induction lf with
  | zero =>
    intro q a ht hta ha
    unfold removeitemfromqueueFrom
    rw [if_neg (by rw [ht]; omega)]
  | succ lf ih =>
    intro q a ht hta ha
    unfold removeitemfromqueueFrom
    rw [if_neg (by rw [ht]; omega)]
    by_cases hlast : a + 1 < P.QUEUE_CAPACITY
    · have h1 : ((a : Int) + 1) = ((a + 1 : Nat) : Int) := by push_cast; rfl
      rw [h1, qread_cast P q (a + 1) hlast]
      simp only
      rw [qwrite_cast P q a _ (by omega)]
      simp only
      rw [← h1, tmod_succ_cast, Nat.mod_eq_of_lt hlast]
      exact ih _ (a + 1) ht (by omega) hlast
    · have hq : qread P q ((a : Int) + 1) = none := by
        unfold qread
        rw [if_neg (by omega)]
      rw [hq]

/-- C17 (code defect): `removeitemfromqueue` copies `proc[i+1]` without the
modulo that it applies to `i`.  When the entries wrap around the end of the
array and the entry to remove sits before the wrap (`tail < index`), the loop
reaches `i = QUEUE_CAPACITY - 1` and reads `proc[QUEUE_CAPACITY]`, outside the
array: the removal has no defined result, whatever the fuel. -/
theorem removeitemfromqueue_reads_past_array (P : Params) (lf : Nat) (q : processQueue)
    (index t : Nat) (ht : q.tail = (t : Int)) (hlt : t < index)
    (hidx : index < P.QUEUE_CAPACITY) :
    removeitemfromqueue P lf q (index : Int) = none := by
  unfold removeitemfromqueue
  rw [removeitemfromqueueFrom_past_array P t lf q index ht hlt hidx]
  rfl

theorem removeitemfromqueue_reads_past_array_witness :
    Rep exParams exWrappedQueue [1, 2, 3] ∧
    findprocessinqueuewithpid exParams 4 exFamily exWrappedQueue 3 = some 3 ∧
    removeitemfromqueue exParams 4 exWrappedQueue ((3 : Nat) : Int) = none :=
  ⟨⟨2, rfl, by decide, rfl, rfl, by decide, by
      intro k x hk
      match k, hk with
      | 0, hk => simp at hk; subst hk; rfl
      | 1, hk => simp at hk; subst hk; rfl
      | 2, hk => simp at hk; subst hk; rfl
      | (k + 3), hk => simp at hk⟩,
    by decide,
    removeitemfromqueue_reads_past_array exParams 4 exWrappedQueue 3 1 rfl (by decide)
      (by decide)⟩

theorem EnqueueProcess_shape (P : Params) (q q' : processQueue) (process : procptr) (r : Int)
    (hs : QueueShape P q) (h : EnqueueProcess P q process = some (q', r)) :
    QueueShape P q' := by
  obtain ⟨⟨h0, h1⟩, ⟨t0, t1⟩, ⟨s0, s1⟩, hc⟩ := hs
  unfold EnqueueProcess at h
  split at h
  · rename_i hnf
    have hnf' : q.size < (P.QUEUE_CAPACITY : Int) := by
      simpa [IsQueueFull] using hnf
    unfold qwrite at h
    rw [if_pos ⟨t0, t1⟩] at h
    simp only [Option.map_some', Option.some.injEq, Prod.mk.injEq] at h
    rw [← h.1]
    obtain ⟨t, ht⟩ : ∃ t : Nat, q.tail = (t : Int) := ⟨q.tail.toNat, by omega⟩
    have hm : (q.tail + 1).tmod (P.QUEUE_CAPACITY : Int)
        = (((t + 1) % P.QUEUE_CAPACITY : Nat) : Int) := by rw [ht, tmod_succ_cast]
    have hlt : (t + 1) % P.QUEUE_CAPACITY < P.QUEUE_CAPACITY := Nat.mod_lt _ (by omega)
    have hdm := Nat.div_add_mod (t + 1) P.QUEUE_CAPACITY
    obtain ⟨k, hk⟩ := Int.dvd_of_emod_eq_zero hc
    unfold QueueShape
    simp only [hm]
    refine ⟨⟨h0, h1⟩, ⟨by omega, by omega⟩, ⟨by omega, by omega⟩, ?_⟩
    apply Int.emod_eq_zero_of_dvd
    refine ⟨k + (((t + 1) / P.QUEUE_CAPACITY : Nat) : Int), ?_⟩
    have hdm' : ((P.QUEUE_CAPACITY : Int) * (((t + 1) / P.QUEUE_CAPACITY : Nat) : Int))
        + (((t + 1) % P.QUEUE_CAPACITY : Nat) : Int) = (t : Int) + 1 := by
      exact_mod_cast hdm
    rw [ht] at hk
    linear_combination hk - hdm'
  · simp only [Option.some.injEq, Prod.mk.injEq] at h
    rw [← h.1]; exact ⟨⟨h0, h1⟩, ⟨t0, t1⟩, ⟨s0, s1⟩, hc⟩

theorem DequeueProcess_shape (P : Params) (q q' : processQueue) (r : procptr)
    (hs : QueueShape P q) (h : DequeueProcess P q = some (q', r)) :
    QueueShape P q' := by
  obtain ⟨⟨h0, h1⟩, ⟨t0, t1⟩, ⟨s0, s1⟩, hc⟩ := hs
  unfold DequeueProcess at h
  split at h
  · rename_i hne
    have hne' : 0 < q.size := by
      simpa [IsQueueEmpty] using hne
    unfold qread at h
    rw [if_pos ⟨h0, h1⟩] at h
    simp only [Option.map_some', Option.some.injEq, Prod.mk.injEq] at h
    rw [← h.1]
    obtain ⟨a, ha⟩ : ∃ a : Nat, q.head = (a : Int) := ⟨q.head.toNat, by omega⟩
    have hm : (q.head + 1).tmod (P.QUEUE_CAPACITY : Int)
        = (((a + 1) % P.QUEUE_CAPACITY : Nat) : Int) := by rw [ha, tmod_succ_cast]
    have hlt : (a + 1) % P.QUEUE_CAPACITY < P.QUEUE_CAPACITY := Nat.mod_lt _ (by omega)
    have hdm := Nat.div_add_mod (a + 1) P.QUEUE_CAPACITY
    obtain ⟨k, hk⟩ := Int.dvd_of_emod_eq_zero hc
    unfold QueueShape
    simp only [hm]
    refine ⟨⟨by omega, by omega⟩, ⟨t0, t1⟩, ⟨by omega, by omega⟩, ?_⟩
    apply Int.emod_eq_zero_of_dvd
    refine ⟨k - (((a + 1) / P.QUEUE_CAPACITY : Nat) : Int), ?_⟩
    have hdm' : ((P.QUEUE_CAPACITY : Int) * (((a + 1) / P.QUEUE_CAPACITY : Nat) : Int))
        + (((a + 1) % P.QUEUE_CAPACITY : Nat) : Int) = (a : Int) + 1 := by
      exact_mod_cast hdm
    rw [ha] at hk
    linear_combination hk + hdm'
  · simp only [Option.some.injEq, Prod.mk.injEq] at h
    rw [← h.1]; exact ⟨⟨h0, h1⟩, ⟨t0, t1⟩, ⟨s0, s1⟩, hc⟩

/-! ## Pruning a full queue, the parent floor and the value of `nice` -/

theorem pruneLevels_head_eq_tail (P : Params) (lf : Nat) (s : kstate) :
    ∀ is : List Nat, (∀ i ∈ is, i < P.PRIORITYLEVELS ∧
      (s.priorityTable i).head = (s.priorityTable i).tail) →
      pruneLevels P lf s is = some s := by
  intro is
  induction is with
  | nil => intro _; rfl
  | cons i rest ih =>
    intro h
    obtain ⟨hi, he⟩ := h i (List.mem_cons_self _ _)
    unfold pruneLevels
    rw [level_cast P s i hi]
    simp only
    have hp : pruneQueueFrom P lf s lf (s.priorityTable i) (s.priorityTable i).head
        = some (s.priorityTable i) := by
      cases lf with
      | zero => unfold pruneQueueFrom; rw [if_pos he]
      | succ n => unfold pruneQueueFrom; rw [if_pos he]
    rw [hp]
    simp only
    have hs : setLevel s (i : Int) (s.priorityTable i) = s := by
      unfold setLevel
      rw [Int.toNat_ofNat, Function.update_eq_self]
    rw [hs]
    exact ih (fun j hj => h j (List.mem_cons_of_mem _ hj))

/-- C16 (code defect): the loop of `checkqueuefornonrunnable` runs while
`j != tail`, and in a full queue `head = tail`.  In the state `exStale` every
queue has the specified shape and level 0, which is full, queues the SLEEPING
slot 1; the prune completes, whatever the fuel, and leaves every queue as it
was, so the entry that is not RUNNABLE is still queued. -/
theorem prune_skips_full_queue (lf : Nat) :
    (∀ k, k < exTight.PRIORITYLEVELS → QueueShape exTight (exStale.priorityTable k)) ∧
    checkqueuefornonrunnable exTight lf exStale = some exStale ∧
    some 1 ∈ queued exTight (exStale.priorityTable 0) ∧
    (exStale.ptable 1).state = procstate.SLEEPING := by
  refine ⟨?_, ?_, by decide, rfl⟩
  · intro k hk
    have hk3 : k < 3 := hk
    interval_cases k <;>
      exact ⟨⟨by decide, by decide⟩, ⟨by decide, by decide⟩, ⟨by decide, by decide⟩, by decide⟩
  · unfold checkqueuefornonrunnable
    apply pruneLevels_head_eq_tail
    intro i hi
    rw [List.mem_range] at hi
    have hi3 : i < 3 := hi
    refine ⟨hi, ?_⟩
    interval_cases i <;> rfl

/-- C19 (code defect): `setpriority` leaves out a child whose shifted priority
is out of range, and that child can then lie below the new priority of its
parent.  In `exFloor` the parent floor holds; `setprioritybypid(2, 2)` succeeds
and raises slot 1 from 0 to 2, its child in slot 2 would go from 1 to 3, which
is not below `PRIORITYLEVELS = 3`, and keeps 1: afterwards the child has a
priority below its parent's. -/
theorem setprioritybypid_breaks_parent_floor :
    ParentFloor exWide exFloor ∧
    ∃ s', setprioritybypid exWide 4 4 exFloor 2 2 = some (s', 0) ∧
      (s'.ptable 2).parent = some 1 ∧ (s'.ptable 1).priority = 2 ∧
      (s'.ptable 2).priority = 1 ∧ ¬ ParentFloor exWide s' := by
  constructor
  · intro c j hc hp
    have hc4 : c < 4 := hc
    interval_cases c
    · cases hp
    · cases hp; decide
    · cases hp; decide
    · cases hp
  · have hrun : ∃ s', setprioritybypid exWide 4 4 exFloor 2 2 = some (s', 0) ∧
        (s'.ptable 2).parent = some 1 ∧ (s'.ptable 1).priority = 2 ∧
        (s'.ptable 2).priority = 1 := ⟨_, rfl, rfl, rfl, rfl⟩
    obtain ⟨s', h1, h2, h3, h4⟩ := hrun
    refine ⟨s', h1, h2, h3, h4, ?_⟩
    intro hf
    have := hf 2 1 (by decide) h2
    rw [h3, h4] at this
    exact absurd this (by decide)

theorem wrap32_of_fits (x : Int) (h0 : -2147483648 ≤ x) (h1 : x ≤ 2147483647) : wrap32 x = x := by
  unfold wrap32
  have : (x + 2147483648).emod 4294967296 = x + 2147483648 :=
    Int.emod_eq_of_lt (by omega) (by omega)
  rw [this]; ring

/-- C14 (as amended): `nice` by the running process `i` with an argument whose
sum with the priority of `i` (as a 32-bit `int`) is a level, at least 0 and
below `PRIORITYLEVELS`.  A call that does not fail (does not return -1)
returns 0, a success code and not the new priority, and the new priority of
`i` is that sum, which is the previous priority plus the argument when the
addition does not overflow.  On a state that satisfies the invariant and whose
queues cannot wrap around the call completes, with 0 or -1, and it returns 0
exactly when `i` has a parent whose priority is not above the sum. -/
theorem nice_returns_zero (P : Params) (lf fuel : Nat) (m : Nat → Nat) (s : kstate)
    (value : Int) (i : Nat) (hok : TableOK P s.ptable m) (hcur : s.cur = some i)
    (hi : i < P.NPROC) (hlive : (s.ptable i).state ≠ procstate.UNUSED)
    (hsum : prioInRange P (wrap32 ((s.ptable i).priority + value))) :
    (∀ s' r, nice P lf fuel s value = some (s', r) → r ≠ -1 →
      r = 0 ∧ (s'.ptable i).priority = wrap32 ((s.ptable i).priority + value)) ∧
    (-2147483648 ≤ (s.ptable i).priority + value → (s.ptable i).priority + value ≤ 2147483647 →
      wrap32 ((s.ptable i).priority + value) = (s.ptable i).priority + value) ∧
    (SchedInv P s → NoWrap P s → P.NPROC ≤ lf → m i < fuel →
      ∃ s' r, nice P lf fuel s value = some (s', r) ∧ (r = 0 ∨ r = -1) ∧
        (r = 0 ↔ ∃ j, (s.ptable i).parent = some j ∧
          (s.ptable j).priority ≤ wrap32 ((s.ptable i).priority + value))) := by
  have hrange : ¬ (wrap32 ((s.ptable i).priority + value) > P.PRIORITYLEVELS ∨
      wrap32 ((s.ptable i).priority + value) < 0) := by
    have := hsum.1; have := hsum.2; omega
  refine ⟨?_, wrap32_of_fits _, ?_⟩
  · intro s' r h hr
    unfold nice at h
    rw [hcur] at h
    simp only [slot_of_lt P s i hi, if_neg hrange] at h
    split at h
    · simp only [Option.some.injEq, Prod.mk.injEq] at h
      exact absurd h.2.symm hr
    · rename_i j hj
      split at h
      · cases h
      · split at h
        · cases hset : setpriority P lf fuel s i (wrap32 ((s.ptable i).priority + value)) with
          | none => rw [hset] at h; cases h
          | some s1 =>
            rw [hset] at h
            simp only [Option.map_some', Option.some.injEq, Prod.mk.injEq] at h
            obtain ⟨h1, h2⟩ := h
            subst h1
            obtain ⟨p1, _⟩ := setpriority_priorities P lf m fuel s i _ s1 hok hi hlive hset
            refine ⟨h2.symm, ?_⟩
            rw [p1 i hsum Reached.root]
            ring
        · simp only [Option.some.injEq, Prod.mk.injEq] at h
          exact absurd h.2.symm hr
  · intro hs hnw hlf hfuel
    have hcap : P.NPROC < P.QUEUE_CAPACITY := by
      have hPL : 0 < P.PRIORITYLEVELS := by have := hsum.1; have := hsum.2; omega
      obtain ⟨h, _, hr⟩ := hnw 0 hPL
      omega
    unfold nice
    rw [hcur]
    simp only [slot_of_lt P s i hi, if_neg hrange]
    cases hp : (s.ptable i).parent with
    | none =>
      refine ⟨s, -1, rfl, Or.inr rfl, ?_⟩
      constructor
      · intro h; exact absurd h (by decide)
      · rintro ⟨j, hj, _⟩; cases hj
    | some j =>
      have hj := (hok.parent_live i j hi hp).1
      simp only [slot_of_lt P s j hj]
      by_cases hge : wrap32 ((s.ptable i).priority + value) ≥ (s.ptable j).priority
      · rw [if_pos hge]
        obtain ⟨s', hs'⟩ := setpriority_total P lf m hcap hlf fuel s i
          (wrap32 ((s.ptable i).priority + value)) hs hnw hok hi hlive hfuel
        rw [hs']
        refine ⟨s', 0, rfl, Or.inl rfl, ?_⟩
        constructor
        · intro _; exact ⟨j, rfl, hge⟩
        · intro _; rfl
      · rw [if_neg hge]
        refine ⟨s, -1, rfl, Or.inr rfl, ?_⟩
        constructor
        · intro h; exact absurd h (by decide)
        · rintro ⟨j', hj', hle⟩
          cases hj'
          exact absurd hle hge

theorem nice_returns_zero_witness :
    ∃ s', nice exWide 4 4 exFamily 1 = some (s', 0) ∧ (s'.ptable 1).priority = 2 := by
  obtain ⟨T1, _, T3⟩ := nice_returns_zero exWide 4 4 (fun i => 3 - i) exFamily 1 1
    exFamily_tableOK rfl (by decide) (by decide) (by decide)
  obtain ⟨s', r, h, _, hiff⟩ := T3 exFamily_schedInv exFamily_noWrap (by decide) (by decide)
  have hr : r = 0 := hiff.mpr ⟨0, rfl, by decide⟩
  subst hr
  exact ⟨s', h, (T1 s' 0 h (by decide)).2.trans (by decide)⟩

/-- C14 (counterexample): in the example family the running process, of
priority 1, calls `nice(1)`: the call succeeds and returns 0 while the new
priority is 2. -/
theorem nice_returns_new_priority_fails : ¬ NiceReturnsNewPriority exWide 4 4 exFamily 1 := by
  intro h
  have hrun : ∃ s', nice exWide 4 4 exFamily 1 = some (s', 0) := ⟨_, rfl⟩
  obtain ⟨s', hs'⟩ := hrun
  have := (h s' 0 1 rfl hs' (by decide)).2
  exact absurd this (by decide)

/-! ## The cursor of the scheduler -/

theorem higherLevelLoop_total (P : Params) (s : kstate) :
    ∀ is : List Nat, (∀ i ∈ is, i < P.PRIORITYLEVELS) → ∃ b, higherLevelLoop P s is = some b := by
  intro is
  induction is with
  | nil => intro _; exact ⟨false, rfl⟩
  | cons i rest ih =>
    intro h
    unfold higherLevelLoop
    rw [IsPriorityTableEmpty_cast P s i (h i (List.mem_cons_self _ _))]
    simp only
    split
    · exact ⟨true, rfl⟩
    · exact ih (fun j hj => h j (List.mem_cons_of_mem _ hj))

theorem schedulerSelect_of_empty (P : Params) (lf : Nat) (s s2 : kstate) (c : Int)
    (r : procptr) (hemp : IsQueueEmpty (s.priorityTable c.toNat))
    (hsel : schedulerSelect P lf s c = some (s2, r)) : r = none := by
  unfold schedulerSelect at hsel
  cases hp : checkqueuefornonrunnable P lf s with
  | none => rw [hp] at hsel; cases hsel
  | some s1 =>
    rw [hp] at hsel
    simp only at hsel
    have hsize := pruneLevels_size P lf _ s s1 hp c.toNat
    unfold GetNextRunnableProcess at hsel
    cases hl : level P s1 c with
    | none => rw [hl] at hsel; cases hsel
    | some q =>
      rw [hl] at hsel
      simp only at hsel
      obtain ⟨_, _, _, hq⟩ := level_eq_some hl
      have hqe : IsQueueEmpty q := by
        rw [hq]
        unfold IsQueueEmpty at hemp ⊢
        omega
      unfold DequeueProcess at hsel
      rw [if_neg (not_not.mpr hqe)] at hsel
      simp only [Option.map_some', Option.some.injEq, Prod.mk.injEq] at hsel
      exact hsel.2.symm

/-- C18: one iteration of the scheduler with the cursor `c` in
`[0, PRIORITYLEVELS)`.  When the queue of level `c` is empty nothing is
dispatched, and when nothing is dispatched the cursor becomes
`(c + 1) mod PRIORITYLEVELS`.  When a process is dispatched, the cursor after
its return is 0 if some level with an index below `c` has a non-empty queue
then, and stays `c` otherwise.  In every case the new cursor is in
`[0, PRIORITYLEVELS)`.  The iteration completes when the queues are in step
with the table, the fuel covers a queue and the dispatched process comes back. -/
theorem scheduler_cursor_update (P : Params) (lf : Nat) (run : kstate → Option kstate)
    (s : kstate) (c : Int) (hc0 : 0 ≤ c) (hc1 : c < P.PRIORITYLEVELS) :
    (∀ s' c' d, schedulerIteration P lf run s c = some (s', c', d) →
      (IsQueueEmpty (s.priorityTable c.toNat) → d = none) ∧
      (d = none → c' = (c + 1) % (P.PRIORITYLEVELS : Int)) ∧
      (d ≠ none → ((∃ k : Nat, (k : Int) < c ∧ ¬ IsQueueEmpty (s'.priorityTable k)) → c' = 0) ∧
        ((¬ ∃ k : Nat, (k : Int) < c ∧ ¬ IsQueueEmpty (s'.priorityTable k)) → c' = c)) ∧
      0 ≤ c' ∧ c' < P.PRIORITYLEVELS) ∧
    ((∃ L, QueuesOK P s L) → P.NPROC ≤ lf → (∀ t, ∃ t', run t = some t') →
      ∃ r, schedulerIteration P lf run s c = some r) := by
  have hmod : (c + 1).tmod (P.PRIORITYLEVELS : Int) = (c + 1) % (P.PRIORITYLEVELS : Int) :=
    Int.tmod_eq_emod (by omega) (by omega)
  have hmod0 : 0 ≤ (c + 1) % (P.PRIORITYLEVELS : Int) := Int.emod_nonneg _ (by omega)
  have hmod1 : (c + 1) % (P.PRIORITYLEVELS : Int) < P.PRIORITYLEVELS :=
    Int.emod_lt_of_pos _ (by omega)
  constructor
  · intro s' c' d hit
    unfold schedulerIteration at hit
    cases hsel : schedulerSelect P lf s c with
    | none => rw [hsel] at hit; cases hit
    | some sr =>
      obtain ⟨s2, r⟩ := sr
      rw [hsel] at hit
      cases r with
      | none =>
        simp only [Option.some.injEq, Prod.mk.injEq] at hit
        obtain ⟨_, h2, h3⟩ := hit
        subst h2; subst h3
        rw [hmod]
        exact ⟨fun _ => rfl, fun _ => rfl, fun hd => absurd rfl hd, hmod0, hmod1⟩
      | some i =>
        simp only at hit
        cases hsw : SwitchToProccess P s2 i with
        | none => rw [hsw] at hit; cases hit
        | some s3 =>
          rw [hsw] at hit
          simp only at hit
          cases hrun : run s3 with
          | none => rw [hrun] at hit; cases hit
          | some s4 =>
            rw [hrun] at hit
            simp only at hit
            cases hhi : IsThereANoneEmptyHigherLevelPriorityTable P { s4 with cur := none } c with
            | none => rw [hhi] at hit; cases hit
            | some hi =>
              rw [hhi] at hit
              simp only [Option.some.injEq, Prod.mk.injEq] at hit
              obtain ⟨h1, h2, h3⟩ := hit
              subst h1; subst h2; subst h3
              unfold IsThereANoneEmptyHigherLevelPriorityTable at hhi
              have hspec := higherLevelLoop_spec P _ _ hi hhi
              have hiff : hi = true ↔
                  ∃ k : Nat, (k : Int) < c ∧
                    ¬ IsQueueEmpty (({ s4 with cur := none } : kstate).priorityTable k) := by
                rw [hspec]
                constructor
                · rintro ⟨k, hk, hne⟩
                  rw [List.mem_range] at hk
                  exact ⟨k, by omega, hne⟩
                · rintro ⟨k, hk, hne⟩
                  exact ⟨k, List.mem_range.mpr (by omega), hne⟩
              refine ⟨?_, fun hd => (by cases hd), fun _ => ⟨?_, ?_⟩, ?_, ?_⟩
              · intro hemp
                exact absurd (schedulerSelect_of_empty P lf s s2 c _ hemp hsel) (by simp)
              · intro hex
                rw [if_pos (hiff.mpr hex)]
              · intro hex
                have : hi = false := by
                  cases hi with
                  | false => rfl
                  | true => exact absurd (hiff.mp rfl) hex
                rw [this]; rfl
              · split <;> omega
              · split <;> omega
  · rintro ⟨L, hq⟩ hlf hrun
    have hprune : checkqueuefornonrunnable P lf s = some s := by
      unfold checkqueuefornonrunnable
      apply pruneLevels_runnable P lf s
      · intro k hk
        exact ⟨L k, hq.rep k hk, le_trans (hq.length_le k hk) hlf,
          fun x hx => ⟨(hq.ent k hk x hx).1, (hq.ent k hk x hx).2.1⟩⟩
      · intro i hi; exact List.mem_range.mp hi
    have hk : c.toNat < P.PRIORITYLEVELS := by omega
    have hrep := hq.rep _ hk
    have hlev : level P s c = some (s.priorityTable c.toNat) := level_of_range P s c hc0 hc1
    unfold schedulerIteration schedulerSelect
    rw [hprune]
    simp only
    unfold GetNextRunnableProcess
    rw [hlev]
    simp only
    cases hL : L c.toNat with
    | nil =>
      rw [hL] at hrep
      rw [Rep_dequeue_nil hrep]
      exact ⟨_, rfl⟩
    | cons x rest =>
      rw [hL] at hrep
      obtain ⟨q', hd, _⟩ := Rep_dequeue_cons hrep
      rw [hd]
      simp only [Option.map_some']
      have hx : x < P.NPROC := (hq.ent _ hk x (by rw [hL]; exact List.mem_cons_self _ _)).1
      unfold SwitchToProccess
      rw [slot_of_lt P _ x hx]
      simp only [Option.map_some']
      obtain ⟨t', ht'⟩ := hrun ({ setSlot (setLevel s c q') x
        { (setLevel s c q').ptable x with state := procstate.RUNNING } with cur := some x })
      rw [ht']
      simp only
      obtain ⟨b, hb⟩ := higherLevelLoop_total P { t' with cur := none } (List.range c.toNat)
        (fun i hi => by rw [List.mem_range] at hi; omega)
      unfold IsThereANoneEmptyHigherLevelPriorityTable
      rw [hb]
      exact ⟨_, rfl⟩

theorem scheduler_cursor_update_witness :
    ∃ s' c', schedulerIteration exParams 4 (yield exParams) exTwoLevels 1
        = some (s', c', some 1) ∧ c' = 0 ∧ 0 ≤ c' ∧ c' < 3 := by
  have T := scheduler_cursor_update exParams 4 (yield exParams) exTwoLevels 1 (by decide)
    (by decide)
  have hrun : ∃ s' c', schedulerIteration exParams 4 (yield exParams) exTwoLevels 1
      = some (s', c', some 1) ∧ ¬ IsQueueEmpty (s'.priorityTable 0) :=
    ⟨_, _, rfl, by decide⟩
  obtain ⟨s', c', h1, h2⟩ := hrun
  obtain ⟨_, _, t3, t4, t5⟩ := T.1 s' c' (some 1) h1
  exact ⟨s', c', h1, (t3 (by simp)).1 ⟨0, by decide, h2⟩, t4, t5⟩

/-! ## The invariant without a bound on the queues is kept by every operation -/

theorem QueuesOK.loose {P : Params} {s : kstate} {L : Nat → List Nat}
    (hq : QueuesOK P s L) : QueuesLoose P s L where
  rep := hq.rep
  ent k hk x hx := ⟨(hq.ent k hk x hx).1, (hq.ent k hk x hx).2.1⟩
  nodup := hq.nodup
  disj k k' hk hk' hne x hx hx' := by
    have h1 := (hq.ent k hk x hx).2.2
    have h2 := (hq.ent k' hk' x hx').2.2
    rw [h1] at h2
    exact hne (by exact_mod_cast h2)

theorem QueuesLoose.carry_loose {P : Params} {s s' : kstate} {L : Nat → List Nat}
    (hq : QueuesLoose P s L) (hqt : s'.priorityTable = s.priorityTable)
    (hst : ∀ x, x < P.NPROC → (s.ptable x).state = procstate.RUNNABLE →
      (s'.ptable x).state = procstate.RUNNABLE) : QueuesLoose P s' L where
  rep k hk := by rw [hqt]; exact hq.rep k hk
  ent k hk x hx := ⟨(hq.ent k hk x hx).1, hst x (hq.ent k hk x hx).1 (hq.ent k hk x hx).2⟩
  nodup := hq.nodup
  disj := hq.disj

theorem Rep_unique {P : Params} {q : processQueue} {l l' : List Nat} (h : Rep P q l)
    (h' : Rep P q l') : l = l' := by
  have e := queued_of_Rep P q l h
  rw [queued_of_Rep P q l' h'] at e
  exact (List.map_injective_iff.mpr (Option.some_injective _) e).symm

/-- A change of the table that keeps the pids of the slots in use and brings
no slot into use keeps the table part of the invariant. -/
theorem TableInv_of_table_change {P : Params} {s s' : kstate} (ht : TableInv P s)
    (hp : ∀ x, x < P.NPROC → (s.ptable x).state ≠ procstate.UNUSED →
      (s.ptable x).pid < s.nextpid)
    (hnext : s.nextpid ≤ s'.nextpid)
    (hprio : ∀ x, x < P.NPROC → prioInRange P (s'.ptable x).priority)
    (hlive : ∀ x, x < P.NPROC → (s'.ptable x).state ≠ procstate.UNUSED →
      (s.ptable x).state ≠ procstate.UNUSED ∧ (s'.ptable x).pid = (s.ptable x).pid)
    (hpar : ∀ c, c < P.NPROC → (s'.ptable c).parent ≠ none →
      (s'.ptable c).state ≠ procstate.UNUSED) :
    TableInv P s' ∧ ∀ x, x < P.NPROC → (s'.ptable x).state ≠ procstate.UNUSED →
      (s'.ptable x).pid < s'.nextpid := by
  refine ⟨⟨?_, hpar, hprio⟩, ?_⟩
  · intro a b ha hb hla hlb hpid
    obtain ⟨la, pa⟩ := hlive a ha hla
    obtain ⟨lb, pb⟩ := hlive b hb hlb
    rw [pa, pb] at hpid
    exact ht.uniq a b ha hb la lb hpid
  · intro x hx hl
    obtain ⟨l, p⟩ := hlive x hx hl
    rw [p]
    have := hp x hx l
    omega

theorem LooseCore_of_change {P : Params} {s s' : kstate} (h : LooseCore P s)
    (hq : s'.priorityTable = s.priorityTable) (hnext : s.nextpid ≤ s'.nextpid)
    (hrun : ∀ x, x < P.NPROC → (s.ptable x).state = procstate.RUNNABLE →
      (s'.ptable x).state = procstate.RUNNABLE)
    (hprio : ∀ x, x < P.NPROC → prioInRange P (s'.ptable x).priority)
    (hlive : ∀ x, x < P.NPROC → (s'.ptable x).state ≠ procstate.UNUSED →
      (s.ptable x).state ≠ procstate.UNUSED ∧ (s'.ptable x).pid = (s.ptable x).pid)
    (hpar : ∀ c, c < P.NPROC → (s'.ptable c).parent ≠ none →
      (s'.ptable c).state ≠ procstate.UNUSED) : LooseCore P s' := by
  obtain ⟨t1, t2⟩ := TableInv_of_table_change h.table h.pids hnext hprio hlive hpar
  obtain ⟨L, hL⟩ := h.queues
  exact ⟨t1, ⟨L, hL.carry_loose hq hrun⟩, t2⟩

theorem LooseCore_setSlot {P : Params} {s : kstate} (i : Nat) (p' : proc) (h : LooseCore P s)
    (hrun : (s.ptable i).state = procstate.RUNNABLE → p'.state = procstate.RUNNABLE)
    (hprio : prioInRange P p'.priority)
    (hlive : p'.state ≠ procstate.UNUSED →
      (s.ptable i).state ≠ procstate.UNUSED ∧ p'.pid = (s.ptable i).pid)
    (hpar : p'.parent ≠ none → p'.state ≠ procstate.UNUSED) : LooseCore P (setSlot s i p') := by
  refine @LooseCore_of_change P s (setSlot s i p') h rfl (le_refl _) ?_ ?_ ?_ ?_
  · intro x _ hx
    simp only [setSlot] at hx ⊢
    by_cases hxi : x = i
    · subst hxi; rw [Function.update_same]; exact hrun hx
    · rw [Function.update_noteq hxi]; exact hx
  · intro x hx
    simp only [setSlot]
    by_cases hxi : x = i
    · subst hxi; rw [Function.update_same]; exact hprio
    · rw [Function.update_noteq hxi]; exact h.table.prio x hx
  · intro x _ hl
    simp only [setSlot] at hl ⊢
    by_cases hxi : x = i
    · subst hxi; rw [Function.update_same] at hl ⊢; exact hlive hl
    · rw [Function.update_noteq hxi] at hl ⊢; exact ⟨hl, rfl⟩
  · intro c hc hp
    simp only [setSlot] at hp ⊢
    by_cases hci : c = i
    · subst hci; rw [Function.update_same] at hp ⊢; exact hpar hp
    · rw [Function.update_noteq hci] at hp ⊢; exact h.table.child_live c hc hp

theorem LooseInv_setSlot {P : Params} {s : kstate} (i : Nat) (p' : proc) (h : LooseInv P s)
    (hrun : (s.ptable i).state = procstate.RUNNABLE → p'.state = procstate.RUNNABLE)
    (hprio : prioInRange P p'.priority)
    (hlive : p'.state ≠ procstate.UNUSED →
      (s.ptable i).state ≠ procstate.UNUSED ∧ p'.pid = (s.ptable i).pid)
    (hpar : p'.parent ≠ none → p'.state ≠ procstate.UNUSED)
    (hcur : s.cur = some i → p'.state = procstate.RUNNING) : LooseInv P (setSlot s i p') where
  core := LooseCore_setSlot i p' h.core hrun hprio hlive hpar
  running j hj := by
    obtain ⟨j1, j2⟩ := h.running j hj
    refine ⟨j1, ?_⟩
    simp only [setSlot]
    by_cases hji : j = i
    · subst hji; rw [Function.update_same]; exact hcur hj
    · rw [Function.update_noteq hji]; exact j2

/-- `SetProcessRunnable` on a process in use that is not RUNNABLE: whenever it
completes, `LooseCore` holds again (the process was appended to the queue of
its level, or that queue was full and is unchanged). -/
theorem SetProcessRunnable_loose (P : Params) (s : kstate) (i : Nat) (s' : kstate)
    (h : LooseCore P s) (hi : i < P.NPROC)
    (hnr : (s.ptable i).state ≠ procstate.RUNNABLE)
    (hlive : (s.ptable i).state ≠ procstate.UNUSED)
    (hs' : SetProcessRunnable P s i = some s') :
    LooseCore P s' ∧
      s'.ptable = Function.update s.ptable i { s.ptable i with state := procstate.RUNNABLE } ∧
      s'.cur = s.cur ∧ s'.nextpid = s.nextpid ∧ s'.initproc = s.initproc := by
  obtain ⟨L, hL⟩ := h.queues
  have hpr := h.table.prio i hi
  have hk : (s.ptable i).priority.toNat < P.PRIORITYLEVELS := by
    have := hpr.1; have := hpr.2; omega
  have hnot : ∀ k, k < P.PRIORITYLEVELS → i ∉ L k := fun k hk' hm => hnr (hL.ent k hk' i hm).2
  have hfields : s'.ptable
      = Function.update s.ptable i { s.ptable i with state := procstate.RUNNABLE } ∧
      s'.cur = s.cur ∧ s'.nextpid = s.nextpid ∧ s'.initproc = s.initproc ∧
      ∃ q' r, EnqueueProcess P (s.priorityTable (s.ptable i).priority.toNat) (some i)
          = some (q', r) ∧
        s'.priorityTable = Function.update s.priorityTable (s.ptable i).priority.toNat q' := by
    unfold SetProcessRunnable InsertToPriorityTable at hs'
    simp only [slot_of_lt P s i hi] at hs'
    rw [level_of_range P _ _ hpr.1 hpr.2] at hs'
    simp only [setSlot] at hs'
    cases henq : EnqueueProcess P (s.priorityTable (s.ptable i).priority.toNat) (some i) with
    | none => rw [henq] at hs'; cases hs'
    | some r =>
      rw [henq] at hs'
      simp only [Option.map_some', Option.some.injEq] at hs'
      subst hs'
      exact ⟨rfl, rfl, rfl, rfl, r.1, r.2, rfl, rfl⟩
  obtain ⟨f1, f2, f3, f4, q', r, henq, f5⟩ := hfields
  obtain ⟨t1, t2⟩ := @TableInv_of_table_change P s s' h.table h.pids (by rw [f3])
    (by
      intro x hx
      rw [f1]
      by_cases hxi : x = i
      · subst hxi; rw [Function.update_same]; exact hpr
      · rw [Function.update_noteq hxi]; exact h.table.prio x hx)
    (by
      intro x _ hl
      rw [f1] at hl ⊢
      by_cases hxi : x = i
      · subst hxi; rw [Function.update_same]; exact ⟨hlive, rfl⟩
      · rw [Function.update_noteq hxi] at hl ⊢; exact ⟨hl, rfl⟩)
    (by
      intro c hc hp
      rw [f1] at hp ⊢
      by_cases hci : c = i
      · subst hci; rw [Function.update_same]
        show procstate.RUNNABLE ≠ procstate.UNUSED
        decide
      · rw [Function.update_noteq hci] at hp ⊢; exact h.table.child_live c hc hp)
  have hstate : ∀ x, (s.ptable x).state = procstate.RUNNABLE →
      (s'.ptable x).state = procstate.RUNNABLE := by
    intro x hx
    rw [f1]
    by_cases hxi : x = i
    · subst hxi; rw [Function.update_same]
    · rw [Function.update_noteq hxi]; exact hx
  refine ⟨⟨t1, ?_, t2⟩, f1, f2, f3, f4⟩
  by_cases hlen : (L (s.ptable i).priority.toNat).length < P.QUEUE_CAPACITY
  · obtain ⟨q2, henq2, hrq2⟩ := Rep_enqueue (hL.rep _ hk) hlen i
    rw [henq2] at henq
    simp only [Option.some.injEq, Prod.mk.injEq] at henq
    obtain ⟨hq2, _⟩ := henq
    subst hq2
    refine ⟨Function.update L (s.ptable i).priority.toNat
      (L (s.ptable i).priority.toNat ++ [i]), ?_, ?_, ?_, ?_⟩
    · intro k hk'
      rw [f5]
      by_cases hkk : k = (s.ptable i).priority.toNat
      · subst hkk; simp only [Function.update_same]; exact hrq2
      · simp only [Function.update_noteq hkk]; exact hL.rep k hk'
    · intro k hk' x hx
      by_cases hkk : k = (s.ptable i).priority.toNat
      · subst hkk
        simp only [Function.update_same] at hx
        rcases List.mem_append.mp hx with h1 | h1
        · exact ⟨(hL.ent _ hk' x h1).1, hstate x (hL.ent _ hk' x h1).2⟩
        · have hxi : x = i := by simpa using h1
          subst hxi
          rw [f1, Function.update_same]
          exact ⟨hi, rfl⟩
      · simp only [Function.update_noteq hkk] at hx
        exact ⟨(hL.ent k hk' x hx).1, hstate x (hL.ent k hk' x hx).2⟩
    · intro k hk'
      by_cases hkk : k = (s.ptable i).priority.toNat
      · subst hkk
        rw [Function.update_same]
        refine List.nodup_append.mpr ⟨hL.nodup _ hk', List.nodup_singleton _, ?_⟩
        intro x hx1 hx2
        have : x = i := by simpa using hx2
        exact hnot _ hk' (this ▸ hx1)
      · rw [Function.update_noteq hkk]; exact hL.nodup k hk'
    · intro k k' hk1 hk2 hne x hx hx'
      by_cases hkk : k = (s.ptable i).priority.toNat
      · subst hkk
        rw [Function.update_same] at hx
        rw [Function.update_noteq (Ne.symm hne)] at hx'
        rcases List.mem_append.mp hx with h1 | h1
        · exact hL.disj _ k' hk1 hk2 hne x h1 hx'
        · have hxi : x = i := by simpa using h1
          subst hxi
          exact hnot k' hk2 hx'
      · rw [Function.update_noteq hkk] at hx
        by_cases hkk' : k' = (s.ptable i).priority.toNat
        · subst hkk'
          rw [Function.update_same] at hx'
          rcases List.mem_append.mp hx' with h1 | h1
          · exact hL.disj k _ hk1 hk2 hne x hx h1
          · have hxi : x = i := by simpa using h1
            subst hxi
            exact hnot k hk1 hx
        · rw [Function.update_noteq hkk'] at hx'
          exact hL.disj k k' hk1 hk2 hne x hx hx'
  · rw [Rep_enqueue_full (hL.rep _ hk) hlen (some i)] at henq
    simp only [Option.some.injEq, Prod.mk.injEq] at henq
    obtain ⟨hq2, _⟩ := henq
    subst hq2
    rw [Function.update_eq_self] at f5
    exact ⟨L, hL.carry_loose f5 (fun x _ hx => hstate x hx)⟩

theorem findprocessinqueuewithpid_full (P : Params) (lf : Nat) (s : kstate) (q : processQueue)
    (pid : Int) (L : List Nat) (hr : Rep P q L) (hfull : ¬ L.length < P.QUEUE_CAPACITY) :
    findprocessinqueuewithpid P lf s q pid = some (-1) := by
  obtain ⟨h, hh, hhC, ht, _, hle, _⟩ := hr
  have hlen : L.length = P.QUEUE_CAPACITY := by omega
  have he : q.head = q.tail := by
    rw [hh, ht, hlen, Nat.add_mod_right, Nat.mod_eq_of_lt hhC]
  unfold findprocessinqueuewithpid
  cases lf with
  | zero => unfold findprocessinqueuewithpidFrom; rw [if_pos he]
  | succ n => unfold findprocessinqueuewithpidFrom; rw [if_pos he]

theorem QueuesLoose.remove {P : Params} {s : kstate} {L : Nat → List Nat}
    (hq : QueuesLoose P s L) (o : Nat) (ho : o < P.PRIORITYLEVELS) (A B : List Nat) (v : Nat)
    (hAB : L o = A ++ v :: B) (q1 : processQueue) (hr : Rep P q1 (A ++ B)) (s' : kstate)
    (hpt : s'.ptable = s.ptable)
    (hq' : s'.priorityTable = Function.update s.priorityTable o q1) :
    QueuesLoose P s' (Function.update L o (A ++ B)) ∧
      ∀ k, k < P.PRIORITYLEVELS → v ∉ Function.update L o (A ++ B) k := by
  have hnd := hq.nodup o ho
  rw [hAB] at hnd
  have hvA : v ∉ A := fun hm =>
    (List.nodup_append.mp hnd).2.2 hm (List.mem_cons_self _ _)
  have hvB : v ∉ B := (List.nodup_cons.mp (List.nodup_append.mp hnd).2.1).1
  have hsub : ∀ k, k < P.PRIORITYLEVELS → ∀ x, x ∈ Function.update L o (A ++ B) k →
      x ∈ L k ∧ x ≠ v := by
    intro k hkP x hx
    by_cases hk : k = o
    · subst hk
      rw [Function.update_same] at hx
      rw [hAB]
      rcases List.mem_append.mp hx with h1 | h1
      · exact ⟨List.mem_append_left _ h1, fun e => hvA (e ▸ h1)⟩
      · exact ⟨List.mem_append_right _ (List.mem_cons_of_mem _ h1), fun e => hvB (e ▸ h1)⟩
    · rw [Function.update_noteq hk] at hx
      refine ⟨hx, ?_⟩
      intro e
      subst e
      exact hq.disj k o hkP ho hk x hx (by rw [hAB]; simp)
  refine ⟨⟨?_, ?_, ?_, ?_⟩, fun k hk hm => (hsub k hk v hm).2 rfl⟩
  · intro k hk
    rw [hq']
    by_cases hko : k = o
    · subst hko; simp only [Function.update_same]; exact hr
    · simp only [Function.update_noteq hko]; exact hq.rep k hk
  · intro k hk x hx
    rw [hpt]
    exact hq.ent k hk x (hsub k hk x hx).1
  · intro k hk
    by_cases hko : k = o
    · subst hko
      rw [Function.update_same]
      refine List.nodup_append.mpr ⟨(List.nodup_append.mp hnd).1,
        (List.nodup_cons.mp (List.nodup_append.mp hnd).2.1).2, ?_⟩
      intro x hxA hxB
      exact (List.nodup_append.mp hnd).2.2 hxA (List.mem_cons_of_mem _ hxB)
    · rw [Function.update_noteq hko]; exact hq.nodup k hk
  · intro k k' hk hk' hne x hx hx'
    exact hq.disj k k' hk hk' hne x (hsub k hk x hx).1 (hsub k' hk' x hx').1

theorem QueuesLoose.append {P : Params} {s : kstate} {L : Nat → List Nat}
    (hq : QueuesLoose P s L) (n : Nat) (v : Nat) (hv : v < P.NPROC)
    (hrun : (s.ptable v).state = procstate.RUNNABLE)
    (hnot : ∀ k, k < P.PRIORITYLEVELS → v ∉ L k) (q2 : processQueue)
    (hr : Rep P q2 (L n ++ [v])) (s' : kstate) (hpt : s'.ptable = s.ptable)
    (hq' : s'.priorityTable = Function.update s.priorityTable n q2) :
    QueuesLoose P s' (Function.update L n (L n ++ [v])) := by
  have hsub : ∀ k, k < P.PRIORITYLEVELS → ∀ x, x ∈ Function.update L n (L n ++ [v]) k →
      x ∈ L k ∨ (x = v ∧ k = n) := by
    intro k _ x hx
    by_cases hk : k = n
    · subst hk
      rw [Function.update_same] at hx
      rcases List.mem_append.mp hx with h1 | h1
      · exact Or.inl h1
      · exact Or.inr ⟨by simpa using h1, rfl⟩
    · rw [Function.update_noteq hk] at hx
      exact Or.inl hx
  refine ⟨?_, ?_, ?_, ?_⟩
  · intro k hk
    rw [hq']
    by_cases hkn : k = n
    · subst hkn; simp only [Function.update_same]; exact hr
    · simp only [Function.update_noteq hkn]; exact hq.rep k hk
  · intro k hk x hx
    rw [hpt]
    rcases hsub k hk x hx with h1 | ⟨h1, _⟩
    · exact hq.ent k hk x h1
    · subst h1; exact ⟨hv, hrun⟩
  · intro k hk
    by_cases hkn : k = n
    · subst hkn
      rw [Function.update_same]
      refine List.nodup_append.mpr ⟨hq.nodup _ hk, List.nodup_singleton _, ?_⟩
      intro x hx1 hx2
      have : x = v := by simpa using hx2
      exact hnot _ hk (this ▸ hx1)
    · rw [Function.update_noteq hkn]; exact hq.nodup k hk
  · intro k k' hk hk' hne x hx hx'
    rcases hsub k hk x hx with h1 | ⟨h1, h2⟩
    · rcases hsub k' hk' x hx' with h3 | ⟨h3, _⟩
      · exact hq.disj k k' hk hk' hne x h1 h3
      · subst h3; exact hnot k hk h1
    · rcases hsub k' hk' x hx' with h3 | ⟨_, h4⟩
      · subst h1; exact hnot k' hk' h3
      · exact hne (h2.trans h4.symm)

theorem filter_ne_split (A B : List Nat) (v : Nat) :
    (A ++ v :: B).filter (fun x => decide (x ≠ v))
      = (A ++ B).filter (fun x => decide (x ≠ v)) := by
  simp [List.filter_append, List.filter_cons]

theorem filter_ne_append_self (l : List Nat) (v : Nat) :
    (l ++ [v]).filter (fun x => decide (x ≠ v)) = l.filter (fun x => decide (x ≠ v)) := by
  simp [List.filter_append, List.filter_cons]

/-- `moveToNewQueue`, called by `setpriority` after it has stored the new
priority `n` of `v`, with no bound on the queues: whenever it completes, the
queues again hold RUNNABLE processes without repetition, and the lists changed
by one move of `v` at most. -/
theorem moveToNewQueue_loose (P : Params) (lf : Nat) (s : kstate) (L : Nat → List Nat)
    (v : Nat) (n : Int) (hq : QueuesLoose P s L)
    (huniq : ∀ a b, a < P.NPROC → b < P.NPROC → (s.ptable a).state ≠ procstate.UNUSED →
      (s.ptable b).state ≠ procstate.UNUSED → (s.ptable a).pid = (s.ptable b).pid → a = b)
    (hprio : prioInRange P (s.ptable v).priority) (hv : v < P.NPROC)
    (hlive : (s.ptable v).state ≠ procstate.UNUSED) (hn : prioInRange P n) (s2 : kstate)
    (hm : moveToNewQueue P lf (setSlot s v { s.ptable v with priority := n }) v n
        (s.ptable v).priority = some s2) :
    ∃ L2, QueuesLoose P s2 L2 ∧ MoveKeeps P L L2 v n.toNat := by
  have hok : (s.ptable v).priority.toNat < P.PRIORITYLEVELS := by
    have := hprio.1; have := hprio.2; omega
  have hnk : n.toNat < P.PRIORITYLEVELS := by
    have := hn.1; have := hn.2; omega
  have hq1 : QueuesLoose P (setSlot s v { s.ptable v with priority := n }) L := by
    refine hq.carry_loose rfl ?_
    intro x _ hx
    simp only [setSlot]
    by_cases hxv : x = v
    · subst hxv; rw [Function.update_same]; exact hx
    · rw [Function.update_noteq hxv]; exact hx
  have hrep := hq.rep _ hok
  obtain ⟨h, hh, hhC⟩ := hrep.head_eq
  have hvalid : ∀ x ∈ L (s.ptable v).priority.toNat, x < P.NPROC :=
    fun x hx => (hq.ent _ hok x hx).1
  have hpidne : ∀ x ∈ L (s.ptable v).priority.toNat, x ≠ v →
      ((setSlot s v { s.ptable v with priority := n }).ptable x).pid ≠ (s.ptable v).pid := by
    intro x hx hne
    simp only [setSlot, Function.update_noteq hne]
    intro e
    exact hne (huniq x v (hvalid x hx) hv (by rw [(hq.ent _ hok x hx).2]; decide) hlive e)
  unfold moveToNewQueue at hm
  rw [level_of_range P _ _ hprio.1 hprio.2, slot_of_lt P _ v hv] at hm
  simp only at hm
  have hpid : ((setSlot s v { s.ptable v with priority := n }).ptable v).pid
      = (s.ptable v).pid := by
    simp only [setSlot, Function.update_same]
  rw [hpid] at hm
  have hpt : (setSlot s v { s.ptable v with priority := n }).priorityTable
      (s.ptable v).priority.toNat = s.priorityTable (s.ptable v).priority.toNat := rfl
  rw [hpt] at hm
  cases hfind : findprocessinqueuewithpid P lf (setSlot s v { s.ptable v with priority := n })
      (s.priorityTable (s.ptable v).priority.toNat) (s.ptable v).pid with
  | none => rw [hfind] at hm; cases hm
  | some index =>
    rw [hfind] at hm
    simp only at hm
    by_cases hidx : index = -1
    · rw [if_neg (not_not.mpr hidx)] at hm
      simp only [Option.some.injEq] at hm
      subst hm
      exact ⟨L, hq1, fun _ _ => rfl, Or.inl rfl⟩
    · rw [if_pos hidx] at hm
      by_cases hlen : (L (s.ptable v).priority.toNat).length < P.QUEUE_CAPACITY
      · by_cases hmem : v ∈ L (s.ptable v).priority.toNat
        · obtain ⟨A, B, hAB⟩ := List.append_of_mem hmem
          have hnd := hq.nodup _ hok
          rw [hAB] at hnd hrep hlen
          have hvA : v ∉ A := fun hm' =>
            (List.nodup_append.mp hnd).2.2 hm' (List.mem_cons_self _ _)
          have hidx2 := (findprocessinqueuewithpid_found P lf
            (setSlot s v { s.ptable v with priority := n })
            (s.priorityTable (s.ptable v).priority.toNat) (s.ptable v).pid A B v h hrep hh
            hlen (by intro x hx; rw [← hAB] at hx; exact hvalid x hx) hpid
            (by
              intro x hx
              exact hpidne x (by rw [hAB]; exact List.mem_append_left _ hx)
                (fun e => hvA (e ▸ hx)))).1 index hfind
          subst hidx2
          cases hrem : removeitemfromqueue P lf (s.priorityTable (s.ptable v).priority.toNat)
              (((h + A.length) % P.QUEUE_CAPACITY : Nat) : Int) with
          | none => rw [hrem] at hm; cases hm
          | some q1 =>
            rw [hrem] at hm
            simp only at hm
            obtain ⟨hrq1, _⟩ := Rep_remove P _ A B v h hrep hh hlen lf q1 hrem
            rw [level_of_range P _ _ hn.1 hn.2] at hm
            simp only at hm
            obtain ⟨hmid, hvmid⟩ := hq1.remove _ hok A B v hAB q1 hrq1
              (setLevel (setSlot s v { s.ptable v with priority := n }) (s.ptable v).priority q1)
              rfl rfl
            have hkeep1 : ∀ k, (Function.update L (s.ptable v).priority.toNat (A ++ B) k).filter
                (fun x => decide (x ≠ v)) = (L k).filter (fun x => decide (x ≠ v)) := by
              intro k
              by_cases hk : k = (s.ptable v).priority.toNat
              · subst hk
                rw [Function.update_same, hAB, filter_ne_split]
              · rw [Function.update_noteq hk]
            have hvrun : ((setLevel (setSlot s v { s.ptable v with priority := n })
                (s.ptable v).priority q1).ptable v).state = procstate.RUNNABLE := by
              simp only [setLevel, setSlot, Function.update_same]
              exact (hq.ent _ hok v hmem).2
            cases henq : EnqueueProcess P
                ((setLevel (setSlot s v { s.ptable v with priority := n })
                  (s.ptable v).priority q1).priorityTable n.toNat) (some v) with
            | none => rw [henq] at hm; cases hm
            | some r =>
              rw [henq] at hm
              simp only [Option.some.injEq] at hm
              subst hm
              by_cases hlen2 : (Function.update L (s.ptable v).priority.toNat (A ++ B)
                  n.toNat).length < P.QUEUE_CAPACITY
              · obtain ⟨q2, henq2, hrq2⟩ := Rep_enqueue (hmid.rep _ hnk) hlen2 v
                rw [henq2] at henq
                simp only [Option.some.injEq] at henq
                subst henq
                refine ⟨_, hmid.append n.toNat v hv hvrun hvmid q2 hrq2 _ rfl rfl, ?_, ?_⟩
                · intro k _
                  by_cases hk : k = n.toNat
                  · subst hk
                    rw [Function.update_same, filter_ne_append_self, hkeep1]
                  · rw [Function.update_noteq hk, hkeep1]
                · right
                  intro k hk hmem2
                  by_contra hkn
                  rw [Function.update_noteq hkn] at hmem2
                  exact hvmid k hk hmem2
              · rw [Rep_enqueue_full (hmid.rep _ hnk) hlen2 (some v)] at henq
                simp only [Option.some.injEq] at henq
                subst henq
                refine ⟨_, hmid.carry_loose ?_ (fun _ _ hx => hx), fun k _ => hkeep1 k, ?_⟩
                · simp only [setLevel, Function.update_eq_self]
                · right
                  intro k hk hmem2
                  exact absurd hmem2 (hvmid k hk)
        · have := (findprocessinqueuewithpid_none P lf
            (setSlot s v { s.ptable v with priority := n })
            (s.priorityTable (s.ptable v).priority.toNat) (s.ptable v).pid _ h hrep hh hlen
            hvalid (fun x hx => hpidne x hx (fun e => hmem (e ▸ hx)))).1 index hfind
          exact absurd this hidx
      · have := findprocessinqueuewithpid_full P lf
          (setSlot s v { s.ptable v with priority := n })
          (s.priorityTable (s.ptable v).priority.toNat) (s.ptable v).pid _ hrep hlen
        rw [this] at hfind
        simp only [Option.some.injEq] at hfind
        exact absurd hfind.symm hidx

theorem OneMove.step_core {P : Params} {d : Int} {s s2 : kstate} (hm : OneMove P d s s2)
    (h : LooseSched P s) : LooseSched P s2 := by
  obtain ⟨v, L, L2, hv, _, hL2, hpt, hin, _, hnext, _, _⟩ := hm
  refine ⟨h.1.keep ?_ ?_, ⟨L2, hL2⟩⟩
  · rw [hpt]
    exact SameButPriority.update_priority _ v _
  · intro x hx
    rw [hpt]
    by_cases hxv : x = v
    · subst hxv; rw [Function.update_same]; exact hin
    · rw [Function.update_noteq hxv]; exact h.1.prio x hx

theorem Moves.run_core {P : Params} {d : Int} {s s' : kstate} (hm : Moves P d s s')
    (h : LooseSched P s) : LooseSched P s' := by
  induction hm with
  | refl => exact h
  | step _ h1 ih => exact h1.step_core ih

theorem Moves.chain_moves {P : Params} {d : Int} {s1 s2 s3 : kstate} (h1 : Moves P d s1 s2)
    (h2 : Moves P d s2 s3) : Moves P d s1 s3 := by
  induction h2 with
  | refl => exact h1
  | step _ hstep ih => exact Moves.step ih hstep

theorem Moves.fields {P : Params} {d : Int} {s s' : kstate} (hm : Moves P d s s') :
    SameButPriority s.ptable s'.ptable ∧ s'.nextpid = s.nextpid ∧ s'.cur = s.cur ∧
      s'.initproc = s.initproc := by
  induction hm with
  | refl => exact ⟨SameButPriority.refl _, rfl, rfl, rfl⟩
  | step _ h1 ih =>
    obtain ⟨v, L, L2, _, _, _, hpt, _, _, e1, e2, e3⟩ := h1
    refine ⟨ih.1.chain ?_, e1.trans ih.2.1, e2.trans ih.2.2.1, e3.trans ih.2.2.2⟩
    rw [hpt]
    exact SameButPriority.update_priority _ v _

theorem setpriorityforchildrenLoop_moves (P : Params)
    (call : kstate → Nat → Int → Option kstate) (parentpid d : Int)
    (hcall : ∀ s c s', LooseSched P s → c < P.NPROC →
      (s.ptable c).state ≠ procstate.UNUSED →
      call s c (d + (s.ptable c).priority) = some s' → Moves P d s s') :
    ∀ (is : List Nat) (s s' : kstate), LooseSched P s →
      setpriorityforchildrenLoop P call parentpid d s is = some s' → Moves P d s s' := by
  intro is
  induction is with
  | nil =>
    intro s s' _ h
    unfold setpriorityforchildrenLoop at h
    cases h
    exact Moves.refl s
  | cons i rest ih =>
    intro s s' hs h
    unfold setpriorityforchildrenLoop at h
    cases hsl : slot P s i with
    | none => rw [hsl] at h; cases h
    | some c =>
      obtain ⟨hi, hc⟩ := slot_eq_some hsl
      subst hc
      rw [hsl] at h
      simp only at h
      cases hpar : (s.ptable i).parent with
      | none =>
        rw [hpar] at h
        exact ih s s' hs h
      | some j =>
        rw [hpar] at h
        simp only at h
        cases hsj : slot P s j with
        | none => rw [hsj] at h; cases h
        | some pj =>
          rw [hsj] at h
          simp only at h
          split at h
          · cases hcl : call s i (d + (s.ptable i).priority) with
            | none => rw [hcl] at h; cases h
            | some s1 =>
              rw [hcl] at h
              simp only at h
              have hlive : (s.ptable i).state ≠ procstate.UNUSED :=
                hs.1.child_live i hi (by rw [hpar]; simp)
              have m1 := hcall s i s1 hs hi hlive hcl
              exact m1.chain_moves (ih s1 s' (m1.run_core hs) h)
          · exact ih s s' hs h

/-- `setpriority` with no bound on the queues: whenever it completes, it has
done a sequence of single moves, all with the difference between the new and
the old priority of the process it was called on. -/
theorem setpriority_moves (P : Params) (lf : Nat) :
    ∀ (fuel : Nat) (s : kstate) (i : Nat) (n : Int) (s' : kstate), LooseSched P s →
      i < P.NPROC → (s.ptable i).state ≠ procstate.UNUSED →
      setpriority P lf fuel s i n = some s' → Moves P (n - (s.ptable i).priority) s s' := by
  intro fuel
  induction fuel with
  | zero =>
    intro s i n s' _ _ _ h
    unfold setpriority at h
    split at h
    · cases h; exact Moves.refl s
    · cases h
  | succ fuel ih =>
    intro s i n s' hs hi hlive h
    unfold setpriority at h
    split at h
    · cases h; exact Moves.refl s
    · rename_i hin
      have hin' : prioInRange P n := not_not.mp hin
      rw [slot_of_lt P s i hi] at h
      simp only at h
      cases hmv : moveToNewQueue P lf (setSlot s i { s.ptable i with priority := n }) i n
          (s.ptable i).priority with
      | none => rw [hmv] at h; cases h
      | some s2 =>
        rw [hmv] at h
        simp only at h
        obtain ⟨L, hL⟩ := hs.2
        obtain ⟨L2, hL2, hkeep⟩ := moveToNewQueue_loose P lf s L i n hL hs.1.uniq
          (hs.1.prio i hi) hi hlive hin' s2 hmv
        obtain ⟨p1, p2, p3, p4⟩ := moveToNewQueue_procs P lf _ i n _ s2 hmv
        have e : (s.ptable i).priority + (n - (s.ptable i).priority) = n := by ring
        have hone : OneMove P (n - (s.ptable i).priority) s s2 := by
          refine ⟨i, L, L2, hi, hL, hL2, ?_, ?_, ?_, p3, p4, p2⟩
          · rw [p1, e]; rfl
          · rw [e]; exact hin'
          · rw [e]; exact hkeep
        have hs2 := hone.step_core hs
        refine (Moves.step (Moves.refl s) hone).chain_moves ?_
        apply setpriorityforchildrenLoop_moves P (setpriority P lf fuel) (s.ptable i).pid
          (n - (s.ptable i).priority) ?_ (List.range P.NPROC) s2 s' hs2 h
        intro t c t' ht hc hcl hcall
        have := ih t c _ t' ht hc hcl hcall
        have e2 : n - (s.ptable i).priority + (t.ptable c).priority - (t.ptable c).priority
            = n - (s.ptable i).priority := by ring
        rw [e2] at this
        exact this

theorem LooseCore_of_setpriority (P : Params) (lf fuel : Nat) (s s' : kstate) (i : Nat)
    (n : Int) (h : LooseCore P s) (hi : i < P.NPROC)
    (hlive : (s.ptable i).state ≠ procstate.UNUSED)
    (hs' : setpriority P lf fuel s i n = some s') :
    LooseCore P s' ∧ SameButPriority s.ptable s'.ptable ∧ s'.cur = s.cur ∧
      s'.nextpid = s.nextpid ∧ s'.initproc = s.initproc := by
  have hm := setpriority_moves P lf fuel s i n s' ⟨h.table, h.queues⟩ hi hlive hs'
  obtain ⟨f1, f2, f3, f4⟩ := hm.fields
  obtain ⟨t1, t2⟩ := hm.run_core ⟨h.table, h.queues⟩
  refine ⟨⟨t1, t2, ?_⟩, f1, f3, f2, f4⟩
  intro x hx hl
  rw [(f1 x).1] at hl
  rw [(f1 x).2.1, f2]
  exact h.pids x hx hl

theorem LooseInv_of_setpriority (P : Params) (lf fuel : Nat) (s s' : kstate) (i : Nat)
    (n : Int) (h : LooseInv P s) (hi : i < P.NPROC)
    (hlive : (s.ptable i).state ≠ procstate.UNUSED)
    (hs' : setpriority P lf fuel s i n = some s') : LooseInv P s' := by
  obtain ⟨c1, c2, c3, _, _⟩ := LooseCore_of_setpriority P lf fuel s s' i n h.core hi hlive hs'
  refine ⟨c1, ?_⟩
  intro j hj
  rw [c3] at hj
  obtain ⟨j1, j2⟩ := h.running j hj
  exact ⟨j1, by rw [(c2 j).1]; exact j2⟩

theorem LooseInv_with_cur_none {P : Params} {s : kstate} (h : LooseCore P s) :
    LooseInv P { s with cur := none } where
  core := @LooseCore_of_change P s { s with cur := none } h rfl (le_refl _)
    (fun _ _ hx => hx) h.table.prio (fun _ _ hl => ⟨hl, rfl⟩) h.table.child_live
  running j hj := by cases hj

theorem wakeup1Loop_loose (P : Params) (chan : voidptr) :
    ∀ (is : List Nat) (s s' : kstate), LooseCore P s → wakeup1Loop P chan s is = some s' →
      LooseCore P s' ∧ s'.cur = s.cur ∧ s'.nextpid = s.nextpid ∧ s'.initproc = s.initproc ∧
        WokeOnly s s' := by
  intro is
  induction is with
  | nil =>
    intro s s' h hs'
    simp only [wakeup1Loop] at hs'
    cases hs'
    exact ⟨h, rfl, rfl, rfl, WokeOnly_refl s⟩
  | cons a rest ih =>
    intro s s' h hs'
    simp only [wakeup1Loop] at hs'
    split at hs'
    · cases hs'
    · rename_i p hp
      obtain ⟨ha, hpe⟩ := slot_eq_some hp
      subst hpe
      split at hs'
      · rename_i hsl
        split at hs'
        · cases hs'
        · rename_i s1 hs1
          obtain ⟨c1, c2, c3, c4, c5⟩ := SetProcessRunnable_loose P s a s1 h ha
            (by rw [hsl.1]; decide) (by rw [hsl.1]; decide) hs1
          obtain ⟨d1, d2, d3, d4, d5⟩ := ih s1 s' c1 hs'
          refine ⟨d1, d2.trans c3, d3.trans c4, d4.trans c5, WokeOnly_trans ?_ d5⟩
          intro x
          rw [c2]
          by_cases hx : x = a
          · subst hx
            rw [Function.update_same]
            exact Or.inr ⟨hsl.1, rfl⟩
          · rw [Function.update_noteq hx]
            exact Or.inl rfl
      · exact ih s s' h hs'

theorem LooseInv_of_woke {P : Params} {s s' : kstate} (h : LooseInv P s)
    (hc : LooseCore P s') (hcur : s'.cur = s.cur) (hw : WokeOnly s s') : LooseInv P s' where
  core := hc
  running := by
    intro i hi
    rw [hcur] at hi
    obtain ⟨h1, h2⟩ := h.running i hi
    refine ⟨h1, ?_⟩
    rw [(WokeOnly_fields hw i).2.2.2.2.2 (by rw [h2]; decide)]
    exact h2

theorem wakeup_loose (P : Params) (s s' : kstate) (chan : voidptr) (h : LooseInv P s)
    (hs' : wakeup P s chan = some s') : LooseInv P s' := by
  obtain ⟨c1, c2, _, _, c5⟩ := wakeup1Loop_loose P chan _ s s' h.core hs'
  exact LooseInv_of_woke h c1 c2 c5

theorem yield_loose (P : Params) (s s' : kstate) (h : LooseInv P s)
    (hs' : yield P s = some s') : LooseInv P { s' with cur := none } := by
  unfold yield at hs'
  split at hs'
  · cases hs'
  · rename_i i hi
    obtain ⟨h1, h2⟩ := h.running i hi
    obtain ⟨c1, _, _, _, _⟩ := SetProcessRunnable_loose P s i s' h.core h1
      (by rw [h2]; decide) (by rw [h2]; decide) hs'
    exact LooseInv_with_cur_none c1

theorem sleep_loose (P : Params) (s s' : kstate) (chan : voidptr) (h : LooseInv P s)
    (hs' : sleep P s chan = some s') : LooseInv P { s' with cur := none } := by
  unfold sleep at hs'
  split at hs'
  · cases hs'
  · rename_i i hi
    obtain ⟨h1, h2⟩ := h.running i hi
    simp only [slot_of_lt P s i h1, Option.map_some', Option.some.injEq] at hs'
    subst hs'
    apply LooseInv_with_cur_none
    exact LooseCore_setSlot i _ h.core (fun hx => by rw [h2] at hx; cases hx)
      (h.core.table.prio i h1) (fun _ => ⟨by rw [h2]; decide, rfl⟩) (fun _ => by simp)

theorem sleepReturn_loose (P : Params) (s s' : kstate) (h : LooseInv P s)
    (hs' : sleepReturn P s = some s') : LooseInv P s' := by
  unfold sleepReturn at hs'
  split at hs'
  · cases hs'
  · rename_i i hi
    obtain ⟨h1, h2⟩ := h.running i hi
    simp only [slot_of_lt P s i h1, Option.map_some', Option.some.injEq] at hs'
    subst hs'
    exact LooseInv_setSlot i _ h (fun hx => hx) (h.core.table.prio i h1)
      (fun hl => ⟨hl, rfl⟩) (fun hp => h.core.table.child_live i h1 hp) (fun _ => h2)

theorem kill_loose (P : Params) (s s' : kstate) (pid r : Int) (h : LooseInv P s)
    (hs' : kill P s pid = some (s', r)) : LooseInv P s' := by
  unfold kill at hs'
  split at hs'
  · cases hs'; exact h
  · rename_i i hfind
    obtain ⟨hi, _⟩ := find?_range_lt hfind
    have h1 : LooseInv P (setSlot s i { s.ptable i with killed := 1 }) :=
      LooseInv_setSlot i _ h (fun hx => hx) (h.core.table.prio i hi) (fun hl => ⟨hl, rfl⟩)
        (fun hp => h.core.table.child_live i hi hp) (fun hc => (h.running i hc).2)
    split at hs'
    · rename_i hsl
      cases hsr : SetProcessRunnable P (setSlot s i { s.ptable i with killed := 1 }) i with
      | none => rw [hsr] at hs'; cases hs'
      | some s1 =>
        rw [hsr] at hs'
        simp only [Option.map_some', Option.some.injEq, Prod.mk.injEq] at hs'
        obtain ⟨e1, _⟩ := hs'
        subst e1
        have hst : ((setSlot s i { s.ptable i with killed := 1 }).ptable i).state
            = procstate.SLEEPING := by
          simp only [setSlot, Function.update_same]; exact hsl
        obtain ⟨c1, c2, c3, _, _⟩ := SetProcessRunnable_loose P _ i s1 h1.core hi
          (by rw [hst]; decide) (by rw [hst]; decide) hsr
        refine ⟨c1, ?_⟩
        intro j hj
        rw [c3] at hj
        obtain ⟨j1, j2⟩ := h1.running j hj
        refine ⟨j1, ?_⟩
        have hne : j ≠ i := by
          intro e; subst e; rw [hst] at j2; cases j2
        rw [c2, Function.update_noteq hne]; exact j2
    · simp only [Option.some.injEq, Prod.mk.injEq] at hs'
      obtain ⟨e1, _⟩ := hs'
      subst e1; exact h1

theorem wait_loose (P : Params) (s s' : kstate) (r : Option Int) (h : LooseInv P s)
    (hs' : wait P s = some (s', r)) :
    (r ≠ none → LooseInv P s') ∧ (r = none → LooseInv P { s' with cur := none }) := by
  unfold wait at hs'
  split at hs'
  · cases hs'
  · rename_i cur hcur
    obtain ⟨hc1, hc2⟩ := h.running cur hcur
    simp only [slot_of_lt P s cur hc1] at hs'
    split at hs'
    · rename_i i hfind
      obtain ⟨hi, hpi⟩ := find?_range_lt hfind
      simp only [Bool.and_eq_true, decide_eq_true_eq] at hpi
      simp only [Option.some.injEq, Prod.mk.injEq] at hs'
      obtain ⟨e1, e2⟩ := hs'
      subst e1 e2
      refine ⟨fun _ => ?_, fun hr => by cases hr⟩
      exact LooseInv_setSlot i _ h (fun hx => by rw [hpi.2] at hx; cases hx)
        (h.core.table.prio i hi)
        (fun hl => absurd rfl hl) (fun hp => absurd rfl hp)
        (fun hc => by
          have := (h.running i hc).2
          rw [hpi.2] at this; cases this)
    · split at hs'
      · simp only [Option.some.injEq, Prod.mk.injEq] at hs'
        obtain ⟨e1, e2⟩ := hs'
        subst e1 e2
        exact ⟨fun _ => h, fun hr => by cases hr⟩
      · cases hsl : sleep P s (voidptr.ofproc cur) with
        | none => rw [hsl] at hs'; cases hs'
        | some s1 =>
          rw [hsl] at hs'
          simp only [Option.map_some', Option.some.injEq, Prod.mk.injEq] at hs'
          obtain ⟨e1, e2⟩ := hs'
          subst e1 e2
          exact ⟨fun hr => absurd rfl hr, fun _ => sleep_loose P s s1 _ h hsl⟩

theorem exitLoop_loose (P : Params) (cur : Nat) :
    ∀ (is : List Nat) (s s' : kstate), LooseCore P s →
      (s.ptable cur).state = procstate.RUNNING → exitLoop P cur s is = some s' →
      LooseCore P s' ∧ (s'.ptable cur).state = procstate.RUNNING := by
  intro is
  induction is with
  | nil =>
    intro s s' h hr hs'
    simp only [exitLoop] at hs'
    cases hs'; exact ⟨h, hr⟩
  | cons a rest ih =>
    intro s s' h hr hs'
    simp only [exitLoop] at hs'
    split at hs'
    · cases hs'
    · rename_i p hp
      obtain ⟨ha, hpe⟩ := slot_eq_some hp
      subst hpe
      split at hs'
      · rename_i hpar
        have hal : (s.ptable a).state ≠ procstate.UNUSED :=
          h.table.child_live a ha (by rw [hpar]; simp)
        have h1 : LooseCore P (setSlot s a { s.ptable a with parent := s.initproc }) :=
          LooseCore_setSlot a _ h (fun hx => hx) (h.table.prio a ha) (fun hl => ⟨hl, rfl⟩)
            (fun _ => hal)
        have hr1 : ((setSlot s a { s.ptable a with parent := s.initproc }).ptable cur).state
            = procstate.RUNNING := by
          simp only [setSlot]
          by_cases hx : cur = a
          · subst hx; rw [Function.update_same]; exact hr
          · rw [Function.update_noteq hx]; exact hr
        split at hs'
        · split at hs'
          · cases hs'
          · rename_i s2 hs2
            obtain ⟨c1, _, _, _, c5⟩ := wakeup1Loop_loose P _ _ _ s2 h1 hs2
            have hr2 : (s2.ptable cur).state = procstate.RUNNING := by
              rw [(WokeOnly_fields c5 cur).2.2.2.2.2 (by rw [hr1]; decide)]; exact hr1
            exact ih s2 s' c1 hr2 hs'
        · exact ih _ s' h1 hr1 hs'
      · exact ih s s' h hr hs'

theorem exit_loose (P : Params) (s s' : kstate) (h : LooseInv P s)
    (hs' : exit P s = some s') : LooseInv P { s' with cur := none } := by
  unfold exit at hs'
  split at hs'
  · cases hs'
  · rename_i cur hcur
    obtain ⟨hc1, hc2⟩ := h.running cur hcur
    split at hs'
    · cases hs'
    · simp only [slot_of_lt P s cur hc1] at hs'
      split at hs'
      · cases hs'
      · rename_i s1 hs1
        obtain ⟨c1, _, _, _, c5⟩ := wakeup1Loop_loose P _ _ s s1 h.core hs1
        have hr1 : (s1.ptable cur).state = procstate.RUNNING := by
          rw [(WokeOnly_fields c5 cur).2.2.2.2.2 (by rw [hc2]; decide)]; exact hc2
        split at hs'
        · cases hs'
        · rename_i s2 hs2
          obtain ⟨d1, d2⟩ := exitLoop_loose P cur _ s1 s2 c1 hr1 hs2
          simp only [Option.some.injEq] at hs'
          subst hs'
          apply LooseInv_with_cur_none
          exact LooseCore_setSlot cur { s2.ptable cur with state := procstate.ZOMBIE } d1
            (fun hx => by rw [d2] at hx; cases hx) (d1.table.prio cur hc1)
            (fun _ => ⟨by rw [d2]; decide, rfl⟩) (fun _ => by simp)

theorem setprioritybypid_loose (P : Params) (lf fuel : Nat) (s s' : kstate)
    (pid priority r : Int) (h : LooseInv P s)
    (hs' : setprioritybypid P lf fuel s pid priority = some (s', r)) : LooseInv P s' := by
  unfold setprioritybypid at hs'
  split at hs'
  · cases hs'; exact h
  · split at hs'
    · cases hs'; exact h
    · rename_i i hfind
      unfold findprocesswithpid at hfind
      obtain ⟨hi, hpi⟩ := find?_range_lt hfind
      simp only [Bool.and_eq_true, decide_eq_true_eq] at hpi
      split at hs'
      · cases hs'; exact h
      · split at hs'
        · cases hs'
        · split at hs'
          · cases hsp : setpriority P lf fuel s i priority with
            | none => rw [hsp] at hs'; cases hs'
            | some s1 =>
              rw [hsp] at hs'
              simp only [Option.map_some', Option.some.injEq, Prod.mk.injEq] at hs'
              obtain ⟨e1, _⟩ := hs'
              subst e1
              exact LooseInv_of_setpriority P lf fuel s s1 i priority h hi hpi.1 hsp
          · cases hs'; exact h

theorem nice_loose (P : Params) (lf fuel : Nat) (s s' : kstate) (value r : Int)
    (h : LooseInv P s) (hs' : nice P lf fuel s value = some (s', r)) : LooseInv P s' := by
  unfold nice at hs'
  split at hs'
  · cases hs'
  · rename_i i hcur
    obtain ⟨hi, hst⟩ := h.running i hcur
    simp only [slot_of_lt P s i hi] at hs'
    split at hs'
    · cases hs'; exact h
    · split at hs'
      · cases hs'; exact h
      · split at hs'
        · cases hs'
        · split at hs'
          · cases hsp : setpriority P lf fuel s i (wrap32 ((s.ptable i).priority + value)) with
            | none => rw [hsp] at hs'; cases hs'
            | some s1 =>
              rw [hsp] at hs'
              simp only [Option.map_some', Option.some.injEq, Prod.mk.injEq] at hs'
              obtain ⟨e1, _⟩ := hs'
              subst e1
              exact LooseInv_of_setpriority P lf fuel s s1 i _ h hi
                (by rw [hst]; decide) hsp
          · cases hs'; exact h

theorem pruneLevels_loose_id (P : Params) (lf : Nat) (s : kstate) (L : Nat → List Nat)
    (hq : QueuesLoose P s L) :
    ∀ (is : List Nat) (s' : kstate), (∀ i ∈ is, i < P.PRIORITYLEVELS) →
      pruneLevels P lf s is = some s' → s' = s := by
  intro is
  induction is with
  | nil =>
    intro s' _ h
    simp only [pruneLevels] at h
    cases h; rfl
  | cons a rest ih =>
    intro s' hlt h
    have ha := hlt a (by simp)
    simp only [pruneLevels, level_cast P s a ha] at h
    split at h
    · cases h
    · rename_i q1 hq1
      obtain ⟨h0, hh, hhC⟩ := (hq.rep a ha).head_eq
      have hid := pruneQueueFrom_runnable_id P lf s _ (L a) (hq.rep a ha)
        (hq.ent a ha) lf 0 h0 q1 hh
        (Nat.zero_le _) (by
          rw [Nat.add_zero, Nat.mod_eq_of_lt hhC, ← hh]; exact hq1)
      subst hid
      have : setLevel s (a : Int) (s.priorityTable a) = s := by
        simp only [setLevel, Int.toNat_ofNat, Function.update_eq_self]
      rw [this] at h
      exact ih s' (fun i hi => hlt i (List.mem_cons_of_mem _ hi)) h

/-- A completed selection of the scheduler, in a state whose queues hold
RUNNABLE processes only: pruning changed nothing, and either the level of the
cursor gave no process and the state is unchanged, or its oldest entry was
taken. -/
theorem schedulerSelect_loose (P : Params) (lf : Nat) (s s2 : kstate) (c : Int) (r : procptr)
    (L : Nat → List Nat) (hq : QueuesLoose P s L)
    (hsel : schedulerSelect P lf s c = some (s2, r)) :
    c.toNat < P.PRIORITYLEVELS ∧
    ((r = none ∧ s2 = s) ∨
      ∃ x rest q', L c.toNat = x :: rest ∧ r = some x ∧ Rep P q' rest ∧
        s2 = setLevel s c q') := by
  unfold schedulerSelect at hsel
  split at hsel
  · cases hsel
  · rename_i s1 hs1
    have hid := pruneLevels_loose_id P lf s L hq _ s1
      (fun i hi => List.mem_range.mp hi) hs1
    subst hid
    unfold GetNextRunnableProcess at hsel
    split at hsel
    · cases hsel
    · rename_i q hlev
      obtain ⟨hc0, hc1, hck, hqe⟩ := level_eq_some hlev
      subst hqe
      refine ⟨hck, ?_⟩
      have hrep := hq.rep _ hck
      cases hL : L c.toNat with
      | nil =>
        rw [hL] at hrep
        rw [Rep_dequeue_nil hrep] at hsel
        simp only [Option.map_some', Option.some.injEq, Prod.mk.injEq] at hsel
        obtain ⟨e1, e2⟩ := hsel
        left
        refine ⟨e2.symm, ?_⟩
        rw [← e1]
        simp only [setLevel, Function.update_eq_self]
      | cons x rest =>
        rw [hL] at hrep
        obtain ⟨q', hdq, hrq'⟩ := Rep_dequeue_cons hrep
        rw [hdq] at hsel
        simp only [Option.map_some', Option.some.injEq, Prod.mk.injEq] at hsel
        obtain ⟨e1, e2⟩ := hsel
        right
        exact ⟨x, rest, q', rfl, e2.symm, hrq', e1.symm⟩

theorem idle_loose (P : Params) (lf : Nat) (s s2 : kstate) (c : Int) (h : LooseInv P s)
    (hsel : schedulerSelect P lf s c = some (s2, none)) : LooseInv P s2 := by
  obtain ⟨L, hL⟩ := h.core.queues
  obtain ⟨_, h1 | ⟨x, rest, q', _, e, _⟩⟩ := schedulerSelect_loose P lf s s2 c none L hL hsel
  · rw [h1.2]; exact h
  · cases e

theorem QueuesLoose.follow_mem {P : Params} {s s' : kstate} {L : Nat → List Nat}
    (hq : QueuesLoose P s L) (hqt : s'.priorityTable = s.priorityTable)
    (hst : ∀ k, k < P.PRIORITYLEVELS → ∀ x ∈ L k,
      (s'.ptable x).state = procstate.RUNNABLE) : QueuesLoose P s' L where
  rep k hk := by rw [hqt]; exact hq.rep k hk
  ent k hk x hx := ⟨(hq.ent k hk x hx).1, hst k hk x hx⟩
  nodup := hq.nodup
  disj := hq.disj

theorem dispatch_loose (P : Params) (lf : Nat) (s s2 s3 : kstate) (c : Int) (i : Nat)
    (h : LooseInv P s) (hsel : schedulerSelect P lf s c = some (s2, some i))
    (hsw : SwitchToProccess P s2 i = some s3) : LooseInv P s3 := by
  obtain ⟨L, hL⟩ := h.core.queues
  obtain ⟨hck, h1 | ⟨x, rest, q', hLc, e, hrq', hs2⟩⟩ :=
    schedulerSelect_loose P lf s s2 c (some i) L hL hsel
  · cases h1.1
  · cases e
    subst hs2
    have hmem : i ∈ L c.toNat := by rw [hLc]; exact List.mem_cons_self _ _
    obtain ⟨hi, hst⟩ := hL.ent _ hck i hmem
    unfold SwitchToProccess at hsw
    simp only [slot_of_lt P _ i hi, Option.map_some', Option.some.injEq] at hsw
    subst hsw
    obtain ⟨hmid, hnot⟩ := hL.remove c.toNat hck [] rest i hLc q' hrq' (setLevel s c q')
      rfl rfl
    obtain ⟨t1, t2⟩ := @TableInv_of_table_change P s
      ({ setSlot (setLevel s c q') i
          { (setLevel s c q').ptable i with state := procstate.RUNNING } with cur := some i })
      h.core.table h.core.pids (le_refl _)
      (by
        intro y hy
        simp only [setSlot, setLevel]
        by_cases hyi : y = i
        · subst hyi; rw [Function.update_same]; exact h.core.table.prio y hy
        · rw [Function.update_noteq hyi]; exact h.core.table.prio y hy)
      (by
        intro y _ hl
        simp only [setSlot, setLevel] at hl ⊢
        by_cases hyi : y = i
        · subst hyi; rw [Function.update_same]; exact ⟨by rw [hst]; decide, rfl⟩
        · rw [Function.update_noteq hyi] at hl ⊢; exact ⟨hl, rfl⟩)
      (by
        intro y hy hp
        simp only [setSlot, setLevel] at hp ⊢
        by_cases hyi : y = i
        · subst hyi; rw [Function.update_same]; simp
        · rw [Function.update_noteq hyi] at hp ⊢; exact h.core.table.child_live y hy hp)
    refine ⟨⟨t1, ⟨_, hmid.follow_mem rfl ?_⟩, t2⟩, ?_⟩
    · intro k hk y hy
      have hyi : y ≠ i := fun e => hnot k hk (e ▸ hy)
      simp only [setSlot, setLevel, Function.update_noteq hyi]
      exact (hmid.ent k hk y hy).2
    · intro j hj
      simp only [Option.some.injEq] at hj
      subst hj
      refine ⟨hi, ?_⟩
      simp only [setSlot, Function.update_same]

/-! ## Queues of length 0 -/

theorem EnqueueProcess_cap0 (P : Params) (hC : P.QUEUE_CAPACITY = 0) (q q' : processQueue)
    (x : procptr) (r : Int) (h : EnqueueProcess P q x = some (q', r)) : q' = q := by
  unfold EnqueueProcess at h
  split at h
  · unfold qwrite at h
    rw [if_neg (by rw [hC]; omega)] at h
    cases h
  · simp only [Option.some.injEq, Prod.mk.injEq] at h
    exact h.1.symm

theorem DequeueProcess_cap0 (P : Params) (hC : P.QUEUE_CAPACITY = 0) (q q' : processQueue)
    (r : procptr) (h : DequeueProcess P q = some (q', r)) : q' = q := by
  unfold DequeueProcess at h
  split at h
  · unfold qread at h
    rw [if_neg (by rw [hC]; omega)] at h
    cases h
  · simp only [Option.some.injEq, Prod.mk.injEq] at h
    exact h.1.symm

theorem Frozen_setLevel {s : kstate} (hf : Frozen s) (k : Int) (q : processQueue)
    (hq : q.size ≤ 0) : Frozen (setLevel s k q) := by
  intro j
  simp only [setLevel]
  by_cases hj : j = k.toNat
  · subst hj; rw [Function.update_same]; exact hq
  · rw [Function.update_noteq hj]; exact hf j

theorem SetProcessRunnable_frozen (P : Params) (hC : P.QUEUE_CAPACITY = 0) (s s' : kstate)
    (i : Nat) (hf : Frozen s) (h : SetProcessRunnable P s i = some s') : Frozen s' := by
  unfold SetProcessRunnable at h
  split at h
  · cases h
  · rename_i p _
    unfold InsertToPriorityTable at h
    split at h
    · cases h
    · rename_i q hl
      obtain ⟨_, _, _, hq⟩ := level_eq_some hl
      cases he : EnqueueProcess P q (some i) with
      | none => rw [he] at h; cases h
      | some r =>
        rw [he] at h
        simp only [Option.map_some', Option.some.injEq] at h
        subst h
        have hr := EnqueueProcess_cap0 P hC q r.1 (some i) r.2 he
        rw [hr, hq]
        exact Frozen_setLevel (s := setSlot s i { p with state := procstate.RUNNABLE }) hf _ _
          (hf _)

theorem wakeup1Loop_frozen (P : Params) (hC : P.QUEUE_CAPACITY = 0) (chan : voidptr) :
    ∀ (is : List Nat) (s s' : kstate), Frozen s → wakeup1Loop P chan s is = some s' →
      Frozen s' := by
  intro is
  induction is with
  | nil =>
    intro s s' hf h
    simp only [wakeup1Loop] at h
    cases h; exact hf
  | cons a rest ih =>
    intro s s' hf h
    simp only [wakeup1Loop] at h
    split at h
    · cases h
    · split at h
      · split at h
        · cases h
        · rename_i s1 hs1
          exact ih s1 s' (SetProcessRunnable_frozen P hC s s1 a hf hs1) h
      · exact ih s s' hf h

theorem moveToNewQueue_frozen (P : Params) (hC : P.QUEUE_CAPACITY = 0) (lf : Nat)
    (s s' : kstate) (v : Nat) (n o : Int) (hf : Frozen s)
    (h : moveToNewQueue P lf s v n o = some s') : Frozen s' := by
  unfold moveToNewQueue at h
  split at h
  · rename_i qold p hl _
    obtain ⟨_, _, _, hq⟩ := level_eq_some hl
    split at h
    · cases h
    · split at h
      · split at h
        · cases h
        · rename_i qold1 hrem
          have hsz := (removeitemfromqueue_fields P lf qold _ qold1 hrem).2.2.1
          have hf1 : Frozen (setLevel s o qold1) :=
            Frozen_setLevel hf o qold1 (by rw [hsz, hq]; have := hf o.toNat; omega)
          split at h
          · cases h
          · rename_i qnew hl2
            obtain ⟨_, _, _, hq2⟩ := level_eq_some hl2
            split at h
            · cases h
            · rename_i r he
              simp only [Option.some.injEq] at h
              subst h
              have hr := EnqueueProcess_cap0 P hC qnew r.1 (some v) r.2 he
              rw [hr, hq2]
              exact Frozen_setLevel hf1 n _ (hf1 _)
      · simp only [Option.some.injEq] at h
        subst h; exact hf
  · cases h

theorem setpriorityforchildrenLoop_frozen (P : Params)
    (call : kstate → Nat → Int → Option kstate) (pp d : Int)
    (hcall : ∀ s c n s', Frozen s → call s c n = some s' → Frozen s') :
    ∀ (is : List Nat) (s s' : kstate), Frozen s →
      setpriorityforchildrenLoop P call pp d s is = some s' → Frozen s' := by
  intro is
  induction is with
  | nil =>
    intro s s' hf h
    unfold setpriorityforchildrenLoop at h
    cases h; exact hf
  | cons i rest ih =>
    intro s s' hf h
    unfold setpriorityforchildrenLoop at h
    split at h
    · cases h
    · split at h
      · exact ih s s' hf h
      · split at h
        · cases h
        · split at h
          · split at h
            · cases h
            · rename_i s1 hs1
              exact ih s1 s' (hcall _ _ _ _ hf hs1) h
          · exact ih s s' hf h

theorem setpriority_frozen (P : Params) (hC : P.QUEUE_CAPACITY = 0) (lf : Nat) :
    ∀ (fuel : Nat) (s : kstate) (i : Nat) (n : Int) (s' : kstate), Frozen s →
      setpriority P lf fuel s i n = some s' → Frozen s' := by
  intro fuel
  induction fuel with
  | zero =>
    intro s i n s' hf h
    unfold setpriority at h
    split at h
    · cases h; exact hf
    · cases h
  | succ fuel ih =>
    intro s i n s' hf h
    unfold setpriority at h
    split at h
    · cases h; exact hf
    · split at h
      · cases h
      · rename_i p _
        split at h
        · cases h
        · rename_i s2 hmv
          have hf2 := moveToNewQueue_frozen P hC lf _ s2 i n _
            (show Frozen (setSlot s i { p with priority := n }) from hf) hmv
          exact setpriorityforchildrenLoop_frozen P _ _ _
            (fun t c m t' ht hc => ih t c m t' ht hc) _ s2 s' hf2 h

theorem exitLoop_frozen (P : Params) (hC : P.QUEUE_CAPACITY = 0) (cur : Nat) :
    ∀ (is : List Nat) (s s' : kstate), Frozen s → exitLoop P cur s is = some s' →
      Frozen s' := by
  intro is
  induction is with
  | nil =>
    intro s s' hf h
    simp only [exitLoop] at h
    cases h; exact hf
  | cons a rest ih =>
    intro s s' hf h
    simp only [exitLoop] at h
    split at h
    · cases h
    · rename_i p _
      split at h
      · split at h
        · split at h
          · cases h
          · rename_i s2 hs2
            exact ih s2 s' (wakeup1Loop_frozen P hC _ _ _ s2
              (show Frozen (setSlot s a { p with parent := s.initproc }) from hf) hs2) h
        · exact ih _ s' (show Frozen (setSlot s a { p with parent := s.initproc }) from hf) h
      · exact ih s s' hf h

theorem schedulerSelect_frozen (P : Params) (hC : P.QUEUE_CAPACITY = 0) (lf : Nat)
    (s s2 : kstate) (c : Int) (r : procptr) (hf : Frozen s)
    (h : schedulerSelect P lf s c = some (s2, r)) : Frozen s2 := by
  unfold schedulerSelect at h
  split at h
  · cases h
  · rename_i s1 hs1
    have hf1 : Frozen s1 := by
      intro k
      have := pruneLevels_size P lf _ s s1 hs1 k
      have := hf k
      omega
    unfold GetNextRunnableProcess at h
    split at h
    · cases h
    · rename_i q hl
      obtain ⟨_, _, _, hq⟩ := level_eq_some hl
      cases hd : DequeueProcess P q with
      | none => rw [hd] at h; cases h
      | some d =>
        rw [hd] at h
        simp only [Option.map_some', Option.some.injEq, Prod.mk.injEq] at h
        rw [← h.1, DequeueProcess_cap0 P hC q d.1 d.2 hd, hq]
        exact Frozen_setLevel hf1 c _ (hf1 _)

/-- With queues of length 0, every operation of the core that completes leaves
every queue without a positive `size`. -/
theorem Step_frozen (P : Params) (hC : P.QUEUE_CAPACITY = 0) (s s' : kstate) (hf : Frozen s)
    (hstep : Step P s s') : Frozen s' := by
  cases hstep with
  | userinit lf fuel k _ _ hs =>
    unfold userinit at hs
    cases ha : allocproc P k s with
    | mk s1 r =>
      rw [ha] at hs
      have hf1 : Frozen s1 := by
        unfold allocproc at ha
        split at ha
        · cases ha; exact hf
        · split at ha <;> (cases ha; exact hf)
      cases r with
      | none => cases hs
      | some i =>
        simp only at hs
        split at hs
        · cases hs
        · rename_i s4 hs4
          refine SetProcessRunnable_frozen P hC s4 s' i ?_ hs
          refine setpriority_frozen P hC lf fuel _ i 0 s4 ?_ hs4
          exact hf1
  | fork lf fuel k c _ _ r hs =>
    unfold fork at hs
    cases ha : allocproc P k s with
    | mk s1 ro =>
      rw [ha] at hs
      have hf1 : Frozen s1 := by
        unfold allocproc at ha
        split at ha
        · cases ha; exact hf
        · split at ha <;> (cases ha; exact hf)
      cases ro with
      | none =>
        simp only [Option.some.injEq, Prod.mk.injEq] at hs
        rw [← hs.1]; exact hf1
      | some np =>
        simp only at hs
        split at hs
        · cases hs
        · split at hs
          · simp only [Option.some.injEq, Prod.mk.injEq] at hs
            rw [← hs.1]; exact hf1
          · split at hs
            · cases hs
            · split at hs
              · cases hs
              · rename_i s3 hs3
                cases hsr : SetProcessRunnable P s3 np with
                | none => rw [hsr] at hs; cases hs
                | some s4 =>
                  rw [hsr] at hs
                  simp only [Option.map_some', Option.some.injEq, Prod.mk.injEq] at hs
                  rw [← hs.1]
                  refine SetProcessRunnable_frozen P hC s3 s4 np ?_ hsr
                  refine setpriority_frozen P hC lf fuel _ np _ s3 ?_ hs3
                  exact hf1
  | yield _ s1 hs =>
    unfold yield at hs
    split at hs
    · cases hs
    · exact SetProcessRunnable_frozen P hC s s1 _ hf hs
  | sleep chan _ s1 hs =>
    unfold sleep at hs
    split at hs
    · cases hs
    · cases hsl : slot P s _ with
      | none => rw [hsl] at hs; cases hs
      | some p =>
        rw [hsl] at hs
        simp only [Option.map_some', Option.some.injEq] at hs
        subst hs; exact hf
  | sleepReturn _ _ hs =>
    unfold sleepReturn at hs
    split at hs
    · cases hs
    · cases hsl : slot P s _ with
      | none => rw [hsl] at hs; cases hs
      | some p =>
        rw [hsl] at hs
        simp only [Option.map_some', Option.some.injEq] at hs
        subst hs; exact hf
  | wakeup chan _ _ hs => exact wakeup1Loop_frozen P hC chan _ s s' hf hs
  | kill pid _ _ r hs =>
    unfold kill at hs
    split at hs
    · cases hs; exact hf
    · rename_i i _
      split at hs
      · cases hsr : SetProcessRunnable P (setSlot s i { s.ptable i with killed := 1 }) i with
        | none => rw [hsr] at hs; cases hs
        | some s1 =>
          rw [hsr] at hs
          simp only [Option.map_some', Option.some.injEq, Prod.mk.injEq] at hs
          rw [← hs.1]
          exact SetProcessRunnable_frozen P hC _ s1 i
            (show Frozen (setSlot s i { s.ptable i with killed := 1 }) from hf) hsr
      · simp only [Option.some.injEq, Prod.mk.injEq] at hs
        rw [← hs.1]; exact hf
  | exit _ s1 hs =>
    unfold exit at hs
    split at hs
    · cases hs
    · split at hs
      · cases hs
      · split at hs
        · cases hs
        · split at hs
          · cases hs
          · rename_i sa hsa
            split at hs
            · cases hs
            · rename_i sb hsb
              simp only [Option.some.injEq] at hs
              subst hs
              exact exitLoop_frozen P hC _ _ sa sb (wakeup1Loop_frozen P hC _ _ s sa hf hsa) hsb
  | waitReturn _ _ r hs =>
    unfold wait at hs
    split at hs
    · cases hs
    · split at hs
      · cases hs
      · split at hs
        · simp only [Option.some.injEq, Prod.mk.injEq] at hs
          rw [← hs.1]; exact hf
        · split at hs
          · simp only [Option.some.injEq, Prod.mk.injEq] at hs
            rw [← hs.1]; exact hf
          · cases hsl : sleep P s _ with
            | none => rw [hsl] at hs; cases hs
            | some s1 =>
              rw [hsl] at hs
              simp only [Option.map_some', Option.some.injEq, Prod.mk.injEq] at hs
              exact absurd hs.2 (by simp)
  | waitSleep _ s1 hs =>
    unfold wait at hs
    split at hs
    · cases hs
    · split at hs
      · cases hs
      · split at hs
        · simp only [Option.some.injEq, Prod.mk.injEq] at hs
          exact absurd hs.2 (by simp)
        · split at hs
          · simp only [Option.some.injEq, Prod.mk.injEq] at hs
            exact absurd hs.2 (by simp)
          · cases hsl : sleep P s _ with
            | none => rw [hsl] at hs; cases hs
            | some s2 =>
              rw [hsl] at hs
              simp only [Option.map_some', Option.some.injEq, Prod.mk.injEq] at hs
              obtain ⟨e1, _⟩ := hs
              subst e1
              unfold sleep at hsl
              split at hsl
              · cases hsl
              · cases hsl2 : slot P s _ with
                | none => rw [hsl2] at hsl; cases hsl
                | some p =>
                  rw [hsl2] at hsl
                  simp only [Option.map_some', Option.some.injEq] at hsl
                  subst hsl; exact hf
  | setprioritybypid lf fuel pid pr _ _ r hs =>
    unfold setprioritybypid at hs
    split at hs
    · cases hs; exact hf
    · split at hs
      · cases hs; exact hf
      · rename_i i hfind
        split at hs
        · cases hs; exact hf
        · split at hs
          · cases hs
          · split at hs
            · cases hsp : setpriority P lf fuel s i pr with
              | none => rw [hsp] at hs; cases hs
              | some s1 =>
                rw [hsp] at hs
                simp only [Option.map_some', Option.some.injEq, Prod.mk.injEq] at hs
                rw [← hs.1]
                exact setpriority_frozen P hC lf fuel s i pr s1 hf hsp
            · cases hs; exact hf
  | nice lf fuel v _ _ r hs =>
    unfold nice at hs
    split at hs
    · cases hs
    · rename_i i _
      split at hs
      · cases hs
      · rename_i p _
        split at hs
        · cases hs; exact hf
        · split at hs
          · cases hs; exact hf
          · split at hs
            · cases hs
            · split at hs
              · cases hsp : setpriority P lf fuel s i (wrap32 (p.priority + v)) with
                | none => rw [hsp] at hs; cases hs
                | some s1 =>
                  rw [hsp] at hs
                  simp only [Option.map_some', Option.some.injEq, Prod.mk.injEq] at hs
                  rw [← hs.1]
                  exact setpriority_frozen P hC lf fuel s i _ s1 hf hsp
              · cases hs; exact hf
  | dispatch lf c _ s2 _ i _ hsel hsw =>
    have hf2 := schedulerSelect_frozen P hC lf s s2 c _ hf hsel
    unfold SwitchToProccess at hsw
    cases hsl : slot P s2 i with
    | none => rw [hsl] at hsw; cases hsw
    | some p =>
      rw [hsl] at hsw
      simp only [Option.map_some', Option.some.injEq] at hsw
      subst hsw; exact hf2
  | idle lf c _ _ _ hsel => exact schedulerSelect_frozen P hC lf s s' c _ hf hsel

theorem Reachable_frozen (P : Params) (hC : P.QUEUE_CAPACITY = 0) (s : kstate)
    (hr : Reachable P s) : Frozen s := by
  induction hr with
  | boot => intro k; exact le_refl _
  | step _ hstep ih => exact Step_frozen P hC _ _ ih hstep

theorem LooseInv_SetProcessRunnable (P : Params) (s s' : kstate) (i : Nat) (h : LooseInv P s)
    (hi : i < P.NPROC) (hst : (s.ptable i).state = procstate.EMBRYO)
    (hs' : SetProcessRunnable P s i = some s') : LooseInv P s' := by
  obtain ⟨c1, c2, c3, _, _⟩ := SetProcessRunnable_loose P s i s' h.core hi
    (by rw [hst]; decide) (by rw [hst]; decide) hs'
  refine ⟨c1, ?_⟩
  intro j hj
  rw [c3] at hj
  obtain ⟨j1, j2⟩ := h.running j hj
  refine ⟨j1, ?_⟩
  have hne : j ≠ i := by
    intro e; subst e; rw [hst] at j2; cases j2
  rw [c2, Function.update_noteq hne]; exact j2

/-- The slot that `allocproc` takes, whatever state it is left in, with no
bound on the queues. -/
theorem allocSlot_loose (P : Params) (s : kstate) (i : Nat) (st : procstate)
    (h : LooseInv P s) (hi : i < P.NPROC) (hun : (s.ptable i).state = procstate.UNUSED) :
    LooseInv P { setSlot s i { s.ptable i with state := st, pid := s.nextpid } with
      nextpid := s.nextpid + 1 } := by
  have hf : ∀ y, y ≠ i → (Function.update s.ptable i
      { s.ptable i with state := st, pid := s.nextpid }) y = s.ptable y :=
    fun y hy => Function.update_noteq hy _ _
  have hparent : (s.ptable i).parent = none := by
    by_contra hcon
    exact h.core.table.child_live i hi hcon hun
  obtain ⟨L, hL⟩ := h.core.queues
  refine ⟨⟨⟨?_, ?_, ?_⟩, ⟨L, hL.carry_loose rfl ?_⟩, ?_⟩, ?_⟩
  · intro a b ha hb hla hlb hp
    simp only [setSlot] at hla hlb hp
    by_cases hai : a = i
    · by_cases hbi : b = i
      · rw [hai, hbi]
      · exfalso
        rw [hf b hbi] at hlb hp
        subst hai
        rw [Function.update_same] at hp
        have := h.core.pids b hb hlb
        simp only at hp
        omega
    · rw [hf a hai] at hla hp
      by_cases hbi : b = i
      · exfalso
        subst hbi
        rw [Function.update_same] at hp
        have := h.core.pids a ha hla
        simp only at hp
        omega
      · rw [hf b hbi] at hlb hp
        exact h.core.table.uniq a b ha hb hla hlb hp
  · intro c hc hp
    simp only [setSlot] at hp ⊢
    by_cases hci : c = i
    · subst hci
      rw [Function.update_same] at hp
      exact absurd hparent hp
    · rw [hf c hci] at hp ⊢
      exact h.core.table.child_live c hc hp
  · intro x hx
    simp only [setSlot]
    by_cases hxi : x = i
    · subst hxi; rw [Function.update_same]; exact h.core.table.prio x hx
    · rw [hf x hxi]; exact h.core.table.prio x hx
  · intro x _ hx
    simp only [setSlot]
    by_cases hxi : x = i
    · subst hxi; rw [hun] at hx; cases hx
    · rw [hf x hxi]; exact hx
  · intro x hx hl
    simp only [setSlot] at hl ⊢
    by_cases hxi : x = i
    · subst hxi; rw [Function.update_same]; simp only; omega
    · rw [hf x hxi] at hl ⊢
      have := h.core.pids x hx hl
      omega
  · intro j hj
    obtain ⟨j1, j2⟩ := h.running j hj
    refine ⟨j1, ?_⟩
    have hne : j ≠ i := by
      intro e; subst e; rw [hun] at j2; cases j2
    simp only [setSlot]
    rw [hf j hne]; exact j2

theorem allocproc_loose (P : Params) (k : Bool) (s s1 : kstate) (r : procptr)
    (h : LooseInv P s) (ha : allocproc P k s = (s1, r)) :
    LooseInv P s1 ∧ s1.cur = s.cur ∧
      ∀ i, r = some i → i < P.NPROC ∧ (s1.ptable i).state = procstate.EMBRYO ∧
        (s1.ptable i).parent = none := by
  unfold allocproc at ha
  split at ha
  · cases ha
    exact ⟨h, rfl, fun i hi => by cases hi⟩
  · rename_i i hfind
    obtain ⟨hi, hpi⟩ := find?_range_lt hfind
    simp only [decide_eq_true_eq] at hpi
    have hparent : (s.ptable i).parent = none := by
      by_contra hcon
      exact h.core.table.child_live i hi hcon hpi
    split at ha
    · cases ha
      refine ⟨allocSlot_loose P s i _ h hi hpi, rfl, ?_⟩
      intro j hj
      cases hj
      refine ⟨hi, ?_, ?_⟩
      · simp only [setSlot, Function.update_same]
      · simp only [setSlot, Function.update_same]; exact hparent
    · cases ha
      exact ⟨allocSlot_loose P s i _ h hi hpi, rfl, fun j hj => by cases hj⟩

theorem userinit_loose (P : Params) (lf fuel : Nat) (k : Bool) (s s' : kstate)
    (h : LooseInv P s) (hs' : userinit P lf fuel k s = some s') : LooseInv P s' := by
  unfold userinit at hs'
  cases halloc : allocproc P k s with
  | mk s1 r =>
    obtain ⟨a1, _, a3⟩ := allocproc_loose P k s s1 r h halloc
    rw [halloc] at hs'
    cases r with
    | none => cases hs'
    | some i =>
      obtain ⟨hi, hst, hpar⟩ := a3 i rfl
      simp only at hs'
      have hA : LooseInv P { s1 with initproc := some i } :=
        ⟨@LooseCore_of_change P s1 { s1 with initproc := some i } a1.core rfl (le_refl _)
          (fun _ _ hx => hx) a1.core.table.prio (fun x hx hl => ⟨hl, rfl⟩)
          a1.core.table.child_live, a1.running⟩
      have hB : LooseInv P (setSlot { s1 with initproc := some i } i
          { s1.ptable i with parent := none }) :=
        LooseInv_setSlot i _ hA (fun hx => hx) (a1.core.table.prio i hi)
          (fun hl => ⟨hl, rfl⟩) (fun hp => absurd rfl hp)
          (fun hc => by
            have := (hA.running i hc).2
            rw [show ({ s1 with initproc := some i } : kstate).ptable i = s1.ptable i from rfl,
              hst] at this
            cases this)
      split at hs'
      · cases hs'
      · rename_i s4 hs4
        have hlive : ((setSlot { s1 with initproc := some i } i
            { s1.ptable i with parent := none }).ptable i).state ≠ procstate.UNUSED := by
          simp only [setSlot, Function.update_same, hst]; decide
        have hC := LooseInv_of_setpriority P lf fuel _ s4 i 0 hB hi hlive hs4
        have hsame := (setpriority_frame P lf fuel _ i 0 s4 hs4).1
        have hst4 : (s4.ptable i).state = procstate.EMBRYO := by
          rw [(hsame i).1]; simp only [setSlot, Function.update_same]; exact hst
        exact LooseInv_SetProcessRunnable P s4 s' i hC hi hst4 hs'

theorem fork_loose (P : Params) (lf fuel : Nat) (k c : Bool) (s s' : kstate) (r : Int)
    (h : LooseInv P s) (hs' : fork P lf fuel k c s = some (s', r)) : LooseInv P s' := by
  unfold fork at hs'
  cases halloc : allocproc P k s with
  | mk s1 ro =>
    obtain ⟨a1, _, a3⟩ := allocproc_loose P k s s1 ro h halloc
    rw [halloc] at hs'
    cases ro with
    | none =>
      simp only [Option.some.injEq, Prod.mk.injEq] at hs'
      rw [← hs'.1]; exact a1
    | some np =>
      obtain ⟨hnp, hst, hpar⟩ := a3 np rfl
      simp only at hs'
      split at hs'
      · cases hs'
      · rename_i cur hcur
        have hnotcur : s1.cur = some np → False := by
          intro hc
          have := (a1.running np hc).2
          rw [hst] at this; cases this
        split at hs'
        · simp only [Option.some.injEq, Prod.mk.injEq] at hs'
          rw [← hs'.1]
          exact LooseInv_setSlot np _ a1 (fun hx => by rw [hst] at hx; cases hx)
            (a1.core.table.prio np hnp)
            (fun hl => absurd rfl hl) (fun hp => absurd hpar hp)
            (fun hc => absurd hc (fun e => hnotcur e))
        · split at hs'
          · cases hs'
          · rename_i pp hpp
            have hB : LooseInv P (setSlot s1 np { s1.ptable np with parent := some cur }) :=
              LooseInv_setSlot np _ a1 (fun hx => hx) (a1.core.table.prio np hnp)
                (fun hl => ⟨hl, rfl⟩)
                (fun _ => by rw [hst]; decide) (fun hc => absurd hc (fun e => hnotcur e))
            split at hs'
            · cases hs'
            · rename_i s3 hs3
              have hlive : ((setSlot s1 np { s1.ptable np with parent := some cur }).ptable
                  np).state ≠ procstate.UNUSED := by
                simp only [setSlot, Function.update_same, hst]; decide
              have hC := LooseInv_of_setpriority P lf fuel _ s3 np _ hB hnp hlive hs3
              have hsame := (setpriority_frame P lf fuel _ np _ s3 hs3).1
              have hst3 : (s3.ptable np).state = procstate.EMBRYO := by
                rw [(hsame np).1]; simp only [setSlot, Function.update_same]; exact hst
              cases hsr : SetProcessRunnable P s3 np with
              | none => rw [hsr] at hs'; cases hs'
              | some s4 =>
                rw [hsr] at hs'
                simp only [Option.map_some', Option.some.injEq, Prod.mk.injEq] at hs'
                rw [← hs'.1]
                exact LooseInv_SetProcessRunnable P s3 s4 np hC hnp hst3 hsr

theorem bootState_loose (P : Params) (hC : 0 < P.QUEUE_CAPACITY)
    (hPL : 0 < P.PRIORITYLEVELS) : LooseInv P bootState := by
  refine ⟨⟨⟨?_, ?_, ?_⟩, ⟨fun _ => [], ?_, ?_, ?_, ?_⟩, ?_⟩, ?_⟩
  · intro a b _ _ hla; exact absurd rfl hla
  · intro c _ hp; exact absurd rfl hp
  · intro x _
    exact ⟨le_refl _, by
      show (0 : Int) < (P.PRIORITYLEVELS : Int)
      exact_mod_cast hPL⟩
  · intro k _
    exact Rep_initialQueue P hC _ _
  · intro k _ x hx; simp at hx
  · intro k _; exact List.nodup_nil
  · intro k k' _ _ _ x hx; simp at hx
  · intro x _ hl; exact absurd rfl hl
  · intro i hi; cases hi

/-- Every operation of the core keeps the invariant that needs no bound on the
queues. -/
theorem Step_loose (P : Params) (s s' : kstate) (h : LooseInv P s) (hstep : Step P s s') :
    LooseInv P s' := by
  cases hstep with
  | userinit lf fuel k _ _ hs => exact userinit_loose P lf fuel k s s' h hs
  | fork lf fuel k c _ _ r hs => exact fork_loose P lf fuel k c s s' r h hs
  | yield _ s1 hs => exact yield_loose P s s1 h hs
  | sleep chan _ s1 hs => exact sleep_loose P s s1 chan h hs
  | sleepReturn _ _ hs => exact sleepReturn_loose P s s' h hs
  | wakeup chan _ _ hs => exact wakeup_loose P s s' chan h hs
  | kill pid _ _ r hs => exact kill_loose P s s' pid r h hs
  | exit _ s1 hs => exact exit_loose P s s1 h hs
  | waitReturn _ _ r hs => exact (wait_loose P s s' (some r) h hs).1 (by simp)
  | waitSleep _ s1 hs => exact (wait_loose P s s1 none h hs).2 rfl
  | setprioritybypid lf fuel pid pr _ _ r hs =>
    exact setprioritybypid_loose P lf fuel s s' pid pr r h hs
  | nice lf fuel v _ _ r hs => exact nice_loose P lf fuel s s' v r h hs
  | dispatch lf c _ s2 _ i _ hsel hsw => exact dispatch_loose P lf s s2 s' c i h hsel hsw
  | idle lf c _ _ _ hsel => exact idle_loose P lf s s' c h hsel

theorem Reachable_loose (P : Params) (hC : 0 < P.QUEUE_CAPACITY)
    (hPL : 0 < P.PRIORITYLEVELS) (s : kstate) (hr : Reachable P s) : LooseInv P s := by
  induction hr with
  | boot => exact bootState_loose P hC hPL
  | step _ hstep ih => exact Step_loose P _ _ ih hstep

theorem NoDuplicateEntries_of_QueuesLoose (P : Params) (s : kstate) (L : Nat → List Nat)
    (hq : QueuesLoose P s L) : NoDuplicateEntries P s := by
  constructor
  · intro k hk
    rw [queued_of_Rep P _ (L k) (hq.rep k hk)]
    exact (hq.nodup k hk).map (Option.some_injective _)
  · intro k k' hk hk' hne e he he'
    rw [queued_of_Rep P _ (L k) (hq.rep k hk)] at he
    rw [queued_of_Rep P _ (L k') (hq.rep k' hk')] at he'
    obtain ⟨x, hx, rfl⟩ := List.mem_map.mp he
    obtain ⟨y, hy, hxy⟩ := List.mem_map.mp he'
    have : y = x := Option.some_injective _ hxy
    subst this
    exact hq.disj k k' hk hk' hne y hx hy

theorem queued_of_Frozen (P : Params) (s : kstate) (hf : Frozen s) (k : Nat) :
    queued P (s.priorityTable k) = [] := by
  unfold queued
  rw [Int.toNat_eq_zero.mpr (hf k)]
  rfl

/-- In every state of `Reachable`, where each operation has run uninterrupted
and completed inside the arrays, the queued entries of each level's queue are
distinct and no entry of one level's queue is an entry of another level's
queue.  Nothing is assumed of `NPROC`, `QUEUE_CAPACITY` and `PRIORITYLEVELS`: a
queue may be full, and with queues of length 0 nothing is ever queued. -/
theorem no_process_queued_twice (P : Params) (s : kstate) (hr : Reachable P s) :
    NoDuplicateEntries P s := by
  by_cases hPL : 0 < P.PRIORITYLEVELS
  · by_cases hC : 0 < P.QUEUE_CAPACITY
    · obtain ⟨L, hL⟩ := (Reachable_loose P hC hPL s hr).core.queues
      exact NoDuplicateEntries_of_QueuesLoose P s L hL
    · have hf := Reachable_frozen P (by omega) s hr
      constructor
      · intro k _
        rw [queued_of_Frozen P s hf k]
        exact List.nodup_nil
      · intro k k' _ _ _ e he
        rw [queued_of_Frozen P s hf k] at he
        simp at he
  · exact ⟨fun k hk => absurd hk (by omega), fun k _ hk => absurd hk (by omega)⟩

theorem exSmallForkedTwice_reachable : Reachable exSmall exSmallForkedTwice :=
  Reachable.step
    (Reachable.step
      (Reachable.step
        (Reachable.step Reachable.boot
          (Step.userinit 1 1 true bootState exSmallInit rfl))
        (Step.dispatch 1 0 exSmallInit
          (((schedulerSelect exSmall 1 exSmallInit 0).map Prod.fst).getD bootState)
          exSmallRunning 0 rfl rfl rfl))
      (Step.fork 1 1 true true exSmallRunning exSmallForked 2 rfl))
    (Step.fork 1 1 true true exSmallForked exSmallForkedTwice 3 rfl)

theorem no_process_queued_twice_witness :
    Reachable exSmall exSmallForkedTwice ∧ NoDuplicateEntries exSmall exSmallForkedTwice :=
  ⟨exSmallForkedTwice_reachable,
    no_process_queued_twice exSmall exSmallForkedTwice exSmallForkedTwice_reachable⟩

/-! ## The order of the queued entries through `setpriority` -/

theorem filter_filter_of_imp (l : List Nat) (p q : Nat → Bool)
    (h : ∀ x ∈ l, p x = true → q x = true) : (l.filter q).filter p = l.filter p := by
  rw [List.filter_filter]
  apply List.filter_congr
  intro x hx
  cases hp : p x with
  | false => simp
  | true => simp [h x hx hp]

/-- One move of `v` keeps the common entries of a list and a reference list in
the same order, when `v` is not put back into a list that it came from. -/
theorem keeps_order_step (F0 F1 F2 : List Nat) (v : Nat)
    (h12 : F2.filter (fun x => decide (x ≠ v)) = F1.filter (fun x => decide (x ≠ v)))
    (h01 : F1.filter (fun x => decide (x ∈ F0)) = F0.filter (fun x => decide (x ∈ F1)))
    (hv : v ∈ F0 → v ∉ F2) :
    F2.filter (fun x => decide (x ∈ F0)) = F0.filter (fun x => decide (x ∈ F2)) := by
  have hmem : ∀ x, x ≠ v → (x ∈ F2 ↔ x ∈ F1) := by
    intro x hx
    have a : x ∈ F2.filter (fun x => decide (x ≠ v)) ↔ x ∈ F2 := by
      simp [List.mem_filter, hx]
    have b : x ∈ F1.filter (fun x => decide (x ≠ v)) ↔ x ∈ F1 := by
      simp [List.mem_filter, hx]
    rw [← a, ← b, h12]
  by_cases hv0 : v ∈ F0
  · have hv2 := hv hv0
    have e2 : F2 = F1.filter (fun x => decide (x ≠ v)) := by
      rw [← h12]
      symm
      rw [List.filter_eq_self]
      intro x hx
      simp only [decide_eq_true_eq]
      exact fun e => hv2 (e ▸ hx)
    rw [e2, List.filter_filter]
    have e3 : F1.filter (fun x => decide (x ∈ F0) && decide (x ≠ v))
        = (F1.filter (fun x => decide (x ∈ F0))).filter (fun x => decide (x ≠ v)) := by
      rw [List.filter_filter]
      apply List.filter_congr
      intro x _
      exact Bool.and_comm _ _
    rw [e3, h01, List.filter_filter]
    apply List.filter_congr
    intro x _
    by_cases hxv : x = v
    · subst hxv
      simp
    · simp [List.mem_filter, hxv]
  · have e1 : F2.filter (fun x => decide (x ∈ F0))
        = (F2.filter (fun x => decide (x ≠ v))).filter (fun x => decide (x ∈ F0)) := by
      symm
      apply filter_filter_of_imp
      intro x _ hx
      simp only [decide_eq_true_eq] at hx ⊢
      exact fun e => hv0 (e ▸ hx)
    have e2 : F1.filter (fun x => decide (x ∈ F0))
        = (F1.filter (fun x => decide (x ≠ v))).filter (fun x => decide (x ∈ F0)) := by
      symm
      apply filter_filter_of_imp
      intro x _ hx
      simp only [decide_eq_true_eq] at hx ⊢
      exact fun e => hv0 (e ▸ hx)
    rw [e1, h12, ← e2, h01]
    apply List.filter_congr
    intro x hx
    have hxv : x ≠ v := fun e => hv0 (e ▸ hx)
    simp only [decide_eq_decide]
    exact (hmem x hxv).symm

/-- Through a sequence of moves with one difference `d ≠ 0`, started in a
state whose queues agree with the table: no priority moves against the sign
of `d`, and in every level the entries present before and after are in the
same order. -/
theorem Moves.keeps_order {P : Params} {d : Int} {s0 s : kstate} (hm : Moves P d s0 s)
    (hd : d ≠ 0) (L0 : Nat → List Nat) (h0 : QueuesOK P s0 L0) :
    ∃ L, QueuesLoose P s L ∧
      (∀ k, k < P.PRIORITYLEVELS →
        (L k).filter (fun x => decide (x ∈ L0 k)) = (L0 k).filter (fun x => decide (x ∈ L k))) ∧
      ∀ x, (0 < d → (s0.ptable x).priority ≤ (s.ptable x).priority) ∧
        (d < 0 → (s.ptable x).priority ≤ (s0.ptable x).priority) := by
  induction hm with
  | refl => exact ⟨L0, h0.loose, fun _ _ => rfl, fun _ => ⟨fun _ => le_refl _, fun _ => le_refl _⟩⟩
  | step hprev hone ih =>
    rename_i s1 s2
    obtain ⟨L1, hL1, hk1, hmono⟩ := ih
    obtain ⟨v, L, L2, hv, hL, hL2, hpt, hin, ⟨hkeep, hwhere⟩, _, _, _⟩ := hone
    have hLL1 : ∀ k, k < P.PRIORITYLEVELS → L k = L1 k :=
      fun k hk => Rep_unique (hL.rep k hk) (hL1.rep k hk)
    refine ⟨L2, hL2, ?_, ?_⟩
    · intro k hk
      rcases hwhere with e | hw
      · rw [e, hLL1 k hk]; exact hk1 k hk
      · apply keeps_order_step (L0 k) (L1 k) (L2 k) v
        · rw [← hLL1 k hk]; exact hkeep k hk
        · exact hk1 k hk
        · intro hv0 hv2
          have hkn := hw k hk hv2
          have hp0 := (h0.ent k hk v hv0).2.2
          have hc : ((((s1.ptable v).priority + d).toNat : Nat) : Int)
              = (s1.ptable v).priority + d := Int.toNat_of_nonneg hin.1
          rw [hkn, hc] at hp0
          rcases lt_or_gt_of_ne hd with hneg | hpos
          · have := (hmono v).2 hneg
            omega
          · have := (hmono v).1 hpos
            omega
    · intro x
      rw [hpt]
      by_cases hxv : x = v
      · subst hxv
        rw [Function.update_same]
        constructor
        · intro hpos
          have := (hmono x).1 hpos
          show (s0.ptable x).priority ≤ (s1.ptable x).priority + d
          omega
        · intro hneg
          have := (hmono x).2 hneg
          show (s1.ptable x).priority + d ≤ (s0.ptable x).priority
          omega
      · rw [Function.update_noteq hxv]
        exact hmono x

theorem filter_mem_map_some (A B : List Nat) :
    (A.map some).filter (fun e => decide (e ∈ B.map some))
      = (A.filter (fun x => decide (x ∈ B))).map some := by
  rw [List.filter_map]
  congr 1
  apply List.filter_congr
  intro x _
  simp [Function.comp]

/-- C15 (as amended): when `QUEUE_CAPACITY` exceeds `NPROC` and the queues
agree with the table (unique pids, acyclic parents), for every RUNNABLE process
`p` and every new priority `n` in range: after a `setpriority(p, n)` that
completes, `p` is queued exactly once at level `n` and at no other level; and
when `n` differs from the old priority, in every level the entries that are
queued both before and after the call keep their relative order.  The call
completes when no queue can wrap around, the loop fuel covers `NPROC` and the
depth fuel exceeds the height of `p`. -/
theorem setpriority_requeues_runnable (P : Params) (lf fuel : Nat) (m : Nat → Nat)
    (s : kstate) (p : Nat) (n : Int) (hcap : P.NPROC < P.QUEUE_CAPACITY)
    (hinv : SchedInv P s) (hok : TableOK P s.ptable m) (hp : p < P.NPROC)
    (hrun : (s.ptable p).state = procstate.RUNNABLE) (hn : prioInRange P n) :
    (∀ s', setpriority P lf fuel s p n = some s' →
      (∀ k, k < P.PRIORITYLEVELS → timesQueued P s' k p = if (k : Int) = n then 1 else 0) ∧
      (n ≠ (s.ptable p).priority → ∀ k, k < P.PRIORITYLEVELS →
        (queued P (s'.priorityTable k)).filter
            (fun e => decide (e ∈ queued P (s.priorityTable k)))
          = (queued P (s.priorityTable k)).filter
            (fun e => decide (e ∈ queued P (s'.priorityTable k))))) ∧
    (NoWrap P s → P.NPROC ≤ lf → m p < fuel →
      ∃ s', setpriority P lf fuel s p n = some s') := by
  have hlive : (s.ptable p).state ≠ procstate.UNUSED := by rw [hrun]; decide
  constructor
  · intro s' hs'
    constructor
    · obtain ⟨⟨ht', L', hq'⟩, _⟩ := setpriority_inv P lf hcap fuel s p n s' hinv hp hlive hs'
      have hpr := (setpriority_priorities P lf m fuel s p n s' hok hp hlive hs').1 p hn
        Reached.root
      have hpr' : (s'.ptable p).priority = n := by rw [hpr]; ring
      have hst : (s'.ptable p).state = procstate.RUNNABLE := by
        rw [((setpriority_frame P lf fuel s p n s' hs').1 p).1]; exact hrun
      intro k hk
      rw [RunnableQueuedOnce_of_QueuesOK P s' L' hq' ht'.prio p hp hst k hk, hpr']
    · intro hne k hk
      obtain ⟨L0, hL0⟩ := hinv.2
      have hm := setpriority_moves P lf fuel s p n s' ⟨hinv.1, L0, hL0.loose⟩ hp hlive hs'
      obtain ⟨L, hL, hkeep, _⟩ := hm.keeps_order (by omega) L0 hL0
      rw [queued_of_Rep P _ (L k) (hL.rep k hk), queued_of_Rep P _ (L0 k) (hL0.rep k hk),
        filter_mem_map_some, filter_mem_map_some, hkeep k hk]
  · intro hnw hlf hfuel
    exact setpriority_total P lf m hcap hlf fuel s p n hinv hnw hok hp hlive hfuel

theorem setpriority_requeues_runnable_witness :
    ∃ s', setpriority exWide 4 4 exFamily 2 2 = some s' ∧
      timesQueued exWide s' 2 2 = 1 ∧ timesQueued exWide s' 1 2 = 0 := by
  have T := setpriority_requeues_runnable exWide 4 4 (fun i => 3 - i) exFamily 2 2
    (by decide) exFamily_schedInv exFamily_tableOK (by decide) rfl (by decide)
  obtain ⟨s', hs'⟩ := T.2 exFamily_noWrap (by decide) (by decide)
  have h1 := (T.1 s' hs').1
  exact ⟨s', hs', (h1 2 (by decide)).trans (by decide), (h1 1 (by decide)).trans (by decide)⟩

/-- C15 (counterexample): in `exSameLevel` the queue of level 1 holds the slots
2, 3, 1 and `setpriority(1, 1)` moves slot 1 and then its child in slot 2 to
the tail, which leaves 3, 1, 2: the other entries 2 and 3 have changed places.
In `exFullLevels`, whose queues have one cell and are full, `setpriority(1, 0)`
finds nothing in the full queue of level 1 and slot 1 stays queued there. -/
theorem moves_queued_process_fails :
    ¬ MovesQueuedProcess exWide 4 4 exSameLevel 1 1 ∧
    ¬ MovesQueuedProcess exSmall 4 4 exFullLevels 1 0 := by
  constructor
  · intro h
    have hrun : ∃ s', setpriority exWide 4 4 exSameLevel 1 1 = some s' ∧
        queued exWide (s'.priorityTable 1) = [some 3, some 1, some 2] := ⟨_, rfl, rfl⟩
    obtain ⟨s', h1, h2⟩ := hrun
    have h3 := (h s' h1).2.2
    have e : (exSameLevel.ptable 1).priority.toNat = 1 := rfl
    rw [e, h2] at h3
    have e0 : queued exWide (exSameLevel.priorityTable 1) = [some 2, some 3, some 1] := rfl
    rw [e0] at h3
    exact absurd h3 (by decide)
  · intro h
    have hrun : ∃ s', setpriority exSmall 4 4 exFullLevels 1 0 = some s' ∧
        queued exSmall (s'.priorityTable 1) = [some 1] := ⟨_, rfl, rfl⟩
    obtain ⟨s', h1, h2⟩ := hrun
    have h3 := (h s' h1).1 (by decide)
    have e : (exFullLevels.ptable 1).priority.toNat = 1 := rfl
    rw [e, h2] at h3
    exact absurd h3 (by decide)

/-! ## The round trip of `fork`, `exit` and `wait` -/

theorem TailsInRange_of_loose {P : Params} {s : kstate} {L : Nat → List Nat}
    (hq : QueuesLoose P s L) : TailsInRange P s := by
  intro k hk
  obtain ⟨h, _, hhC, ht, _, _, _⟩ := hq.rep k hk
  rw [ht]
  have : (h + (L k).length) % P.QUEUE_CAPACITY < P.QUEUE_CAPACITY := Nat.mod_lt _ (by omega)
  omega

theorem exitLoop_spec (P : Params) (cur : Nat) :
    ∀ (is : List Nat) (s : kstate), (∀ i ∈ is, i < P.NPROC) → TailsInRange P s →
      (∀ x, x < P.NPROC → prioInRange P (s.ptable x).priority) →
      (s.ptable cur).parent ≠ some cur → (s.ptable cur).state ≠ procstate.SLEEPING →
      ∃ s', exitLoop P cur s is = some s' ∧ s'.ptable cur = s.ptable cur := by
  intro is
  induction is with
  | nil => intro s _ _ _ _ _; exact ⟨s, rfl, rfl⟩
  | cons i rest ih =>
    intro s hlt ht hprio hpar hns
    have hi := hlt i (List.mem_cons_self _ _)
    have hrest : ∀ j ∈ rest, j < P.NPROC := fun j hj => hlt j (List.mem_cons_of_mem _ hj)
    unfold exitLoop
    rw [slot_of_lt P s i hi]
    simp only
    by_cases hp : (s.ptable i).parent = some cur
    · rw [if_pos hp]
      have hic : cur ≠ i := by
        intro e; subst e; exact hpar hp
      have hrec : (setSlot s i { s.ptable i with parent := s.initproc }).ptable cur
          = s.ptable cur := by
        simp only [setSlot, Function.update_noteq hic]
      have hprio1 : ∀ x, x < P.NPROC →
          prioInRange P ((setSlot s i { s.ptable i with parent := s.initproc }).ptable
            x).priority := by
        intro x hx
        simp only [setSlot]
        by_cases hxi : x = i
        · subst hxi; rw [Function.update_same]; exact hprio x hx
        · rw [Function.update_noteq hxi]; exact hprio x hx
      by_cases hz : (s.ptable i).state = procstate.ZOMBIE
      · rw [if_pos hz]
        obtain ⟨s2, hw, ht2, hdesc⟩ := wakeup1Loop_spec P
          (procptr.toVoid (setSlot s i { s.ptable i with parent := s.initproc }).initproc)
          (List.range P.NPROC)
          (setSlot s i { s.ptable i with parent := s.initproc })
          (fun j hj => List.mem_range.mp hj) (List.nodup_range _) ht
          (fun j hj _ _ => hprio1 j (List.mem_range.mp hj))
        have hw' : wakeup1 P (setSlot s i { s.ptable i with parent := s.initproc })
            (procptr.toVoid s.initproc) = some s2 := hw
        rw [hw']
        simp only
        have hrec2 : s2.ptable cur = s.ptable cur := by
          rw [hdesc cur, hrec, if_neg (fun hc => hns hc.2.1)]
        have hprio2 : ∀ x, x < P.NPROC → prioInRange P (s2.ptable x).priority := by
          intro x hx
          rw [hdesc x]
          split
          · exact hprio1 x hx
          · exact hprio1 x hx
        obtain ⟨s', h1, h2⟩ := ih s2 hrest ht2 hprio2 (by rw [hrec2]; exact hpar)
          (by rw [hrec2]; exact hns)
        exact ⟨s', h1, h2.trans hrec2⟩
      · rw [if_neg hz]
        obtain ⟨s', h1, h2⟩ := ih (setSlot s i { s.ptable i with parent := s.initproc })
          hrest ht hprio1 (by rw [hrec]; exact hpar) (by rw [hrec]; exact hns)
        exact ⟨s', h1, h2.trans hrec⟩
    · rw [if_neg hp]
      exact ih s hrest ht hprio hpar hns

/-- `exit` by the running process `np`, which is not `initproc`, completes and
leaves the record of `np` as it was but for the state ZOMBIE. -/
theorem exit_spec (P : Params) (s : kstate) (np : Nat) (hnp : np < P.NPROC)
    (hcur : s.cur = some np) (hinit : s.initproc ≠ some np) (ht : TailsInRange P s)
    (hprio : ∀ x, x < P.NPROC → prioInRange P (s.ptable x).priority)
    (hpar : (s.ptable np).parent ≠ some np) (hns : (s.ptable np).state ≠ procstate.SLEEPING) :
    ∃ s', exit P s = some s' ∧
      s'.ptable np = { s.ptable np with state := procstate.ZOMBIE } := by
  obtain ⟨s1, hw, ht1, hdesc⟩ := wakeup1Loop_spec P (procptr.toVoid (s.ptable np).parent)
    (List.range P.NPROC) s (fun j hj => List.mem_range.mp hj) (List.nodup_range _) ht
    (fun j hj _ _ => hprio j (List.mem_range.mp hj))
  have hrec1 : s1.ptable np = s.ptable np := by
    rw [hdesc np, if_neg (fun hc => hns hc.2.1)]
  have hprio1 : ∀ x, x < P.NPROC → prioInRange P (s1.ptable x).priority := by
    intro x hx
    rw [hdesc x]
    split
    · exact hprio x hx
    · exact hprio x hx
  obtain ⟨s2, he, hrec2⟩ := exitLoop_spec P np (List.range P.NPROC) s1
    (fun j hj => List.mem_range.mp hj) ht1 hprio1 (by rw [hrec1]; exact hpar)
    (by rw [hrec1]; exact hns)
  refine ⟨setSlot s2 np { s2.ptable np with state := procstate.ZOMBIE }, ?_, ?_⟩
  · unfold exit
    rw [hcur]
    simp only
    rw [if_neg (fun e => hinit e.symm), slot_of_lt P s np hnp]
    simp only
    have hw' : wakeup1 P s (procptr.toVoid (s.ptable np).parent) = some s1 := hw
    rw [hw']
    simp only
    rw [he]
  · simp only [setSlot, Function.update_same]
    rw [hrec2, hrec1]

/-- `wait` by the running process `p`, when the first ZOMBIE child of `p` is in
slot `np`: it returns the pid of that child and reclaims the slot. -/
theorem wait_spec (P : Params) (s : kstate) (p np : Nat) (hp : p < P.NPROC)
    (hnp : np < P.NPROC) (hcur : s.cur = some p) (hpar : (s.ptable np).parent = some p)
    (hz : (s.ptable np).state = procstate.ZOMBIE)
    (hfirst : ∀ j, j < np →
      ¬ ((s.ptable j).parent = some p ∧ (s.ptable j).state = procstate.ZOMBIE)) :
    wait P s = some (reclaimed s np, some (s.ptable np).pid) := by
  unfold wait
  rw [hcur]
  simp only
  rw [slot_of_lt P s p hp]
  simp only
  rw [find?_range_first P.NPROC np hnp (by simp [hpar, hz])
    (fun j hj => by
      have := hfirst j hj
      simp only [Bool.and_eq_false_iff, decide_eq_false_iff_not]
      by_cases h1 : (s.ptable j).parent = some p
      · exact Or.inr (fun h2 => this ⟨h1, h2⟩)
      · exact Or.inl h1)]
  rfl

/-- `allocproc`, when the table has an UNUSED slot and `kalloc` succeeds, takes
such a slot. -/
theorem allocproc_some (P : Params) (s : kstate)
    (hfree : ∃ i, i < P.NPROC ∧ (s.ptable i).state = procstate.UNUSED) :
    ∃ j, j < P.NPROC ∧ (s.ptable j).state = procstate.UNUSED ∧
      allocproc P true s
        = ({ setSlot s j { s.ptable j with state := procstate.EMBRYO, pid := s.nextpid } with
              nextpid := s.nextpid + 1 }, some j) := by
  cases hf : (List.range P.NPROC).find?
      fun i => decide ((s.ptable i).state = procstate.UNUSED) with
  | none =>
    obtain ⟨i, hi, hu⟩ := hfree
    rw [List.find?_eq_none] at hf
    have := hf i (List.mem_range.mpr hi)
    simp [hu] at this
  | some j =>
    obtain ⟨hj, hpj⟩ := find?_range_lt hf
    simp only [decide_eq_true_eq] at hpj
    refine ⟨j, hj, hpj, ?_⟩
    unfold allocproc
    rw [hf]
    rfl

theorem setpriorityforchildrenLoop_no_children (P : Params)
    (call : kstate → Nat → Int → Option kstate) (pp d : Int) (s : kstate) :
    ∀ is : List Nat, (∀ i ∈ is, i < P.NPROC ∧ ∀ j, (s.ptable i).parent = some j →
      j < P.NPROC ∧ (s.ptable j).pid ≠ pp) →
      setpriorityforchildrenLoop P call pp d s is = some s := by
  intro is
  induction is with
  | nil => intro _; rfl
  | cons i rest ih =>
    intro h
    obtain ⟨hi, hpar⟩ := h i (List.mem_cons_self _ _)
    unfold setpriorityforchildrenLoop
    rw [slot_of_lt P s i hi]
    simp only
    cases hp : (s.ptable i).parent with
    | none => exact ih (fun j hj => h j (List.mem_cons_of_mem _ hj))
    | some j =>
      obtain ⟨hj, hne⟩ := hpar j hp
      simp only
      rw [slot_of_lt P s j hj]
      simp only
      rw [if_neg hne]
      exact ih (fun j hj => h j (List.mem_cons_of_mem _ hj))

/-- `setpriority` on a process in use that is not RUNNABLE and has no child:
with fuel for one call and for a scan of a queue, it stores the priority and
changes nothing else. -/
theorem setpriority_fresh (P : Params) (lf fuel : Nat) (s : kstate) (L : Nat → List Nat)
    (v : Nat) (n : Int) (hq : QueuesLoose P s L) (ht : TableInv P s) (hv : v < P.NPROC)
    (hlive : (s.ptable v).state ≠ procstate.UNUSED)
    (hnr : (s.ptable v).state ≠ procstate.RUNNABLE) (hn : prioInRange P n)
    (hnc : ∀ i, i < P.NPROC → ∀ j, (s.ptable i).parent = some j →
      j < P.NPROC ∧ (s.ptable j).pid ≠ (s.ptable v).pid)
    (hlf : P.NPROC ≤ lf) :
    setpriority P lf (fuel + 1) s v n = some (setSlot s v { s.ptable v with priority := n }) := by
  have hprio := ht.prio v hv
  have hok : (s.ptable v).priority.toNat < P.PRIORITYLEVELS := by
    have := hprio.1; have := hprio.2; omega
  have hrep := hq.rep _ hok
  obtain ⟨h, hh, hhC⟩ := hrep.head_eq
  have hvalid : ∀ x ∈ L (s.ptable v).priority.toNat, x < P.NPROC :=
    fun x hx => (hq.ent _ hok x hx).1
  have hno : ∀ x ∈ L (s.ptable v).priority.toNat,
      ((setSlot s v { s.ptable v with priority := n }).ptable x).pid ≠ (s.ptable v).pid := by
    intro x hx
    have hxr := (hq.ent _ hok x hx).2
    have hne : x ≠ v := by intro e; rw [e] at hxr; exact hnr hxr
    simp only [setSlot, Function.update_noteq hne]
    intro e
    exact hne (ht.uniq x v (hvalid x hx) hv (by rw [hxr]; decide) hlive e)
  have hfind : findprocessinqueuewithpid P lf (setSlot s v { s.ptable v with priority := n })
      (s.priorityTable (s.ptable v).priority.toNat) (s.ptable v).pid = some (-1) := by
    by_cases hlen : (L (s.ptable v).priority.toNat).length < P.QUEUE_CAPACITY
    · apply (findprocessinqueuewithpid_none P lf _ _ _ _ h hrep hh hlen hvalid hno).2
      exact le_trans (length_le_of_nodup_lt _ _ (hq.nodup _ hok) hvalid) hlf
    · exact findprocessinqueuewithpid_full P lf _ _ _ _ hrep hlen
  have hmove : moveToNewQueue P lf (setSlot s v { s.ptable v with priority := n }) v n
      (s.ptable v).priority = some (setSlot s v { s.ptable v with priority := n }) := by
    unfold moveToNewQueue
    rw [level_of_range P _ _ hprio.1 hprio.2, slot_of_lt P _ v hv]
    simp only
    have hpid : ((setSlot s v { s.ptable v with priority := n }).ptable v).pid
        = (s.ptable v).pid := by
      simp only [setSlot, Function.update_same]
    have hpt : (setSlot s v { s.ptable v with priority := n }).priorityTable
        (s.ptable v).priority.toNat = s.priorityTable (s.ptable v).priority.toNat := rfl
    rw [hpid, hpt, hfind]
    simp
  unfold setpriority
  rw [if_neg (not_not.mpr hn), slot_of_lt P s v hv]
  simp only
  rw [hmove]
  simp only
  apply setpriorityforchildrenLoop_no_children
  intro i hi
  refine ⟨List.mem_range.mp hi, ?_⟩
  intro j hj
  have hi' := List.mem_range.mp hi
  by_cases hiv : i = v
  · subst hiv
    simp only [setSlot, Function.update_same] at hj
    obtain ⟨j1, j2⟩ := hnc i hi' j hj
    refine ⟨j1, ?_⟩
    simp only [setSlot]
    by_cases hji : j = i
    · subst hji; rw [Function.update_same]; exact j2
    · rw [Function.update_noteq hji]; exact j2
  · simp only [setSlot, Function.update_noteq hiv] at hj
    obtain ⟨j1, j2⟩ := hnc i hi' j hj
    refine ⟨j1, ?_⟩
    simp only [setSlot]
    by_cases hjv : j = v
    · subst hjv; rw [Function.update_same]; exact j2
    · rw [Function.update_noteq hjv]; exact j2

/-- `fork` by the running process `p`, when the table has an UNUSED slot and
the allocations succeed: it completes, returns the pid `nextpid`, and leaves
the child RUNNABLE in a slot that was UNUSED, with that pid and the parent `p`. -/
theorem fork_spec (P : Params) (lf fuel : Nat) (s : kstate) (p : Nat) (hinv : LooseInv P s)
    (hpl : ParentsLive P s) (hcur : s.cur = some p)
    (hfree : ∃ i, i < P.NPROC ∧ (s.ptable i).state = procstate.UNUSED)
    (hlf : P.NPROC ≤ lf) :
    ∃ s1 np, fork P lf (fuel + 1) true true s = some (s1, s.nextpid) ∧ np < P.NPROC ∧
      (s.ptable np).state = procstate.UNUSED ∧
      (s1.ptable np).state = procstate.RUNNABLE ∧ (s1.ptable np).pid = s.nextpid ∧
      (s1.ptable np).parent = some p := by
  obtain ⟨np, hnp, hun, halloc⟩ := allocproc_some P s hfree
  obtain ⟨a1, a2, a3⟩ := allocproc_loose P true s _ (some np) hinv halloc
  obtain ⟨_, hemb, hparn⟩ := a3 np rfl
  obtain ⟨hp, hprun⟩ := hinv.running p hcur
  have hpnp : p ≠ np := by
    intro e; subst e; rw [hun] at hprun; cases hprun
  generalize hsa :
      ({ setSlot s np
            { s.ptable np with state := procstate.EMBRYO, pid := s.nextpid } with
          nextpid := s.nextpid + 1 } : kstate) = sa at halloc a1 a2 hemb hparn
  have hsat : ∀ x, x ≠ np → sa.ptable x = s.ptable x := by
    intro x hx
    rw [← hsa]
    simp only [setSlot, Function.update_noteq hx]
  have hsapid : (sa.ptable np).pid = s.nextpid := by
    rw [← hsa]
    simp only [setSlot, Function.update_same]
  have hsaq : sa.priorityTable = s.priorityTable := by rw [← hsa]; rfl
  have hnotcur : sa.cur = some np → False := by
    intro hc
    have := (a1.running np hc).2
    rw [hemb] at this; cases this
  have hB : LooseInv P (setSlot sa np { sa.ptable np with parent := some p }) :=
    LooseInv_setSlot np _ a1 (fun hx => hx) (a1.core.table.prio np hnp)
      (fun hl => ⟨hl, rfl⟩) (fun _ => by rw [hemb]; decide)
      (fun hc => absurd hc (fun e => hnotcur e))
  obtain ⟨L, hL⟩ := hB.core.queues
  have hsbnp : (setSlot sa np { sa.ptable np with parent := some p }).ptable np
      = { sa.ptable np with parent := some p } := by
    simp only [setSlot, Function.update_same]
  have hsbx : ∀ x, x ≠ np →
      (setSlot sa np { sa.ptable np with parent := some p }).ptable x = s.ptable x := by
    intro x hx
    simp only [setSlot, Function.update_noteq hx]
    exact hsat x hx
  have hpidlt : ∀ j, j < P.NPROC → (s.ptable j).state ≠ procstate.UNUSED →
      (s.ptable j).pid ≠ s.nextpid := by
    intro j hj hl
    have := hinv.core.pids j hj hl
    omega
  have hprange : prioInRange P (sa.ptable p).priority := a1.core.table.prio p hp
  have hset := setpriority_fresh P lf fuel (setSlot sa np { sa.ptable np with parent := some p })
    L np (sa.ptable p).priority hL hB.core.table hnp
    (by rw [hsbnp]; show (sa.ptable np).state ≠ procstate.UNUSED; rw [hemb]; decide)
    (by rw [hsbnp]; show (sa.ptable np).state ≠ procstate.RUNNABLE; rw [hemb]; decide)
    hprange
    (by
      intro i hi j hj
      rw [hsbnp]
      show j < P.NPROC ∧ _ ≠ (sa.ptable np).pid
      rw [hsapid]
      by_cases hinp : i = np
      · subst hinp
        rw [hsbnp] at hj
        simp only [Option.some.injEq] at hj
        subst hj
        rw [hsbx p hpnp]
        exact ⟨hp, hpidlt p hp (by rw [hprun]; decide)⟩
      · rw [hsbx i hinp] at hj
        obtain ⟨j1, j2⟩ := hpl i j hi hj
        have hjnp : j ≠ np := by
          intro e; subst e; exact j2 hun
        rw [hsbx j hjnp]
        exact ⟨j1, hpidlt j j1 j2⟩)
    hlf
  have hsc : (setSlot (setSlot sa np { sa.ptable np with parent := some p }) np
      { (setSlot sa np { sa.ptable np with parent := some p }).ptable np with
        priority := (sa.ptable p).priority }).ptable np
      = { sa.ptable np with parent := some p, priority := (sa.ptable p).priority } := by
    simp only [setSlot, Function.update_same]
  have htails : TailsInRange P (setSlot (setSlot sa np { sa.ptable np with parent := some p }) np
      { (setSlot sa np { sa.ptable np with parent := some p }).ptable np with
        priority := (sa.ptable p).priority }) := by
    have := TailsInRange_of_loose hL
    exact this
  obtain ⟨s1, hs1, hs1t, _⟩ := SetProcessRunnable_ok P _ np hnp
    (by rw [hsc]; exact hprange.1)
    (by rw [hsc]; exact hprange.2) htails
  refine ⟨s1, np, ?_, hnp, hun, ?_, ?_, ?_⟩
  · unfold fork
    rw [halloc]
    simp only
    rw [a2, hcur]
    simp only [not_true_eq_false, if_false]
    rw [slot_of_lt P sa p hp]
    simp only
    rw [hset]
    simp only
    rw [hs1]
    simp only [Option.map_some', hsapid]
  · rw [hs1t, Function.update_same]
  · rw [hs1t, Function.update_same, hsc]
    exact hsapid
  · rw [hs1t, Function.update_same, hsc]

/-- C11 (as amended): `fork` by the running process `p`, in a table with an
UNUSED slot and with the allocations succeeding, completes and returns a new
pid `c`, that of the child it leaves RUNNABLE in a slot `np` with parent `p`.
When the child then runs and calls `exit`, the call completes and leaves the
child a ZOMBIE with its pid and parent.  When `p` then runs and calls `wait`,
and no slot before `np` holds another ZOMBIE child of `p`, `wait` returns `c`
and the slot of the child is free again (UNUSED, pid 0, no parent, `killed`
cleared), so that `allocproc` finds a slot.  Without the condition on the
slots before `np`, `wait` returns the pid of the first ZOMBIE child instead.
With it, the root may be the parent as well. -/
theorem fork_exit_wait_round_trip (P : Params) (lf fuel : Nat) (s : kstate) (p : Nat)
    (hinv : LooseInv P s) (hpl : ParentsLive P s) (hcur : s.cur = some p)
    (hfree : ∃ i, i < P.NPROC ∧ (s.ptable i).state = procstate.UNUSED)
    (hlf : P.NPROC ≤ lf) :
    ∃ s1 np, fork P lf (fuel + 1) true true s = some (s1, s.nextpid) ∧ np < P.NPROC ∧
      (∀ x, x < P.NPROC → (s.ptable x).state ≠ procstate.UNUSED →
        (s.ptable x).pid ≠ s.nextpid) ∧
      (s1.ptable np).state = procstate.RUNNABLE ∧ (s1.ptable np).pid = s.nextpid ∧
      (s1.ptable np).parent = some p ∧
      ∀ s2, LooseInv P s2 → s2.cur = some np → s2.initproc ≠ some np →
        (s2.ptable np).pid = s.nextpid → (s2.ptable np).parent = some p →
        ∃ s3, exit P s2 = some s3 ∧
          s3.ptable np = { s2.ptable np with state := procstate.ZOMBIE } ∧
          ∀ s4, s4.cur = some p → s4.ptable np = s3.ptable np →
            (∀ j, j < np → ¬ ((s4.ptable j).parent = some p ∧
              (s4.ptable j).state = procstate.ZOMBIE)) →
            wait P s4 = some (reclaimed s4 np, some s.nextpid) ∧
            ((reclaimed s4 np).ptable np).state = procstate.UNUSED ∧
            ((reclaimed s4 np).ptable np).pid = 0 ∧
            ((reclaimed s4 np).ptable np).parent = none ∧
            ((reclaimed s4 np).ptable np).killed = 0 ∧
            ∃ s6 j, allocproc P true (reclaimed s4 np) = (s6, some j) := by
  obtain ⟨s1, np, hfork, hnp, hun, h1, h2, h3⟩ := fork_spec P lf fuel s p hinv hpl hcur hfree hlf
  obtain ⟨hp, hprun⟩ := hinv.running p hcur
  have hpnp : p ≠ np := by
    intro e; subst e; rw [hun] at hprun; cases hprun
  refine ⟨s1, np, hfork, hnp, ?_, h1, h2, h3, ?_⟩
  · intro x hx hl
    have := hinv.core.pids x hx hl
    omega
  · intro s2 hinv2 hcur2 hinit2 hpid2 hpar2
    obtain ⟨L2, hL2⟩ := hinv2.core.queues
    obtain ⟨s3, he, hrec⟩ := exit_spec P s2 np hnp hcur2 hinit2 (TailsInRange_of_loose hL2)
      hinv2.core.table.prio
      (by rw [hpar2]; intro e; exact hpnp (Option.some.inj e))
      (by rw [(hinv2.running np hcur2).2]; decide)
    refine ⟨s3, he, hrec, ?_⟩
    intro s4 hcur4 hrec4 hfirst
    have hz : (s4.ptable np).state = procstate.ZOMBIE := by rw [hrec4, hrec]
    have hpar4 : (s4.ptable np).parent = some p := by rw [hrec4, hrec]; exact hpar2
    have hpid4 : (s4.ptable np).pid = s.nextpid := by rw [hrec4, hrec]; exact hpid2
    have hw := wait_spec P s4 p np hp hnp hcur4 hpar4 hz hfirst
    rw [hpid4] at hw
    have hrecl : (reclaimed s4 np).ptable np
        = { s4.ptable np with
            state := procstate.UNUSED, pid := 0, parent := none, killed := 0 } := by
      simp only [reclaimed, setSlot, Function.update_same]
    refine ⟨hw, by rw [hrecl], by rw [hrecl], by rw [hrecl], by rw [hrecl], ?_⟩
    obtain ⟨j, _, _, ha⟩ := allocproc_some P (reclaimed s4 np) ⟨np, hnp, by rw [hrecl]⟩
    exact ⟨_, j, ha⟩

theorem exRTStart_reachable : Reachable exWide exRTStart :=
  Reachable.step
    (Reachable.step
      (Reachable.step
        (Reachable.step
          (Reachable.step Reachable.boot
            (Step.userinit 4 4 true bootState exWideInit rfl))
          (Step.dispatch 4 0 exWideInit
            (((schedulerSelect exWide 4 exWideInit 0).map Prod.fst).getD bootState)
            exWideRunning 0 rfl rfl rfl))
        (Step.fork 4 4 true true exWideRunning exWideForked 2 rfl))
      (Step.waitSleep exWideForked (((wait exWide exWideForked).map Prod.fst).getD bootState)
        rfl))
    (Step.dispatch 4 0 exRTRootWaits
      (((schedulerSelect exWide 4 exRTRootWaits 0).map Prod.fst).getD bootState)
      exRTStart 1 rfl rfl rfl)

theorem exRTChild_reachable : Reachable exWide exRTChild :=
  Reachable.step
    (Reachable.step
      (Reachable.step exRTStart_reachable
        (Step.fork 4 4 true true exRTStart exRTForked 3 rfl))
      (Step.waitSleep exRTForked (((wait exWide exRTForked).map Prod.fst).getD bootState) rfl))
    (Step.dispatch 4 0 exRTWaiting
      (((schedulerSelect exWide 4 exRTWaiting 0).map Prod.fst).getD bootState)
      exRTChild 2 rfl rfl rfl)

theorem exRTStart_parentsLive : ParentsLive exWide exRTStart := by
  intro c j hc hp
  have hc4 : c < 4 := hc
  interval_cases c
  · cases hp
  · cases hp; exact ⟨by decide, by decide⟩
  · cases hp
  · cases hp

theorem fork_exit_wait_round_trip_witness :
    ∃ s1, fork exWide 4 4 true true exRTStart = some (s1, 3) ∧
      wait exWide exRTParent = some (reclaimed exRTParent 2, some 3) ∧
      ((reclaimed exRTParent 2).ptable 2).state = procstate.UNUSED := by
  obtain ⟨s1, np, hf, hnp, _, _, hpid, _, hrest⟩ :=
    fork_exit_wait_round_trip exWide 4 3 exRTStart 1
      (Reachable_loose exWide (by decide) (by decide) _ exRTStart_reachable)
      exRTStart_parentsLive rfl ⟨2, by decide, rfl⟩ (by decide)
  have hf' : fork exWide 4 4 true true exRTStart = some (exRTForked, 3) := rfl
  have hs1 : s1 = exRTForked := by
    have hf2 : fork exWide 4 4 true true exRTStart = some (s1, exRTStart.nextpid) := hf
    rw [hf'] at hf2
    simp only [Option.some.injEq, Prod.mk.injEq] at hf2
    exact hf2.1.symm
  subst hs1
  have hnp2 : np = 2 := by
    have hnp4 : np < 4 := hnp
    have hpid' : (exRTForked.ptable np).pid = 3 := hpid
    interval_cases np
    · exact absurd hpid' (by decide)
    · exact absurd hpid' (by decide)
    · rfl
    · exact absurd hpid' (by decide)
  subst hnp2
  obtain ⟨s3, he, hrec, hw⟩ := hrest exRTChild
    (Reachable_loose exWide (by decide) (by decide) _ exRTChild_reachable) rfl (by decide)
    rfl rfl
  have hrec4 : exRTParent.ptable 2 = s3.ptable 2 := by
    rw [hrec]; decide
  obtain ⟨w1, w2, _⟩ := hw exRTParent rfl hrec4 (by
    intro j hj
    interval_cases j
    · intro hc; exact absurd hc.1 (by decide)
    · intro hc; exact absurd hc.1 (by decide))
  exact ⟨exRTForked, hf', w1, w2⟩

/-- C11 (counterexample): in `exOlderZombie` the running process of slot 1,
which is not the first process, already has a ZOMBIE child in slot 2 (pid 3).
It forks: `fork` returns the pid 4 of a child in slot 3.  It yields, the
scheduler dispatches that child, which calls `exit`; the scheduler dispatches
the parent again, which calls `wait`: `wait` returns 3, the pid of the older
ZOMBIE, and the child of pid 4 is still a ZOMBIE in its slot. -/
theorem fork_exit_wait_returns_other_child :
    fork exWide 4 4 true true exOlderZombie = some (exZForked, 4) ∧
    Step exWide exZForked exZYielded ∧ Step exWide exZYielded exZChild ∧
    Step exWide exZChild exZExited ∧ Step exWide exZExited exZParent ∧
    (∃ s', wait exWide exZParent = some (s', some 3) ∧
      (s'.ptable 3).state = procstate.ZOMBIE) ∧
    ¬ ForkExitWaitReturnsChild exWide 4 4 exOlderZombie := by
  refine ⟨rfl, Step.yield exZForked ((yield exWide exZForked).getD bootState) rfl,
    Step.dispatch 4 0 exZYielded
      (((schedulerSelect exWide 4 exZYielded 0).map Prod.fst).getD bootState) exZChild 3
      rfl rfl rfl,
    Step.exit exZChild ((exit exWide exZChild).getD bootState) rfl,
    Step.dispatch 4 0 exZExited
      (((schedulerSelect exWide 4 exZExited 0).map Prod.fst).getD bootState) exZParent 1
      rfl rfl rfl,
    ⟨_, rfl, rfl⟩, ?_⟩
  intro h
  have hexit : ∃ s3, exit exWide exZChild = some s3 ∧ exZParent.ptable 3 = s3.ptable 3 :=
    ⟨_, rfl, by decide⟩
  obtain ⟨s3, he, hrec⟩ := hexit
  obtain ⟨s5, hw, _⟩ := h 1 exZForked 4 3 rfl (by decide) rfl (by decide) rfl exZChild s3 rfl
    (by decide) he exZParent rfl hrec
  have hw' : ∃ s', wait exWide exZParent = some (s', some 3) := ⟨_, rfl⟩
  obtain ⟨s', hw2⟩ := hw'
  rw [hw2] at hw
  simp only [Option.some.injEq, Prod.mk.injEq] at hw
  exact absurd hw.2 (by decide)

/-! ## Runs that leave the uninterrupted, in-bounds steps -/

theorem removeitemfromqueueFromPast_agrees (P : Params) (past : procptr) :
    ∀ (lf : Nat) (q : processQueue) (i : Int) (q' : processQueue),
      removeitemfromqueueFrom P lf q i = some q' →
      removeitemfromqueueFromPast P past lf q i = some q' := by
  intro lf
  induction lf with
  | zero =>
    intro q i q' h
    simp only [removeitemfromqueueFrom] at h
    simp only [removeitemfromqueueFromPast]
    exact h
  | succ n ih =>
    intro q i q' h
    simp only [removeitemfromqueueFrom] at h
    simp only [removeitemfromqueueFromPast]
    split at h
    · rename_i hit; rw [if_pos hit]; exact h
    · rename_i hit
      rw [if_neg hit]
      cases hr : qread P q (i + 1) with
      | none => rw [hr] at h; cases h
      | some v =>
        rw [hr] at h
        simp only at h
        have hne : i + 1 ≠ (P.QUEUE_CAPACITY : Int) := by
          intro he
          unfold qread at hr
          rw [if_neg (by omega)] at hr
          cases hr
        unfold qreadPast
        rw [if_neg hne, hr]
        simp only
        cases hw : qwrite P q i v with
        | none => rw [hw] at h; cases h
        | some q1 =>
          rw [hw] at h
          simp only at h ⊢
          exact ih q1 _ q' h

theorem removeitemfromqueueFromPast_tail0 (P : Params) (past : procptr) :
    ∀ (lf : Nat) (q : processQueue) (a : Nat), q.tail = 0 → 0 < a → a < P.QUEUE_CAPACITY →
      P.QUEUE_CAPACITY - a ≤ lf →
      ∃ q', removeitemfromqueueFromPast P past lf q (a : Int) = some q' ∧
        q'.head = q.head ∧ q'.tail = 0 ∧ q'.size = q.size := by
  intro lf
  induction lf with
  | zero => intro q a _ _ ha hlf; omega
  | succ lf ih =>
    intro q a ht ha0 ha hlf
    unfold removeitemfromqueueFromPast
    rw [if_neg (by rw [ht]; omega)]
    have hw : qwrite P q (a : Int) = fun v =>
        some { q with proc := Function.update q.proc a v } := by
      funext v
      exact qwrite_cast P q a v ha
    by_cases hlast : a + 1 < P.QUEUE_CAPACITY
    · have h1 : ((a : Int) + 1) = ((a + 1 : Nat) : Int) := by push_cast; rfl
      have hrd : qreadPast P past q ((a : Int) + 1) = some (q.proc (a + 1)) := by
        unfold qreadPast
        rw [if_neg (by omega), h1, qread_cast P q (a + 1) hlast]
      rw [hrd]
      simp only [hw]
      rw [h1, ← h1, tmod_succ_cast, Nat.mod_eq_of_lt hlast]
      obtain ⟨q', e1, e2, e3, e4⟩ := ih { q with proc := Function.update q.proc a (q.proc (a + 1)) }
        (a + 1) ht (by omega) hlast (by omega)
      exact ⟨q', e1, e2, e3, e4⟩
    · have hcap : (a : Int) + 1 = (P.QUEUE_CAPACITY : Int) := by omega
      have hrd : qreadPast P past q ((a : Int) + 1) = some past := by
        unfold qreadPast
        rw [if_pos hcap]
      rw [hrd]
      simp only [hw]
      have hmod : ((a : Int) + 1).tmod (P.QUEUE_CAPACITY : Int) = 0 := by
        rw [hcap]; exact Int.tmod_self
      rw [hmod]
      refine ⟨{ q with proc := Function.update q.proc a past }, ?_, rfl, ht, rfl⟩
      cases lf with
      | zero => unfold removeitemfromqueueFromPast; rw [if_pos (by simp [ht])]
      | succ n => unfold removeitemfromqueueFromPast; rw [if_pos (by simp [ht])]

theorem removeitemfromqueuePast_agrees (P : Params) (lf : Nat) (past : procptr)
    (q : processQueue) (i : Int) (q' : processQueue)
    (h : removeitemfromqueue P lf q i = some q') :
    removeitemfromqueuePast P lf past q i = some q' := by
  unfold removeitemfromqueue at h
  unfold removeitemfromqueuePast
  cases hq1 : removeitemfromqueueFrom P lf q i with
  | none => rw [hq1] at h; cases h
  | some q1 =>
    rw [hq1] at h
    rw [removeitemfromqueueFromPast_agrees P past lf q i q1 hq1]
    exact h

theorem EnqueueProcess_of_parts (P : Params) (q : processQueue) (process : procptr) :
    EnqueueProcess P q process =
      (EnqueueProcessStore P q process).map fun r =>
        if r.2 then (EnqueueProcessAdvance P r.1, 0) else (r.1, -1) := by
  unfold EnqueueProcess EnqueueProcessStore EnqueueProcessAdvance
  split
  · cases qwrite P q q.tail process <;> rfl
  · rfl

theorem some_getD_of_isSome {α : Type} (o : Option α) (d : α) (h : o.isSome = true) :
    o = some (o.getD d) := by
  cases o with
  | none => cases h
  | some a => rfl

theorem some_pair_of_snd {α β : Type} (o : Option (α × β)) (d : α) (b : β)
    (h : o.map Prod.snd = some b) : o = some ((o.map Prod.fst).getD d, b) := by
  cases o with
  | none => cases h
  | some a =>
    simp only [Option.map_some', Option.some.injEq] at h
    subst h
    rfl

theorem fork_of_parts (P : Params) (lf fuel : Nat) (kallocOk copyOk : Bool) (s s1 : kstate)
    (k pid : Int) (r : kstate × Int)
    (h1 : forkUntilStore P lf fuel kallocOk copyOk s = some (s1, k, pid))
    (h2 : forkAfterStore P s1 k pid = some r) :
    fork P lf fuel kallocOk copyOk s = some r := by
  unfold forkUntilStore at h1
  unfold fork
  rcases hall : allocproc P kallocOk s with ⟨sa, _ | np⟩
  · rw [hall] at h1
    cases h1
  · rw [hall] at h1
    simp only at h1 ⊢
    cases hcur : sa.cur with
    | none => rw [hcur] at h1; cases h1
    | some cur =>
      rw [hcur] at h1
      simp only at h1 ⊢
      by_cases hcopy : ¬ copyOk = true
      · rw [if_pos hcopy] at h1; cases h1
      · rw [if_neg hcopy] at h1 ⊢
        cases hpp : slot P sa cur with
        | none => rw [hpp] at h1; cases h1
        | some pp =>
          rw [hpp] at h1
          simp only at h1 ⊢
          cases hs3 : setpriority P lf fuel
              (setSlot sa np { sa.ptable np with parent := some cur }) np pp.priority with
          | none => rw [hs3] at h1; cases h1
          | some s3 =>
            rw [hs3] at h1
            simp only at h1 ⊢
            cases hp : slot P s3 np with
            | none => rw [hp] at h1; cases h1
            | some p =>
              rw [hp] at h1
              simp only at h1
              cases hq : level P (setSlot s3 np { p with state := procstate.RUNNABLE })
                  p.priority with
              | none => rw [hq] at h1; cases h1
              | some q =>
                rw [hq] at h1
                simp only at h1
                cases hst : EnqueueProcessStore P q (some np) with
                | none => rw [hst] at h1; cases h1
                | some w =>
                  obtain ⟨q1, b⟩ := w
                  rw [hst] at h1
                  cases b with
                  | false => cases h1
                  | true =>
                    simp only [Option.some.injEq, Prod.mk.injEq] at h1
                    obtain ⟨e1, e2, e3⟩ := h1
                    subst e1 e2 e3
                    obtain ⟨hk0, hk1, _, _⟩ := level_eq_some hq
                    unfold forkAfterStore at h2
                    have hlev : level P
                        (setLevel (setSlot s3 np { p with state := procstate.RUNNABLE })
                          p.priority q1) p.priority = some q1 := by
                      unfold level
                      rw [if_pos ⟨hk0, hk1⟩]
                      simp only [setLevel, Function.update_same]
                    rw [hlev] at h2
                    simp only [Option.map_some', Option.some.injEq] at h2
                    subst h2
                    unfold SetProcessRunnable InsertToPriorityTable
                    rw [hp]
                    simp only [hq]
                    rw [EnqueueProcess_of_parts, hst]
                    simp only [Option.map_some', if_true, setLevel, Function.update_idem]

theorem exRaceDispatch_step (s : kstate) (hc : s.cur = none)
    (hsel : (schedulerSelect exRace 3 s 0).map Prod.snd = some (some 0))
    (hsw : (SwitchToProccess exRace (exRaceSelected s) 0).isSome = true) :
    Step exRace s (exRaceDispatch s) :=
  Step.dispatch 3 0 s (exRaceSelected s) (exRaceDispatch s) 0 hc
    (some_pair_of_snd _ bootState _ hsel) (some_getD_of_isSome _ bootState hsw)

theorem exRaceYield_step (s : kstate) (h : (yield exRace s).isSome = true) :
    Step exRace s (exRaceYield s) :=
  Step.yield s ((yield exRace s).getD bootState) (some_getD_of_isSome _ bootState h)

theorem exRaceSecond_reachable : Reachable exRace exRaceSecond :=
  Reachable.step
    (Reachable.step
      (Reachable.step
        (Reachable.step Reachable.boot
          (Step.userinit 3 2 true bootState exRaceInit
            (some_getD_of_isSome _ bootState (by decide))))
        (exRaceDispatch_step exRaceInit (by decide) (by decide) (by decide)))
      (exRaceYield_step (exRaceDispatch exRaceInit) (by decide)))
    (exRaceDispatch_step _ (by decide) (by decide) (by decide))

theorem exRaceStart_reachable : Reachable exRace exRaceStart :=
  Reachable.step
    (Reachable.step exRaceSecond_reachable (exRaceYield_step exRaceSecond (by decide)))
    (exRaceDispatch_step _ (by decide) (by decide) (by decide))

theorem exRaceChild_reachable : Reachable exRace exRaceChild :=
  Reachable.step exRaceSecond_reachable
    (Step.fork 3 2 true true exRaceSecond exRaceChild 2
      (some_pair_of_snd _ bootState _ (by decide)))

/-- C20 (code defect): `removeitemfromqueue` reads `proc[i+1]` without the
modulo and computes the new tail as `(tail - 1) % QUEUE_CAPACITY`, which is -1
in C when `tail` is 0.  Take a queue that satisfies the structural conditions,
whose `tail` has wrapped to 0 and whose entries sit from `head > 0` to the end
of the array, and the index of any of them (the callers find it by their scan
from `head`).  The removal reads `proc[QUEUE_CAPACITY]`, so it has no result
inside the array; and whatever word that read yields, the call goes on and
ends with `tail = -1`: the structural conditions do not hold after it. -/
theorem removeitemfromqueue_breaks_shape (P : Params) (lf : Nat) (past : procptr)
    (q : processQueue) (index : Nat) (hs : QueueShape P q) (ht : q.tail = 0)
    (hh : 0 < q.head) (hidx : q.head ≤ (index : Int)) (hcap : index < P.QUEUE_CAPACITY)
    (hlf : P.QUEUE_CAPACITY ≤ lf) :
    0 < q.size ∧ removeitemfromqueue P lf q (index : Int) = none ∧
    ∃ q', removeitemfromqueuePast P lf past q (index : Int) = some q' ∧ q'.head = q.head ∧
      q'.tail = -1 ∧ q'.size = q.size - 1 ∧ ¬ QueueShape P q' := by
  have hi0 : 0 < index := by omega
  have hC : 2 ≤ P.QUEUE_CAPACITY := by omega
  obtain ⟨⟨h0, h1⟩, _, ⟨s0, s1⟩, hc⟩ := hs
  have hsize : 0 < q.size := by
    by_contra hn
    have hz : q.size = 0 := by omega
    rw [hz, ht] at hc
    have e : (0 - (0 - q.head)) = q.head := by ring
    rw [e, Int.emod_eq_of_lt (by omega) h1] at hc
    omega
  refine ⟨hsize, ?_, ?_⟩
  · unfold removeitemfromqueue
    rw [removeitemfromqueueFrom_past_array P 0 lf q index (by rw [ht]; rfl) hi0 hcap]
    rfl
  · obtain ⟨q1, e1, e2, e3, e4⟩ := removeitemfromqueueFromPast_tail0 P past lf q index ht hi0 hcap
      (by omega)
    have hm : (q1.tail - 1).tmod (P.QUEUE_CAPACITY : Int) = -1 := by
      rw [e3]
      obtain ⟨n, hn⟩ : ∃ n, P.QUEUE_CAPACITY = n + 2 := ⟨P.QUEUE_CAPACITY - 2, by omega⟩
      rw [hn]
      show -(((1 % (n + 2) : Nat) : Int)) = -1
      rw [Nat.mod_eq_of_lt (by omega)]
      rfl
    refine ⟨{ q1 with tail := (q1.tail - 1).tmod P.QUEUE_CAPACITY, size := q1.size - 1 },
      ?_, e2, hm, by simp only [e4], ?_⟩
    · unfold removeitemfromqueuePast
      rw [e1]; rfl
    · intro hsh
      have := hsh.2.1.1
      simp only [hm] at this
      omega

theorem removeitemfromqueue_breaks_shape_witness :
    exRace.NPROC < exRace.QUEUE_CAPACITY ∧ Reachable exRace exRaceChild ∧
    findprocessinqueuewithpid exRace 3 exRaceChild (exRaceChild.priorityTable 0) 2
      = some 2 ∧
    setprioritybypid exRace 3 2 exRaceChild 2 1 = none ∧
    0 < (exRaceChild.priorityTable 0).size ∧
    removeitemfromqueue exRace 3 (exRaceChild.priorityTable 0) ((2 : Nat) : Int) = none ∧
    ∃ q', removeitemfromqueuePast exRace 3 none (exRaceChild.priorityTable 0) ((2 : Nat) : Int)
        = some q' ∧ q'.head = (exRaceChild.priorityTable 0).head ∧
      q'.tail = -1 ∧ q'.size = (exRaceChild.priorityTable 0).size - 1 ∧
      ¬ QueueShape exRace q' :=
  ⟨by decide, exRaceChild_reachable, by decide, Option.isNone_iff_eq_none.mp (by decide),
    removeitemfromqueue_breaks_shape exRace 3 none (exRaceChild.priorityTable 0) 2
      ⟨⟨by decide, by decide⟩, ⟨by decide, by decide⟩, ⟨by decide, by decide⟩, by decide⟩
      (by decide) (by decide) (by decide) (by decide) (by decide)⟩

/-- C12 (code defect): `fork` updates the queue of the child's level without
holding `ptable.lock`, so the timer can interrupt it between the store of
`EnqueueProcess` and the advance of `tail`.  With 2 process slots and queues
of 3 cells: the first process, which has run, yielded and run again until
`head = tail = 0`, forks and is interrupted right after the store; the
interrupt makes it `yield`, the scheduler dispatches it again, and `fork` goes
on to advance `tail` and `size`.  Level 0 then counts a stale pointer to the
first process, and after the next `yield` of that process the queue of level 0
holds it twice. -/
theorem fork_interrupted_queues_twice :
    exRace.NPROC < exRace.QUEUE_CAPACITY ∧ Reachable exRace exRaceStart ∧
    ∃ s1 s2 s3 s4 s5 s6,
      forkUntilStore exRace 3 2 true true exRaceStart = some (s1, 0, 2) ∧
      ((s1.priorityTable 0).proc 0 = some 1 ∧ (s1.priorityTable 0).tail = 0 ∧
        (s1.priorityTable 0).size = 0) ∧
      yield exRace s1 = some s2 ∧
      ((s2.priorityTable 0).proc 0 = some 0 ∧ (s2.priorityTable 0).tail = 1 ∧
        (s2.priorityTable 0).size = 1) ∧
      schedulerSelect exRace 3 { s2 with cur := none } 0 = some (s3, some 0) ∧
      SwitchToProccess exRace s3 0 = some s4 ∧
      forkAfterStore exRace s4 0 2 = some (s5, 2) ∧
      ((s5.priorityTable 0).head = 1 ∧ (s5.priorityTable 0).tail = 2 ∧
        (s5.priorityTable 0).size = 1 ∧ queued exRace (s5.priorityTable 0) = [some 0] ∧
        (s5.ptable 0).state = procstate.RUNNING ∧ (s5.ptable 1).state = procstate.RUNNABLE) ∧
      yield exRace s5 = some s6 ∧
      queued exRace (s6.priorityTable 0) = [some 0, some 0] ∧
      ¬ NoDuplicateEntries exRace { s6 with cur := none } := by
  refine ⟨by decide, exRaceStart_reachable, exRaceStored,
    (yield exRace exRaceStored).getD bootState, exRaceSelected (exRaceYield exRaceStored),
    exRaceResumed, exRaceForked, (yield exRace exRaceForked).getD bootState,
    some_pair_of_snd _ bootState _ (by decide!), ⟨by decide!, by decide!, by decide!⟩,
    some_getD_of_isSome _ bootState (by decide!),
    ⟨by decide!, by decide!, by decide!⟩,
    some_pair_of_snd _ bootState _ (by decide!), some_getD_of_isSome _ bootState (by decide!),
    some_pair_of_snd _ bootState _ (by decide!),
    ⟨by decide!, by decide!, by decide!, by decide!, by decide!, by decide!⟩,
    some_getD_of_isSome _ bootState (by decide!), by decide!, ?_⟩
  intro h
  have h0 := h.1 0 (by decide)
  have hq' : queued exRace
      (({ (yield exRace exRaceForked).getD bootState with cur := none } : kstate).priorityTable 0)
      = [some 0, some 0] := by decide!
  rw [hq'] at h0
  exact absurd h0 (by decide)

/-- In the same run, when the interrupted `fork` has returned, the child is
RUNNABLE and is queued at no level, although a queue has more cells than there
are process slots. -/
theorem fork_interrupted_child_not_queued :
    forkAfterStore exRace exRaceResumed 0 2 = some (exRaceForked, 2) ∧
    (exRaceForked.ptable 1).state = procstate.RUNNABLE ∧
    timesQueued exRace exRaceForked 0 1 = 0 ∧ timesQueued exRace exRaceForked 1 1 = 0 ∧
    ¬ RunnableQueuedOnce exRace exRaceForked := by
  refine ⟨some_pair_of_snd _ bootState _ (by decide!), by decide!, by decide!, by decide!, ?_⟩
  intro h
  have := h 1 (by decide) (by decide!) 0 (by decide)
  exact absurd this (by decide!)

end XV6
